import Mathlib

/-! BusTub storage core: linear-probe hash index and buffer pool

A shallow embedding of

* `src/storage/page/hash_table_block_page.cpp` (`HashTableBlockPage`),
* `src/container/hash/linear_probe_hash_table.cpp` (`LinearProbeHashTable`),
* `src/buffer/clock_replacer.cpp` (`ClockReplacer`),
* `src/buffer/buffer_pool_manager.cpp` (`BufferPoolManager`),
* `src/execution/hash_join_executor.cpp` (`HashJoinExecutor`),

followed by theorems about them.

Conventions of the embedding.

* `BLOCK_ARRAY_SIZE` is a macro of a header that is not part of the sources; it is the
  parameter `B` of every definition of the hash index.
* The hash function object `hash_fn_` is the parameter `hash : K → Nat`; the comparator
  `comparator_(a, b)` returns `0` exactly on equal keys, so `!comparator_(a, b)` is `a = b`.
* `while` loops that the source does not bound take a `fuel : Nat` and return `none` when
  the fuel runs out; `some` is a completed call.
* Latches are not represented: every operation is run alone, start to end.
* The hash index reaches its pages through the buffer pool.  For the hash index the pool is
  represented by what it promises: `FetchPage` gives the current content of a page, `NewPage`
  gives a fresh zero-filled page with the next page id of the disk manager, `UnpinPage` and
  `DeletePage` do not change what a later fetch of a page sees.  A page is read either as a
  header page or as a block page; the two readings of a page id are kept in two maps, so the
  embedding does not say what the bytes written through one reading are under the other.
* The executor headers are not part of the sources: a child executor is the list of tuples
  it produces, and the join-key hash of a tuple (`HashValues`), the join predicate
  (`EvaluateJoin`) and the output projection are parameters of the hash join.
* `size_t` and `int` values are unbounded `Nat` / `Int`: none of the arithmetic below gets
  near the word size for a table that fits on a disk.
-/

set_option autoImplicit false

namespace bustub

/-- Page identifiers (`page_id_t`, a signed 32-bit integer in the source). -/
abbrev page_id_t := Int

/-- Frame identifiers (`frame_id_t`), used as indices into the frame array. -/
abbrev frame_id_t := Nat

/-- The sentinel page id. -/
def INVALID_PAGE_ID : page_id_t := -1

/-! ## Block page (`hash_table_block_page.cpp`) -/

/-- A block page: the two bitmaps, one byte per index, and the slot array. -/
structure HashTableBlockPage (K V : Type) where
  occupied_ : Nat → Nat
  readable_ : Nat → Nat
  array_ : Nat → K × V

namespace HashTableBlockPage

variable {K V : Type}

/-- A zero-filled page read as a block page. -/
def zero [Inhabited K] [Inhabited V] : HashTableBlockPage K V :=
  { occupied_ := fun _ => 0, readable_ := fun _ => 0, array_ := fun _ => (default, default) }

/-- `KeyAt`: `array_[bucket_ind].first`. -/
def KeyAt (p : HashTableBlockPage K V) (bucket_ind : Nat) : K := (p.array_ bucket_ind).1

/-- `ValueAt`: `array_[bucket_ind].second`. -/
def ValueAt (p : HashTableBlockPage K V) (bucket_ind : Nat) : V := (p.array_ bucket_ind).2

/-- `IsOccupied`: `occupied_[bucket_ind / 8] & (1 << (bucket_ind % 8))`. -/
def IsOccupied (p : HashTableBlockPage K V) (bucket_ind : Nat) : Bool :=
  (p.occupied_ (bucket_ind / 8) &&& (1 <<< (bucket_ind % 8))) != 0

/-- `IsReadable`: `readable_[bucket_ind / 8] & (1 << (bucket_ind % 8))`. -/
def IsReadable (p : HashTableBlockPage K V) (bucket_ind : Nat) : Bool :=
  (p.readable_ (bucket_ind / 8) &&& (1 <<< (bucket_ind % 8))) != 0

/-- `Insert`: refuses a readable slot; otherwise sets both bits and writes the pair. -/
def Insert (p : HashTableBlockPage K V) (bucket_ind : Nat) (key : K) (value : V) :
    HashTableBlockPage K V × Bool :=
  if p.IsReadable bucket_ind then (p, false)
  else
    let bit := 1 <<< (bucket_ind % 8)
    ({ readable_ := Function.update p.readable_ (bucket_ind / 8) (p.readable_ (bucket_ind / 8) ||| bit),
       occupied_ := Function.update p.occupied_ (bucket_ind / 8) (p.occupied_ (bucket_ind / 8) ||| bit),
       array_ := Function.update p.array_ bucket_ind (key, value) }, true)

/-- `Remove`: nothing on a never-occupied slot; otherwise clears the readable bit
(`readable_[bucket_ind / 8] &= ~(1 << bucket_ind % 8)` on a byte). -/
def Remove (p : HashTableBlockPage K V) (bucket_ind : Nat) : HashTableBlockPage K V :=
  if !p.IsOccupied bucket_ind then p
  else
    let mask := 255 ^^^ (1 <<< (bucket_ind % 8))
    { p with
      readable_ := Function.update p.readable_ (bucket_ind / 8) (p.readable_ (bucket_ind / 8) &&& mask) }

end HashTableBlockPage

/-! ## Header page -/

/-- Modelled from the spec: the header page class (`HashTableHeaderPage`) is declared and
defined outside the sources; the spec gives it as "own page id, total slot count, ordered
sequence of block page ids". -/
structure HashTableHeaderPage where
  page_id_ : page_id_t
  size_ : Nat
  block_page_ids_ : List page_id_t
deriving DecidableEq, Repr

namespace HashTableHeaderPage

/-- Modelled from the spec: a zero-filled page read as a header page (page id 0, size 0,
no block page ids). -/
def zero : HashTableHeaderPage := { page_id_ := 0, size_ := 0, block_page_ids_ := [] }

/-- Modelled from the spec: `SetPageId`. -/
def SetPageId (h : HashTableHeaderPage) (page_id : page_id_t) : HashTableHeaderPage :=
  { h with page_id_ := page_id }

/-- Modelled from the spec: `SetSize`. -/
def SetSize (h : HashTableHeaderPage) (size : Nat) : HashTableHeaderPage :=
  { h with size_ := size }

/-- Modelled from the spec: `GetSize`, the recorded slot count. -/
def GetSize (h : HashTableHeaderPage) : Nat := h.size_

/-- Modelled from the spec: `AddBlockPageId` appends to the sequence of block page ids. -/
def AddBlockPageId (h : HashTableHeaderPage) (page_id : page_id_t) : HashTableHeaderPage :=
  { h with block_page_ids_ := h.block_page_ids_ ++ [page_id] }

/-- Modelled from the spec: `GetBlockPageId` reads the entry at `index` of the in-line
array; entries never written are the zero bytes of the page. -/
def GetBlockPageId (h : HashTableHeaderPage) (index : Nat) : page_id_t :=
  h.block_page_ids_.getD index 0

/-- Modelled from the spec: `NumBlocks`, the number of block page ids listed. -/
def NumBlocks (h : HashTableHeaderPage) : Nat := h.block_page_ids_.length

end HashTableHeaderPage

/-! ## Linear-probe hash table (`linear_probe_hash_table.cpp`) -/

/-- The hash table object together with the pages it reaches through the buffer pool. -/
structure LinearProbeHashTable (K V : Type) where
  header_page_id_ : page_id_t
  /-- page id ↦ content of that page read as a header page -/
  header_pages : page_id_t → HashTableHeaderPage
  /-- page id ↦ content of that page read as a block page -/
  block_pages : page_id_t → HashTableBlockPage K V
  /-- the next id `DiskManager::AllocatePage` hands out -/
  next_page_id_ : page_id_t

namespace LinearProbeHashTable

variable {K V : Type}

/-- `buffer_pool_manager_->NewPage(&id)`: a fresh id and a zero-filled page. -/
def NewPage [Inhabited K] [Inhabited V] (t : LinearProbeHashTable K V) :
    LinearProbeHashTable K V × page_id_t :=
  ({ t with
      header_pages := Function.update t.header_pages t.next_page_id_ HashTableHeaderPage.zero,
      block_pages := Function.update t.block_pages t.next_page_id_ HashTableBlockPage.zero,
      next_page_id_ := t.next_page_id_ + 1 }, t.next_page_id_)

/-- The header page the table currently points at. -/
def header (t : LinearProbeHashTable K V) : HashTableHeaderPage :=
  t.header_pages t.header_page_id_

/-- `GetIndex`: slot index, block index and bucket index of a key. -/
def GetIndex (B : Nat) (hash : K → Nat) (key : K) (numBlocks : Nat) : Nat × Nat × Nat :=
  let index := hash key % (numBlocks * B)
  (index, index / B, index % B)

/-- The block-boundary step shared by the three probe loops: when `bucket_ind` has reached
`BLOCK_ARRAY_SIZE`, move to bucket 0 of the next block (block 0 after the last one) and
fetch it.  Returns `(block_ind, bucket_ind, block_page_id)`. -/
def nextBlock (B : Nat) (hdr : HashTableHeaderPage) (block_ind bucket_ind : Nat)
    (block_page_id : page_id_t) : Nat × Nat × page_id_t :=
  if bucket_ind = B then
    let block_ind := if block_ind + 1 = hdr.NumBlocks then 0 else block_ind + 1
    (block_ind, 0, hdr.GetBlockPageId block_ind)
  else (block_ind, bucket_ind, block_page_id)

/-- The `while` loop of `GetValue`. -/
def GetValueLoop [DecidableEq K] (B : Nat) (t : LinearProbeHashTable K V) (key : K)
    (index : Nat) : Nat → Nat → Nat → page_id_t → List V → Option (List V)
  | 0, _, _, _, _ => none
  | fuel + 1, block_ind, bucket_ind, block_page_id, result =>
    let block_page_t := t.block_pages block_page_id
    if block_page_t.IsOccupied bucket_ind then
      let result :=
        if key = block_page_t.KeyAt bucket_ind ∧ block_page_t.IsReadable bucket_ind = true
        then result ++ [block_page_t.ValueAt bucket_ind] else result
      let bucket_ind := bucket_ind + 1
      if block_ind * B + bucket_ind = index then some result
      else
        let (block_ind, bucket_ind, block_page_id) :=
          nextBlock B t.header block_ind bucket_ind block_page_id
        GetValueLoop B t key index fuel block_ind bucket_ind block_page_id result
    else some result

/-- `GetValue`: returns the output vector after the call and the returned flag
(`!result->empty()`). -/
def GetValue [DecidableEq K] (B : Nat) (hash : K → Nat) (fuel : Nat)
    (t : LinearProbeHashTable K V) (key : K) (result : List V) : Option (List V × Bool) :=
  let (index, block_ind, bucket_ind) := GetIndex B hash key t.header.NumBlocks
  let block_page_id := t.header.GetBlockPageId block_ind
  match GetValueLoop B t key index fuel block_ind bucket_ind block_page_id result with
  | none => none
  | some result => some (result, !result.isEmpty)

/-- Writing the header page `page_id` through its pointer. -/
def setHeader (t : LinearProbeHashTable K V) (page_id : page_id_t) (h : HashTableHeaderPage) :
    LinearProbeHashTable K V :=
  { t with header_pages := Function.update t.header_pages page_id h }

/-- Writing the block page `page_id` through its pointer. -/
def setBlock (t : LinearProbeHashTable K V) (page_id : page_id_t) (b : HashTableBlockPage K V) :
    LinearProbeHashTable K V :=
  { t with block_pages := Function.update t.block_pages page_id b }

/-- The allocation loop of the constructor and of `Resize`: `num_buckets` times `NewPage`
and `AddBlockPageId` on the header page `header_id`.  (The source retries an iteration when
`NewPage` gave `INVALID_PAGE_ID`; here `NewPage` always gives a page.) -/
def allocBlocks [Inhabited K] [Inhabited V] (header_id : page_id_t) :
    Nat → LinearProbeHashTable K V → LinearProbeHashTable K V
  | 0, t => t
  | n + 1, t =>
    let (t, block_page_id) := t.NewPage
    let t := t.setHeader header_id ((t.header_pages header_id).AddBlockPageId block_page_id)
    allocBlocks header_id n t

/-- The constructor: a new header page of size `num_buckets * BLOCK_ARRAY_SIZE` and
`num_buckets` block pages, allocated from the pool `pool` (whose `header_page_id_` is not
read). -/
def construct [Inhabited K] [Inhabited V] (B : Nat) (pool : LinearProbeHashTable K V)
    (num_buckets : Nat) : LinearProbeHashTable K V :=
  let (t, id) := pool.NewPage
  let t := { t with header_page_id_ := id }
  let t := t.setHeader id (((t.header_pages id).SetPageId id).SetSize (num_buckets * B))
  allocBlocks id num_buckets t

/-- A pool in which every page is zero-filled and the disk manager will hand out
`next_page_id` next. -/
def emptyPool [Inhabited K] [Inhabited V] (next_page_id : page_id_t) : LinearProbeHashTable K V :=
  { header_page_id_ := INVALID_PAGE_ID
    header_pages := fun _ => HashTableHeaderPage.zero
    block_pages := fun _ => HashTableBlockPage.zero
    next_page_id_ := next_page_id }

/-- The inner `for` loop of `Resize` over the buckets `bucket_ind, ..., BLOCK_ARRAY_SIZE - 1`
of the block page `block_page_id`; `n` is the number of buckets left. -/
def resizeBuckets
    (insert : LinearProbeHashTable K V → K → V → Option (LinearProbeHashTable K V × Bool))
    (block_page_id : page_id_t) :
    Nat → Nat → LinearProbeHashTable K V → Option (LinearProbeHashTable K V)
  | 0, _, t => some t
  | n + 1, bucket_ind, t =>
    let block_page_t := t.block_pages block_page_id
    if block_page_t.IsReadable bucket_ind then
      match insert t (block_page_t.KeyAt bucket_ind) (block_page_t.ValueAt bucket_ind) with
      | none => none
      | some (t, _) => resizeBuckets insert block_page_id n (bucket_ind + 1) t
    else resizeBuckets insert block_page_id n (bucket_ind + 1) t

/-- The outer `for` loop of `Resize` over `block_ind, ..., initial_size / BLOCK_ARRAY_SIZE - 1`;
the block page ids are read from the page `old_header_page_id`. -/
def resizeBlocks (B : Nat)
    (insert : LinearProbeHashTable K V → K → V → Option (LinearProbeHashTable K V × Bool))
    (old_header_page_id : page_id_t) :
    Nat → Nat → LinearProbeHashTable K V → Option (LinearProbeHashTable K V)
  | 0, _, t => some t
  | n + 1, block_ind, t =>
    let block_page_id := (t.header_pages old_header_page_id).GetBlockPageId block_ind
    match resizeBuckets insert block_page_id B 0 t with
    | none => none
    | some t => resizeBlocks B insert old_header_page_id n (block_ind + 1) t

/-- `Resize`, with the `Insert` it calls passed as `insert`.  The source saves
`header_page_id_` in `old_header_page_id` and then overwrites that variable in
`NewPage(&old_header_page_id)` before reading it: the page read as the old header is the page
this `NewPage` returns.  The `DeletePage` calls at the end of each block and of the walk do
not change what the table reads afterwards. -/
def ResizeWith [Inhabited K] [Inhabited V] (B : Nat)
    (insert : LinearProbeHashTable K V → K → V → Option (LinearProbeHashTable K V × Bool))
    (t : LinearProbeHashTable K V) (initial_size : Nat) : Option (LinearProbeHashTable K V) :=
  let (t, id) := t.NewPage
  let t := { t with header_page_id_ := id }
  let num_buckets := 2 * initial_size / B
  let t := t.setHeader id (((t.header_pages id).SetPageId id).SetSize (num_buckets * B))
  let t := allocBlocks id num_buckets t
  let (t, old_header_page_id) := t.NewPage
  resizeBlocks B insert old_header_page_id (initial_size / B) 0 t

/-- The `while` loop of `Insert`.  `fuel` bounds the iterations of this loop and, one less,
those of the `Insert` calls made by a `Resize` it starts. -/
def InsertLoop [DecidableEq K] [DecidableEq V] [Inhabited K] [Inhabited V] (B : Nat)
    (hash : K → Nat) (key : K) (value : V) :
    Nat → LinearProbeHashTable K V → Nat → Nat → Nat → page_id_t →
      Option (LinearProbeHashTable K V × Bool)
  | 0, _, _, _, _, _ => none
  | fuel + 1, t, index, block_ind, bucket_ind, block_page_id =>
    let block_page_t := t.block_pages block_page_id
    let (block_page_new, inserted) := block_page_t.Insert bucket_ind key value
    if inserted then some (t.setBlock block_page_id block_page_new, true)
    else if key = block_page_t.KeyAt bucket_ind ∧ value = block_page_t.ValueAt bucket_ind then
      some (t, false)
    else
      let bucket_ind := bucket_ind + 1
      if block_ind * B + bucket_ind = index then
        let resized := ResizeWith B
          (fun t' key' value' =>
            let (index', block_ind', bucket_ind') := GetIndex B hash key' t'.header.NumBlocks
            InsertLoop B hash key' value' fuel t' index' block_ind' bucket_ind'
              (t'.header.GetBlockPageId block_ind'))
          t (t.header.NumBlocks * B)
        match resized with
        | none => none
        | some t =>
          let (index, block_ind, bucket_ind) := GetIndex B hash key t.header.NumBlocks
          let block_page_id := t.header.GetBlockPageId block_ind
          let (block_ind, bucket_ind, block_page_id) :=
            nextBlock B t.header block_ind bucket_ind block_page_id
          InsertLoop B hash key value fuel t index block_ind bucket_ind block_page_id
      else
        let (block_ind, bucket_ind, block_page_id) :=
          nextBlock B t.header block_ind bucket_ind block_page_id
        InsertLoop B hash key value fuel t index block_ind bucket_ind block_page_id

/-- `Insert`: the table after the call and the returned flag. -/
def Insert [DecidableEq K] [DecidableEq V] [Inhabited K] [Inhabited V] (B : Nat)
    (hash : K → Nat) (fuel : Nat) (t : LinearProbeHashTable K V) (key : K) (value : V) :
    Option (LinearProbeHashTable K V × Bool) :=
  let (index, block_ind, bucket_ind) := GetIndex B hash key t.header.NumBlocks
  let block_page_id := t.header.GetBlockPageId block_ind
  InsertLoop B hash key value fuel t index block_ind bucket_ind block_page_id

/-- `Resize`. -/
def Resize [DecidableEq K] [DecidableEq V] [Inhabited K] [Inhabited V] (B : Nat)
    (hash : K → Nat) (fuel : Nat) (t : LinearProbeHashTable K V) (initial_size : Nat) :
    Option (LinearProbeHashTable K V) :=
  ResizeWith B (Insert B hash fuel) t initial_size

/-- The `while` loop of `Remove`. -/
def RemoveLoop [DecidableEq K] [DecidableEq V] (B : Nat) (t : LinearProbeHashTable K V)
    (key : K) (value : V) (index : Nat) :
    Nat → Nat → Nat → page_id_t → Option (LinearProbeHashTable K V × Bool)
  | 0, _, _, _ => none
  | fuel + 1, block_ind, bucket_ind, block_page_id =>
    let block_page_t := t.block_pages block_page_id
    if block_page_t.IsOccupied bucket_ind then
      if block_page_t.IsReadable bucket_ind = true ∧ key = block_page_t.KeyAt bucket_ind
          ∧ value = block_page_t.ValueAt bucket_ind then
        some (t.setBlock block_page_id (block_page_t.Remove bucket_ind), true)
      else
        let bucket_ind := bucket_ind + 1
        if block_ind * B + bucket_ind = index then some (t, false)
        else
          let (block_ind, bucket_ind, block_page_id) :=
            nextBlock B t.header block_ind bucket_ind block_page_id
          RemoveLoop B t key value index fuel block_ind bucket_ind block_page_id
    else some (t, false)

/-- `Remove`: the table after the call and the returned flag. -/
def Remove [DecidableEq K] [DecidableEq V] (B : Nat) (hash : K → Nat) (fuel : Nat)
    (t : LinearProbeHashTable K V) (key : K) (value : V) :
    Option (LinearProbeHashTable K V × Bool) :=
  let (index, block_ind, bucket_ind) := GetIndex B hash key t.header.NumBlocks
  let block_page_id := t.header.GetBlockPageId block_ind
  RemoveLoop B t key value index fuel block_ind bucket_ind block_page_id

/-- `GetSize`: the slot count recorded in the header. -/
def GetSize (t : LinearProbeHashTable K V) : Nat := t.header.GetSize

end LinearProbeHashTable

/-! ## Clock replacer (`clock_replacer.cpp`) -/

/-- The replacer: the hand, the number of slots, and the two `std::vector<bool>`. -/
structure ClockReplacer where
  clock_hand : Nat
  buffer_size : Nat
  in_ : Nat → Bool
  ref_ : Nat → Bool

namespace ClockReplacer

/-- The constructor: hand at 0, every bit clear. -/
def new (num_pages : Nat) : ClockReplacer :=
  { clock_hand := 0, buffer_size := num_pages, in_ := fun _ => false, ref_ := fun _ => false }

/-- `Size`: the number of slots `i < buffer_size` with `in_[i]` set. -/
def Size (r : ClockReplacer) : Nat :=
  ((List.range r.buffer_size).filter r.in_).length

/-- `Pin`: `in_[frame_id] = false`. -/
def Pin (r : ClockReplacer) (frame_id : frame_id_t) : ClockReplacer :=
  { r with in_ := Function.update r.in_ frame_id false }

/-- `Unpin`: `ref_[frame_id] = true; in_[frame_id] = true`. -/
def Unpin (r : ClockReplacer) (frame_id : frame_id_t) : ClockReplacer :=
  { r with ref_ := Function.update r.ref_ frame_id true,
           in_ := Function.update r.in_ frame_id true }

/-- `Victim`: the loop `while (Size() > 0)`, `fuel` bounding its iterations.  The second
component is the frame written to `*frame_id` when the call returns true, `none` when it
returns false. -/
def Victim : Nat → ClockReplacer → Option (ClockReplacer × Option frame_id_t)
  | 0, r => if r.Size > 0 then none else some (r, none)
  | fuel + 1, r =>
    if r.Size > 0 then
      let clock_hand := r.clock_hand % r.buffer_size
      if r.in_ clock_hand = true ∧ r.ref_ clock_hand = false then
        some ({ r with in_ := Function.update r.in_ clock_hand false,
                       clock_hand := clock_hand + 1 }, some clock_hand)
      else if r.ref_ clock_hand = true then
        Victim fuel { r with ref_ := Function.update r.ref_ clock_hand false,
                             clock_hand := clock_hand + 1 }
      else
        Victim fuel { r with clock_hand := clock_hand + 1 }
    else some (r, none)

end ClockReplacer

/-! ## Buffer pool manager (`buffer_pool_manager.cpp`) -/

/-- Modelled from the spec: a frame (`Page`, declared outside the sources): "resident page id
(or sentinel invalid), pin count, dirty flag, fixed-size byte buffer".  `Data` is the type of
the byte buffer, `0` the zero-filled one. -/
structure Page (Data : Type) where
  data_ : Data
  page_id_ : page_id_t
  pin_count_ : Int
  is_dirty_ : Bool

/-- Modelled from the spec: the disk manager (outside the sources): the bytes stored for each
page id and the next page id to hand out. -/
structure DiskManager (Data : Type) where
  pages : page_id_t → Data
  next_page_id_ : page_id_t

namespace DiskManager

variable {Data : Type}

/-- Modelled from the spec: `ReadPage`, the bytes stored for `page_id`. -/
def ReadPage (d : DiskManager Data) (page_id : page_id_t) : Data := d.pages page_id

/-- Modelled from the spec: `WritePage`. -/
def WritePage (d : DiskManager Data) (page_id : page_id_t) (data : Data) : DiskManager Data :=
  { d with pages := Function.update d.pages page_id data }

/-- Modelled from the spec: `AllocatePage`, a page id not handed out before. -/
def AllocatePage (d : DiskManager Data) : DiskManager Data × page_id_t :=
  ({ d with next_page_id_ := d.next_page_id_ + 1 }, d.next_page_id_)

end DiskManager

/-- The buffer pool: the frames, the replacer, the free list, the page table and the disk
behind it. -/
structure BufferPoolManager (Data : Type) where
  pool_size_ : Nat
  pages_ : frame_id_t → Page Data
  replacer_ : ClockReplacer
  free_list_ : List frame_id_t
  page_table_ : page_id_t → Option frame_id_t
  disk_manager_ : DiskManager Data

namespace BufferPoolManager

variable {Data : Type}

/-- The constructor: every frame holds no page and is on the free list, in index order. -/
def new [Zero Data] (pool_size : Nat) (disk_manager : DiskManager Data) :
    BufferPoolManager Data :=
  { pool_size_ := pool_size
    pages_ := fun _ =>
      { data_ := 0, page_id_ := INVALID_PAGE_ID, pin_count_ := 0, is_dirty_ := false }
    replacer_ := ClockReplacer.new pool_size
    free_list_ := List.range pool_size
    page_table_ := fun _ => none
    disk_manager_ := disk_manager }

/-- Assignment to the fields of the frame `frame_id`. -/
def setPage (s : BufferPoolManager Data) (frame_id : frame_id_t) (p : Page Data) :
    BufferPoolManager Data :=
  { s with pages_ := Function.update s.pages_ frame_id p }

/-- `FlushPageImpl`. -/
def FlushPageImpl (s : BufferPoolManager Data) (page_id : page_id_t) :
    BufferPoolManager Data × Bool :=
  if page_id = INVALID_PAGE_ID then (s, false)
  else
    match s.page_table_ page_id with
    | none => (s, false)
    | some target =>
      if !(s.pages_ target).is_dirty_ then (s, true)
      else
        let s := { s with
          disk_manager_ := s.disk_manager_.WritePage page_id (s.pages_ target).data_ }
        (s.setPage target { (s.pages_ target) with is_dirty_ := false }, true)

/-- The choice of the frame to reuse in `FetchPageImpl`: the front of the free list, else
the replacer's victim.  `none`: the loop of `Victim` ran out of fuel; `some (s, none)`: no
victim. -/
def pickFrame (fuel : Nat) (s : BufferPoolManager Data) :
    Option (BufferPoolManager Data × Option frame_id_t) :=
  match s.free_list_ with
  | target :: rest => some ({ s with free_list_ := rest }, some target)
  | [] =>
    match s.replacer_.Victim fuel with
    | none => none
    | some (r, victim) => some ({ s with replacer_ := r }, victim)

/-- `FetchPageImpl`: the pool after the call and the frame returned (`none` for
`nullptr`). -/
def FetchPageImpl (fuel : Nat) (s : BufferPoolManager Data) (page_id : page_id_t) :
    Option (BufferPoolManager Data × Option frame_id_t) :=
  match s.page_table_ page_id with
  | some target =>
    let s := { s with replacer_ := s.replacer_.Pin target }
    let s := s.setPage target
      { (s.pages_ target) with pin_count_ := (s.pages_ target).pin_count_ + 1 }
    some (s, some target)
  | none =>
    match pickFrame fuel s with
    | none => none
    | some (s, none) => some (s, none)
    | some (s, some target) =>
      let target_page_id := (s.pages_ target).page_id_
      let flushed :=
        if (s.pages_ target).is_dirty_ then s.FlushPageImpl target_page_id else (s, true)
      if !flushed.2 then some (flushed.1, none)
      else
        let s := flushed.1
        let s := { s with replacer_ := s.replacer_.Pin target }
        let s := s.setPage target
          { (s.pages_ target) with pin_count_ := (s.pages_ target).pin_count_ + 1 }
        let s := { s with page_table_ := Function.update s.page_table_ target_page_id none }
        let s := { s with
          page_table_ :=
            if (s.page_table_ page_id).isSome then s.page_table_
            else Function.update s.page_table_ page_id (some target) }
        let s := s.setPage target
          { (s.pages_ target) with data_ := s.disk_manager_.ReadPage page_id }
        let s := s.setPage target { (s.pages_ target) with page_id_ := page_id }
        let s := s.setPage target { (s.pages_ target) with is_dirty_ := false }
        some (s, some target)

/-- `UnpinPageImpl`. -/
def UnpinPageImpl (s : BufferPoolManager Data) (page_id : page_id_t) (is_dirty : Bool) :
    BufferPoolManager Data × Bool :=
  match s.page_table_ page_id with
  | none => (s, true)
  | some target =>
    if (s.pages_ target).pin_count_ ≤ 0 then (s, false)
    else
      let s := s.setPage target
        { (s.pages_ target) with pin_count_ := (s.pages_ target).pin_count_ - 1 }
      let s := s.setPage target
        { (s.pages_ target) with is_dirty_ := (s.pages_ target).is_dirty_ || is_dirty }
      let s :=
        if (s.pages_ target).pin_count_ = 0 then
          { s with replacer_ := s.replacer_.Unpin target }
        else s
      (s, true)

/-- The tail shared by the two branches of `NewPageImpl`: allocate the id, enter it in the
page table, pin the frame, zero it and set its metadata. -/
def installNewPage [Zero Data] (s : BufferPoolManager Data) (frame : frame_id_t) :
    BufferPoolManager Data × page_id_t :=
  let (disk, page_id) := s.disk_manager_.AllocatePage
  let s := { s with disk_manager_ := disk }
  let s := { s with page_table_ := Function.update s.page_table_ page_id (some frame) }
  let s := { s with replacer_ := s.replacer_.Pin frame }
  let s := s.setPage frame { (s.pages_ frame) with data_ := 0 }
  let s := s.setPage frame { (s.pages_ frame) with page_id_ := page_id }
  let s := s.setPage frame { (s.pages_ frame) with pin_count_ := 1 }
  let s := s.setPage frame { (s.pages_ frame) with is_dirty_ := false }
  (s, page_id)

/-- `NewPageImpl`: the pool after the call and, when a frame is returned, the frame and the
page id written to `*page_id`. -/
def NewPageImpl [Zero Data] (fuel : Nat) (s : BufferPoolManager Data) :
    Option (BufferPoolManager Data × Option (frame_id_t × page_id_t)) :=
  match s.free_list_ with
  | free_frame :: rest =>
    let s := { s with free_list_ := rest }
    let (s, page_id) := s.installNewPage free_frame
    some (s, some (free_frame, page_id))
  | [] =>
    match s.replacer_.Victim fuel with
    | none => none
    | some (r, none) => some ({ s with replacer_ := r }, none)
    | some (r, some victim) =>
      let s := { s with replacer_ := r }
      let flushed :=
        if (s.pages_ victim).is_dirty_ then s.FlushPageImpl (s.pages_ victim).page_id_
        else (s, true)
      if !flushed.2 then some (flushed.1, none)
      else
        let s := flushed.1
        let victim_page_id := (s.pages_ victim).page_id_
        let s := { s with page_table_ := Function.update s.page_table_ victim_page_id none }
        let (s, page_id) := s.installNewPage victim
        some (s, some (victim, page_id))

/-- `DeletePageImpl`. -/
def DeletePageImpl [Zero Data] (s : BufferPoolManager Data) (page_id : page_id_t) :
    BufferPoolManager Data × Bool :=
  match s.page_table_ page_id with
  | none => (s, true)
  | some target =>
    if (s.pages_ target).pin_count_ ≠ 0 then (s, false)
    else
      let s := { s with page_table_ := Function.update s.page_table_ page_id none }
      let s := s.setPage target { (s.pages_ target) with data_ := 0 }
      let s := s.setPage target { (s.pages_ target) with page_id_ := INVALID_PAGE_ID }
      let s := s.setPage target { (s.pages_ target) with is_dirty_ := false }
      let s := { s with free_list_ := s.free_list_ ++ [target] }
      (s, true)

/-- The loop of `FlushAllPagesImpl` over the frames `i, ..., pool_size_ - 1`; `n` is the number
of frames left. -/
def flushFrames : Nat → Nat → BufferPoolManager Data → BufferPoolManager Data
  | 0, _, s => s
  | n + 1, i, s =>
    let s := if (s.pages_ i).is_dirty_ then (s.FlushPageImpl (s.pages_ i).page_id_).1 else s
    flushFrames n (i + 1) s

/-- `FlushAllPagesImpl`. -/
def FlushAllPagesImpl (s : BufferPoolManager Data) : BufferPoolManager Data :=
  flushFrames s.pool_size_ 0 s

/-- A caller that holds a pin on the frame `frame_id` writes its bytes. -/
def writeData (s : BufferPoolManager Data) (frame_id : frame_id_t) (data : Data) :
    BufferPoolManager Data :=
  s.setPage frame_id { (s.pages_ frame_id) with data_ := data }

/-- The pool states reached from the constructor by calls of the public operations, callers
fetching page ids that the disk manager has handed out and writing only frames they hold a
pin on. -/
inductive Reachable [Zero Data] : BufferPoolManager Data → Prop
  | init (pool_size : Nat) (disk_manager : DiskManager Data)
      (h : 0 ≤ disk_manager.next_page_id_) : Reachable (BufferPoolManager.new pool_size disk_manager)
  | fetch {s s' : BufferPoolManager Data} {fuel : Nat} {page_id : page_id_t}
      {r : Option frame_id_t} :
      Reachable s → 0 ≤ page_id → page_id < s.disk_manager_.next_page_id_ →
      FetchPageImpl fuel s page_id = some (s', r) → Reachable s'
  | newPage {s s' : BufferPoolManager Data} {fuel : Nat}
      {r : Option (frame_id_t × page_id_t)} :
      Reachable s → NewPageImpl fuel s = some (s', r) → Reachable s'
  | unpin {s : BufferPoolManager Data} (page_id : page_id_t) (is_dirty : Bool) :
      Reachable s → Reachable (UnpinPageImpl s page_id is_dirty).1
  | flush {s : BufferPoolManager Data} (page_id : page_id_t) :
      Reachable s → Reachable (FlushPageImpl s page_id).1
  | delete {s : BufferPoolManager Data} (page_id : page_id_t) :
      Reachable s → Reachable (DeletePageImpl s page_id).1
  | flushAll {s : BufferPoolManager Data} :
      Reachable s → Reachable (FlushAllPagesImpl s)
  | write {s : BufferPoolManager Data} (frame_id : frame_id_t) (data : Data) :
      Reachable s → 0 < (s.pages_ frame_id).pin_count_ → Reachable (writeData s frame_id data)

end BufferPoolManager

namespace BufferPoolManager

variable {Data : Type}

/-- What holds of every reachable pool state (`Reachable.inv` below). -/
structure Inv (s : BufferPoolManager Data) : Prop where
  /-- the replacer has one slot per frame -/
  size : s.replacer_.buffer_size = s.pool_size_
  /-- the disk manager hands out non-negative ids -/
  next_nonneg : 0 ≤ s.disk_manager_.next_page_id_
  /-- a replacer candidate is not pinned -/
  in_pin : ∀ f, s.replacer_.in_ f = true → (s.pages_ f).pin_count_ = 0
  /-- a frame on the free list is not pinned, holds no page and is clean -/
  free_frame : ∀ f, f ∈ s.free_list_ →
    (s.pages_ f).pin_count_ = 0 ∧ (s.pages_ f).page_id_ = INVALID_PAGE_ID ∧
      (s.pages_ f).is_dirty_ = false
  /-- no frame is on the free list twice -/
  free_nodup : s.free_list_.Nodup
  /-- a page table entry points at a frame that holds the page -/
  table_id : ∀ q f, s.page_table_ q = some f → (s.pages_ f).page_id_ = q
  /-- the resident pages are pages the disk manager has handed out -/
  table_range : ∀ q f, s.page_table_ q = some f → 0 ≤ q ∧ q < s.disk_manager_.next_page_id_
  /-- a replacer candidate that is not on the free list holds a resident page -/
  victim_table : ∀ f, s.replacer_.in_ f = true → f ∉ s.free_list_ →
    s.page_table_ (s.pages_ f).page_id_ = some f

end BufferPoolManager

namespace BufferPoolManager

variable {Data : Type}

/-- The pool between the choice of the frame `target` to reuse and its installation: `Inv`
but for `target`, which is off the free list and unpinned, and whose old page, if resident,
is its own. -/
structure Ready (s : BufferPoolManager Data) (target : frame_id_t) : Prop where
  size : s.replacer_.buffer_size = s.pool_size_
  next_nonneg : 0 ≤ s.disk_manager_.next_page_id_
  in_pin : ∀ f, f ≠ target → s.replacer_.in_ f = true → (s.pages_ f).pin_count_ = 0
  free_frame : ∀ f, f ∈ s.free_list_ →
    (s.pages_ f).pin_count_ = 0 ∧ (s.pages_ f).page_id_ = INVALID_PAGE_ID ∧
      (s.pages_ f).is_dirty_ = false
  free_nodup : s.free_list_.Nodup
  not_free : target ∉ s.free_list_
  table_id : ∀ q f, s.page_table_ q = some f → (s.pages_ f).page_id_ = q
  table_range : ∀ q f, s.page_table_ q = some f → 0 ≤ q ∧ q < s.disk_manager_.next_page_id_
  victim_table : ∀ f, f ≠ target → s.replacer_.in_ f = true → f ∉ s.free_list_ →
    s.page_table_ (s.pages_ f).page_id_ = some f
  own : ∀ f, s.page_table_ (s.pages_ target).page_id_ = some f → f = target
  old_id : (s.pages_ target).page_id_ = INVALID_PAGE_ID ∨
    s.page_table_ (s.pages_ target).page_id_ = some target
  unpinned : (s.pages_ target).pin_count_ = 0
  dirty_resident : (s.pages_ target).is_dirty_ = true →
    s.page_table_ (s.pages_ target).page_id_ = some target

end BufferPoolManager

/-! ## Flat slot positions and the probe order

A slot of the table is addressed by its flat position `p < NumBlocks * BLOCK_ARRAY_SIZE`:
bucket `p % BLOCK_ARRAY_SIZE` of the block page listed at `p / BLOCK_ARRAY_SIZE`. -/

namespace LinearProbeHashTable

variable {K V : Type}

/-- Number of slots the header addresses: `NumBlocks() * BLOCK_ARRAY_SIZE`. -/
def numSlots (B : Nat) (t : LinearProbeHashTable K V) : Nat := t.header.NumBlocks * B

/-- The home slot of a key, `index` of `GetIndex`. -/
def home (B : Nat) (hash : K → Nat) (t : LinearProbeHashTable K V) (key : K) : Nat :=
  hash key % numSlots B t

/-- The page id of the block page that holds flat position `p`. -/
def pageOf (B : Nat) (t : LinearProbeHashTable K V) (p : Nat) : page_id_t :=
  t.header.GetBlockPageId (p / B)

/-- The occupied bit of flat position `p`. -/
def occupiedAt (B : Nat) (t : LinearProbeHashTable K V) (p : Nat) : Bool :=
  (t.block_pages (pageOf B t p)).IsOccupied (p % B)

/-- The readable bit of flat position `p`. -/
def readableAt (B : Nat) (t : LinearProbeHashTable K V) (p : Nat) : Bool :=
  (t.block_pages (pageOf B t p)).IsReadable (p % B)

/-- The key stored at flat position `p`. -/
def keyAt (B : Nat) (t : LinearProbeHashTable K V) (p : Nat) : K :=
  (t.block_pages (pageOf B t p)).KeyAt (p % B)

/-- The value stored at flat position `p`. -/
def valueAt (B : Nat) (t : LinearProbeHashTable K V) (p : Nat) : V :=
  (t.block_pages (pageOf B t p)).ValueAt (p % B)

/-- Flat position `p` is readable and holds the pair `(key, value)`. -/
def holdsAt [DecidableEq K] [DecidableEq V] (B : Nat) (t : LinearProbeHashTable K V)
    (key : K) (value : V) (p : Nat) : Bool :=
  readableAt B t p && decide (key = keyAt B t p) && decide (value = valueAt B t p)

/-- Flat position `p` is readable and holds the key `key`. -/
def hasKeyAt [DecidableEq K] (B : Nat) (t : LinearProbeHashTable K V) (key : K) (p : Nat) :
    Bool :=
  decide (key = keyAt B t p) && readableAt B t p

/-- The probe described by the spec: from the slot `index`, over consecutive occupied slots,
wrapping around the table, at most one full turn. -/
def probeRun (N index : Nat) (occ : Nat → Bool) : List Nat :=
  ((List.range N).map fun j => (index + j) % N).takeWhile occ

/-- The slots of the run from offset `j` on: what is left of one full turn. -/
def runFrom (N index : Nat) (occ : Nat → Bool) (j : Nat) : List Nat :=
  ((List.range' j (N - j)).map fun i => (index + i) % N).takeWhile occ

/-- The probe run of a key in a table. -/
def keyRun (B : Nat) (hash : K → Nat) (t : LinearProbeHashTable K V) (key : K) : List Nat :=
  probeRun (numSlots B t) (home B hash t key) (occupiedAt B t)

/-- The shape shared by the loops of `GetValue` and `Remove`, on flat positions: visit `p`
while it is occupied; stop at a slot selected by `stop`; stop when the next position is
`index`; otherwise go on at `(p + 1) % N`.  Returns the slots passed and the slot stopped
at. -/
def probe (N index : Nat) (occ stop : Nat → Bool) : Nat → Nat → Option (List Nat × Option Nat)
  | 0, _ => none
  | fuel + 1, p =>
    if occ p then
      if stop p then some ([], some p)
      else if p + 1 = index then some ([p], none)
      else (probe N index occ stop fuel ((p + 1) % N)).map fun x => (p :: x.1, x.2)
    else some ([], none)

/-- The table after `HashTableBlockPage::Remove` on flat position `q`. -/
def removeAt (B : Nat) (t : LinearProbeHashTable K V) (q : Nat) : LinearProbeHashTable K V :=
  t.setBlock (pageOf B t q) ((t.block_pages (pageOf B t q)).Remove (q % B))

/-- What `Remove` returns when its scan stopped at `found`. -/
def removeResult (B : Nat) (t : LinearProbeHashTable K V) (found : Option Nat) :
    LinearProbeHashTable K V × Bool :=
  match found with
  | some q => (removeAt B t q, true)
  | none => (t, false)

/-- The table state built by the constructor, and by `Resize` before it turns to the old
table: a new header page of size `m * BLOCK_ARRAY_SIZE` listing `m` new block pages. -/
def withNewHeader [Inhabited K] [Inhabited V] (B : Nat) (t : LinearProbeHashTable K V)
    (m : Nat) : LinearProbeHashTable K V :=
  allocBlocks t.next_page_id_ m
    (({ (t.NewPage).1 with header_page_id_ := t.next_page_id_ }).setHeader t.next_page_id_
      ((((t.NewPage).1.header_pages t.next_page_id_).SetPageId t.next_page_id_).SetSize (m * B)))

/-- A table the probe arithmetic makes sense on: at least one block of at least one slot,
and no block page listed twice. -/
structure WF (B : Nat) (t : LinearProbeHashTable K V) : Prop where
  block_size_pos : 0 < B
  num_blocks_pos : 0 < t.header.NumBlocks
  nodup : t.header.block_page_ids_.Nodup

/-- A call of `Insert` or of `Remove`. -/
inductive Op (K V : Type) where
  | insert (key : K) (value : V)
  | remove (key : K) (value : V)

/-- A sequence of completed calls: the table after them and the flags they returned. -/
def applyOps [DecidableEq K] [DecidableEq V] [Inhabited K] [Inhabited V] (B : Nat)
    (hash : K → Nat) (fuel : Nat) :
    List (Op K V) → LinearProbeHashTable K V → Option (LinearProbeHashTable K V × List Bool)
  | [], t => some (t, [])
  | op :: ops, t =>
    let r := match op with
      | .insert key value => Insert B hash fuel t key value
      | .remove key value => Remove B hash fuel t key value
    match r with
    | none => none
    | some (t, flag) =>
      match applyOps B hash fuel ops t with
      | none => none
      | some (t, flags) => some (t, flag :: flags)

end LinearProbeHashTable

/-! ## A small table for the concrete scenarios

`BLOCK_ARRAY_SIZE = 2`, two block pages, keys and values natural numbers hashed to
themselves.  The pool already holds page 0, zero-filled and not a page of the table; the table
takes the pages 1 (header), 2 and 3 (blocks). -/

namespace Example

open LinearProbeHashTable

/-- The hash function of the scenarios: a key hashes to itself. -/
def idHash (k : Nat) : Nat := k

/-- The table right after its constructor ran with `num_buckets = 2`. -/
def emptyTable : LinearProbeHashTable Nat Nat := construct 2 (emptyPool 1) 2

/-- The table after the calls `ops`, each given `fuel` loop iterations (the table itself if one
of them does not return). -/
def tableAfter (fuel : Nat) (ops : List (Op Nat Nat)) : LinearProbeHashTable Nat Nat :=
  match applyOps 2 idHash fuel ops emptyTable with
  | some (t, _) => t
  | none => emptyTable

/-- Four Inserts that fill the four slots: key `i` lands in its home slot `i`. -/
def fillOps : List (Op Nat Nat) :=
  [.insert 0 10, .insert 1 11, .insert 2 12, .insert 3 13]

/-- The full table: every slot readable. -/
def fullTable : LinearProbeHashTable Nat Nat := tableAfter 8 fillOps

/-- The table holding `(1, 100)` in slot 1 and `(1, 200)` in slot 2. -/
def twoPairs : LinearProbeHashTable Nat Nat := tableAfter 8 [.insert 1 100, .insert 1 200]

/-- The table after `Insert(1,100)`, `Insert(1,200)`, `Remove(1,100)`: a tombstone in slot 1,
`(1, 200)` in slot 2. -/
def tombstoneTable : LinearProbeHashTable Nat Nat :=
  tableAfter 8 [.insert 1 100, .insert 1 200, .remove 1 100]

/-- The slots of a table as `(occupied, readable, key, value)`, in flat order. -/
def slots (B : Nat) (t : LinearProbeHashTable Nat Nat) : List (Bool × Bool × Nat × Nat) :=
  (List.range (numSlots B t)).map fun p =>
    (occupiedAt B t p, readableAt B t p, keyAt B t p, valueAt B t p)

/-- A disk on which the pages 0 to 3 exist; page `p` holds the bytes `100 + p`. -/
def exampleDisk : DiskManager Nat :=
  { pages := fun p => 100 + p.toNat, next_page_id_ := 4 }

/-- A pool of two frames right after its constructor ran. -/
def freshPool : BufferPoolManager Nat := BufferPoolManager.new 2 exampleDisk

/-- The pool after `FetchPage(page_id)` (the pool itself if the call does not return). -/
def poolAfterFetch (s : BufferPoolManager Nat) (page_id : page_id_t) : BufferPoolManager Nat :=
  match BufferPoolManager.FetchPageImpl 0 s page_id with
  | some (s', _) => s'
  | none => s

/-- The pool of two frames after `FetchPage(1)` and `FetchPage(2)`, both pages still
pinned. -/
def pinnedPool : BufferPoolManager Nat := poolAfterFetch (poolAfterFetch freshPool 1) 2

end Example


/-! ## Clock replacer and buffer pool: what the statements below are written with -/

namespace ClockReplacer

/-- One iteration of the loop of `Victim` that does not return: the reference bit under the
hand is cleared and the hand moves on.  (The branch `else if (ref_[clock_hand])` clears the
bit, the last branch finds it clear already.) -/
def pass (r : ClockReplacer) : ClockReplacer :=
  { r with ref_ := Function.update r.ref_ (r.clock_hand % r.buffer_size) false,
           clock_hand := r.clock_hand % r.buffer_size + 1 }

/-- The slots `0, ..., buffer_size - 1` in cyclic order, starting at the hand. -/
def cyclicOrder (r : ClockReplacer) : List frame_id_t :=
  (List.range r.buffer_size).map fun k => (r.clock_hand + k) % r.buffer_size

/-- The second-chance rule in the words of the specification, to be compared with `Victim`:
the first slot in cyclic order from the hand that is in the pool with its reference bit clear
or, when every slot in the pool has its reference bit set, the first slot in cyclic order from
the hand that is in the pool. -/
def secondChance (r : ClockReplacer) : Option frame_id_t :=
  match r.cyclicOrder.find? (fun i => r.in_ i && !r.ref_ i) with
  | some i => some i
  | none => r.cyclicOrder.find? r.in_

end ClockReplacer

namespace BufferPoolManager

variable {Data : Type}

/-- What holds of the frames of a pool besides `Inv`, in every reachable state
(`Reachable.accounted` below) and, with `target` the frame chosen for reuse, between the
choice of that frame and its installation. -/
structure Accounted (s : BufferPoolManager Data) (target : Option frame_id_t) : Prop where
  /-- pin counts are not negative -/
  pin_nonneg : ∀ f, 0 ≤ (s.pages_ f).pin_count_
  /-- the page table points into the frame array -/
  frame_lt : ∀ q f, s.page_table_ q = some f → f < s.pool_size_
  /-- so does the free list -/
  free_lt : ∀ f, f ∈ s.free_list_ → f < s.pool_size_
  /-- a frame that holds a page is the page table entry of that page -/
  resident : ∀ f, (s.pages_ f).page_id_ ≠ INVALID_PAGE_ID →
    s.page_table_ (s.pages_ f).page_id_ = some f
  /-- a dirty frame holds a page -/
  dirty_valid : ∀ f, (s.pages_ f).is_dirty_ = true → (s.pages_ f).page_id_ ≠ INVALID_PAGE_ID
  /-- a pinned frame holds a page -/
  pinned_valid : ∀ f, (s.pages_ f).pin_count_ ≠ 0 → (s.pages_ f).page_id_ ≠ INVALID_PAGE_ID
  /-- a frame off the free list holds a page, the frame chosen for reuse apart -/
  held : ∀ f, f < s.pool_size_ → some f ≠ target → f ∉ s.free_list_ →
    (s.pages_ f).page_id_ ≠ INVALID_PAGE_ID
  /-- the frame chosen for reuse is a frame of the pool -/
  target_lt : ∀ f, target = some f → f < s.pool_size_

end BufferPoolManager

/-! ## Small replacers and pools for the concrete scenarios -/

namespace Example

/-- A replacer of `n` slots after `Unpin(0)`, `Unpin(1)`, `Unpin(2)`: the hand is at 0. -/
def threeUnpinned (n : Nat) : ClockReplacer :=
  (((ClockReplacer.new n).Unpin 0).Unpin 1).Unpin 2

/-- A disk that has handed out the pages 0 to 9, all zero; the next page id is 10. -/
def writebackDisk : DiskManager Nat :=
  { pages := fun _ => 0, next_page_id_ := 10 }

/-- The pool after `NewPage` (the pool itself if the call does not return). -/
def poolAfterNewPage (s : BufferPoolManager Nat) : BufferPoolManager Nat :=
  match BufferPoolManager.NewPageImpl 2 s with
  | some (s', _) => s'
  | none => s

/-- A pool of one frame after `NewPage`: frame 0 holds page 10, pinned once. -/
def onePagePool : BufferPoolManager Nat :=
  poolAfterNewPage (BufferPoolManager.new 1 writebackDisk)

/-- The pool of the dirty write-back scenario before its second `NewPage`: the bytes `77`
were written to page 10 and the page was unpinned with `is_dirty = true`. -/
def dirtyPool : BufferPoolManager Nat :=
  ((onePagePool.writeData 0 77).UnpinPageImpl 10 true).1

/-- The pool of one frame after `NewPage`, `UnpinPage(10, false)` and `DeletePage(10)`. -/
def freedPool : BufferPoolManager Nat :=
  ((onePagePool.UnpinPageImpl 10 false).1.DeletePageImpl 10).1

/-- A pool of two frames after `NewPage`: frame 0 holds page 10, pinned once; frame 1 is
free. -/
def twoFramePool : BufferPoolManager Nat :=
  poolAfterNewPage (BufferPoolManager.new 2 writebackDisk)

end Example

/-! ## Block pages in use -/

namespace HashTableBlockPage

variable {K V : Type}

/-- The block pages reached from a zero-filled page by calls of `Insert` and `Remove` on slots
below `BLOCK_ARRAY_SIZE` (the parameter `B`). -/
inductive Reachable [Inhabited K] [Inhabited V] (B : Nat) : HashTableBlockPage K V → Prop
  | zero : Reachable B HashTableBlockPage.zero
  | insert {p : HashTableBlockPage K V} (u : Nat) (k : K) (v : V) :
      u < B → Reachable B p → Reachable B (p.Insert u k v).1
  | remove {p : HashTableBlockPage K V} (u : Nat) :
      u < B → Reachable B p → Reachable B (p.Remove u)

end HashTableBlockPage

namespace Example

/-- A block page of integers after `Insert(1, 7, 70)`, `Insert(9, 8, 80)` and `Remove(1)`:
slot 1 is a tombstone, slot 9 holds `(8, 80)`. -/
def blockPage : HashTableBlockPage Nat Nat :=
  (((HashTableBlockPage.zero.Insert 1 7 70).1.Insert 9 8 80).1).Remove 1

end Example

/-! ## Clock replacer: counting the advances of the hand -/

namespace ClockReplacer

/-- `Victim` once more, returning the number of times its loop ran `clock_hand++` before the
call returned, in place of the replacer and the frame. -/
def VictimAdvances : Nat → ClockReplacer → Option Nat
  | 0, r => if r.Size > 0 then none else some 0
  | fuel + 1, r =>
    if r.Size > 0 then
      let clock_hand := r.clock_hand % r.buffer_size
      if r.in_ clock_hand = true ∧ r.ref_ clock_hand = false then some 1
      else if r.ref_ clock_hand = true then
        (VictimAdvances fuel { r with ref_ := Function.update r.ref_ clock_hand false,
                                      clock_hand := clock_hand + 1 }).map (· + 1)
      else
        (VictimAdvances fuel { r with clock_hand := clock_hand + 1 }).map (· + 1)
    else some 0

end ClockReplacer

/-! ## Hash table: the buffer pool calls of `GetValue` -/

/-- A call that the hash table makes on the buffer pool: `FetchPage(page_id)` or
`UnpinPage(page_id, is_dirty)`. -/
inductive PoolCall where
  | fetch (page_id : page_id_t)
  | unpin (page_id : page_id_t) (is_dirty : Bool)
deriving DecidableEq, Repr

namespace PoolCall

/-- The number of `FetchPage` calls in a sequence of calls. -/
def fetches : List PoolCall → Nat
  | [] => 0
  | fetch _ :: calls => fetches calls + 1
  | unpin _ _ :: calls => fetches calls

/-- The number of `UnpinPage` calls in a sequence of calls. -/
def unpins : List PoolCall → Nat
  | [] => 0
  | fetch _ :: calls => unpins calls
  | unpin _ _ :: calls => unpins calls + 1

/-- The pins a sequence of calls leaves on the page `page_id`: its `FetchPage` calls less its
`UnpinPage` calls. -/
def pinsLeft (page_id : page_id_t) : List PoolCall → Int
  | [] => 0
  | fetch p :: calls => (if p = page_id then 1 else 0) + pinsLeft page_id calls
  | unpin p _ :: calls => (if p = page_id then -1 else 0) + pinsLeft page_id calls

/-- The calls made on a buffer pool, one after the other (`none`: a `FetchPage` ran out of
fuel). -/
def applyCalls {Data : Type} (fuel : Nat) :
    List PoolCall → BufferPoolManager Data → Option (BufferPoolManager Data)
  | [], s => some s
  | fetch p :: calls, s =>
    match BufferPoolManager.FetchPageImpl fuel s p with
    | none => none
    | some (s', _) => applyCalls fuel calls s'
  | unpin p is_dirty :: calls, s => applyCalls fuel calls (s.UnpinPageImpl p is_dirty).1

end PoolCall

namespace LinearProbeHashTable

variable {K V : Type}

/-- The `while` loop of `GetValue` once more, returning the calls it makes on the buffer pool,
appended to `calls`, in place of the values it finds. -/
def GetValueLoopCalls (B : Nat) (t : LinearProbeHashTable K V) (index : Nat) :
    Nat → Nat → Nat → page_id_t → List PoolCall → Option (List PoolCall)
  | 0, _, _, _, _ => none
  | fuel + 1, block_ind, bucket_ind, block_page_id, calls =>
    if (t.block_pages block_page_id).IsOccupied bucket_ind then
      let bucket_ind := bucket_ind + 1
      if block_ind * B + bucket_ind = index then some calls
      else if bucket_ind = B then
        let calls := calls ++ [PoolCall.unpin block_page_id false]
        let block_ind := if block_ind + 1 = t.header.NumBlocks then 0 else block_ind + 1
        let block_page_id := t.header.GetBlockPageId block_ind
        let calls := calls ++ [PoolCall.fetch block_page_id]
        GetValueLoopCalls B t index fuel block_ind 0 block_page_id calls
      else GetValueLoopCalls B t index fuel block_ind bucket_ind block_page_id calls
    else some calls

/-- The calls `GetValue` makes on the buffer pool, from its first line to its `return`:
`FetchPage` of the header page, `FetchPage` of the first block page, the calls of the loop,
and nothing after the loop. -/
def GetValueCalls (B : Nat) (hash : K → Nat) (fuel : Nat) (t : LinearProbeHashTable K V)
    (key : K) : Option (List PoolCall) :=
  let (index, block_ind, bucket_ind) := GetIndex B hash key t.header.NumBlocks
  let block_page_id := t.header.GetBlockPageId block_ind
  GetValueLoopCalls B t index fuel block_ind bucket_ind block_page_id
    [PoolCall.fetch t.header_page_id_, PoolCall.fetch block_page_id]

/-- The table after `HashTableBlockPage::Insert` on flat position `q`. -/
def insertAt (B : Nat) (t : LinearProbeHashTable K V) (q : Nat) (key : K) (value : V) :
    LinearProbeHashTable K V :=
  t.setBlock (pageOf B t q) ((t.block_pages (pageOf B t q)).Insert (q % B) key value).1

/-- The slots of a table of `N` slots in probe order from the slot `index`: one full turn. -/
def turn (N index : Nat) : List Nat := (List.range N).map fun j => (index + j) % N

/-- Every readable slot is occupied. -/
def ReadableOccupied (B : Nat) (t : LinearProbeHashTable K V) : Prop :=
  ∀ p, p < numSlots B t → readableAt B t p = true → occupiedAt B t p = true

/-- Every readable slot lies in the probe run of the key it holds. -/
def InRun (B : Nat) (hash : K → Nat) (t : LinearProbeHashTable K V) : Prop :=
  ∀ p, p < numSlots B t → readableAt B t p = true → p ∈ keyRun B hash t (keyAt B t p)

/-- The tables reached from the table `t0` by completed calls of `Insert` and `Remove`, `t0`
and the table after each call having a slot that was never occupied. -/
inductive Sparse [DecidableEq K] [DecidableEq V] [Inhabited K] [Inhabited V] (B : Nat)
    (hash : K → Nat) (t0 : LinearProbeHashTable K V) : LinearProbeHashTable K V → Prop
  | start : (∃ p, p < numSlots B t0 ∧ occupiedAt B t0 p = false) → Sparse B hash t0 t0
  | insert {t t' : LinearProbeHashTable K V} {fuel : Nat} {key : K} {value : V} {b : Bool} :
      Sparse B hash t0 t → Insert B hash fuel t key value = some (t', b) →
      (∃ p, p < numSlots B t' ∧ occupiedAt B t' p = false) → Sparse B hash t0 t'
  | remove {t t' : LinearProbeHashTable K V} {fuel : Nat} {key : K} {value : V} {b : Bool} :
      Sparse B hash t0 t → Remove B hash fuel t key value = some (t', b) →
      (∃ p, p < numSlots B t' ∧ occupiedAt B t' p = false) → Sparse B hash t0 t'

end LinearProbeHashTable

/-! ## Hash join executor (`hash_join_executor.cpp`) -/

/-- The hash join executor: its hash table `jht_`, from the hash of the join key to the left
tuples, and what its right child has still to produce.  A child executor is given by the
sequence of tuples it produces. -/
structure HashJoinExecutor (T : Type) where
  jht_ : LinearProbeHashTable Nat T
  right_ : List T

namespace HashJoinExecutor

variable {T O : Type}

/-- The build loop of `Init`: every tuple of the left child is inserted under the hash of its
join key (`HashValues` with the left keys, the parameter `leftKey`). -/
def build [DecidableEq T] [Inhabited T] (B : Nat) (hash : Nat → Nat) (fuel : Nat)
    (leftKey : T → Nat) :
    List T → LinearProbeHashTable Nat T → Option (LinearProbeHashTable Nat T)
  | [], jht => some jht
  | tuple :: left, jht =>
    match jht.Insert B hash fuel (leftKey tuple) tuple with
    | none => none
    | some (jht, _) => build B hash fuel leftKey left jht

/-- `Init`: build the hash table from the left child, then start the right child. -/
def Init [DecidableEq T] [Inhabited T] (B : Nat) (hash : Nat → Nat) (fuel : Nat)
    (leftKey : T → Nat) (jht : LinearProbeHashTable Nat T) (left right : List T) :
    Option (HashJoinExecutor T) :=
  match build B hash fuel leftKey left jht with
  | none => none
  | some jht => some { jht_ := jht, right_ := right }

/-- The loop of `Next` over the tuples the right child has still to produce: for each, the
left tuples under the hash of its join key are fetched and the first one that satisfies the
predicate is joined with it and returned.  Returns what the right child has left and the
tuple written to `*tuple` (`none` when `Next` returns false). -/
def NextLoop (B : Nat) (hash : Nat → Nat) (fuel : Nat) (rightKey : T → Nat)
    (pred : T → T → Bool) (project : T → T → O) (jht : LinearProbeHashTable Nat T) :
    List T → Option (List T × Option O)
  | [] => some ([], none)
  | tuple_ :: right =>
    match jht.GetValue B hash fuel (rightKey tuple_) [] with
    | none => none
    | some (tuples, _) =>
      match tuples.find? (fun tup => pred tup tuple_) with
      | some tup => some (right, some (project tup tuple_))
      | none => NextLoop B hash fuel rightKey pred project jht right

/-- `Next`. -/
def Next (B : Nat) (hash : Nat → Nat) (fuel : Nat) (rightKey : T → Nat)
    (pred : T → T → Bool) (project : T → T → O) (e : HashJoinExecutor T) :
    Option (HashJoinExecutor T × Option O) :=
  (NextLoop B hash fuel rightKey pred project e.jht_ e.right_).map
    fun x => ({ e with right_ := x.1 }, x.2)

/-- The tuples of `n` calls of `Next`, up to the first call that returns false (`none` when
none of the `n` calls returns false). -/
def drain (B : Nat) (hash : Nat → Nat) (fuel : Nat) (rightKey : T → Nat)
    (pred : T → T → Bool) (project : T → T → O) :
    Nat → HashJoinExecutor T → Option (List O)
  | 0, _ => none
  | n + 1, e =>
    match Next B hash fuel rightKey pred project e with
    | none => none
    | some (_, none) => some []
    | some (e', some o) => (drain B hash fuel rightKey pred project n e').map (o :: ·)

/-- `Init` followed by `Next` until it returns false: the tuples produced. -/
def run [DecidableEq T] [Inhabited T] (B : Nat) (hash : Nat → Nat) (fuel : Nat)
    (leftKey rightKey : T → Nat) (pred : T → T → Bool) (project : T → T → O)
    (jht : LinearProbeHashTable Nat T) (left right : List T) : Option (List O) :=
  match Init B hash fuel leftKey jht left right with
  | none => none
  | some e => drain B hash fuel rightKey pred project (right.length + 1) e

/-- The pairs of a left and a right tuple with equal join-key hash that satisfy the
predicate, projected: what the join is to produce, up to order. -/
def matching (leftKey rightKey : T → Nat) (pred : T → T → Bool) (project : T → T → O)
    (left right : List T) : List O :=
  right.flatMap fun r =>
    (left.filter fun l => decide (leftKey l = rightKey r) && pred l r).map fun l => project l r

end HashJoinExecutor

namespace Example

/-- The hash table of the join scenario: two blocks of two slots, tuples `(key, payload)`. -/
def joinTable : LinearProbeHashTable Nat (Nat × Nat) :=
  LinearProbeHashTable.construct 2 (LinearProbeHashTable.emptyPool 1) 2

/-- The join of the scenario: left tuples `(1, 10)` and `(1, 20)`, right tuple `(1, 30)`, join
key the first component, predicate equality of the first components, output the two
payloads. -/
def joinOutput : Option (List (Nat × Nat)) :=
  HashJoinExecutor.run 2 idHash 8 (fun l => l.1) (fun r => r.1) (fun l r => l.1 == r.1)
    (fun l r => (l.2, r.2)) joinTable [(1, 10), (1, 20)] [(1, 30)]

/-- A pool of four frames in which the pages 1, 2 and 3 of the table of the scenarios are
resident and unpinned. -/
def tablePool : BufferPoolManager Nat :=
  match PoolCall.applyCalls 0
      [.fetch 1, .unpin 1 false, .fetch 2, .unpin 2 false, .fetch 3, .unpin 3 false]
      (BufferPoolManager.new 4 exampleDisk) with
  | some s => s
  | none => BufferPoolManager.new 4 exampleDisk

end Example

/-! ## Buffer pool: calls with any page id -/

namespace BufferPoolManager

variable {Data : Type}

/-- The pool states reached from the constructor by any calls of the public operations: as
`Reachable`, but with `FetchPage` called on any page id, handed out by the disk manager or
not (`FetchPageImpl` does not look at the disk manager's next page id). -/
inductive ReachedByCalls [Zero Data] : BufferPoolManager Data → Prop
  | init (pool_size : Nat) (disk_manager : DiskManager Data)
      (h : 0 ≤ disk_manager.next_page_id_) :
      ReachedByCalls (BufferPoolManager.new pool_size disk_manager)
  | fetch {s s' : BufferPoolManager Data} {fuel : Nat} {page_id : page_id_t}
      {r : Option frame_id_t} :
      ReachedByCalls s → FetchPageImpl fuel s page_id = some (s', r) → ReachedByCalls s'
  | newPage {s s' : BufferPoolManager Data} {fuel : Nat}
      {r : Option (frame_id_t × page_id_t)} :
      ReachedByCalls s → NewPageImpl fuel s = some (s', r) → ReachedByCalls s'
  | unpin {s : BufferPoolManager Data} (page_id : page_id_t) (is_dirty : Bool) :
      ReachedByCalls s → ReachedByCalls (UnpinPageImpl s page_id is_dirty).1
  | flush {s : BufferPoolManager Data} (page_id : page_id_t) :
      ReachedByCalls s → ReachedByCalls (FlushPageImpl s page_id).1
  | delete {s : BufferPoolManager Data} (page_id : page_id_t) :
      ReachedByCalls s → ReachedByCalls (DeletePageImpl s page_id).1
  | flushAll {s : BufferPoolManager Data} :
      ReachedByCalls s → ReachedByCalls (FlushAllPagesImpl s)
  | write {s : BufferPoolManager Data} (frame_id : frame_id_t) (data : Data) :
      ReachedByCalls s → 0 < (s.pages_ frame_id).pin_count_ →
      ReachedByCalls (writeData s frame_id data)

end BufferPoolManager

namespace Example

/-- A disk that has handed out no page id yet; every page reads as zero. -/
def emptyDisk : DiskManager Nat :=
  { pages := fun _ => 0, next_page_id_ := 0 }

/-- A pool of two frames after `FetchPage(0)` on the disk that has not handed out page id 0:
frame 0 holds page 0, pinned once. -/
def earlyFetchPool : BufferPoolManager Nat :=
  poolAfterFetch (BufferPoolManager.new 2 emptyDisk) 0

/-- The pool after the bytes `77` were written to frame 0, `UnpinPage(0, true)` and `NewPage`:
the disk manager hands out page id 0, the new page takes frame 1, and the page table entry of
page 0 names frame 1; frame 0 still holds page id 0 and is dirty. -/
def shadowedPool : BufferPoolManager Nat :=
  poolAfterNewPage ((earlyFetchPool.writeData 0 77).UnpinPageImpl 0 true).1

/-- The pool after a further `UnpinPage(0, false)`: both frames are unpinned, the free list
is empty. -/
def orphanPool : BufferPoolManager Nat := (shadowedPool.UnpinPageImpl 0 false).1

/-- The pool after a further `NewPage`, given four iterations of the replacer's loop (the
pool itself if the call does not return). -/
def orphanPoolAfterNewPage : BufferPoolManager Nat :=
  match BufferPoolManager.NewPageImpl 4 orphanPool with
  | some (s', _) => s'
  | none => orphanPool

/-- A pool of one frame after `FetchPage(-1)`, the bytes `77` written to the frame and
`UnpinPage(-1, true)`: frame 0 holds the sentinel page id and is dirty. -/
def sentinelPool : BufferPoolManager Nat :=
  (((poolAfterFetch (BufferPoolManager.new 1 emptyDisk) (-1)).writeData 0 77).UnpinPageImpl
    (-1) true).1

end Example
/-! Theorems.

Block page: the slot operations on the bitmaps -/

namespace HashTableBlockPage
variable {K V : Type}

theorem and_bit_ne_zero (x i : Nat) : ((x &&& (1 <<< i)) != 0) = x.testBit i := by
  rw [Nat.one_shiftLeft, Nat.and_two_pow]
  cases h : x.testBit i <;> simp

theorem IsOccupied_eq_testBit (p : HashTableBlockPage K V) (u : Nat) :
    p.IsOccupied u = (p.occupied_ (u / 8)).testBit (u % 8) := and_bit_ne_zero _ _

theorem IsReadable_eq_testBit (p : HashTableBlockPage K V) (u : Nat) :
    p.IsReadable u = (p.readable_ (u / 8)).testBit (u % 8) := and_bit_ne_zero _ _

theorem testBit_set (x j i : Nat) : (x ||| (1 <<< j)).testBit i = (x.testBit i || decide (j = i)) := by
  rw [Nat.one_shiftLeft, Nat.testBit_or, Nat.testBit_two_pow]

theorem testBit_clear (x j i : Nat) (hi : i < 8) :
    (x &&& (255 ^^^ (1 <<< j))).testBit i = (x.testBit i && !decide (j = i)) := by
  have h255 : (255 : Nat).testBit i = true := by
    have := Nat.testBit_two_pow_sub_one 8 i
    simpa [hi] using this
  rw [Nat.one_shiftLeft, Nat.testBit_and, Nat.testBit_xor, Nat.testBit_two_pow, h255]
  cases decide (j = i) <;> simp

theorem slot_ne_cases {u u' : Nat} (h : u' ≠ u) : u' / 8 ≠ u / 8 ∨ u' % 8 ≠ u % 8 := by
  by_contra hc
  push_neg at hc
  apply h
  rw [← Nat.div_add_mod u' 8, ← Nat.div_add_mod u 8, hc.1, hc.2]

theorem Insert_snd (p : HashTableBlockPage K V) (u : Nat) (k : K) (v : V) :
    (p.Insert u k v).2 = !p.IsReadable u := by
  unfold Insert; split <;> simp_all

theorem Insert_fst_of_readable (p : HashTableBlockPage K V) (u : Nat) (k : K) (v : V)
    (h : p.IsReadable u = true) : (p.Insert u k v).1 = p := by
  unfold Insert; simp [h]

theorem IsReadable_Insert (p : HashTableBlockPage K V) (u u' : Nat) (k : K) (v : V)
    (h : p.IsReadable u = false) :
    (p.Insert u k v).1.IsReadable u' = (p.IsReadable u' || decide (u = u')) := by
  unfold Insert
  simp only [h, Bool.false_eq_true, if_false, IsReadable_eq_testBit]
  by_cases hu : u' = u
  · subst hu; simp only [Function.update_same, testBit_set]
  · have hne : decide (u = u') = false := by simp [Ne.symm hu]
    rw [hne, Bool.or_false]
    rcases slot_ne_cases hu with h1 | h1
    · simp [Function.update_noteq h1]
    · by_cases h2 : u' / 8 = u / 8
      · rw [h2]; simp only [Function.update_same, testBit_set]; simp [Ne.symm h1]
      · simp [Function.update_noteq h2]

theorem IsOccupied_Insert (p : HashTableBlockPage K V) (u u' : Nat) (k : K) (v : V)
    (h : p.IsReadable u = false) :
    (p.Insert u k v).1.IsOccupied u' = (p.IsOccupied u' || decide (u = u')) := by
  unfold Insert
  simp only [h, Bool.false_eq_true, if_false, IsOccupied_eq_testBit]
  by_cases hu : u' = u
  · subst hu; simp only [Function.update_same, testBit_set]
  · have hne : decide (u = u') = false := by simp [Ne.symm hu]
    rw [hne, Bool.or_false]
    rcases slot_ne_cases hu with h1 | h1
    · simp [Function.update_noteq h1]
    · by_cases h2 : u' / 8 = u / 8
      · rw [h2]; simp only [Function.update_same, testBit_set]; simp [Ne.symm h1]
      · simp [Function.update_noteq h2]

theorem array_Insert (p : HashTableBlockPage K V) (u u' : Nat) (k : K) (v : V)
    (h : p.IsReadable u = false) :
    (p.Insert u k v).1.array_ u' = if u' = u then (k, v) else p.array_ u' := by
  unfold Insert
  simp [h, Function.update_apply]

theorem IsOccupied_Remove (p : HashTableBlockPage K V) (u u' : Nat) :
    (p.Remove u).IsOccupied u' = p.IsOccupied u' := by
  unfold Remove; split <;> rfl

theorem array_Remove (p : HashTableBlockPage K V) (u : Nat) :
    (p.Remove u).array_ = p.array_ := by
  unfold Remove; split <;> rfl

theorem IsReadable_Remove (p : HashTableBlockPage K V) (u u' : Nat)
    (h : p.IsOccupied u = true) :
    (p.Remove u).IsReadable u' = (p.IsReadable u' && !decide (u = u')) := by
  unfold Remove
  simp only [h, Bool.not_true, Bool.false_eq_true, if_false, IsReadable_eq_testBit]
  by_cases hu : u' = u
  · subst hu; simp only [Function.update_same, testBit_clear _ _ _ (Nat.mod_lt _ (by norm_num : 0 < 8))]
  · have hne : decide (u = u') = false := by simp [Ne.symm hu]
    rw [hne]; simp only [Bool.not_false, Bool.and_true]
    rcases slot_ne_cases hu with h1 | h1
    · simp [Function.update_noteq h1]
    · by_cases h2 : u' / 8 = u / 8
      · rw [h2]; simp only [Function.update_same, testBit_clear _ _ _ (Nat.mod_lt _ (by norm_num : 0 < 8))]; simp [Ne.symm h1]
      · simp [Function.update_noteq h2]

end HashTableBlockPage
/-! ## The probe on flat positions -/

namespace LinearProbeHashTable

variable {K V : Type}

theorem mod_lt_two {a N : Nat} (h : a < 2 * N) : a % N = if a < N then a else a - N := by
  split
  · exact Nat.mod_eq_of_lt ‹_›
  · rw [Nat.mod_eq_sub_mod (by omega)]
    exact Nat.mod_eq_of_lt (by omega)

theorem succ_pos_mod (N index j : Nat) : ((index + j) % N + 1) % N = (index + (j + 1)) % N := by
  rw [Nat.mod_add_mod, Nat.add_assoc]

theorem last_of_wrap {N index j : Nat} (hi : index < N) (hj : j < N)
    (h : (index + j) % N + 1 = index) : j + 1 = N := by
  rw [mod_lt_two (by omega)] at h
  split at h <;> omega

theorem wrap_of_last {N index j : Nat} (hi : index < N) (h0 : index ≠ 0) (hj : j + 1 = N) :
    (index + j) % N + 1 = index := by
  rw [mod_lt_two (by omega)]
  split <;> omega

/-- From home slot 0 in a table whose slots are all occupied and none of which stops the
scan, the loop shape never returns. -/
theorem probe_diverges {N : Nat} {occ stop : Nat → Bool} (hN : 0 < N)
    (hocc : ∀ p, p < N → occ p = true) (hstop : ∀ p, p < N → stop p = false) :
    ∀ fuel p, p < N → probe N 0 occ stop fuel p = none := by
  intro fuel
  induction fuel with
  | zero => intro p _; rfl
  | succ fuel ih =>
    intro p hp
    have h1 : (p + 1) % N < N := Nat.mod_lt _ hN
    simp [probe, hocc p hp, hstop p hp, ih _ h1]

theorem runFrom_zero (N index : Nat) (occ : Nat → Bool) :
    runFrom N index occ 0 = probeRun N index occ := by
  simp [runFrom, probeRun, List.range_eq_range']

theorem runFrom_cons {N index j : Nat} {occ : Nat → Bool} (hj : j < N)
    (h : occ ((index + j) % N) = true) :
    runFrom N index occ j = (index + j) % N :: runFrom N index occ (j + 1) := by
  unfold runFrom
  have : N - j = (N - (j + 1)) + 1 := by omega
  rw [this, List.range'_succ]
  simp [List.takeWhile_cons, h]

theorem runFrom_nil {N index j : Nat} {occ : Nat → Bool} (hj : j < N)
    (h : occ ((index + j) % N) = false) : runFrom N index occ j = [] := by
  unfold runFrom
  have : N - j = (N - (j + 1)) + 1 := by omega
  rw [this, List.range'_succ]
  simp [List.takeWhile_cons, h]

theorem runFrom_end (N index : Nat) (occ : Nat → Bool) : runFrom N index occ N = [] := by
  simp [runFrom]

/-- Whatever the loop shape returns is read off the rest of the probe run. -/
theorem probe_sound_aux {N index : Nat} {occ stop : Nat → Bool} (hN : 0 < N)
    (hi : index < N) :
    ∀ fuel j x, j < N →
      (∀ i, i < j → occ ((index + i) % N) = true ∧ stop ((index + i) % N) = false) →
      probe N index occ stop fuel ((index + j) % N) = some x →
      x = ((runFrom N index occ j).takeWhile (fun q => !stop q),
           (runFrom N index occ j).find? stop) := by
  intro fuel
  induction fuel with
  | zero => intro j x _ _ h; simp [probe] at h
  | succ fuel ih =>
    intro j x hj hpre h
    rw [probe] at h
    by_cases ho : occ ((index + j) % N) = true
    · rw [if_pos ho] at h
      rw [runFrom_cons hj ho]
      by_cases hs : stop ((index + j) % N) = true
      · rw [if_pos hs] at h
        simp only [Option.some.injEq] at h
        subst h
        simp [List.takeWhile_cons, List.find?_cons, hs]
      · rw [if_neg hs] at h
        have hs' : stop ((index + j) % N) = false := by simpa using hs
        by_cases hw : (index + j) % N + 1 = index
        · rw [if_pos hw] at h
          simp only [Option.some.injEq] at h
          subst h
          have hlast := last_of_wrap hi hj hw
          rw [hlast, runFrom_end]
          simp [List.takeWhile_cons, List.find?_cons, hs']
        · rw [if_neg hw, succ_pos_mod] at h
          by_cases hj1 : j + 1 < N
          · cases hrec : probe N index occ stop fuel ((index + (j + 1)) % N) with
            | none => rw [hrec] at h; simp at h
            | some y =>
              rw [hrec] at h
              simp only [Option.map_some', Option.some.injEq] at h
              have hy := ih (j + 1) y hj1 (by
                intro i hi'
                rcases Nat.lt_succ_iff_lt_or_eq.mp hi' with h1 | h1
                · exact hpre i h1
                · subst h1; exact ⟨ho, hs'⟩) hrec
              subst h
              rw [hy]
              simp [List.takeWhile_cons, List.find?_cons, hs']
          · exfalso
            have hj2 : j + 1 = N := by omega
            have h0 : index = 0 := by
              by_contra hne
              exact hw (wrap_of_last hi hne hj2)
            subst h0
            have hall : ∀ p, p < N → occ p = true ∧ stop p = false := by
              intro p hp
              have hp' : (0 + p) % N = p := by rw [Nat.zero_add]; exact Nat.mod_eq_of_lt hp
              by_cases hpj : p < j
              · have := hpre p hpj; rwa [hp'] at this
              · have hpj' : p = j := by omega
                subst hpj'
                rw [hp'] at ho hs'
                exact ⟨ho, hs'⟩
            have := probe_diverges hN (fun p hp => (hall p hp).1) (fun p hp => (hall p hp).2)
              fuel ((0 + (j + 1)) % N) (Nat.mod_lt _ hN)
            rw [this] at h
            simp at h
    · have ho' : occ ((index + j) % N) = false := by simpa using ho
      rw [if_neg ho] at h
      simp only [Option.some.injEq] at h
      subst h
      simp [runFrom_nil hj ho']

/-- A completed run of the loop shape from the home slot passed the slots of the probe run
up to the first one selected by `stop`, and stopped there if there is one. -/
theorem probe_sound {N index : Nat} {occ stop : Nat → Bool} (hN : 0 < N) (hi : index < N)
    {fuel : Nat} {x : List Nat × Option Nat}
    (h : probe N index occ stop fuel index = some x) :
    x = ((probeRun N index occ).takeWhile (fun q => !stop q),
         (probeRun N index occ).find? stop) := by
  have h' : probe N index occ stop fuel ((index + 0) % N) = some x := by
    rw [Nat.add_zero, Nat.mod_eq_of_lt hi]; exact h
  have := probe_sound_aux hN hi fuel 0 x hN (by intro i hi'; omega) h'
  rwa [runFrom_zero] at this

end LinearProbeHashTable

namespace LinearProbeHashTable
variable {K V : Type}

theorem probe_terminates_aux {N index : Nat} {occ stop : Nat → Bool} (hi : index < N) :
    ∀ fuel j, j < N → N ≤ fuel + j →
      (index ≠ 0 ∨ ∃ i, j ≤ i ∧ i < N ∧
        (occ ((index + i) % N) = false ∨ stop ((index + i) % N) = true)) →
      (probe N index occ stop fuel ((index + j) % N)).isSome = true := by
  intro fuel
  induction fuel with
  | zero => intro j hj hf; omega
  | succ fuel ih =>
    intro j hj hf hT
    rw [probe]
    by_cases ho : occ ((index + j) % N) = true
    · rw [if_pos ho]
      by_cases hs : stop ((index + j) % N) = true
      · rw [if_pos hs]; rfl
      · rw [if_neg hs]
        by_cases hw : (index + j) % N + 1 = index
        · rw [if_pos hw]; rfl
        · rw [if_neg hw, succ_pos_mod]
          have hj1 : j + 1 < N := by
            by_contra hc
            have hj2 : j + 1 = N := by omega
            rcases hT with h0 | ⟨i, hji, hiN, hbad⟩
            · exact hw (wrap_of_last hi h0 hj2)
            · have : i = j := by omega
              subst this
              rcases hbad with hb | hb
              · rw [ho] at hb; cases hb
              · exact hs hb
          have hrec := ih (j + 1) hj1 (by omega) (by
            rcases hT with h0 | ⟨i, hji, hiN, hbad⟩
            · exact Or.inl h0
            · refine Or.inr ⟨i, ?_, hiN, hbad⟩
              rcases Nat.eq_or_lt_of_le hji with h1 | h1
              · subst h1
                rcases hbad with hb | hb
                · rw [ho] at hb; cases hb
                · exact absurd hb hs
              · exact h1)
          cases hp : probe N index occ stop fuel ((index + (j + 1)) % N) with
          | none => rw [hp] at hrec; cases hrec
          | some y => rfl
    · rw [if_neg ho]; rfl

/-- With a home slot other than 0, or a slot that is free or stops the scan, the loop shape
returns within `N` iterations. -/
theorem probe_terminates {N index : Nat} {occ stop : Nat → Bool} (hi : index < N)
    (hT : index ≠ 0 ∨ ∃ p, p < N ∧ (occ p = false ∨ stop p = true))
    {fuel : Nat} (hf : N ≤ fuel) :
    (probe N index occ stop fuel index).isSome = true := by
  have hN : 0 < N := by omega
  have := @probe_terminates_aux N index occ stop hi fuel 0 hN (by omega) (by
    rcases hT with h0 | ⟨p, hp, hbad⟩
    · exact Or.inl h0
    · by_cases h0 : index = 0
      · subst h0
        refine Or.inr ⟨p, Nat.zero_le _, hp, ?_⟩
        rwa [Nat.zero_add, Nat.mod_eq_of_lt hp]
      · exact Or.inl h0)
  rwa [Nat.add_zero, Nat.mod_eq_of_lt hi] at this

/-- The loop shape reads `occ` and `stop` only at positions below `N`. -/
theorem probe_congr {N index : Nat} {occ occ' stop stop' : Nat → Bool} (hN : 0 < N)
    (hocc : ∀ p, p < N → occ p = occ' p) (hstop : ∀ p, p < N → stop p = stop' p) :
    ∀ fuel p, p < N → probe N index occ stop fuel p = probe N index occ' stop' fuel p := by
  intro fuel
  induction fuel with
  | zero => intro p _; rfl
  | succ fuel ih =>
    intro p hp
    rw [probe, probe, hocc p hp, hstop p hp, ih _ (Nat.mod_lt _ hN)]

theorem div_mod_of_lt {B d m : Nat} (hm : m < B) :
    (B * d + m) / B = d ∧ (B * d + m) % B = m := by
  have hB : 0 < B := by omega
  constructor
  · rw [Nat.mul_add_div hB, Nat.div_eq_of_lt hm, Nat.add_zero]
  · rw [Nat.mul_add_mod, Nat.mod_eq_of_lt hm]

theorem flat_step {B n p : Nat} (hB : 0 < B) (hp : p < n * B) :
    (if p % B + 1 = B then ((if p / B + 1 = n then 0 else p / B + 1), 0)
      else (p / B, p % B + 1))
      = (((p + 1) % (n * B)) / B, ((p + 1) % (n * B)) % B) := by
  have hm : p % B < B := Nat.mod_lt _ hB
  have hd : p / B < n := by
    rw [Nat.div_lt_iff_lt_mul hB]; exact hp
  have hpe : B * (p / B) + p % B = p := Nat.div_add_mod p B
  generalize p / B = d at hd hpe ⊢
  generalize p % B = m at hm hpe ⊢
  subst hpe
  have hle : B * (d + 1) ≤ B * n := Nat.mul_le_mul_left _ (by omega)
  rw [Nat.mul_add, Nat.mul_one] at hle
  by_cases hb : m + 1 = B
  · rw [if_pos hb]
    have hp1 : B * d + m + 1 = B * (d + 1) + 0 := by
      rw [Nat.mul_add, Nat.mul_one]; omega
    by_cases hl : d + 1 = n
    · rw [if_pos hl, hp1, hl, Nat.add_zero, Nat.mul_comm, Nat.mod_self]
      simp
    · rw [if_neg hl]
      have hlt : B * d + m + 1 < n * B := by
        have : B * (d + 2) ≤ B * n := Nat.mul_le_mul_left _ (by omega)
        rw [Nat.mul_add] at this
        rw [Nat.mul_comm n B]
        omega
      rw [Nat.mod_eq_of_lt hlt, hp1, (div_mod_of_lt hB).1, (div_mod_of_lt hB).2]
  · rw [if_neg hb]
    have hlt : B * d + m + 1 < n * B := by
      rw [Nat.mul_comm n B]
      omega
    have hm1 : m + 1 < B := by omega
    rw [Nat.mod_eq_of_lt hlt, Nat.add_assoc, (div_mod_of_lt hm1).1, (div_mod_of_lt hm1).2]

theorem flat_pos {B p : Nat} : p / B * B + (p % B + 1) = p + 1 := by
  have := Nat.div_add_mod p B
  rw [Nat.mul_comm]; omega

theorem nextBlock_flat {B : Nat} (t : LinearProbeHashTable K V) {p : Nat} (hB : 0 < B)
    (hp : p < numSlots B t) :
    nextBlock B t.header (p / B) (p % B + 1) (pageOf B t p)
      = (((p + 1) % numSlots B t) / B, ((p + 1) % numSlots B t) % B,
          pageOf B t ((p + 1) % numSlots B t)) := by
  have h := flat_step hB hp
  unfold numSlots at h ⊢
  unfold nextBlock pageOf
  by_cases hb : p % B + 1 = B
  · rw [if_pos hb] at h ⊢
    simp only [Prod.mk.injEq] at h
    simp only [← h.1, ← h.2]
  · rw [if_neg hb] at h ⊢
    simp only [Prod.mk.injEq] at h
    simp only [← h.1, ← h.2]

end LinearProbeHashTable
namespace LinearProbeHashTable
variable {K V : Type}

theorem contrib_eq [DecidableEq K] {B : Nat} (t : LinearProbeHashTable K V) (key : K)
    (p : Nat) (r : List V) :
    (if key = (t.block_pages (pageOf B t p)).KeyAt (p % B) ∧
          (t.block_pages (pageOf B t p)).IsReadable (p % B) = true
      then r ++ [(t.block_pages (pageOf B t p)).ValueAt (p % B)] else r)
      = r ++ ([p].filter (hasKeyAt B t key)).map (valueAt B t) := by
  by_cases hk : key = (t.block_pages (pageOf B t p)).KeyAt (p % B) ∧
          (t.block_pages (pageOf B t p)).IsReadable (p % B) = true
  · rw [if_pos hk]
    have : hasKeyAt B t key p = true := by
      simp only [hasKeyAt, keyAt, readableAt, Bool.and_eq_true, decide_eq_true_eq]
      exact hk
    simp [List.filter_cons, this, valueAt]
  · rw [if_neg hk]
    have : hasKeyAt B t key p = false := by
      cases h : hasKeyAt B t key p with
      | false => rfl
      | true =>
        exfalso; apply hk
        simpa only [hasKeyAt, keyAt, readableAt, Bool.and_eq_true, decide_eq_true_eq] using h
    simp [List.filter_cons, this]

theorem contrib_cons [DecidableEq K] {B : Nat} (t : LinearProbeHashTable K V) (key : K)
    (p : Nat) (l : List Nat) (r : List V) :
    r ++ ((p :: l).filter (hasKeyAt B t key)).map (valueAt B t)
      = (r ++ ([p].filter (hasKeyAt B t key)).map (valueAt B t))
          ++ (l.filter (hasKeyAt B t key)).map (valueAt B t) := by
  rw [List.append_assoc, ← List.map_append, ← List.filter_append]
  rfl

/-- On flat positions the loop of `GetValue` is the loop shape with nothing stopping it; it
appends the values of the readable slots with the key among the slots passed. -/
theorem GetValueLoop_eq_probe [DecidableEq K] {B : Nat} (t : LinearProbeHashTable K V)
    (key : K) (index : Nat) (hB : 0 < B) :
    ∀ fuel p r, p < numSlots B t →
      GetValueLoop B t key index fuel (p / B) (p % B) (pageOf B t p) r
        = (probe (numSlots B t) index (occupiedAt B t) (fun _ => false) fuel p).map
            fun x => r ++ (x.1.filter (hasKeyAt B t key)).map (valueAt B t) := by
  intro fuel
  induction fuel with
  | zero => intro p r _; rfl
  | succ fuel ih =>
    intro p r hp
    have hN : 0 < numSlots B t := by omega
    rw [GetValueLoop, probe]
    simp only [flat_pos, nextBlock_flat t hB hp, contrib_eq]
    change (if occupiedAt B t p = true then _ else _) = _
    by_cases ho : occupiedAt B t p = true
    · rw [if_pos ho, if_pos ho]
      simp only [Bool.false_eq_true, if_false]
      by_cases hw : p + 1 = index
      · rw [if_pos hw, if_pos hw]
        rfl
      · rw [if_neg hw, if_neg hw]
        rw [ih _ _ (Nat.mod_lt _ hN)]
        rw [Option.map_map]
        congr 1
        funext x
        simp only [Function.comp]
        exact (contrib_cons t key p x.1 r).symm
    · rw [if_neg ho, if_neg ho]
      simp

/-- `GetValue` in terms of the loop shape. -/
theorem GetValue_eq_probe [DecidableEq K] {B : Nat} (hash : K → Nat)
    (t : LinearProbeHashTable K V) (key : K) (hB : 0 < B) (hn : 0 < t.header.NumBlocks)
    (fuel : Nat) (r : List V) :
    GetValue B hash fuel t key r
      = (probe (numSlots B t) (home B hash t key) (occupiedAt B t) (fun _ => false) fuel
          (home B hash t key)).map
          fun x =>
            (r ++ (x.1.filter (hasKeyAt B t key)).map (valueAt B t),
             !(r ++ (x.1.filter (hasKeyAt B t key)).map (valueAt B t)).isEmpty) := by
  have hN : 0 < numSlots B t := Nat.mul_pos hn hB
  have hh : home B hash t key < numSlots B t := Nat.mod_lt _ hN
  have := GetValueLoop_eq_probe t key (home B hash t key) hB fuel _ r hh
  unfold GetValue GetIndex
  simp only
  change (match GetValueLoop B t key (home B hash t key) fuel (home B hash t key / B)
    (home B hash t key % B) (pageOf B t (home B hash t key)) r with
    | none => none
    | some result => some (result, !result.isEmpty)) = _
  rw [this]
  cases probe (numSlots B t) (home B hash t key) (occupiedAt B t) (fun _ => false) fuel
    (home B hash t key) <;> rfl

end LinearProbeHashTable
namespace LinearProbeHashTable
variable {K V : Type}

theorem holdsAt_iff [DecidableEq K] [DecidableEq V] {B : Nat} (t : LinearProbeHashTable K V)
    (key : K) (value : V) (p : Nat) :
    ((t.block_pages (pageOf B t p)).IsReadable (p % B) = true ∧
        key = (t.block_pages (pageOf B t p)).KeyAt (p % B) ∧
        value = (t.block_pages (pageOf B t p)).ValueAt (p % B))
      ↔ holdsAt B t key value p = true := by
  simp only [holdsAt, readableAt, keyAt, valueAt, Bool.and_eq_true, decide_eq_true_eq,
    and_assoc]

/-- On flat positions the loop of `Remove` is the loop shape stopped by a readable slot that
holds the pair. -/
theorem RemoveLoop_eq_probe [DecidableEq K] [DecidableEq V] {B : Nat}
    (t : LinearProbeHashTable K V) (key : K) (value : V) (index : Nat) (hB : 0 < B) :
    ∀ fuel p, p < numSlots B t →
      RemoveLoop B t key value index fuel (p / B) (p % B) (pageOf B t p)
        = (probe (numSlots B t) index (occupiedAt B t) (holdsAt B t key value) fuel p).map
            fun x => removeResult B t x.2 := by
  intro fuel
  induction fuel with
  | zero => intro p _; rfl
  | succ fuel ih =>
    intro p hp
    have hN : 0 < numSlots B t := by omega
    rw [RemoveLoop, probe]
    simp only [flat_pos, nextBlock_flat t hB hp, holdsAt_iff]
    change (if occupiedAt B t p = true then _ else _) = _
    by_cases ho : occupiedAt B t p = true
    · rw [if_pos ho, if_pos ho]
      by_cases hs : holdsAt B t key value p = true
      · rw [if_pos hs, if_pos hs]
        rfl
      · rw [if_neg hs, if_neg hs]
        by_cases hw : p + 1 = index
        · rw [if_pos hw, if_pos hw]
          rfl
        · rw [if_neg hw, if_neg hw]
          rw [ih _ (Nat.mod_lt _ hN), Option.map_map]
          rfl
    · rw [if_neg ho, if_neg ho]
      rfl

/-- `Remove` in terms of the loop shape. -/
theorem Remove_eq_probe [DecidableEq K] [DecidableEq V] {B : Nat} (hash : K → Nat)
    (t : LinearProbeHashTable K V) (key : K) (value : V) (hB : 0 < B)
    (hn : 0 < t.header.NumBlocks) (fuel : Nat) :
    Remove B hash fuel t key value
      = (probe (numSlots B t) (home B hash t key) (occupiedAt B t) (holdsAt B t key value)
          fuel (home B hash t key)).map fun x => removeResult B t x.2 := by
  have hN : 0 < numSlots B t := Nat.mul_pos hn hB
  have hh : home B hash t key < numSlots B t := Nat.mod_lt _ hN
  exact RemoveLoop_eq_probe t key value (home B hash t key) hB fuel _ hh

end LinearProbeHashTable
namespace LinearProbeHashTable
variable {K V : Type}

theorem InsertLoop_diverges [DecidableEq K] [DecidableEq V] [Inhabited K] [Inhabited V]
    {B : Nat} (hash : K → Nat) (t : LinearProbeHashTable K V) (key : K) (value : V)
    (hB : 0 < B)
    (hfull : ∀ p, p < numSlots B t → readableAt B t p = true)
    (hnew : ∀ p, p < numSlots B t → ¬(key = keyAt B t p ∧ value = valueAt B t p)) :
    ∀ fuel p, p < numSlots B t →
      InsertLoop B hash key value fuel t 0 (p / B) (p % B) (pageOf B t p) = none := by
  intro fuel
  induction fuel with
  | zero => intro p _; rfl
  | succ fuel ih =>
    intro p hp
    have hN : 0 < numSlots B t := by omega
    have hr : (t.block_pages (pageOf B t p)).IsReadable (p % B) = true := hfull p hp
    have hk : ¬(key = (t.block_pages (pageOf B t p)).KeyAt (p % B) ∧
        value = (t.block_pages (pageOf B t p)).ValueAt (p % B)) := hnew p hp
    rw [InsertLoop]
    simp only [HashTableBlockPage.Insert, hr, if_true, Bool.false_eq_true, if_false, hk,
      flat_pos, Nat.add_one_ne_zero, nextBlock_flat t hB hp]
    exact ih _ (Nat.mod_lt _ hN)

end LinearProbeHashTable

namespace LinearProbeHashTable
variable {K V : Type}

theorem mem_probeRun {N index : Nat} {occ : Nat → Bool} {p : Nat} (hN : 0 < N)
    (h : p ∈ probeRun N index occ) : p < N ∧ occ p = true := by
  refine ⟨?_, List.mem_takeWhile_imp h⟩
  have := (List.takeWhile_sublist occ).subset h
  simp only [List.mem_map, List.mem_range] at this
  obtain ⟨j, _, hj⟩ := this
  rw [← hj]
  exact Nat.mod_lt _ hN

theorem probeRun_nodup {N index : Nat} (occ : Nat → Bool) (hi : index < N) :
    (probeRun N index occ).Nodup := by
  apply List.Nodup.sublist (List.takeWhile_sublist occ)
  apply List.Nodup.map_on _ (List.nodup_range N)
  intro x hx y hy hxy
  rw [List.mem_range] at hx hy
  rw [mod_lt_two (by omega), mod_lt_two (by omega)] at hxy
  split at hxy <;> split at hxy <;> omega

theorem block_pages_removeAt (B : Nat) (t : LinearProbeHashTable K V) (q : Nat)
    (pg : page_id_t) :
    (removeAt B t q).block_pages pg
      = if pg = pageOf B t q then (t.block_pages (pageOf B t q)).Remove (q % B)
        else t.block_pages pg := by
  simp [removeAt, setBlock, Function.update_apply]

theorem header_removeAt (B : Nat) (t : LinearProbeHashTable K V) (q : Nat) :
    (removeAt B t q).header = t.header := rfl

theorem numSlots_removeAt (B : Nat) (t : LinearProbeHashTable K V) (q : Nat) :
    numSlots B (removeAt B t q) = numSlots B t := rfl

theorem home_removeAt (B : Nat) (hash : K → Nat) (t : LinearProbeHashTable K V) (q : Nat)
    (key : K) : home B hash (removeAt B t q) key = home B hash t key := rfl

theorem pageOf_removeAt (B : Nat) (t : LinearProbeHashTable K V) (q p : Nat) :
    pageOf B (removeAt B t q) p = pageOf B t p := rfl

theorem occupiedAt_removeAt (B : Nat) (t : LinearProbeHashTable K V) (q : Nat) :
    occupiedAt B (removeAt B t q) = occupiedAt B t := by
  funext p
  simp only [occupiedAt, pageOf_removeAt, block_pages_removeAt]
  split
  · rename_i h; rw [HashTableBlockPage.IsOccupied_Remove, h]
  · rfl

theorem keyAt_removeAt (B : Nat) (t : LinearProbeHashTable K V) (q : Nat) :
    keyAt B (removeAt B t q) = keyAt B t := by
  funext p
  simp only [keyAt, pageOf_removeAt, block_pages_removeAt, HashTableBlockPage.KeyAt]
  split
  · rename_i h; rw [HashTableBlockPage.array_Remove, h]
  · rfl

theorem valueAt_removeAt (B : Nat) (t : LinearProbeHashTable K V) (q : Nat) :
    valueAt B (removeAt B t q) = valueAt B t := by
  funext p
  simp only [valueAt, pageOf_removeAt, block_pages_removeAt, HashTableBlockPage.ValueAt]
  split
  · rename_i h; rw [HashTableBlockPage.array_Remove, h]
  · rfl

/-- Two flat positions below the slot count that name the same bucket of the same page are
the same position, when no block page is listed twice. -/
theorem slot_inj {B : Nat} {t : LinearProbeHashTable K V} (hWF : WF B t) {p q : Nat}
    (hp : p < numSlots B t) (hq : q < numSlots B t)
    (hpage : pageOf B t p = pageOf B t q) (hmod : p % B = q % B) : p = q := by
  have hB := hWF.block_size_pos
  have hpd : p / B < t.header.block_page_ids_.length := by
    rw [Nat.div_lt_iff_lt_mul hB]; exact hp
  have hqd : q / B < t.header.block_page_ids_.length := by
    rw [Nat.div_lt_iff_lt_mul hB]; exact hq
  unfold pageOf HashTableHeaderPage.GetBlockPageId at hpage
  rw [List.getD_eq_getElem _ _ hpd, List.getD_eq_getElem _ _ hqd] at hpage
  have hdiv : p / B = q / B := (List.Nodup.getElem_inj_iff hWF.nodup).mp hpage
  rw [← Nat.div_add_mod p B, ← Nat.div_add_mod q B, hdiv, hmod]

theorem readableAt_removeAt {B : Nat} {t : LinearProbeHashTable K V} (hWF : WF B t)
    {q : Nat} (hq : q < numSlots B t) (hocc : occupiedAt B t q = true) {p : Nat}
    (hp : p < numSlots B t) :
    readableAt B (removeAt B t q) p = (readableAt B t p && !decide (p = q)) := by
  simp only [readableAt, pageOf_removeAt, block_pages_removeAt]
  split
  · rename_i h
    rw [HashTableBlockPage.IsReadable_Remove _ _ _ hocc, h]
    by_cases hpq : p = q
    · subst hpq; simp
    · have : q % B ≠ p % B := fun hm => hpq (slot_inj hWF hp hq h hm.symm)
      simp [this, hpq]
  · rename_i h
    have : p ≠ q := fun hpq => h (by rw [hpq])
    simp [this]

/-- Dropping from a duplicate-free list the first element that passes `P` and has value `v`
erases the first `v` from the values of the elements that pass `P`. -/
theorem map_filter_erase_first [DecidableEq V] (f : Nat → V) (P : Nat → Bool) (v : V) :
    ∀ (l : List Nat) (q : Nat), l.Nodup →
      l.find? (fun p => P p && decide (v = f p)) = some q →
      (l.filter fun p => P p && !decide (p = q)).map f = ((l.filter P).map f).erase v := by
  intro l
  induction l with
  | nil => intro q _ h; simp at h
  | cons a l ih =>
    intro q hnd hfind
    rw [List.nodup_cons] at hnd
    rw [List.find?_cons] at hfind
    by_cases hPa : P a = true
    · by_cases hva : v = f a
      · simp only [hPa, hva, decide_True, Bool.and_self, Option.some.injEq] at hfind
        subst hfind
        have hrest : (l.filter fun p => P p && !decide (p = a)) = l.filter P := by
          apply List.filter_congr
          intro x hx
          have : x ≠ a := fun hxa => hnd.1 (hxa ▸ hx)
          simp [this]
        simp [List.filter_cons, hPa, hrest, hva]
      · have hfa : decide (v = f a) = false := by simp [hva]
        simp only [hPa, hfa, Bool.and_false] at hfind
        have hq : q ∈ l := List.mem_of_find?_eq_some hfind
        have haq : a ≠ q := fun h => hnd.1 (h ▸ hq)
        have hne : ¬ (f a == v) = true := by
          simp only [beq_iff_eq]; exact fun h => hva h.symm
        simp only [List.filter_cons, hPa, haq, decide_False, Bool.not_false, Bool.and_self,
          if_true, List.map_cons, List.erase_cons, hne, if_false]
        rw [ih q hnd.2 hfind]
        simp
    · have hPa' : P a = false := by simpa using hPa
      simp only [hPa', Bool.false_and] at hfind
      simp only [List.filter_cons, hPa', Bool.false_and, Bool.false_eq_true, if_false]
      exact ih q hnd.2 hfind

end LinearProbeHashTable
namespace LinearProbeHashTable
variable {K V : Type}

theorem home_lt [DecidableEq K] {B : Nat} (hash : K → Nat) {t : LinearProbeHashTable K V}
    (hWF : WF B t) (key : K) : home B hash t key < numSlots B t :=
  Nat.mod_lt _ (Nat.mul_pos hWF.num_blocks_pos hWF.block_size_pos)

/-- A `Remove` that returned true cleared the first slot of the probe run that is readable
and holds the pair. -/
theorem Remove_true_inv [DecidableEq K] [DecidableEq V] {B : Nat} (hash : K → Nat)
    {t t' : LinearProbeHashTable K V} (hWF : WF B t) {key : K} {value : V} {fuel : Nat}
    (h : Remove B hash fuel t key value = some (t', true)) :
    ∃ q, (keyRun B hash t key).find? (holdsAt B t key value) = some q ∧ t' = removeAt B t q := by
  have hN : 0 < numSlots B t := Nat.mul_pos hWF.num_blocks_pos hWF.block_size_pos
  rw [Remove_eq_probe hash t key value hWF.block_size_pos hWF.num_blocks_pos] at h
  cases hp : probe (numSlots B t) (home B hash t key) (occupiedAt B t) (holdsAt B t key value)
      fuel (home B hash t key) with
  | none => rw [hp] at h; cases h
  | some x =>
    rw [hp] at h
    have hx := probe_sound hN (home_lt hash hWF key) hp
    simp only [Option.map_some', Option.some.injEq] at h
    cases hx2 : x.2 with
    | none => rw [hx2] at h; simp [removeResult] at h
    | some q =>
      rw [hx2] at h
      simp only [removeResult, Prod.mk.injEq, and_true] at h
      refine ⟨q, ?_, h.symm⟩
      rw [hx] at hx2
      exact hx2

/-- A `Remove` that returned false changed nothing. -/
theorem Remove_false_inv [DecidableEq K] [DecidableEq V] {B : Nat} (hash : K → Nat)
    {t t' : LinearProbeHashTable K V} (hWF : WF B t) {key : K} {value : V} {fuel : Nat}
    (h : Remove B hash fuel t key value = some (t', false)) : t' = t := by
  rw [Remove_eq_probe hash t key value hWF.block_size_pos hWF.num_blocks_pos] at h
  cases hp : probe (numSlots B t) (home B hash t key) (occupiedAt B t) (holdsAt B t key value)
      fuel (home B hash t key) with
  | none => rw [hp] at h; cases h
  | some x =>
    rw [hp] at h
    simp only [Option.map_some', Option.some.injEq] at h
    cases hx2 : x.2 with
    | none => rw [hx2] at h; simp only [removeResult, Prod.mk.injEq, and_true] at h; exact h.symm
    | some q => rw [hx2] at h; simp [removeResult] at h

/-- When the probe run meets a readable slot holding the pair, `Remove` returns true within
as many iterations as the table has slots. -/
theorem Remove_of_mem_run [DecidableEq K] [DecidableEq V] {B : Nat} (hash : K → Nat)
    {t : LinearProbeHashTable K V} (hWF : WF B t) {key : K} {value : V} {p : Nat}
    (hp : p ∈ keyRun B hash t key) (hh : holdsAt B t key value p = true) :
    ∃ t', Remove B hash (numSlots B t) t key value = some (t', true) := by
  have hN : 0 < numSlots B t := Nat.mul_pos hWF.num_blocks_pos hWF.block_size_pos
  have hpN := (mem_probeRun hN hp).1
  have hterm := @probe_terminates (numSlots B t) (home B hash t key) (occupiedAt B t)
    (holdsAt B t key value) (home_lt hash hWF key) (Or.inr ⟨p, hpN, Or.inr hh⟩)
    (numSlots B t) (Nat.le_refl (numSlots B t))
  rw [Remove_eq_probe hash t key value hWF.block_size_pos hWF.num_blocks_pos]
  cases hpr : probe (numSlots B t) (home B hash t key) (occupiedAt B t) (holdsAt B t key value)
      (numSlots B t) (home B hash t key) with
  | none => rw [hpr] at hterm; cases hterm
  | some x =>
    have hx := probe_sound hN (home_lt hash hWF key) hpr
    have hsome : ((keyRun B hash t key).find? (holdsAt B t key value)).isSome = true :=
      List.find?_isSome.mpr ⟨p, hp, hh⟩
    cases hf : (keyRun B hash t key).find? (holdsAt B t key value) with
    | none => rw [hf] at hsome; cases hsome
    | some q =>
      have hx2 : x.2 = some q := by rw [hx]; exact hf
      exact ⟨removeAt B t q, by simp [removeResult, hx2]⟩

/-- A `GetValue` that returned passed exactly the probe run of the key. -/
theorem GetValue_some_inv [DecidableEq K] {B : Nat} (hash : K → Nat)
    {t : LinearProbeHashTable K V} (hWF : WF B t) {key : K} {fuel : Nat} {r l : List V}
    {b : Bool} (h : GetValue B hash fuel t key r = some (l, b)) :
    probe (numSlots B t) (home B hash t key) (occupiedAt B t) (fun _ => false) fuel
        (home B hash t key) = some (keyRun B hash t key, none) ∧
      l = r ++ ((keyRun B hash t key).filter (hasKeyAt B t key)).map (valueAt B t) ∧
      b = !l.isEmpty := by
  have hN : 0 < numSlots B t := Nat.mul_pos hWF.num_blocks_pos hWF.block_size_pos
  rw [GetValue_eq_probe hash t key hWF.block_size_pos hWF.num_blocks_pos] at h
  cases hp : probe (numSlots B t) (home B hash t key) (occupiedAt B t) (fun _ => false)
      fuel (home B hash t key) with
  | none => rw [hp] at h; cases h
  | some x =>
    rw [hp] at h
    have hx := probe_sound hN (home_lt hash hWF key) hp
    have hrun : x = (keyRun B hash t key, none) := by
      rw [hx]
      simp [keyRun]
    subst hrun
    simp only [Option.map_some', Option.some.injEq, Prod.mk.injEq] at h
    refine ⟨rfl, h.1.symm, ?_⟩
    rw [← h.2, ← h.1]

theorem WF_removeAt {B : Nat} {t : LinearProbeHashTable K V} (hWF : WF B t) (q : Nat) :
    WF B (removeAt B t q) :=
  ⟨hWF.block_size_pos, hWF.num_blocks_pos, hWF.nodup⟩

/-- `GetValue` on the table with the slot `q` cleared passes the same slots and leaves out
the value of `q`. -/
theorem GetValue_removeAt [DecidableEq K] {B : Nat} (hash : K → Nat)
    {t : LinearProbeHashTable K V} (hWF : WF B t) {q : Nat} (hq : q < numSlots B t)
    (hocc : occupiedAt B t q = true) {key : K} {fuel : Nat} (r : List V)
    (hp : probe (numSlots B t) (home B hash t key) (occupiedAt B t) (fun _ => false) fuel
        (home B hash t key) = some (keyRun B hash t key, none)) :
    GetValue B hash fuel (removeAt B t q) key r
      = some (r ++ ((keyRun B hash t key).filter
            fun p => hasKeyAt B t key p && !decide (p = q)).map (valueAt B t),
          !(r ++ ((keyRun B hash t key).filter
            fun p => hasKeyAt B t key p && !decide (p = q)).map (valueAt B t)).isEmpty) := by
  have hN : 0 < numSlots B t := Nat.mul_pos hWF.num_blocks_pos hWF.block_size_pos
  rw [GetValue_eq_probe hash (removeAt B t q) key hWF.block_size_pos hWF.num_blocks_pos,
    numSlots_removeAt, home_removeAt, occupiedAt_removeAt, hp, valueAt_removeAt]
  have hfilter : (keyRun B hash t key).filter (hasKeyAt B (removeAt B t q) key)
      = (keyRun B hash t key).filter fun p => hasKeyAt B t key p && !decide (p = q) := by
    apply List.filter_congr
    intro p hpm
    have hpN := (mem_probeRun hN hpm).1
    simp only [hasKeyAt, keyAt_removeAt, readableAt_removeAt hWF hq hocc hpN, Bool.and_assoc]
  simp only [Option.map_some', hfilter]

end LinearProbeHashTable
namespace LinearProbeHashTable
variable {K V : Type}

/-- When the home slot of the key is not readable, `Insert` writes the pair there in its
first iteration. -/
theorem Insert_home_not_readable [DecidableEq K] [DecidableEq V] [Inhabited K] [Inhabited V]
    {B : Nat} (hash : K → Nat) (t : LinearProbeHashTable K V) (key : K) (value : V)
    (h : readableAt B t (home B hash t key) = false) (fuel : Nat) :
    Insert B hash (fuel + 1) t key value
      = some (t.setBlock (pageOf B t (home B hash t key))
          ((t.block_pages (pageOf B t (home B hash t key))).Insert
            (home B hash t key % B) key value).1, true) := by
  have h' : (t.block_pages (pageOf B t (home B hash t key))).IsReadable
      (home B hash t key % B) = false := h
  unfold Insert GetIndex
  simp only [InsertLoop]
  change (if ((t.block_pages (pageOf B t (home B hash t key))).Insert
      (home B hash t key % B) key value).2 = true then _ else _) = _
  rw [HashTableBlockPage.Insert_snd, h']
  rfl

theorem block_pages_setBlock (t : LinearProbeHashTable K V) (pg : page_id_t)
    (b : HashTableBlockPage K V) (pg' : page_id_t) :
    (t.setBlock pg b).block_pages pg' = if pg' = pg then b else t.block_pages pg' := by
  simp [setBlock, Function.update_apply]

theorem pageOf_setBlock (B : Nat) (t : LinearProbeHashTable K V) (pg : page_id_t)
    (b : HashTableBlockPage K V) (q : Nat) : pageOf B (t.setBlock pg b) q = pageOf B t q := rfl

/-- After `HashTableBlockPage::Insert` on the flat position `p`, which was not readable, the
position is readable and holds the pair, and every other position below the slot count holds
what it held. -/
theorem holdsAt_after_Insert [DecidableEq K] [DecidableEq V] {B : Nat}
    {t : LinearProbeHashTable K V} (hWF : WF B t) {p : Nat} (hp : p < numSlots B t)
    (hr : readableAt B t p = false) (key : K) (value : V) :
    holdsAt B (t.setBlock (pageOf B t p)
        ((t.block_pages (pageOf B t p)).Insert (p % B) key value).1) key value p = true ∧
    ∀ q, q < numSlots B t → q ≠ p → ∀ k v,
      holdsAt B (t.setBlock (pageOf B t p)
        ((t.block_pages (pageOf B t p)).Insert (p % B) key value).1) k v q
        = holdsAt B t k v q := by
  have hr' : (t.block_pages (pageOf B t p)).IsReadable (p % B) = false := hr
  constructor
  · simp only [holdsAt, readableAt, keyAt, valueAt, pageOf_setBlock, block_pages_setBlock,
      if_true, HashTableBlockPage.IsReadable_Insert _ _ _ _ _ hr', HashTableBlockPage.KeyAt,
      HashTableBlockPage.ValueAt, HashTableBlockPage.array_Insert _ _ _ _ _ hr']
    simp
  · intro q hq hqp k v
    simp only [holdsAt, readableAt, keyAt, valueAt, pageOf_setBlock, block_pages_setBlock]
    by_cases hpg : pageOf B t q = pageOf B t p
    · have hmod : q % B ≠ p % B := fun hm => hqp (slot_inj hWF hq hp hpg hm)
      simp only [if_pos hpg, HashTableBlockPage.IsReadable_Insert _ _ _ _ _ hr',
        HashTableBlockPage.KeyAt, HashTableBlockPage.ValueAt,
        HashTableBlockPage.array_Insert _ _ _ _ _ hr', if_neg hmod]
      simp [Ne.symm hmod, hpg]
    · simp only [if_neg hpg]

end LinearProbeHashTable

/-! ## Clock replacer and buffer pool: what every reachable state satisfies -/

namespace ClockReplacer

theorem Size_eq_zero_iff (r : ClockReplacer) :
    r.Size = 0 ↔ ∀ f, f < r.buffer_size → r.in_ f = false := by
  unfold Size
  rw [List.length_eq_zero, List.filter_eq_nil_iff]
  constructor
  · intro h f hf
    have := h f (List.mem_range.mpr hf)
    simpa using this
  · intro h f hf
    simp [h f (List.mem_range.mp hf)]

/-- `Victim` returns false only on a replacer without candidates, and then changes
nothing. -/
theorem Victim_none_inv : ∀ (fuel : Nat) (r r' : ClockReplacer),
    Victim fuel r = some (r', none) → r' = r ∧ r.Size = 0 := by
  intro fuel
  induction fuel with
  | zero =>
    intro r r' h
    rw [Victim] at h
    split at h
    · cases h
    · simp only [Option.some.injEq, Prod.mk.injEq, and_true] at h
      exact ⟨h.symm, by omega⟩
  | succ fuel ih =>
    intro r r' h
    rw [Victim] at h
    split at h
    · rename_i hpos
      simp only at h
      split at h
      · simp at h
      · split at h
        · have := (ih _ _ h).2
          simp only [Size] at this hpos
          omega
        · have := (ih _ _ h).2
          simp only [Size] at this hpos
          omega
    · simp only [Option.some.injEq, Prod.mk.injEq, and_true] at h
      exact ⟨h.symm, by omega⟩

/-- On a replacer without candidates `Victim` returns false at once. -/
theorem Victim_of_Size_zero (fuel : Nat) (r : ClockReplacer) (h : r.Size = 0) :
    Victim fuel r = some (r, none) := by
  cases fuel <;> simp [Victim, h]

/-- The frame `Victim` returns was a candidate; only its `in_` bit changes among the `in_`
bits, and the number of slots stays. -/
theorem Victim_some_inv : ∀ (fuel : Nat) (r r' : ClockReplacer) (f : frame_id_t),
    Victim fuel r = some (r', some f) →
      r.in_ f = true ∧ r'.in_ = Function.update r.in_ f false ∧
        r'.buffer_size = r.buffer_size := by
  intro fuel
  induction fuel with
  | zero =>
    intro r r' f h
    rw [Victim] at h
    split at h <;> simp at h
  | succ fuel ih =>
    intro r r' f h
    rw [Victim] at h
    split at h
    · simp only at h
      split at h
      · rename_i hv
        simp only [Option.some.injEq, Prod.mk.injEq] at h
        obtain ⟨h1, h2⟩ := h
        subst h1 h2
        exact ⟨hv.1, rfl, rfl⟩
      · split at h
        · have := ih _ r' f h
          exact this
        · have := ih _ r' f h
          exact this
    · simp at h

end ClockReplacer
namespace BufferPoolManager
variable {Data : Type}

theorem Inv_new [Zero Data] (pool_size : Nat) (disk_manager : DiskManager Data)
    (h : 0 ≤ disk_manager.next_page_id_) : Inv (BufferPoolManager.new pool_size disk_manager) where
  size := rfl
  next_nonneg := h
  in_pin := by intro f hf; simp [BufferPoolManager.new, ClockReplacer.new] at hf
  free_frame := by intro f _; exact ⟨rfl, rfl, rfl⟩
  free_nodup := List.nodup_range pool_size
  table_id := by intro q f hq; simp [BufferPoolManager.new] at hq
  table_range := by intro q f hq; simp [BufferPoolManager.new] at hq
  victim_table := by intro f hf; simp [BufferPoolManager.new, ClockReplacer.new] at hf

/-- A state that differs from one satisfying `Inv` only in frame bytes, in dirty flags that
were cleared, and in the bytes on disk, satisfies `Inv`. -/
theorem Inv_of_similar {s s' : BufferPoolManager Data} (hI : Inv s)
    (h1 : s'.pool_size_ = s.pool_size_) (h2 : s'.replacer_ = s.replacer_)
    (h3 : s'.free_list_ = s.free_list_) (h4 : s'.page_table_ = s.page_table_)
    (h5 : s'.disk_manager_.next_page_id_ = s.disk_manager_.next_page_id_)
    (h6 : ∀ f, (s'.pages_ f).pin_count_ = (s.pages_ f).pin_count_ ∧
      (s'.pages_ f).page_id_ = (s.pages_ f).page_id_ ∧
      ((s'.pages_ f).is_dirty_ = true → (s.pages_ f).is_dirty_ = true)) : Inv s' where
  size := by rw [h1, h2]; exact hI.size
  next_nonneg := by rw [h5]; exact hI.next_nonneg
  in_pin := by intro f hf; rw [h2] at hf; rw [(h6 f).1]; exact hI.in_pin f hf
  free_frame := by
    intro f hf
    rw [h3] at hf
    obtain ⟨a, b, c⟩ := hI.free_frame f hf
    refine ⟨by rw [(h6 f).1]; exact a, by rw [(h6 f).2.1]; exact b, ?_⟩
    cases hd : (s'.pages_ f).is_dirty_ with
    | false => rfl
    | true => rw [(h6 f).2.2 hd] at c; cases c
  free_nodup := by rw [h3]; exact hI.free_nodup
  table_id := by intro q f hq; rw [h4] at hq; rw [(h6 f).2.1]; exact hI.table_id q f hq
  table_range := by intro q f hq; rw [h4] at hq; rw [h5]; exact hI.table_range q f hq
  victim_table := by
    intro f hf hnf
    rw [h2] at hf; rw [h3] at hnf
    rw [h4, (h6 f).2.1]; exact hI.victim_table f hf hnf

/-- What `FlushPageImpl` leaves alone. -/
theorem FlushPageImpl_similar (s : BufferPoolManager Data) (page_id : page_id_t) :
    (s.FlushPageImpl page_id).1.pool_size_ = s.pool_size_ ∧
    (s.FlushPageImpl page_id).1.replacer_ = s.replacer_ ∧
    (s.FlushPageImpl page_id).1.free_list_ = s.free_list_ ∧
    (s.FlushPageImpl page_id).1.page_table_ = s.page_table_ ∧
    (s.FlushPageImpl page_id).1.disk_manager_.next_page_id_ = s.disk_manager_.next_page_id_ ∧
    ∀ f, ((s.FlushPageImpl page_id).1.pages_ f).pin_count_ = (s.pages_ f).pin_count_ ∧
      ((s.FlushPageImpl page_id).1.pages_ f).page_id_ = (s.pages_ f).page_id_ ∧
      ((s.FlushPageImpl page_id).1.pages_ f).data_ = (s.pages_ f).data_ ∧
      (((s.FlushPageImpl page_id).1.pages_ f).is_dirty_ = true → (s.pages_ f).is_dirty_ = true) := by
  unfold FlushPageImpl
  split
  · exact ⟨rfl, rfl, rfl, rfl, rfl, fun f => ⟨rfl, rfl, rfl, id⟩⟩
  · split
    · exact ⟨rfl, rfl, rfl, rfl, rfl, fun f => ⟨rfl, rfl, rfl, id⟩⟩
    · rename_i target _
      split
      · exact ⟨rfl, rfl, rfl, rfl, rfl, fun f => ⟨rfl, rfl, rfl, id⟩⟩
      · rename_i hd
        refine ⟨rfl, rfl, rfl, rfl, rfl, fun f => ?_⟩
        simp only [setPage, DiskManager.WritePage]
        by_cases hf : f = target
        · subst hf
          simp only [Function.update_same, true_and]
          intro h; cases h
        · simp only [Function.update_noteq hf, true_and]
          exact id

theorem Inv_FlushPageImpl {s : BufferPoolManager Data} (hI : Inv s) (page_id : page_id_t) :
    Inv (s.FlushPageImpl page_id).1 := by
  obtain ⟨h1, h2, h3, h4, h5, h6⟩ := FlushPageImpl_similar s page_id
  exact Inv_of_similar hI h1 h2 h3 h4 h5 (fun f => ⟨(h6 f).1, (h6 f).2.1, (h6 f).2.2.2⟩)

theorem Inv_flushFrames : ∀ (n i : Nat) {s : BufferPoolManager Data}, Inv s →
    Inv (flushFrames n i s) := by
  intro n
  induction n with
  | zero => intro i s hI; exact hI
  | succ n ih =>
    intro i s hI
    rw [flushFrames]
    apply ih
    split
    · exact Inv_FlushPageImpl hI _
    · exact hI

theorem Inv_writeData {s : BufferPoolManager Data} (hI : Inv s) (frame_id : frame_id_t)
    (data : Data) : Inv (writeData s frame_id data) := by
  refine @Inv_of_similar Data s (writeData s frame_id data) hI rfl rfl rfl rfl rfl ?_
  intro f
  simp only [writeData, setPage]
  by_cases hf : f = frame_id
  · subst hf; simp
  · simp [Function.update_noteq hf]

/-- A resident frame is not on the free list. -/
theorem not_mem_free_of_table {s : BufferPoolManager Data} (hI : Inv s) {q : page_id_t}
    {f : frame_id_t} (hq : s.page_table_ q = some f) : f ∉ s.free_list_ := by
  intro hf
  have h1 := hI.table_id q f hq
  have h2 := (hI.free_frame f hf).2.1
  have h3 := (hI.table_range q f hq).1
  rw [h1] at h2
  rw [h2] at h3
  exact absurd h3 (by decide)

theorem Inv_UnpinPageImpl {s : BufferPoolManager Data} (hI : Inv s) (page_id : page_id_t)
    (is_dirty : Bool) : Inv (s.UnpinPageImpl page_id is_dirty).1 := by
  unfold UnpinPageImpl
  split
  · exact hI
  · rename_i target htab
    split
    · exact hI
    · rename_i hpin
      have hnf := not_mem_free_of_table hI htab
      have hne : ∀ f, f ∈ s.free_list_ → f ≠ target := fun f hf h => hnf (h ▸ hf)
      simp only [setPage, Function.update_same, Function.update_idem]
      split
      · rename_i hz
        exact {
          size := hI.size
          next_nonneg := hI.next_nonneg
          in_pin := by
            intro f hf
            by_cases hft : f = target
            · subst hft; simpa using hz
            · simp only [ClockReplacer.Unpin, Function.update_noteq hft] at hf ⊢
              exact hI.in_pin f hf
          free_frame := by
            intro f hf
            simp only [Function.update_noteq (hne f hf)]
            exact hI.free_frame f hf
          free_nodup := hI.free_nodup
          table_id := by
            intro q f hq
            by_cases hft : f = target
            · subst hft; simp only [Function.update_same]; exact hI.table_id q f hq
            · simp only [Function.update_noteq hft]; exact hI.table_id q f hq
          table_range := hI.table_range
          victim_table := by
            intro f hf hfree
            by_cases hft : f = target
            · subst hft
              simp only [Function.update_same]
              rw [hI.table_id _ _ htab]; exact htab
            · simp only [ClockReplacer.Unpin, Function.update_noteq hft] at hf ⊢
              exact hI.victim_table f hf hfree }
      · rename_i hz
        exact {
          size := hI.size
          next_nonneg := hI.next_nonneg
          in_pin := by
            intro f hf
            by_cases hft : f = target
            · subst hft
              have := hI.in_pin f hf
              omega
            · simp only [Function.update_noteq hft]
              exact hI.in_pin f hf
          free_frame := by
            intro f hf
            simp only [Function.update_noteq (hne f hf)]
            exact hI.free_frame f hf
          free_nodup := hI.free_nodup
          table_id := by
            intro q f hq
            by_cases hft : f = target
            · subst hft; simp only [Function.update_same]; exact hI.table_id q f hq
            · simp only [Function.update_noteq hft]; exact hI.table_id q f hq
          table_range := hI.table_range
          victim_table := by
            intro f hf hfree
            by_cases hft : f = target
            · subst hft
              have := hI.in_pin f hf
              omega
            · simp only [Function.update_noteq hft]
              exact hI.victim_table f hf hfree }

end BufferPoolManager
namespace BufferPoolManager
variable {Data : Type}

/-- No page table entry is kept under the sentinel id. -/
theorem table_invalid {s : BufferPoolManager Data}
    (h : ∀ q f, s.page_table_ q = some f → 0 ≤ q ∧ q < s.disk_manager_.next_page_id_) :
    s.page_table_ INVALID_PAGE_ID = none := by
  cases hq : s.page_table_ INVALID_PAGE_ID with
  | none => rfl
  | some f => exact absurd (h _ _ hq).1 (by decide)

/-- The frame chosen for reuse leaves the pool `Ready`. -/
theorem Ready_pickFrame {s s1 : BufferPoolManager Data} (hI : Inv s) {fuel : Nat}
    {target : frame_id_t} (h : pickFrame fuel s = some (s1, some target)) :
    Ready s1 target ∧ s1.pages_ = s.pages_ ∧ s1.page_table_ = s.page_table_ ∧
      s1.disk_manager_ = s.disk_manager_ ∧ s1.pool_size_ = s.pool_size_ := by
  unfold pickFrame at h
  split at h
  · rename_i t rest hfl
    simp only [Option.some.injEq, Prod.mk.injEq] at h
    obtain ⟨h1, h2⟩ := h
    subst h1 h2
    have hnd := hI.free_nodup
    rw [hfl, List.nodup_cons] at hnd
    have hmem : ∀ f, f ∈ rest → f ∈ s.free_list_ := by
      intro f hf; rw [hfl]; exact List.mem_cons_of_mem _ hf
    have htf := hI.free_frame t (by rw [hfl]; exact List.mem_cons_self _ _)
    refine ⟨?_, rfl, rfl, rfl, rfl⟩
    exact {
      size := hI.size
      next_nonneg := hI.next_nonneg
      in_pin := fun f _ hf => hI.in_pin f hf
      free_frame := fun f hf => hI.free_frame f (hmem f hf)
      free_nodup := hnd.2
      not_free := hnd.1
      table_id := hI.table_id
      table_range := hI.table_range
      victim_table := by
        intro f hft hf hfree
        apply hI.victim_table f hf
        rw [hfl]
        intro hmem'
        rcases List.mem_cons.mp hmem' with h | h
        · exact hft h
        · exact hfree h
      own := by
        intro f hf
        change s.page_table_ (s.pages_ t).page_id_ = some f at hf
        rw [htf.2.1, table_invalid hI.table_range] at hf
        cases hf
      old_id := Or.inl htf.2.1
      unpinned := htf.1
      dirty_resident := by
        intro hd
        change (s.pages_ t).is_dirty_ = true at hd
        rw [htf.2.2] at hd; cases hd }
  · rename_i hfl
    split at h
    · cases h
    · rename_i r victim hv
      simp only [Option.some.injEq, Prod.mk.injEq] at h
      obtain ⟨h1, h2⟩ := h
      subst h1 h2
      obtain ⟨hin, hin', hsz⟩ := ClockReplacer.Victim_some_inv _ _ _ _ hv
      have hown := hI.victim_table target hin (by rw [hfl]; exact List.not_mem_nil _)
      refine ⟨?_, rfl, rfl, rfl, rfl⟩
      exact {
        size := by rw [← hI.size]; exact hsz
        next_nonneg := hI.next_nonneg
        in_pin := by
          intro f hft hf
          change r.in_ f = true at hf
          rw [hin', Function.update_noteq hft] at hf
          exact hI.in_pin f hf
        free_frame := hI.free_frame
        free_nodup := hI.free_nodup
        not_free := by
          change target ∉ s.free_list_
          rw [hfl]; exact List.not_mem_nil _
        table_id := hI.table_id
        table_range := hI.table_range
        victim_table := by
          intro f hft hf hfree
          change r.in_ f = true at hf
          rw [hin', Function.update_noteq hft] at hf
          exact hI.victim_table f hf hfree
        own := by
          intro f hf
          change s.page_table_ (s.pages_ target).page_id_ = some f at hf
          rw [hown] at hf
          exact (Option.some.inj hf).symm
        old_id := Or.inr hown
        unpinned := hI.in_pin target hin
        dirty_resident := fun _ => hown }

/-- When no frame is chosen the pool is unchanged, the free list is empty and the replacer
has no candidate. -/
theorem pickFrame_none_inv {s s1 : BufferPoolManager Data} {fuel : Nat}
    (h : pickFrame fuel s = some (s1, none)) :
    s1 = s ∧ s.free_list_ = [] ∧ s.replacer_.Size = 0 := by
  unfold pickFrame at h
  split at h
  · simp at h
  · rename_i hfl
    split at h
    · cases h
    · rename_i r victim hv
      simp only [Option.some.injEq, Prod.mk.injEq] at h
      obtain ⟨h1, h2⟩ := h
      subst h2
      obtain ⟨hr, hz⟩ := ClockReplacer.Victim_none_inv _ _ _ hv
      subst hr
      exact ⟨h1.symm, hfl, hz⟩

/-- The write-back of the chosen frame succeeds and keeps the pool `Ready`. -/
theorem Ready_flush {s : BufferPoolManager Data} {target : frame_id_t} (hR : Ready s target) :
    (if (s.pages_ target).is_dirty_ then s.FlushPageImpl (s.pages_ target).page_id_
      else (s, true)).2 = true ∧
    Ready (if (s.pages_ target).is_dirty_ then s.FlushPageImpl (s.pages_ target).page_id_
      else (s, true)).1 target := by
  by_cases hd : (s.pages_ target).is_dirty_ = true
  · rw [if_pos hd]
    have htab := hR.dirty_resident hd
    have hne : (s.pages_ target).page_id_ ≠ INVALID_PAGE_ID := by
      intro h
      rw [h, table_invalid hR.table_range] at htab
      cases htab
    obtain ⟨h1, h2, h3, h4, h5, h6⟩ := FlushPageImpl_similar s (s.pages_ target).page_id_
    constructor
    · unfold FlushPageImpl
      rw [if_neg hne, htab]
      simp [hd]
    · exact {
        size := by rw [h1, h2]; exact hR.size
        next_nonneg := by rw [h5]; exact hR.next_nonneg
        in_pin := by intro f hft hf; rw [h2] at hf; rw [(h6 f).1]; exact hR.in_pin f hft hf
        free_frame := by
          intro f hf
          rw [h3] at hf
          obtain ⟨a, b, c⟩ := hR.free_frame f hf
          refine ⟨by rw [(h6 f).1]; exact a, by rw [(h6 f).2.1]; exact b, ?_⟩
          cases hd' : ((s.FlushPageImpl (s.pages_ target).page_id_).1.pages_ f).is_dirty_ with
          | false => rfl
          | true => rw [(h6 f).2.2.2 hd'] at c; cases c
        free_nodup := by rw [h3]; exact hR.free_nodup
        not_free := by rw [h3]; exact hR.not_free
        table_id := by intro q f hq; rw [h4] at hq; rw [(h6 f).2.1]; exact hR.table_id q f hq
        table_range := by intro q f hq; rw [h4] at hq; rw [h5]; exact hR.table_range q f hq
        victim_table := by
          intro f hft hf hnf
          rw [h2] at hf; rw [h3] at hnf
          rw [h4, (h6 f).2.1]; exact hR.victim_table f hft hf hnf
        own := by intro f hf; rw [h4, (h6 target).2.1] at hf; exact hR.own f hf
        old_id := by rw [h4, (h6 target).2.1]; exact Or.inr htab
        unpinned := by rw [(h6 target).1]; exact hR.unpinned
        dirty_resident := by
          intro _
          rw [h4, (h6 target).2.1]; exact htab }
  · rw [if_neg hd]
    exact ⟨rfl, hR⟩

end BufferPoolManager
namespace BufferPoolManager
variable {Data : Type}

/-- Installing the page `p` in the chosen frame restores `Inv`: the old page of the frame is
erased from the page table, `p` entered, the frame pinned. -/
theorem Inv_install {s s' : BufferPoolManager Data} {target : frame_id_t} {p : page_id_t}
    (hR : Ready s target) (hp : s.page_table_ p = none)
    (hp0 : 0 ≤ p) (hp1 : p < s'.disk_manager_.next_page_id_)
    (hnext : s.disk_manager_.next_page_id_ ≤ s'.disk_manager_.next_page_id_)
    (hpool : s'.pool_size_ = s.pool_size_)
    (hrep : s'.replacer_ = s.replacer_.Pin target)
    (hfree : s'.free_list_ = s.free_list_)
    (htab : s'.page_table_ = Function.update
      (Function.update s.page_table_ (s.pages_ target).page_id_ none) p (some target))
    (hother : ∀ f, f ≠ target → s'.pages_ f = s.pages_ f)
    (hid : (s'.pages_ target).page_id_ = p) : Inv s' where
  size := by rw [hpool, hrep]; exact hR.size
  next_nonneg := le_trans hR.next_nonneg hnext
  in_pin := by
    intro f hf
    rw [hrep] at hf
    by_cases hft : f = target
    · subst hft; simp [ClockReplacer.Pin] at hf
    · simp only [ClockReplacer.Pin, Function.update_noteq hft] at hf
      rw [hother f hft]; exact hR.in_pin f hft hf
  free_frame := by
    intro f hf
    rw [hfree] at hf
    have hft : f ≠ target := fun h => hR.not_free (h ▸ hf)
    rw [hother f hft]; exact hR.free_frame f hf
  free_nodup := by rw [hfree]; exact hR.free_nodup
  table_id := by
    intro q f hq
    rw [htab] at hq
    by_cases hqp : q = p
    · subst hqp
      simp only [Function.update_same, Option.some.injEq] at hq
      subst hq; exact hid
    · rw [Function.update_noteq hqp] at hq
      by_cases hqo : q = (s.pages_ target).page_id_
      · subst hqo; simp at hq
      · rw [Function.update_noteq hqo] at hq
        have hft : f ≠ target := by
          intro h; subst h
          exact hqo (hR.table_id q f hq).symm
        rw [hother f hft]; exact hR.table_id q f hq
  table_range := by
    intro q f hq
    rw [htab] at hq
    by_cases hqp : q = p
    · subst hqp; exact ⟨hp0, hp1⟩
    · rw [Function.update_noteq hqp] at hq
      by_cases hqo : q = (s.pages_ target).page_id_
      · subst hqo; simp at hq
      · rw [Function.update_noteq hqo] at hq
        have := hR.table_range q f hq
        exact ⟨this.1, lt_of_lt_of_le this.2 hnext⟩
  victim_table := by
    intro f hf hnf
    rw [hrep] at hf
    rw [hfree] at hnf
    by_cases hft : f = target
    · subst hft; simp [ClockReplacer.Pin] at hf
    · simp only [ClockReplacer.Pin, Function.update_noteq hft] at hf
      have hv := hR.victim_table f hft hf hnf
      rw [hother f hft, htab]
      have h1 : (s.pages_ f).page_id_ ≠ p := by
        intro h; rw [h, hp] at hv; cases hv
      have h2 : (s.pages_ f).page_id_ ≠ (s.pages_ target).page_id_ := by
        intro h; rw [h] at hv; exact hft (hR.own f hv)
      rw [Function.update_noteq h1, Function.update_noteq h2]; exact hv

theorem Inv_FetchPageImpl {s s' : BufferPoolManager Data} (hI : Inv s) {fuel : Nat}
    {page_id : page_id_t} {r : Option frame_id_t} (hp0 : 0 ≤ page_id)
    (hp1 : page_id < s.disk_manager_.next_page_id_)
    (h : FetchPageImpl fuel s page_id = some (s', r)) : Inv s' := by
  unfold FetchPageImpl at h
  split at h
  · rename_i target htab
    simp only [Option.some.injEq, Prod.mk.injEq] at h
    obtain ⟨h1, _⟩ := h
    subst h1
    have hnf := not_mem_free_of_table hI htab
    exact {
      size := hI.size
      next_nonneg := hI.next_nonneg
      in_pin := by
        intro f hf
        by_cases hft : f = target
        · subst hft; simp [ClockReplacer.Pin, setPage] at hf
        · simp only [ClockReplacer.Pin, Function.update_noteq hft, setPage] at hf ⊢
          exact hI.in_pin f hf
      free_frame := by
        intro f hf
        have hft : f ≠ target := fun h => hnf (h ▸ hf)
        simp only [setPage, Function.update_noteq hft]
        exact hI.free_frame f hf
      free_nodup := hI.free_nodup
      table_id := by
        intro q f hq
        by_cases hft : f = target
        · subst hft; simp only [setPage, Function.update_same]; exact hI.table_id q f hq
        · simp only [setPage, Function.update_noteq hft]; exact hI.table_id q f hq
      table_range := hI.table_range
      victim_table := by
        intro f hf hfree
        by_cases hft : f = target
        · subst hft; simp [ClockReplacer.Pin, setPage] at hf
        · simp only [ClockReplacer.Pin, Function.update_noteq hft, setPage] at hf ⊢
          exact hI.victim_table f hf hfree }
  · rename_i hnon
    split at h
    · cases h
    · rename_i s1 hpick
      simp only [Option.some.injEq, Prod.mk.injEq] at h
      obtain ⟨h1, _⟩ := h
      subst h1
      rw [(pickFrame_none_inv hpick).1]
      exact hI
    · rename_i s1 target hpick
      obtain ⟨hR, hpages, htable, hdisk, hpool⟩ := Ready_pickFrame hI hpick
      obtain ⟨hok, hR2⟩ := Ready_flush hR
      simp only at h
      rw [hok] at h
      simp only [Bool.not_true, Bool.false_eq_true, if_false, Option.some.injEq,
        Prod.mk.injEq] at h
      obtain ⟨h1, _⟩ := h
      subst h1
      generalize hs2 : (if (s1.pages_ target).is_dirty_ = true then
        s1.FlushPageImpl (s1.pages_ target).page_id_ else (s1, true)).1 = s2 at hR2
      have hsim : s2.page_table_ = s1.page_table_ ∧
          s2.disk_manager_.next_page_id_ = s1.disk_manager_.next_page_id_ ∧
          (s2.pages_ target).page_id_ = (s1.pages_ target).page_id_ := by
        rw [← hs2]
        split
        · obtain ⟨_, _, _, h4, h5, h6⟩ := FlushPageImpl_similar s1 (s1.pages_ target).page_id_
          exact ⟨h4, h5, (h6 target).2.1⟩
        · exact ⟨rfl, rfl, rfl⟩
      have hp2 : s2.page_table_ page_id = none := by rw [hsim.1, htable]; exact hnon
      have hnext2 : s2.disk_manager_.next_page_id_ = s.disk_manager_.next_page_id_ := by
        rw [hsim.2.1, hdisk]
      refine Inv_install hR2 hp2 hp0 (by simp only [setPage]; rw [hnext2]; exact hp1)
        (le_refl _) rfl rfl rfl ?_ ?_ ?_
      · simp only [setPage, Function.update_same, hsim.2.2]
        have : (Function.update s2.page_table_ (s1.pages_ target).page_id_ none page_id).isSome
            = false := by
          by_cases hq : page_id = (s1.pages_ target).page_id_
          · rw [hq]; simp
          · rw [Function.update_noteq hq, hp2]; rfl
        simp [this]
      · intro f hft
        simp only [setPage, Function.update_noteq hft]
      · simp only [setPage, Function.update_same]

end BufferPoolManager
namespace BufferPoolManager
variable {Data : Type}

/-- The page id the disk manager hands out next is not resident. -/
theorem table_next_none {s : BufferPoolManager Data}
    (h : ∀ q f, s.page_table_ q = some f → 0 ≤ q ∧ q < s.disk_manager_.next_page_id_) :
    s.page_table_ s.disk_manager_.next_page_id_ = none := by
  cases hq : s.page_table_ s.disk_manager_.next_page_id_ with
  | none => rfl
  | some f => exact absurd (h _ _ hq).2 (lt_irrefl _)

/-- `installNewPage` after the erasure of the frame's old page restores `Inv`. -/
theorem Inv_installNewPage [Zero Data] {s : BufferPoolManager Data} {target : frame_id_t}
    (hR : Ready s target) :
    Inv ({ s with page_table_ :=
      Function.update s.page_table_ (s.pages_ target).page_id_ none }.installNewPage target).1 := by
  refine Inv_install hR (table_next_none hR.table_range) hR.next_nonneg ?_ ?_ rfl rfl rfl ?_ ?_ ?_
  · simp only [installNewPage, DiskManager.AllocatePage, setPage]
    exact Int.lt_succ_self _
  · simp only [installNewPage, DiskManager.AllocatePage, setPage]
    exact Int.le_of_lt (Int.lt_succ_self _)
  · simp only [installNewPage, DiskManager.AllocatePage, setPage]
  · intro f hft
    simp only [installNewPage, DiskManager.AllocatePage, setPage, Function.update_noteq hft]
  · simp only [installNewPage, DiskManager.AllocatePage, setPage, Function.update_same]

theorem Inv_NewPageImpl [Zero Data] {s s' : BufferPoolManager Data} (hI : Inv s) {fuel : Nat}
    {r : Option (frame_id_t × page_id_t)} (h : NewPageImpl fuel s = some (s', r)) :
    Inv s' := by
  unfold NewPageImpl at h
  split at h
  · rename_i free_frame rest hfl
    simp only [Option.some.injEq, Prod.mk.injEq] at h
    obtain ⟨h1, _⟩ := h
    subst h1
    have hpick : pickFrame 0 s = some ({ s with free_list_ := rest }, some free_frame) := by
      simp [pickFrame, hfl]
    obtain ⟨hR, _⟩ := Ready_pickFrame hI hpick
    have hfree := hI.free_frame free_frame (by rw [hfl]; exact List.mem_cons_self _ _)
    have := Inv_installNewPage hR
    have htab : Function.update s.page_table_ (s.pages_ free_frame).page_id_ none
        = s.page_table_ := by
      rw [hfree.2.1]
      have := table_invalid hI.table_range
      rw [← this]
      exact Function.update_eq_self _ _
    simp only [htab] at this
    exact this
  · rename_i hfl
    split at h
    · cases h
    · rename_i r0 hv
      simp only [Option.some.injEq, Prod.mk.injEq] at h
      obtain ⟨h1, _⟩ := h
      subst h1
      rw [(ClockReplacer.Victim_none_inv _ _ _ hv).1]
      exact hI
    · rename_i r0 victim hv
      have hpick : pickFrame fuel s = some ({ s with replacer_ := r0 }, some victim) := by
        simp [pickFrame, hfl, hv]
      obtain ⟨hR, _⟩ := Ready_pickFrame hI hpick
      obtain ⟨hok, hR2⟩ := Ready_flush hR
      simp only at h
      rw [hok] at h
      simp only [Bool.not_true, Bool.false_eq_true, if_false, Option.some.injEq,
        Prod.mk.injEq] at h
      obtain ⟨h1, _⟩ := h
      subst h1
      exact Inv_installNewPage hR2

theorem Inv_DeletePageImpl [Zero Data] {s : BufferPoolManager Data} (hI : Inv s)
    (page_id : page_id_t) : Inv (s.DeletePageImpl page_id).1 := by
  unfold DeletePageImpl
  split
  · exact hI
  · rename_i target htab
    split
    · exact hI
    · rename_i hpin
      have hpin0 : (s.pages_ target).pin_count_ = 0 := by
        by_contra h; exact hpin h
      have hnf := not_mem_free_of_table hI htab
      have hidt := hI.table_id _ _ htab
      simp only [setPage, Function.update_same, Function.update_idem]
      exact {
        size := hI.size
        next_nonneg := hI.next_nonneg
        in_pin := by
          intro f hf
          by_cases hft : f = target
          · subst hft; simp only [Function.update_same]; exact hpin0
          · simp only [Function.update_noteq hft]; exact hI.in_pin f hf
        free_frame := by
          intro f hf
          by_cases hft : f = target
          · subst hft; simp only [Function.update_same]; exact ⟨hpin0, trivial, trivial⟩
          · simp only [Function.update_noteq hft]
            rcases List.mem_append.mp hf with h | h
            · exact hI.free_frame f h
            · exact absurd (List.mem_singleton.mp h) hft
        free_nodup := by
          apply List.Nodup.append hI.free_nodup (List.nodup_singleton _)
          intro f hf hf'
          rw [List.mem_singleton] at hf'
          exact hnf (hf' ▸ hf)
        table_id := by
          intro q f hq
          by_cases hqp : q = page_id
          · subst hqp; simp at hq
          · simp only [Function.update_noteq hqp] at hq
            have hft : f ≠ target := by
              intro h; subst h
              exact hqp ((hI.table_id q f hq).symm.trans hidt)
            simp only [Function.update_noteq hft]
            exact hI.table_id q f hq
        table_range := by
          intro q f hq
          by_cases hqp : q = page_id
          · subst hqp; simp at hq
          · simp only [Function.update_noteq hqp] at hq
            exact hI.table_range q f hq
        victim_table := by
          intro f hf hfree
          have hft : f ≠ target := by
            intro h; apply hfree
            rw [h]; exact List.mem_append_right _ (List.mem_singleton_self _)
          have hfree' : f ∉ s.free_list_ := fun h => hfree (List.mem_append_left _ h)
          have hv := hI.victim_table f hf hfree'
          have hq : (s.pages_ f).page_id_ ≠ page_id := by
            intro h
            rw [h, htab] at hv
            exact hft (Option.some.inj hv).symm
          show Function.update s.page_table_ page_id none
            (Function.update s.pages_ target _ f).page_id_ = some f
          rw [Function.update_noteq hft, Function.update_noteq hq]
          exact hv }

/-- Every reachable pool state satisfies `Inv`. -/
theorem Reachable.inv [Zero Data] {s : BufferPoolManager Data} (h : Reachable s) : Inv s := by
  induction h with
  | init pool_size disk_manager h => exact Inv_new pool_size disk_manager h
  | fetch _ hp0 hp1 hf ih => exact Inv_FetchPageImpl ih hp0 hp1 hf
  | newPage _ hn ih => exact Inv_NewPageImpl ih hn
  | unpin page_id is_dirty _ ih => exact Inv_UnpinPageImpl ih page_id is_dirty
  | flush page_id _ ih => exact Inv_FlushPageImpl ih page_id
  | delete page_id _ ih => exact Inv_DeletePageImpl ih page_id
  | flushAll _ ih => exact Inv_flushFrames _ _ ih
  | write frame_id data _ _ ih => exact Inv_writeData ih frame_id data

end BufferPoolManager
/-! ## The constructor and `Resize` -/

namespace LinearProbeHashTable
variable {K V : Type}

/-- The ids `first, first + 1, ..., first + m - 1` are distinct. -/
theorem ids_nodup (first : Int) (m : Nat) :
    ((List.range m).map fun i : Nat => first + (i : Int)).Nodup := by
  apply List.Nodup.map_on _ (List.nodup_range m)
  intro x _ y _ h
  have h' : first + (x : Int) = first + (y : Int) := h
  omega

theorem in_range_succ (n p : page_id_t) (m : Nat) :
    (n ≤ p ∧ p < n + ((m + 1 : Nat) : Int)) ↔ (p = n ∨ (n + 1 ≤ p ∧ p < n + 1 + (m : Int))) := by
  simp only [page_id_t] at *; push_cast; omega

/-- What the allocation loop does: `m` fresh zero-filled pages, their ids appended to the
header page `id` in order. -/
theorem allocBlocks_spec [Inhabited K] [Inhabited V] (id : Int) :
    ∀ (m : Nat) (t : LinearProbeHashTable K V), id < (t.next_page_id_ : Int) →
      ((allocBlocks id m t).next_page_id_ : Int) = t.next_page_id_ + (m : Int) ∧
      (allocBlocks id m t).header_page_id_ = t.header_page_id_ ∧
      (allocBlocks id m t).header_pages id =
        { (t.header_pages id) with
          block_page_ids_ := (t.header_pages id).block_page_ids_ ++
            (List.range m).map fun i : Nat => (t.next_page_id_ : Int) + (i : Int) } ∧
      (∀ p : Int, (allocBlocks id m t).block_pages p =
        if (t.next_page_id_ : Int) ≤ p ∧ p < (t.next_page_id_ : Int) + (m : Int)
        then HashTableBlockPage.zero else t.block_pages p) := by
  intro m
  induction m with
  | zero =>
    intro t _
    refine ⟨by simp [allocBlocks], rfl, by simp [allocBlocks], ?_⟩
    intro p
    have : ¬((t.next_page_id_ : Int) ≤ p ∧ p < (t.next_page_id_ : Int) + ((0 : Nat) : Int)) := by
      simp only [page_id_t]; push_cast; omega
    rw [if_neg this]; rfl
  | succ m ih =>
    intro t hid
    rw [allocBlocks]
    simp only
    have hne : id ≠ (t.next_page_id_ : Int) := by simp only [page_id_t] at *; omega
    obtain ⟨h1, h2, h3, h4⟩ := ih
      ((t.NewPage).1.setHeader id
        (((t.NewPage).1.header_pages id).AddBlockPageId (t.NewPage).2))
      (by
        show id < (t.next_page_id_ : Int) + 1
        simp only [page_id_t] at *; omega)
    have hnext : (((t.NewPage).1.setHeader id
        (((t.NewPage).1.header_pages id).AddBlockPageId (t.NewPage).2)).next_page_id_ : Int)
        = (t.next_page_id_ : Int) + 1 := rfl
    rw [hnext] at h1 h3 h4
    refine ⟨?_, ?_, ?_, ?_⟩
    · rw [h1]; simp only [page_id_t]; push_cast; omega
    · rw [h2]; rfl
    · rw [h3]
      simp only [NewPage, setHeader, Function.update_same, HashTableHeaderPage.AddBlockPageId,
        Function.update_noteq hne, List.append_assoc, List.range_succ_eq_map, List.map_cons,
        List.map_map, List.singleton_append]
      congr 2
      congr 1
      · simp
      · apply List.map_congr_left
        intro i _
        simp only [Function.comp, page_id_t]
        push_cast
        omega
    · intro p
      rw [h4]
      simp only [in_range_succ]
      by_cases hp : p = (t.next_page_id_ : Int)
      · subst hp
        have h5 : ¬((t.next_page_id_ : Int) + 1 ≤ t.next_page_id_ ∧
            (t.next_page_id_ : Int) < t.next_page_id_ + 1 + (m : Int)) := by
          simp only [page_id_t]; omega
        rw [if_neg h5, if_pos (Or.inl rfl)]
        simp [NewPage, setHeader]
      · by_cases hr : (t.next_page_id_ : Int) + 1 ≤ p ∧ p < (t.next_page_id_ : Int) + 1 + (m : Int)
        · rw [if_pos hr, if_pos (Or.inr hr)]
        · rw [if_neg hr, if_neg (by tauto)]
          simp [NewPage, setHeader, Function.update_noteq hp]

end LinearProbeHashTable
namespace HashTableBlockPage
variable {K V : Type}

theorem IsOccupied_zero [Inhabited K] [Inhabited V] (u : Nat) :
    (zero : HashTableBlockPage K V).IsOccupied u = false := by
  simp [IsOccupied, zero]

theorem IsReadable_zero [Inhabited K] [Inhabited V] (u : Nat) :
    (zero : HashTableBlockPage K V).IsReadable u = false := by
  simp [IsReadable, zero]

end HashTableBlockPage

namespace LinearProbeHashTable
variable {K V : Type}

theorem getD_ids (first : Int) (m i : Nat) (hi : i < m) :
    ((List.range m).map fun j : Nat => first + (j : Int)).getD i 0 = first + (i : Int) := by
  rw [List.getD_eq_getElem _ _ (by simpa using hi)]
  simp

theorem construct_eq [Inhabited K] [Inhabited V] (B : Nat) (pool : LinearProbeHashTable K V)
    (m : Nat) : construct B pool m = withNewHeader B pool m := rfl

theorem ResizeWith_eq [Inhabited K] [Inhabited V] (B : Nat)
    (insert : LinearProbeHashTable K V → K → V → Option (LinearProbeHashTable K V × Bool))
    (t : LinearProbeHashTable K V) (initial_size : Nat) :
    ResizeWith B insert t initial_size
      = resizeBlocks B insert (withNewHeader B t (2 * initial_size / B)).next_page_id_
          (initial_size / B) 0 (withNewHeader B t (2 * initial_size / B)).NewPage.1 := rfl

theorem withNewHeader_spec [Inhabited K] [Inhabited V] (B : Nat)
    (t : LinearProbeHashTable K V) (m : Nat) :
    (withNewHeader B t m).header_page_id_ = t.next_page_id_ ∧
    (withNewHeader B t m).header
      = { page_id_ := t.next_page_id_, size_ := m * B,
          block_page_ids_ :=
            (List.range m).map fun i : Nat => (t.next_page_id_ : Int) + 1 + (i : Int) } ∧
    ((withNewHeader B t m).next_page_id_ : Int) = t.next_page_id_ + 1 + (m : Int) ∧
    (∀ p : Int, (withNewHeader B t m).block_pages p =
      if (t.next_page_id_ : Int) ≤ p ∧ p < (t.next_page_id_ : Int) + 1 + (m : Int)
      then HashTableBlockPage.zero else t.block_pages p) := by
  obtain ⟨h1, h2, h3, h4⟩ := allocBlocks_spec (K := K) (V := V) t.next_page_id_ m
    (({ (t.NewPage).1 with header_page_id_ := t.next_page_id_ }).setHeader t.next_page_id_
      ((((t.NewPage).1.header_pages t.next_page_id_).SetPageId t.next_page_id_).SetSize
        (m * B))) (by
      show (t.next_page_id_ : Int) < t.next_page_id_ + 1
      simp only [page_id_t]; omega)
  have hid : (withNewHeader B t m).header_page_id_ = t.next_page_id_ := h2
  refine ⟨hid, ?_, h1, ?_⟩
  · unfold header
    rw [hid]
    unfold withNewHeader
    rw [h3]
    simp [NewPage, setHeader, HashTableHeaderPage.SetPageId, HashTableHeaderPage.SetSize,
      HashTableHeaderPage.zero]
  · intro p
    unfold withNewHeader
    rw [h4 p]
    simp only [NewPage, setHeader]
    by_cases hp : p = t.next_page_id_
    · rw [hp]
      have a : ¬((t.next_page_id_ : Int) + 1 ≤ t.next_page_id_ ∧
          (t.next_page_id_ : Int) < t.next_page_id_ + 1 + (m : Int)) := by
        simp only [page_id_t]; omega
      have b : (t.next_page_id_ : Int) ≤ t.next_page_id_ ∧
          (t.next_page_id_ : Int) < t.next_page_id_ + 1 + (m : Int) := by
        simp only [page_id_t]; omega
      rw [if_neg a, if_pos b]
      simp
    · by_cases hr : (t.next_page_id_ : Int) + 1 ≤ p ∧ p < (t.next_page_id_ : Int) + 1 + (m : Int)
      · have b : (t.next_page_id_ : Int) ≤ p ∧ p < (t.next_page_id_ : Int) + 1 + (m : Int) := by
          simp only [page_id_t] at *; omega
        rw [if_pos hr, if_pos b]
      · have b : ¬((t.next_page_id_ : Int) ≤ p ∧ p < (t.next_page_id_ : Int) + 1 + (m : Int)) := by
          simp only [page_id_t] at *; omega
        rw [if_neg hr, if_neg b]
        simp [Function.update_noteq hp]

/-- The constructor builds a table the probe arithmetic makes sense on. -/
theorem WF_withNewHeader [Inhabited K] [Inhabited V] {B : Nat} (t : LinearProbeHashTable K V)
    {m : Nat} (hB : 0 < B) (hm : 0 < m) : WF B (withNewHeader B t m) := by
  obtain ⟨_, h2, _, _⟩ := withNewHeader_spec B t m
  refine ⟨hB, ?_, ?_⟩
  · rw [h2]; simpa [HashTableHeaderPage.NumBlocks] using hm
  · rw [h2]; exact ids_nodup _ m

end LinearProbeHashTable
namespace LinearProbeHashTable
variable {K V : Type}

/-- The walk over a block page without a readable bucket re-inserts nothing. -/
theorem resizeBuckets_unreadable
    (insert : LinearProbeHashTable K V → K → V → Option (LinearProbeHashTable K V × Bool))
    (block_page_id : page_id_t) (t : LinearProbeHashTable K V)
    (h : ∀ u, (t.block_pages block_page_id).IsReadable u = false) :
    ∀ n bucket_ind, resizeBuckets insert block_page_id n bucket_ind t = some t := by
  intro n
  induction n with
  | zero => intro _; rfl
  | succ n ih =>
    intro bucket_ind
    rw [resizeBuckets]
    simp only [h bucket_ind, Bool.false_eq_true, if_false]
    exact ih _

/-- When the page read as the old header is zero-filled, `Resize` reads page 0 for every
block index; if page 0 has no readable bucket the walk re-inserts nothing. -/
theorem resizeBlocks_zero_header (B : Nat)
    (insert : LinearProbeHashTable K V → K → V → Option (LinearProbeHashTable K V × Bool))
    (old_header_page_id : page_id_t) (t : LinearProbeHashTable K V)
    (hz : t.header_pages old_header_page_id = HashTableHeaderPage.zero)
    (h : ∀ u, (t.block_pages 0).IsReadable u = false) :
    ∀ n block_ind, resizeBlocks B insert old_header_page_id n block_ind t = some t := by
  intro n
  induction n with
  | zero => intro _; rfl
  | succ n ih =>
    intro block_ind
    rw [resizeBlocks]
    have h0 : (t.header_pages old_header_page_id).GetBlockPageId block_ind = 0 := by
      rw [hz]; simp [HashTableHeaderPage.GetBlockPageId, HashTableHeaderPage.zero]
    simp only [h0, resizeBuckets_unreadable insert 0 t h]
    exact ih _

/-- The state in which `Resize` starts its walk, as far as the new table goes. -/
theorem resizeStart_spec [Inhabited K] [Inhabited V] (B : Nat) (t : LinearProbeHashTable K V)
    (m : Nat) :
    (withNewHeader B t m).NewPage.1.header_pages (withNewHeader B t m).next_page_id_
      = HashTableHeaderPage.zero ∧
    (withNewHeader B t m).NewPage.1.header
      = { page_id_ := t.next_page_id_, size_ := m * B,
          block_page_ids_ :=
            (List.range m).map fun i : Nat => (t.next_page_id_ : Int) + 1 + (i : Int) } ∧
    (∀ i : Nat, i < m →
      (withNewHeader B t m).NewPage.1.block_pages ((t.next_page_id_ : Int) + 1 + (i : Int))
        = HashTableBlockPage.zero) ∧
    ((0 : Int) < t.next_page_id_ →
      (withNewHeader B t m).NewPage.1.block_pages 0 = t.block_pages 0) := by
  obtain ⟨h1, h2, h3, h4⟩ := withNewHeader_spec B t m
  have hne : (t.next_page_id_ : Int) ≠ (withNewHeader B t m).next_page_id_ := by
    rw [h3]; simp only [page_id_t]; omega
  refine ⟨by simp [NewPage], ?_, ?_, ?_⟩
  · rw [← h2]
    unfold header
    simp only [NewPage]
    rw [h1, Function.update_noteq hne]
  · intro i hi
    simp only [NewPage]
    have hne' : (t.next_page_id_ : Int) + 1 + (i : Int) ≠ (withNewHeader B t m).next_page_id_ := by
      rw [h3]; simp only [page_id_t]; omega
    rw [Function.update_noteq hne', h4]
    have : (t.next_page_id_ : Int) ≤ t.next_page_id_ + 1 + (i : Int) ∧
        (t.next_page_id_ : Int) + 1 + (i : Int) < t.next_page_id_ + 1 + (m : Int) := by
      simp only [page_id_t]; omega
    rw [if_pos this]
  · intro hpos
    simp only [NewPage]
    have hne' : (0 : Int) ≠ (withNewHeader B t m).next_page_id_ := by
      rw [h3]; simp only [page_id_t] at *; omega
    rw [Function.update_noteq hne', h4]
    have : ¬((t.next_page_id_ : Int) ≤ 0 ∧ (0 : Int) < t.next_page_id_ + 1 + (m : Int)) := by
      simp only [page_id_t] at *; omega
    rw [if_neg this]

/-- `GetValue` on a table whose header lists `m` block pages that are all zero-filled finds
nothing, whatever the key. -/
theorem GetValue_of_zero_blocks [DecidableEq K] [Inhabited K] [Inhabited V] {B : Nat}
    (hash : K → Nat) (t : LinearProbeHashTable K V) (first : Int) (m : Nat)
    (hB : 0 < B) (hm : 0 < m)
    (hids : t.header.block_page_ids_ = (List.range m).map fun i : Nat => first + (i : Int))
    (hzero : ∀ i : Nat, i < m → t.block_pages (first + (i : Int)) = HashTableBlockPage.zero)
    (key : K) (fuel : Nat) (result : List V) :
    GetValue B hash (fuel + 1) t key result = some (result, !result.isEmpty) := by
  have hn : t.header.NumBlocks = m := by simp [HashTableHeaderPage.NumBlocks, hids]
  have hidx : hash key % (m * B) / B < m := by
    rw [Nat.div_lt_iff_lt_mul hB]
    exact Nat.mod_lt _ (Nat.mul_pos hm hB)
  unfold GetValue GetIndex
  simp only [hn, GetValueLoop]
  have hpage : t.header.GetBlockPageId (hash key % (m * B) / B)
      = first + ((hash key % (m * B) / B : Nat) : Int) := by
    unfold HashTableHeaderPage.GetBlockPageId
    rw [hids]
    exact getD_ids first m _ hidx
  rw [hpage, hzero _ hidx]
  simp [HashTableBlockPage.IsOccupied_zero]

end LinearProbeHashTable

namespace LinearProbeHashTable
variable {K V : Type}

theorem resizeBuckets_preserves (P : LinearProbeHashTable K V → Prop)
    (insert : LinearProbeHashTable K V → K → V → Option (LinearProbeHashTable K V × Bool))
    (hins : ∀ t k v t' b, P t → insert t k v = some (t', b) → P t')
    (block_page_id : page_id_t) :
    ∀ n bucket_ind t t', P t → resizeBuckets insert block_page_id n bucket_ind t = some t' →
      P t' := by
  intro n
  induction n with
  | zero =>
    intro _ t t' hP h
    simp only [resizeBuckets, Option.some.injEq] at h
    exact h ▸ hP
  | succ n ih =>
    intro bucket_ind t t' hP h
    rw [resizeBuckets] at h
    split at h
    · split at h
      · cases h
      · rename_i t1 b1 hi
        exact ih _ _ _ (hins _ _ _ _ _ hP hi) h
    · exact ih _ _ _ hP h

theorem resizeBlocks_preserves (B : Nat) (P : LinearProbeHashTable K V → Prop)
    (insert : LinearProbeHashTable K V → K → V → Option (LinearProbeHashTable K V × Bool))
    (hins : ∀ t k v t' b, P t → insert t k v = some (t', b) → P t')
    (old_header_page_id : page_id_t) :
    ∀ n block_ind t t', P t →
      resizeBlocks B insert old_header_page_id n block_ind t = some t' → P t' := by
  intro n
  induction n with
  | zero =>
    intro _ t t' hP h
    simp only [resizeBlocks, Option.some.injEq] at h
    exact h ▸ hP
  | succ n ih =>
    intro block_ind t t' hP h
    rw [resizeBlocks] at h
    split at h
    · cases h
    · rename_i t1 hb
      exact ih _ _ _ (resizeBuckets_preserves P insert hins _ _ _ _ _ hP hb) h

/-- The state in which `Resize` starts its walk is a table the probe arithmetic makes sense
on. -/
theorem WF_resizeStart [Inhabited K] [Inhabited V] {B : Nat} (t : LinearProbeHashTable K V)
    {m : Nat} (hB : 0 < B) (hm : 0 < m) : WF B (withNewHeader B t m).NewPage.1 := by
  obtain ⟨_, h2, _, _⟩ := resizeStart_spec B t m
  refine ⟨hB, ?_, ?_⟩
  · rw [h2]; simpa [HashTableHeaderPage.NumBlocks] using hm
  · rw [h2]; exact ids_nodup _ m

theorem WF_setBlock {B : Nat} {t : LinearProbeHashTable K V} (hWF : WF B t) (pg : page_id_t)
    (b : HashTableBlockPage K V) : WF B (t.setBlock pg b) :=
  ⟨hWF.block_size_pos, hWF.num_blocks_pos, hWF.nodup⟩

/-- `Insert` keeps the table one the probe arithmetic makes sense on, also when it resizes. -/
theorem InsertLoop_WF [DecidableEq K] [DecidableEq V] [Inhabited K] [Inhabited V] {B : Nat}
    (hash : K → Nat) :
    ∀ (fuel : Nat) (key : K) (value : V) (t : LinearProbeHashTable K V)
      (index block_ind bucket_ind : Nat) (block_page_id : page_id_t)
      (t' : LinearProbeHashTable K V) (b : Bool), WF B t →
      InsertLoop B hash key value fuel t index block_ind bucket_ind block_page_id
        = some (t', b) → WF B t' := by
  intro fuel
  induction fuel with
  | zero => intro _ _ _ _ _ _ _ _ _ _ h; simp [InsertLoop] at h
  | succ fuel ih =>
    intro key value t index block_ind bucket_ind block_page_id t' b hWF h
    rw [InsertLoop] at h
    simp only at h
    split at h
    · simp only [Option.some.injEq, Prod.mk.injEq] at h
      rw [← h.1]; exact WF_setBlock hWF _ _
    · split at h
      · simp only [Option.some.injEq, Prod.mk.injEq] at h
        rw [← h.1]; exact hWF
      · split at h
        · split at h
          · cases h
          · rename_i t_r hres
            rw [ResizeWith_eq] at hres
            have hm : 0 < 2 * (t.header.NumBlocks * B) / B := by
              rw [← Nat.mul_assoc, Nat.mul_div_cancel _ hWF.block_size_pos]
              have := hWF.num_blocks_pos
              omega
            have hWFr : WF B t_r :=
              resizeBlocks_preserves B (WF B) _
                (fun t1 k v t2 b2 h1 h2 => ih k v t1 _ _ _ _ t2 b2 h1 h2)
                _ _ _ _ _ (WF_resizeStart t hWF.block_size_pos hm) hres
            exact ih _ _ _ _ _ _ _ _ _ hWFr h
        · exact ih _ _ _ _ _ _ _ _ _ hWF h

theorem Insert_WF [DecidableEq K] [DecidableEq V] [Inhabited K] [Inhabited V] {B : Nat}
    (hash : K → Nat) {fuel : Nat} {t t' : LinearProbeHashTable K V} {key : K} {value : V}
    {b : Bool} (hWF : WF B t) (h : Insert B hash fuel t key value = some (t', b)) :
    WF B t' :=
  InsertLoop_WF hash fuel key value t _ _ _ _ t' b hWF h

theorem Remove_WF [DecidableEq K] [DecidableEq V] {B : Nat} (hash : K → Nat) {fuel : Nat}
    {t t' : LinearProbeHashTable K V} {key : K} {value : V} {b : Bool} (hWF : WF B t)
    (h : Remove B hash fuel t key value = some (t', b)) : WF B t' := by
  cases b with
  | true =>
    obtain ⟨q, _, ht'⟩ := Remove_true_inv hash hWF h
    rw [ht']; exact WF_removeAt hWF q
  | false => rw [Remove_false_inv hash hWF h]; exact hWF

/-- Every table reached from the constructor (with at least one block of at least one slot)
by completed `Insert` and `Remove` calls is one the probe arithmetic makes sense on. -/
theorem WF_applyOps [DecidableEq K] [DecidableEq V] [Inhabited K] [Inhabited V] {B : Nat}
    (hash : K → Nat) (fuel : Nat) :
    ∀ (ops : List (Op K V)) (t t' : LinearProbeHashTable K V) (flags : List Bool), WF B t →
      applyOps B hash fuel ops t = some (t', flags) → WF B t' := by
  intro ops
  induction ops with
  | nil =>
    intro t t' flags hWF h
    simp only [applyOps, Option.some.injEq, Prod.mk.injEq] at h
    rw [← h.1]; exact hWF
  | cons op ops ih =>
    intro t t' flags hWF h
    simp only [applyOps] at h
    split at h
    · cases h
    · rename_i t1 flag hop
      split at h
      · cases h
      · rename_i t2 flags2 hrest
        simp only [Option.some.injEq, Prod.mk.injEq] at h
        rw [← h.1]
        have hWF1 : WF B t1 := by
          cases op with
          | insert key value => exact Insert_WF hash hWF hop
          | remove key value => exact Remove_WF hash hWF hop
        exact ih t1 t2 flags2 hWF1 hrest

theorem WF_construct [Inhabited K] [Inhabited V] {B : Nat} (pool : LinearProbeHashTable K V)
    {num_buckets : Nat} (hB : 0 < B) (hm : 0 < num_buckets) :
    WF B (construct B pool num_buckets) := by
  rw [construct_eq]; exact WF_withNewHeader pool hB hm

end LinearProbeHashTable
namespace LinearProbeHashTable
variable {K V : Type}

/-- On a table whose slots are all readable and do not hold the pair, the loop of `Insert`
walks from offset `j` of its turn to the last slot of the turn without changing anything. -/
theorem InsertLoop_full_walk [DecidableEq K] [DecidableEq V] [Inhabited K] [Inhabited V]
    {B : Nat} (hash : K → Nat) (t : LinearProbeHashTable K V) (key : K) (value : V)
    (hB : 0 < B) {index : Nat} (hi : index < numSlots B t)
    (hfull : ∀ p, p < numSlots B t → readableAt B t p = true)
    (hnew : ∀ p, p < numSlots B t → ¬(key = keyAt B t p ∧ value = valueAt B t p)) :
    ∀ (k j fuel : Nat), j + k + 1 = numSlots B t →
      InsertLoop B hash key value (fuel + k) t index (((index + j) % numSlots B t) / B)
          (((index + j) % numSlots B t) % B) (pageOf B t ((index + j) % numSlots B t))
        = InsertLoop B hash key value fuel t index
            (((index + (j + k)) % numSlots B t) / B) (((index + (j + k)) % numSlots B t) % B)
            (pageOf B t ((index + (j + k)) % numSlots B t)) := by
  intro k
  induction k with
  | zero => intro j fuel _; rfl
  | succ k ih =>
    intro j fuel hjk
    have hN : 0 < numSlots B t := by omega
    have hp : (index + j) % numSlots B t < numSlots B t := Nat.mod_lt _ hN
    have hr : (t.block_pages (pageOf B t ((index + j) % numSlots B t))).IsReadable
        ((index + j) % numSlots B t % B) = true := hfull _ hp
    have hk : ¬(key = (t.block_pages (pageOf B t ((index + j) % numSlots B t))).KeyAt
          ((index + j) % numSlots B t % B) ∧
        value = (t.block_pages (pageOf B t ((index + j) % numSlots B t))).ValueAt
          ((index + j) % numSlots B t % B)) := hnew _ hp
    have hw : ¬((index + j) % numSlots B t + 1 = index) := by
      intro h
      have := last_of_wrap hi (by omega : j < numSlots B t) h
      omega
    have hfuel : fuel + (k + 1) = (fuel + k) + 1 := by omega
    rw [hfuel, InsertLoop]
    simp only [HashTableBlockPage.Insert, hr, if_true, Bool.false_eq_true, if_false, hk,
      flat_pos, hw, nextBlock_flat t hB hp, succ_pos_mod]
    have := ih (j + 1) fuel (by omega)
    rw [this]
    have e : j + 1 + k = j + (k + 1) := by omega
    rw [e]

end LinearProbeHashTable
namespace LinearProbeHashTable
variable {K V : Type}

/-- In a pool where page 0 exists and has no readable bucket, `Resize` returns the new,
empty table: whatever `Insert` it is given, it never calls it. -/
theorem ResizeWith_of_unreadable_page_zero [Inhabited K] [Inhabited V] {B : Nat}
    (insert : LinearProbeHashTable K V → K → V → Option (LinearProbeHashTable K V × Bool))
    (t : LinearProbeHashTable K V) (hB : 0 < B) (hnext : (0 : Int) < t.next_page_id_)
    (hpage0 : ∀ u, (t.block_pages 0).IsReadable u = false) :
    ResizeWith B insert t (t.header.NumBlocks * B)
      = some (withNewHeader B t (2 * t.header.NumBlocks)).NewPage.1 := by
  have hm : 2 * (t.header.NumBlocks * B) / B = 2 * t.header.NumBlocks := by
    rw [← Nat.mul_assoc, Nat.mul_div_cancel _ hB]
  obtain ⟨hz, _, _, hp0⟩ := resizeStart_spec B t (2 * t.header.NumBlocks)
  rw [ResizeWith_eq, hm]
  apply resizeBlocks_zero_header _ _ _ _ hz
  rw [hp0 hnext]
  exact hpage0

/-- The slots of the new table `Resize` builds are those of zero-filled pages. -/
theorem resizeStart_slots [Inhabited K] [Inhabited V] {B : Nat} (t : LinearProbeHashTable K V)
    (m : Nat) (hB : 0 < B) :
    numSlots B (withNewHeader B t m).NewPage.1 = m * B ∧
    ∀ p, p < m * B →
      (withNewHeader B t m).NewPage.1.block_pages
        (pageOf B (withNewHeader B t m).NewPage.1 p) = HashTableBlockPage.zero := by
  obtain ⟨_, hhdr, hblocks, _⟩ := resizeStart_spec B t m
  constructor
  · unfold numSlots; rw [hhdr]; simp [HashTableHeaderPage.NumBlocks]
  · intro p hp
    have hd : p / B < m := by rw [Nat.div_lt_iff_lt_mul hB]; exact hp
    unfold pageOf HashTableHeaderPage.GetBlockPageId
    rw [hhdr]
    simp only
    rw [getD_ids _ m _ hd]
    exact hblocks _ hd

theorem nextBlock_of_lt {B : Nat} (hdr : HashTableHeaderPage) (block_ind bucket_ind : Nat)
    (block_page_id : page_id_t) (h : bucket_ind < B) :
    nextBlock B hdr block_ind bucket_ind block_page_id
      = (block_ind, bucket_ind, block_page_id) := by
  unfold nextBlock
  rw [if_neg (by omega)]

/-- `Insert` of a new pair into a full table, the key's home slot not being slot 0, in a
pool where page 0 exists and has no readable bucket: after one full turn it resizes and
writes the pair into its home slot of the new, otherwise empty table. -/
theorem Insert_full_table [DecidableEq K] [DecidableEq V] [Inhabited K] [Inhabited V]
    {B : Nat} (hash : K → Nat) (t : LinearProbeHashTable K V) (key : K) (value : V)
    (hWF : WF B t)
    (hfull : ∀ p, p < numSlots B t → readableAt B t p = true)
    (hnew : ∀ p, p < numSlots B t → ¬(key = keyAt B t p ∧ value = valueAt B t p))
    (hhome : home B hash t key ≠ 0)
    (hnext : (0 : Int) < t.next_page_id_)
    (hpage0 : ∀ u, (t.block_pages 0).IsReadable u = false) (fuel : Nat) :
    Insert B hash (fuel + 1 + numSlots B t) t key value
      = some ((withNewHeader B t (2 * t.header.NumBlocks)).NewPage.1.setBlock
          (pageOf B (withNewHeader B t (2 * t.header.NumBlocks)).NewPage.1
            (home B hash (withNewHeader B t (2 * t.header.NumBlocks)).NewPage.1 key))
          ((HashTableBlockPage.zero : HashTableBlockPage K V).Insert
            (home B hash (withNewHeader B t (2 * t.header.NumBlocks)).NewPage.1 key % B)
            key value).1, true) := by
  have hB := hWF.block_size_pos
  have hN : 0 < numSlots B t := Nat.mul_pos hWF.num_blocks_pos hB
  have hi : home B hash t key < numSlots B t := Nat.mod_lt _ hN
  obtain ⟨k, hk⟩ : ∃ k, k + 1 = numSlots B t := ⟨numSlots B t - 1, by omega⟩
  have hwalk := InsertLoop_full_walk hash t key value hB hi hfull hnew k 0 (fuel + 2)
    (by omega)
  have hfuel : fuel + 1 + numSlots B t = fuel + 2 + k := by omega
  have hstart : Insert B hash (fuel + 1 + numSlots B t) t key value
      = InsertLoop B hash key value (fuel + 2 + k) t (home B hash t key)
          (((home B hash t key + 0) % numSlots B t) / B)
          (((home B hash t key + 0) % numSlots B t) % B)
          (pageOf B t ((home B hash t key + 0) % numSlots B t)) := by
    simp only [Nat.add_zero, Nat.mod_eq_of_lt hi, hfuel]
    rfl
  rw [hstart, hwalk, Nat.zero_add]
  -- the last slot of the turn
  have hp : (home B hash t key + k) % numSlots B t < numSlots B t := Nat.mod_lt _ hN
  have hr : (t.block_pages (pageOf B t ((home B hash t key + k) % numSlots B t))).IsReadable
      ((home B hash t key + k) % numSlots B t % B) = true := hfull _ hp
  have hkey : ¬(key = (t.block_pages
        (pageOf B t ((home B hash t key + k) % numSlots B t))).KeyAt
          ((home B hash t key + k) % numSlots B t % B) ∧
      value = (t.block_pages (pageOf B t ((home B hash t key + k) % numSlots B t))).ValueAt
          ((home B hash t key + k) % numSlots B t % B)) := hnew _ hp
  have hw : (home B hash t key + k) % numSlots B t + 1 = home B hash t key :=
    wrap_of_last hi hhome hk
  have hres := ResizeWith_of_unreadable_page_zero (B := B)
    (fun t' key' value' =>
      InsertLoop B hash key' value' (fuel + 1) t'
        (GetIndex B hash key' t'.header.NumBlocks).1
        (GetIndex B hash key' t'.header.NumBlocks).2.1
        (GetIndex B hash key' t'.header.NumBlocks).2.2
        (t'.header.GetBlockPageId (GetIndex B hash key' t'.header.NumBlocks).2.1))
    t hB hnext hpage0
  obtain ⟨hslots, hzero⟩ := resizeStart_slots t (2 * t.header.NumBlocks) hB
  have hN' : 0 < numSlots B (withNewHeader B t (2 * t.header.NumBlocks)).NewPage.1 := by
    rw [hslots]
    have := hWF.num_blocks_pos
    exact Nat.mul_pos (by omega) hB
  have hh' : home B hash (withNewHeader B t (2 * t.header.NumBlocks)).NewPage.1 key
      < 2 * t.header.NumBlocks * B := by
    rw [← hslots]; exact Nat.mod_lt _ hN'
  have hnr : readableAt B (withNewHeader B t (2 * t.header.NumBlocks)).NewPage.1
      (home B hash (withNewHeader B t (2 * t.header.NumBlocks)).NewPage.1 key) = false := by
    unfold readableAt
    rw [hzero _ hh']
    exact HashTableBlockPage.IsReadable_zero _
  have hins := Insert_home_not_readable hash
    (withNewHeader B t (2 * t.header.NumBlocks)).NewPage.1 key value hnr fuel
  rw [hzero _ hh'] at hins
  rw [← hins]
  have hfuel2 : fuel + 2 = (fuel + 1) + 1 := rfl
  rw [hfuel2, InsertLoop]
  simp only [HashTableBlockPage.Insert, hr, if_true, Bool.false_eq_true, if_false, hkey,
    flat_pos, hw]
  simp only [hres]
  unfold Insert GetIndex
  simp only
  rw [nextBlock_of_lt _ _ _ _ (Nat.mod_lt _ hB)]

end LinearProbeHashTable
namespace LinearProbeHashTable
variable {K V : Type}

theorem occupiedAt_after_Insert {B : Nat} {t : LinearProbeHashTable K V} (hWF : WF B t)
    {p : Nat} (hp : p < numSlots B t) (hr : readableAt B t p = false) (key : K) (value : V)
    {q : Nat} (hq : q < numSlots B t) (hqp : q ≠ p) :
    occupiedAt B (t.setBlock (pageOf B t p)
        ((t.block_pages (pageOf B t p)).Insert (p % B) key value).1) q = occupiedAt B t q := by
  have hr' : (t.block_pages (pageOf B t p)).IsReadable (p % B) = false := hr
  simp only [occupiedAt, pageOf_setBlock, block_pages_setBlock]
  by_cases hpg : pageOf B t q = pageOf B t p
  · have hmod : q % B ≠ p % B := fun hm => hqp (slot_inj hWF hq hp hpg hm)
    simp only [if_pos hpg, HashTableBlockPage.IsOccupied_Insert _ _ _ _ _ hr']
    simp [Ne.symm hmod, hpg]
  · simp only [if_neg hpg]

/-- In a table whose only readable slot holds another key, and which has a free slot,
`GetValue` finds nothing. -/
theorem GetValue_single_pair [DecidableEq K] [DecidableEq V] {B : Nat} (hash : K → Nat)
    {t : LinearProbeHashTable K V} (hWF : WF B t) {p : Nat} (hp : p < numSlots B t)
    (hr : readableAt B t p = false) (key : K) (value : V)
    (hempty : ∀ q, q < numSlots B t → readableAt B t q = false ∧ occupiedAt B t q = false)
    (htwo : 2 ≤ numSlots B t) (k0 : K) (hk0 : k0 ≠ key) {fuel : Nat}
    (hfuel : numSlots B t ≤ fuel) :
    GetValue B hash fuel (t.setBlock (pageOf B t p)
        ((t.block_pages (pageOf B t p)).Insert (p % B) key value).1) k0 []
      = some ([], false) := by
  have hWF' := WF_setBlock hWF (pageOf B t p)
    ((t.block_pages (pageOf B t p)).Insert (p % B) key value).1
  have hN : 0 < numSlots B t := by omega
  obtain ⟨hself, hother⟩ := holdsAt_after_Insert hWF hp hr key value
  rw [GetValue_eq_probe hash _ k0 hWF'.block_size_pos hWF'.num_blocks_pos]
  -- a free slot other than p
  obtain ⟨q, hq, hqp⟩ : ∃ q, q < numSlots B t ∧ q ≠ p := by
    by_cases h0 : p = 0
    · exact ⟨1, by omega, by omega⟩
    · exact ⟨0, by omega, fun h => h0 h.symm⟩
  have hqfree := occupiedAt_after_Insert hWF hp hr key value hq hqp
  rw [(hempty q hq).2] at hqfree
  have hterm := @probe_terminates
    (numSlots B (t.setBlock (pageOf B t p)
      ((t.block_pages (pageOf B t p)).Insert (p % B) key value).1))
    (home B hash (t.setBlock (pageOf B t p)
      ((t.block_pages (pageOf B t p)).Insert (p % B) key value).1) k0)
    (occupiedAt B (t.setBlock (pageOf B t p)
      ((t.block_pages (pageOf B t p)).Insert (p % B) key value).1))
    (fun _ => false) (home_lt hash hWF' k0) (Or.inr ⟨q, hq, Or.inl hqfree⟩) fuel hfuel
  cases hpr : probe (numSlots B (t.setBlock (pageOf B t p)
      ((t.block_pages (pageOf B t p)).Insert (p % B) key value).1))
    (home B hash (t.setBlock (pageOf B t p)
      ((t.block_pages (pageOf B t p)).Insert (p % B) key value).1) k0)
    (occupiedAt B (t.setBlock (pageOf B t p)
      ((t.block_pages (pageOf B t p)).Insert (p % B) key value).1))
    (fun _ => false) fuel
    (home B hash (t.setBlock (pageOf B t p)
      ((t.block_pages (pageOf B t p)).Insert (p % B) key value).1) k0) with
  | none => rw [hpr] at hterm; cases hterm
  | some x =>
    have hx := probe_sound hN (home_lt hash hWF' k0) hpr
    have hnone : x.1.filter (hasKeyAt B (t.setBlock (pageOf B t p)
        ((t.block_pages (pageOf B t p)).Insert (p % B) key value).1) k0) = [] := by
      rw [List.filter_eq_nil_iff]
      intro a ha hka
      rw [hx] at ha
      have haN : a < numSlots B t :=
        (mem_probeRun hN ((List.takeWhile_sublist _).subset ha)).1
      simp only [hasKeyAt, Bool.and_eq_true, decide_eq_true_eq] at hka
      by_cases hap : a = p
      · subst hap
        simp only [holdsAt, Bool.and_eq_true, decide_eq_true_eq] at hself
        exact hk0 (hka.1.trans hself.1.2.symm)
      · have h1 := hother a haN hap k0
          (valueAt B (t.setBlock (pageOf B t p)
            ((t.block_pages (pageOf B t p)).Insert (p % B) key value).1) a)
        have h2 : holdsAt B (t.setBlock (pageOf B t p)
            ((t.block_pages (pageOf B t p)).Insert (p % B) key value).1) k0
            (valueAt B (t.setBlock (pageOf B t p)
              ((t.block_pages (pageOf B t p)).Insert (p % B) key value).1) a) a = true := by
          simp [holdsAt, hka.1, hka.2]
        rw [h1] at h2
        simp [holdsAt, (hempty a haN).1] at h2
    simp [hnone]

end LinearProbeHashTable

/-! ## Clock replacer: what `Victim` chooses -/

namespace ClockReplacer

theorem pass_in (r : ClockReplacer) : r.pass.in_ = r.in_ := rfl
theorem pass_buffer_size (r : ClockReplacer) : r.pass.buffer_size = r.buffer_size := rfl

/-- One iteration of `Victim`. -/
theorem Victim_succ (fuel : Nat) (r : ClockReplacer) (h : 0 < r.Size) :
    Victim (fuel + 1) r =
      if r.in_ (r.clock_hand % r.buffer_size) = true ∧
          r.ref_ (r.clock_hand % r.buffer_size) = false then
        some ({ r with in_ := Function.update r.in_ (r.clock_hand % r.buffer_size) false,
                       clock_hand := r.clock_hand % r.buffer_size + 1 },
          some (r.clock_hand % r.buffer_size))
      else Victim fuel r.pass := by
  rw [Victim, if_pos h]
  simp only
  split
  · rfl
  · split
    · rfl
    · rename_i hr
      have hr' : r.ref_ (r.clock_hand % r.buffer_size) = false := by
        cases h' : r.ref_ (r.clock_hand % r.buffer_size) with
        | false => rfl
        | true => exact absurd h' hr
      unfold pass
      rw [← hr', Function.update_eq_self]

/-- The loop leaves the `in_` bits and the number of slots alone while it does not return. -/
theorem iterate_pass_in (m : Nat) (r : ClockReplacer) :
    (pass^[m] r).in_ = r.in_ ∧ (pass^[m] r).buffer_size = r.buffer_size := by
  induction m with
  | zero => exact ⟨rfl, rfl⟩
  | succ m ih =>
    rw [Function.iterate_succ_apply']
    exact ih

theorem iterate_pass_Size (m : Nat) (r : ClockReplacer) : (pass^[m] r).Size = r.Size := by
  unfold Size
  rw [(iterate_pass_in m r).1, (iterate_pass_in m r).2]

/-- After `m` iterations the hand is `m` slots further, modulo the number of slots. -/
theorem iterate_pass_hand (m : Nat) (r : ClockReplacer) :
    (pass^[m] r).clock_hand % r.buffer_size = (r.clock_hand + m) % r.buffer_size := by
  induction m with
  | zero => rfl
  | succ m ih =>
    rw [Function.iterate_succ_apply']
    show ((pass^[m] r).clock_hand % (pass^[m] r).buffer_size + 1) % r.buffer_size = _
    rw [(iterate_pass_in m r).2, ih, Nat.mod_add_mod, Nat.add_assoc]

/-- Reference bits are only cleared. -/
theorem iterate_pass_ref_le (m : Nat) (r : ClockReplacer) (i : Nat)
    (h : (pass^[m] r).ref_ i = true) : r.ref_ i = true := by
  induction m with
  | zero => exact h
  | succ m ih =>
    rw [Function.iterate_succ_apply'] at h
    apply ih
    change Function.update (pass^[m] r).ref_
      ((pass^[m] r).clock_hand % (pass^[m] r).buffer_size) false i = true at h
    by_cases hi : i = (pass^[m] r).clock_hand % (pass^[m] r).buffer_size
    · rw [hi, Function.update_same] at h; cases h
    · rw [Function.update_noteq hi] at h; exact h

/-- The reference bit of a slot the hand has not passed is as it was. -/
theorem iterate_pass_ref_other (m : Nat) (r : ClockReplacer) (i : Nat)
    (h : ∀ j, j < m → i ≠ (r.clock_hand + j) % r.buffer_size) :
    (pass^[m] r).ref_ i = r.ref_ i := by
  induction m with
  | zero => rfl
  | succ m ih =>
    rw [Function.iterate_succ_apply']
    have hi : i ≠ (pass^[m] r).clock_hand % (pass^[m] r).buffer_size := by
      rw [(iterate_pass_in m r).2, iterate_pass_hand]
      exact h m (Nat.lt_succ_self m)
    show Function.update (pass^[m] r).ref_ _ false i = _
    rw [Function.update_noteq hi]
    exact ih (fun j hj => h j (Nat.lt_succ_of_lt hj))

/-- The reference bit of a slot the hand has passed is clear. -/
theorem iterate_pass_ref_cleared (m : Nat) (r : ClockReplacer) (j : Nat) (hj : j < m) :
    (pass^[m] r).ref_ ((r.clock_hand + j) % r.buffer_size) = false := by
  induction m with
  | zero => cases hj
  | succ m ih =>
    rw [Function.iterate_succ_apply']
    show Function.update (pass^[m] r).ref_ _ false _ = _
    rw [(iterate_pass_in m r).2, iterate_pass_hand]
    by_cases hjm : j = m
    · subst hjm; rw [Function.update_same]
    · by_cases he : (r.clock_hand + j) % r.buffer_size = (r.clock_hand + m) % r.buffer_size
      · rw [he, Function.update_same]
      · rw [Function.update_noteq he]
        exact ih (by omega)

/-- While the slot under the hand is not a candidate with a clear reference bit, the loop
goes on. -/
theorem Victim_passes (r : ClockReplacer) (hsize : 0 < r.Size) :
    ∀ (m : Nat),
      (∀ j, j < m → ¬(r.in_ ((r.clock_hand + j) % r.buffer_size) = true ∧
        (pass^[j] r).ref_ ((r.clock_hand + j) % r.buffer_size) = false)) →
      ∀ fuel, Victim (fuel + m) r = Victim fuel (pass^[m] r) := by
  intro m
  induction m with
  | zero => intro _ fuel; rfl
  | succ m ih =>
    intro h fuel
    have h1 := ih (fun j hj => h j (Nat.lt_succ_of_lt hj)) (fuel + 1)
    rw [show fuel + (m + 1) = fuel + 1 + m by omega, h1,
      Victim_succ fuel _ (by rw [iterate_pass_Size]; exact hsize), Function.iterate_succ_apply']
    have hm := h m (Nat.lt_succ_self m)
    rw [(iterate_pass_in m r).1, (iterate_pass_in m r).2, iterate_pass_hand]
    rw [if_neg hm]

theorem find_map_range_none (f : Nat → Nat) (P : Nat → Bool) (n : Nat)
    (h : ∀ k, k < n → P (f k) = false) : ((List.range n).map f).find? P = none := by
  rw [List.find?_eq_none]
  intro x hx
  obtain ⟨k, hk, rfl⟩ := List.mem_map.mp hx
  rw [h k (List.mem_range.mp hk)]
  decide

theorem find_map_range_some (f : Nat → Nat) (P : Nat → Bool) (n k : Nat) (hk : k < n)
    (hP : P (f k) = true) (hlt : ∀ j, j < k → P (f j) = false) :
    ((List.range n).map f).find? P = some (f k) := by
  obtain ⟨d, rfl⟩ : ∃ d, n = k + (d + 1) := ⟨n - k - 1, by omega⟩
  rw [List.range_add, List.map_append, List.find?_append, find_map_range_none f P k hlt,
    List.range_succ_eq_map]
  simp [hP]

end ClockReplacer
namespace ClockReplacer

/-- Every slot is met within one turn from the hand. -/
theorem exists_offset (h n i : Nat) (hi : i < n) : ∃ k, k < n ∧ (h + k) % n = i := by
  have ha : h % n < n := Nat.mod_lt _ (by omega)
  by_cases hc : h % n ≤ i
  · refine ⟨i - h % n, by omega, ?_⟩
    rw [← Nat.mod_add_mod, show h % n + (i - h % n) = i by omega, Nat.mod_eq_of_lt hi]
  · refine ⟨i + n - h % n, by omega, ?_⟩
    rw [← Nat.mod_add_mod, show h % n + (i + n - h % n) = i + n by omega, Nat.add_mod_right,
      Nat.mod_eq_of_lt hi]

/-- Within one turn no slot is met twice. -/
theorem offset_inj (h n j k : Nat) (hj : j < n) (hk : k < n)
    (he : (h + j) % n = (h + k) % n) : j = k := by
  have h1 : j % n = k % n := Nat.ModEq.add_left_cancel' h he
  rwa [Nat.mod_eq_of_lt hj, Nat.mod_eq_of_lt hk] at h1

theorem length_filter_update_false (p : Nat → Bool) (v : Nat) (hp : p v = true) :
    ∀ (l : List Nat), l.Nodup → v ∈ l →
      (l.filter (Function.update p v false)).length + 1 = (l.filter p).length := by
  intro l
  induction l with
  | nil => intro _ h; cases h
  | cons a l ih =>
    intro hnd hv
    rw [List.nodup_cons] at hnd
    by_cases hav : a = v
    · subst hav
      have hrest : l.filter (Function.update p a false) = l.filter p := by
        apply List.filter_congr
        intro x hx
        have : x ≠ a := fun h => hnd.1 (h ▸ hx)
        rw [Function.update_noteq this]
      simp [List.filter_cons, hp, hrest]
    · have hv' : v ∈ l := by
        rcases List.mem_cons.mp hv with h | h
        · exact absurd h.symm hav
        · exact h
      have := ih hnd.2 hv'
      simp only [List.filter_cons, Function.update_noteq hav]
      split
      · simp only [List.length_cons]; omega
      · exact this

/-- Taking a candidate out of the pool lowers `Size` by one. -/
theorem Size_take (r r' : ClockReplacer) (v : Nat) (hv : v < r.buffer_size)
    (hin : r.in_ v = true) (h1 : r'.in_ = Function.update r.in_ v false)
    (h2 : r'.buffer_size = r.buffer_size) : r'.Size + 1 = r.Size := by
  unfold Size
  rw [h1, h2]
  exact length_filter_update_false r.in_ v hin _ (List.nodup_range _) (List.mem_range.mpr hv)

theorem buffer_size_pos (r : ClockReplacer) (h : 0 < r.Size) : 0 < r.buffer_size := by
  rcases Nat.eq_zero_or_pos r.buffer_size with h0 | h0
  · have : r.Size = 0 := by rw [Size_eq_zero_iff]; intro f hf; omega
    omega
  · exact h0

theorem Size_pos_of_in (r : ClockReplacer) (i : Nat) (hi : i < r.buffer_size)
    (hin : r.in_ i = true) : 0 < r.Size := by
  rcases Nat.eq_zero_or_pos r.Size with h0 | h0
  · rw [Size_eq_zero_iff] at h0
    rw [h0 i hi] at hin; cases hin
  · exact h0

end ClockReplacer
namespace ClockReplacer

/-- The loop returns at its iteration `K + 1` when the slots of the iterations before were
passed and the slot under the hand then is a candidate with a clear reference bit. -/
theorem Victim_found (r : ClockReplacer) (K : Nat) (hn : 0 < r.buffer_size)
    (hpass : ∀ j, j < K → ¬(r.in_ ((r.clock_hand + j) % r.buffer_size) = true ∧
        (pass^[j] r).ref_ ((r.clock_hand + j) % r.buffer_size) = false))
    (hin : r.in_ ((r.clock_hand + K) % r.buffer_size) = true)
    (href : (pass^[K] r).ref_ ((r.clock_hand + K) % r.buffer_size) = false)
    (fuel : Nat) (hfuel : K + 1 ≤ fuel) :
    ∃ r', Victim fuel r = some (r', some ((r.clock_hand + K) % r.buffer_size)) ∧
      r'.in_ = Function.update r.in_ ((r.clock_hand + K) % r.buffer_size) false ∧
      r'.clock_hand = (r.clock_hand + K) % r.buffer_size + 1 ∧
      r'.buffer_size = r.buffer_size ∧ r'.ref_ = (pass^[K] r).ref_ := by
  have hsize : 0 < r.Size := Size_pos_of_in r _ (Nat.mod_lt _ hn) hin
  obtain ⟨d, rfl⟩ : ∃ d, fuel = d + 1 + K := ⟨fuel - K - 1, by omega⟩
  rw [Victim_passes r hsize K hpass (d + 1),
    Victim_succ d _ (by rw [iterate_pass_Size]; exact hsize)]
  rw [(iterate_pass_in K r).1, (iterate_pass_in K r).2, iterate_pass_hand, if_pos ⟨hin, href⟩]
  exact ⟨_, rfl, rfl, rfl, rfl, rfl⟩

/-- What `Victim` does on a replacer with a candidate: it returns, within two turns of the
hand, the slot `secondChance` names; that slot leaves the pool, the hand stops one past it,
reference bits are only cleared, and all of them are when every candidate had its bit set. -/
theorem Victim_second_chance (r : ClockReplacer) (hsize : 0 < r.Size) :
    ∃ v, secondChance r = some v ∧ v < r.buffer_size ∧ r.in_ v = true ∧
      ∀ fuel, 2 * r.buffer_size ≤ fuel →
        ∃ r', Victim fuel r = some (r', some v) ∧
          r'.in_ = Function.update r.in_ v false ∧ r'.clock_hand = v + 1 ∧
          r'.buffer_size = r.buffer_size ∧ r'.Size + 1 = r.Size ∧
          (∀ i, r'.ref_ i = true → r.ref_ i = true) ∧
          ((∀ i, i < r.buffer_size → r.in_ i = true → r.ref_ i = true) →
            ∀ i, i < r.buffer_size → r'.ref_ i = false) := by
  have hn := buffer_size_pos r hsize
  have hfirst : ∀ j, j < r.buffer_size →
      (pass^[j] r).ref_ ((r.clock_hand + j) % r.buffer_size)
        = r.ref_ ((r.clock_hand + j) % r.buffer_size) := by
    intro j hj
    apply iterate_pass_ref_other
    intro j' hj' he
    have := offset_inj _ _ _ _ hj (by omega) he
    omega
  by_cases hA : ∃ k, k < r.buffer_size ∧
      (r.in_ ((r.clock_hand + k) % r.buffer_size) = true ∧
        r.ref_ ((r.clock_hand + k) % r.buffer_size) = false)
  · -- a candidate with a clear reference bit is met in the first turn
    have hk := Nat.find_spec hA
    have hmin := fun j (hj : j < Nat.find hA) => Nat.find_min hA hj
    generalize Nat.find hA = k at hk hmin
    refine ⟨(r.clock_hand + k) % r.buffer_size, ?_, Nat.mod_lt _ hn, hk.2.1, ?_⟩
    · unfold secondChance cyclicOrder
      rw [find_map_range_some (fun k => (r.clock_hand + k) % r.buffer_size)
        (fun i => r.in_ i && !r.ref_ i) r.buffer_size k hk.1 (by simp [hk.2.1, hk.2.2])]
      intro j hj
      have := hmin j hj
      have hjn : j < r.buffer_size := by omega
      cases h1 : r.in_ ((r.clock_hand + j) % r.buffer_size) <;>
        cases h2 : r.ref_ ((r.clock_hand + j) % r.buffer_size) <;> simp_all
    · intro fuel hfuel
      obtain ⟨r', hv, h1, h2, h3, h4⟩ := Victim_found r k hn
        (by
          intro j hj
          rw [hfirst j (by omega)]
          intro hc
          exact hmin j hj ⟨by omega, hc⟩)
        hk.2.1 (by rw [hfirst k hk.1]; exact hk.2.2) fuel (by omega)
      refine ⟨r', hv, h1, h2, h3, Size_take r r' _ (Nat.mod_lt _ hn) hk.2.1 h1 h3, ?_, ?_⟩
      · intro i hi
        rw [h4] at hi
        exact iterate_pass_ref_le k r i hi
      · intro hall
        have := hall _ (Nat.mod_lt (r.clock_hand + k) hn) hk.2.1
        rw [hk.2.2] at this; cases this
  · -- every candidate has its reference bit set: one turn clears them, the next one finds
    have hB : ∀ k, k < r.buffer_size →
        ¬(r.in_ ((r.clock_hand + k) % r.buffer_size) = true ∧
          r.ref_ ((r.clock_hand + k) % r.buffer_size) = false) :=
      fun k hk hc => hA ⟨k, hk, hc⟩
    have hex : ∃ k, k < r.buffer_size ∧ r.in_ ((r.clock_hand + k) % r.buffer_size) = true := by
      have hnz : r.Size ≠ 0 := by omega
      rw [Ne, Size_eq_zero_iff] at hnz
      push_neg at hnz
      obtain ⟨i, hi, hin⟩ := hnz
      obtain ⟨k, hk, he⟩ := exists_offset r.clock_hand r.buffer_size i hi
      refine ⟨k, hk, ?_⟩
      rw [he]
      cases h : r.in_ i with
      | true => rfl
      | false => exact absurd h hin
    have hk := Nat.find_spec hex
    have hmin := fun j (hj : j < Nat.find hex) => Nat.find_min hex hj
    generalize Nat.find hex = k at hk hmin
    have hwrap : ∀ j, (r.clock_hand + (r.buffer_size + j)) % r.buffer_size
        = (r.clock_hand + j) % r.buffer_size := by
      intro j
      rw [show r.clock_hand + (r.buffer_size + j) = r.clock_hand + j + r.buffer_size by omega,
        Nat.add_mod_right]
    refine ⟨(r.clock_hand + k) % r.buffer_size, ?_, Nat.mod_lt _ hn, hk.2, ?_⟩
    · unfold secondChance cyclicOrder
      rw [find_map_range_none (fun k => (r.clock_hand + k) % r.buffer_size)
        (fun i => r.in_ i && !r.ref_ i) r.buffer_size]
      · simp only
        apply find_map_range_some (fun k => (r.clock_hand + k) % r.buffer_size) r.in_
          r.buffer_size k hk.1 hk.2
        intro j hj
        have := hmin j hj
        cases h1 : r.in_ ((r.clock_hand + j) % r.buffer_size) with
        | false => rfl
        | true => exact absurd ⟨by omega, h1⟩ this
      · intro j hj
        have := hB j hj
        cases h1 : r.in_ ((r.clock_hand + j) % r.buffer_size) <;>
          cases h2 : r.ref_ ((r.clock_hand + j) % r.buffer_size) <;> simp_all
    · intro fuel hfuel
      obtain ⟨r', hv, h1, h2, h3, h4⟩ := Victim_found r (r.buffer_size + k) hn
        (by
          intro j hj
          by_cases hjn : j < r.buffer_size
          · rw [hfirst j hjn]; exact hB j hjn
          · obtain ⟨d, rfl⟩ : ∃ d, j = r.buffer_size + d := ⟨j - r.buffer_size, by omega⟩
            rw [hwrap]
            intro hc
            exact hmin d (by omega) ⟨by omega, hc.1⟩)
        (by rw [hwrap]; exact hk.2)
        (by
          rw [hwrap]
          exact iterate_pass_ref_cleared (r.buffer_size + k) r k (by omega))
        fuel (by omega)
      rw [hwrap] at hv h1 h2
      refine ⟨r', hv, h1, h2, h3, Size_take r r' _ (Nat.mod_lt _ hn) hk.2 h1 h3, ?_, ?_⟩
      · intro i hi
        rw [h4] at hi
        exact iterate_pass_ref_le _ r i hi
      · intro _ i hi
        obtain ⟨j, hj, he⟩ := exists_offset r.clock_hand r.buffer_size i hi
        rw [h4, ← he]
        exact iterate_pass_ref_cleared (r.buffer_size + k) r j (by omega)

end ClockReplacer

namespace ClockReplacer
open Example

/-- The second-chance scenario on a replacer of at least three slots: after `Unpin(0)`,
`Unpin(1)`, `Unpin(2)` four calls of `Victim` give 0, 1, 2 and false. -/
theorem Victim_three_unpinned (n fuel : Nat) (hn : 3 ≤ n) (hfuel : 2 * n ≤ fuel) :
    ∃ r1 r2 r3, Victim fuel (threeUnpinned n) = some (r1, some 0) ∧
      Victim fuel r1 = some (r2, some 1) ∧ Victim fuel r2 = some (r3, some 2) ∧
      Victim fuel r3 = some (r3, none) := by
  have hsz : (threeUnpinned n).buffer_size = n := rfl
  have hin0 : ∀ i, (threeUnpinned n).in_ i = decide (i = 0 ∨ i = 1 ∨ i = 2) := by
    intro i
    simp only [threeUnpinned, Unpin, ClockReplacer.new, Function.update_apply]
    by_cases h2 : i = 2
    · simp [h2]
    · by_cases h1 : i = 1
      · simp [h1]
      · by_cases h0 : i = 0
        · simp [h0]
        · simp [h0, h1, h2]
  have href0 : (threeUnpinned n).ref_ = (threeUnpinned n).in_ := rfl
  -- first call
  have hs0 : 0 < (threeUnpinned n).Size :=
    Size_pos_of_in _ 0 (by rw [hsz]; omega) (by rw [hin0]; decide)
  obtain ⟨v0, hc0, _, _, hV0⟩ := Victim_second_chance _ hs0
  have hv0 : v0 = 0 := by
    have : secondChance (threeUnpinned n) = some 0 := by
      unfold secondChance cyclicOrder
      rw [find_map_range_none (fun k => ((threeUnpinned n).clock_hand + k) % _)
        (fun i => (threeUnpinned n).in_ i && !(threeUnpinned n).ref_ i)]
      · simp only
        have := find_map_range_some
          (fun k => ((threeUnpinned n).clock_hand + k) % (threeUnpinned n).buffer_size)
          (threeUnpinned n).in_ (threeUnpinned n).buffer_size 0 (by rw [hsz]; omega)
          (by rw [hin0]; simp [threeUnpinned, Unpin, ClockReplacer.new])
          (by intro j hj; omega)
        rw [this]
        simp [threeUnpinned, Unpin, ClockReplacer.new]
      · intro k _
        rw [href0]
        simp
    rw [this] at hc0
    exact (Option.some.inj hc0).symm
  subst hv0
  obtain ⟨r1, hr1, hin1, hh1, hb1, _, hle1, hclr1⟩ := hV0 fuel (by rw [hsz]; exact hfuel)
  rw [hsz] at hb1
  have href1 : ∀ i, r1.ref_ i = false := by
    intro i
    by_cases hi : i < n
    · exact hclr1 (by intro j _ hj; rw [href0]; exact hj) i (by rw [hsz]; exact hi)
    · cases h : r1.ref_ i with
      | false => rfl
      | true =>
        have := hle1 i h
        rw [href0, hin0] at this
        simp only [decide_eq_true_eq] at this
        omega
  -- second call
  have hin1' : ∀ i, r1.in_ i = decide (i = 1 ∨ i = 2) := by
    intro i
    rw [hin1, Function.update_apply, hin0]
    by_cases h0 : i = 0
    · simp [h0]
    · simp [h0]
  have hs1 : 0 < r1.Size := Size_pos_of_in _ 1 (by rw [hb1]; omega) (by rw [hin1']; decide)
  obtain ⟨v1, hc1, _, _, hV1⟩ := Victim_second_chance _ hs1
  have hv1 : v1 = 1 := by
    have : secondChance r1 = some 1 := by
      unfold secondChance cyclicOrder
      have := find_map_range_some (fun k => (r1.clock_hand + k) % r1.buffer_size)
        (fun i => r1.in_ i && !r1.ref_ i) r1.buffer_size 0 (by rw [hb1]; omega)
        (by
          simp only [hh1, hb1, Nat.zero_add, Nat.add_zero]
          rw [Nat.mod_eq_of_lt (by omega), hin1', href1]; decide)
        (by intro j hj; omega)
      rw [this]
      simp only [hh1, hb1, Nat.zero_add, Nat.add_zero]
      rw [Nat.mod_eq_of_lt (by omega)]
    rw [this] at hc1
    exact (Option.some.inj hc1).symm
  subst hv1
  obtain ⟨r2, hr2, hin2, hh2, hb2, _, hle2, _⟩ := hV1 fuel (by rw [hb1]; exact hfuel)
  rw [hb1] at hb2
  have href2 : ∀ i, r2.ref_ i = false := by
    intro i
    cases h : r2.ref_ i with
    | false => rfl
    | true => have := hle2 i h; rw [href1] at this; cases this
  -- third call
  have hin2' : ∀ i, r2.in_ i = decide (i = 2) := by
    intro i
    rw [hin2, Function.update_apply, hin1']
    by_cases h1 : i = 1
    · simp [h1]
    · simp [h1]
  have hs2 : 0 < r2.Size := Size_pos_of_in _ 2 (by rw [hb2]; omega) (by rw [hin2']; decide)
  obtain ⟨v2, hc2, _, _, hV2⟩ := Victim_second_chance _ hs2
  have hv2 : v2 = 2 := by
    have : secondChance r2 = some 2 := by
      unfold secondChance cyclicOrder
      have := find_map_range_some (fun k => (r2.clock_hand + k) % r2.buffer_size)
        (fun i => r2.in_ i && !r2.ref_ i) r2.buffer_size 0 (by rw [hb2]; omega)
        (by
          simp only [hh2, hb2, Nat.add_zero]
          rw [Nat.mod_eq_of_lt (by omega), hin2', href2]; decide)
        (by intro j hj; omega)
      rw [this]
      simp only [hh2, hb2, Nat.add_zero]
      rw [Nat.mod_eq_of_lt (by omega)]
    rw [this] at hc2
    exact (Option.some.inj hc2).symm
  subst hv2
  obtain ⟨r3, hr3, hin3, _, hb3, _, _, _⟩ := hV2 fuel (by rw [hb2]; exact hfuel)
  -- fourth call
  have hs3 : r3.Size = 0 := by
    rw [Size_eq_zero_iff]
    intro i _
    rw [hin3, Function.update_apply, hin2']
    by_cases h2 : i = 2
    · simp [h2]
    · simp [h2]
  exact ⟨r1, r2, r3, hr1, hr2, hr3, Victim_of_Size_zero fuel r3 hs3⟩

end ClockReplacer
namespace BufferPoolManager
variable {Data : Type}

theorem Accounted_new [Zero Data] (pool_size : Nat) (disk_manager : DiskManager Data) :
    Accounted (BufferPoolManager.new pool_size disk_manager) none where
  pin_nonneg := fun _ => le_refl _
  frame_lt := by intro q f hq; simp [BufferPoolManager.new] at hq
  free_lt := fun f hf => List.mem_range.mp hf
  resident := fun f h => absurd rfl h
  dirty_valid := by intro f h; cases h
  pinned_valid := fun f h => absurd rfl h
  held := fun f hf _ hnf => absurd (List.mem_range.mpr hf) hnf
  target_lt := by intro f h; cases h

/-- A state that differs from an `Accounted` one in frame bytes, pin counts (that stay
non-negative, and are raised from 0 only on frames that hold a page), dirty flags (set only on
frames that hold a page), the replacer and the disk is `Accounted`. -/
theorem Accounted_of_similar {s s' : BufferPoolManager Data} {t : Option frame_id_t}
    (hA : Accounted s t) (h1 : s'.pool_size_ = s.pool_size_)
    (h3 : s'.free_list_ = s.free_list_) (h4 : s'.page_table_ = s.page_table_)
    (h6 : ∀ f, 0 ≤ (s'.pages_ f).pin_count_ ∧
      (s'.pages_ f).page_id_ = (s.pages_ f).page_id_ ∧
      ((s'.pages_ f).is_dirty_ = true →
        (s.pages_ f).is_dirty_ = true ∨ (s.pages_ f).page_id_ ≠ INVALID_PAGE_ID))
    (h7 : ∀ f, (s'.pages_ f).pin_count_ ≠ 0 →
      (s.pages_ f).pin_count_ ≠ 0 ∨ (s.pages_ f).page_id_ ≠ INVALID_PAGE_ID) :
    Accounted s' t where
  pin_nonneg := fun f => (h6 f).1
  frame_lt := by intro q f hq; rw [h4] at hq; rw [h1]; exact hA.frame_lt q f hq
  free_lt := by intro f hf; rw [h3] at hf; rw [h1]; exact hA.free_lt f hf
  resident := by
    intro f hf
    rw [(h6 f).2.1] at hf ⊢
    rw [h4]; exact hA.resident f hf
  dirty_valid := by
    intro f hf
    rw [(h6 f).2.1]
    rcases (h6 f).2.2 hf with h | h
    · exact hA.dirty_valid f h
    · exact h
  pinned_valid := by
    intro f hf
    rw [(h6 f).2.1]
    rcases h7 f hf with h | h
    · exact hA.pinned_valid f h
    · exact h
  held := by
    intro f hf ht hnf
    rw [h1] at hf; rw [h3] at hnf
    rw [(h6 f).2.1]; exact hA.held f hf ht hnf
  target_lt := by intro f hf; rw [h1]; exact hA.target_lt f hf

theorem Accounted_FlushPageImpl {s : BufferPoolManager Data} {t : Option frame_id_t}
    (hA : Accounted s t) (page_id : page_id_t) : Accounted (s.FlushPageImpl page_id).1 t := by
  obtain ⟨h1, _, h3, h4, _, h6⟩ := FlushPageImpl_similar s page_id
  refine Accounted_of_similar hA h1 h3 h4
    (fun f => ⟨?_, (h6 f).2.1, fun h => Or.inl ((h6 f).2.2.2 h)⟩)
    (fun f h => Or.inl (by rw [(h6 f).1] at h; exact h))
  rw [(h6 f).1]; exact hA.pin_nonneg f

theorem Accounted_flushFrames : ∀ (n i : Nat) {s : BufferPoolManager Data},
    Accounted s none → Accounted (flushFrames n i s) none := by
  intro n
  induction n with
  | zero => intro i s hA; exact hA
  | succ n ih =>
    intro i s hA
    rw [flushFrames]
    apply ih
    split
    · exact Accounted_FlushPageImpl hA _
    · exact hA

theorem Accounted_writeData {s : BufferPoolManager Data} (hA : Accounted s none)
    (frame_id : frame_id_t) (data : Data) : Accounted (writeData s frame_id data) none := by
  refine Accounted_of_similar hA rfl rfl rfl ?_ ?_
  · intro f
    simp only [writeData, setPage]
    by_cases hf : f = frame_id
    · subst hf
      simp only [Function.update_same, true_and]
      exact ⟨hA.pin_nonneg f, Or.inl⟩
    · simp only [Function.update_noteq hf, true_and]
      exact ⟨hA.pin_nonneg f, Or.inl⟩
  · intro f
    simp only [writeData, setPage]
    by_cases hf : f = frame_id
    · subst hf
      simp only [Function.update_same]
      exact Or.inl
    · simp only [Function.update_noteq hf]
      exact Or.inl

/-- A resident page is not the sentinel. -/
theorem valid_of_table {s : BufferPoolManager Data} (hI : Inv s) {q : page_id_t}
    {f : frame_id_t} (hq : s.page_table_ q = some f) :
    (s.pages_ f).page_id_ = q ∧ q ≠ INVALID_PAGE_ID := by
  refine ⟨hI.table_id q f hq, ?_⟩
  intro h
  rw [h, table_invalid hI.table_range] at hq
  cases hq

theorem Accounted_UnpinPageImpl {s : BufferPoolManager Data} (hI : Inv s)
    (hA : Accounted s none) (page_id : page_id_t) (is_dirty : Bool) :
    Accounted (s.UnpinPageImpl page_id is_dirty).1 none := by
  unfold UnpinPageImpl
  split
  · exact hA
  · rename_i target htab
    split
    · exact hA
    · rename_i hpin
      obtain ⟨hid, hv⟩ := valid_of_table hI htab
      have hres : ∀ f, 0 ≤ ((Function.update s.pages_ target
            { data_ := (s.pages_ target).data_, page_id_ := (s.pages_ target).page_id_,
              pin_count_ := (s.pages_ target).pin_count_ - 1,
              is_dirty_ := (s.pages_ target).is_dirty_ || is_dirty }) f).pin_count_ ∧
          ((Function.update s.pages_ target
            { data_ := (s.pages_ target).data_, page_id_ := (s.pages_ target).page_id_,
              pin_count_ := (s.pages_ target).pin_count_ - 1,
              is_dirty_ := (s.pages_ target).is_dirty_ || is_dirty }) f).page_id_
            = (s.pages_ f).page_id_ ∧
          (((Function.update s.pages_ target
            { data_ := (s.pages_ target).data_, page_id_ := (s.pages_ target).page_id_,
              pin_count_ := (s.pages_ target).pin_count_ - 1,
              is_dirty_ := (s.pages_ target).is_dirty_ || is_dirty }) f).is_dirty_ = true →
            (s.pages_ f).is_dirty_ = true ∨ (s.pages_ f).page_id_ ≠ INVALID_PAGE_ID) := by
        intro f
        by_cases hf : f = target
        · subst hf
          simp only [Function.update_same, true_and]
          refine ⟨by omega, fun _ => Or.inr ?_⟩
          rw [hid]; exact hv
        · simp only [Function.update_noteq hf, true_and]
          exact ⟨hA.pin_nonneg f, Or.inl⟩
      have hres' : ∀ f, ((Function.update s.pages_ target
            { data_ := (s.pages_ target).data_, page_id_ := (s.pages_ target).page_id_,
              pin_count_ := (s.pages_ target).pin_count_ - 1,
              is_dirty_ := (s.pages_ target).is_dirty_ || is_dirty }) f).pin_count_ ≠ 0 →
          (s.pages_ f).pin_count_ ≠ 0 ∨ (s.pages_ f).page_id_ ≠ INVALID_PAGE_ID := by
        intro f
        by_cases hf : f = target
        · subst hf
          intro _
          right
          rw [hid]; exact hv
        · simp only [Function.update_noteq hf]
          exact Or.inl
      simp only [setPage, Function.update_same, Function.update_idem]
      split
      · exact Accounted_of_similar hA rfl rfl rfl hres hres'
      · exact Accounted_of_similar hA rfl rfl rfl hres hres'

end BufferPoolManager
namespace BufferPoolManager
variable {Data : Type}

/-- The frame chosen for reuse is accounted for. -/
theorem Accounted_pickFrame {s s1 : BufferPoolManager Data} (hI : Inv s)
    (hA : Accounted s none) {fuel : Nat} {target : frame_id_t}
    (h : pickFrame fuel s = some (s1, some target)) : Accounted s1 (some target) := by
  unfold pickFrame at h
  split at h
  · rename_i t rest hfl
    simp only [Option.some.injEq, Prod.mk.injEq] at h
    obtain ⟨h1, h2⟩ := h
    subst h1 h2
    have hmem : ∀ f, f ∈ rest → f ∈ s.free_list_ := by
      intro f hf; rw [hfl]; exact List.mem_cons_of_mem _ hf
    exact {
      pin_nonneg := hA.pin_nonneg
      frame_lt := hA.frame_lt
      free_lt := fun f hf => hA.free_lt f (hmem f hf)
      resident := hA.resident
      dirty_valid := hA.dirty_valid
      pinned_valid := hA.pinned_valid
      held := by
        intro f hf ht hnf
        apply hA.held f hf (by simp)
        rw [hfl]
        intro hm
        rcases List.mem_cons.mp hm with h | h
        · exact ht (by rw [h])
        · exact hnf h
      target_lt := by
        intro f hf
        cases hf
        exact hA.free_lt _ (by rw [hfl]; exact List.mem_cons_self _ _) }
  · rename_i hfl
    split at h
    · cases h
    · rename_i r victim hv
      simp only [Option.some.injEq, Prod.mk.injEq] at h
      obtain ⟨h1, h2⟩ := h
      subst h1 h2
      obtain ⟨hin, _, _⟩ := ClockReplacer.Victim_some_inv _ _ _ _ hv
      have hown := hI.victim_table target hin (by rw [hfl]; exact List.not_mem_nil _)
      exact {
        pin_nonneg := hA.pin_nonneg
        frame_lt := hA.frame_lt
        free_lt := hA.free_lt
        resident := hA.resident
        dirty_valid := hA.dirty_valid
        pinned_valid := hA.pinned_valid
        held := fun f hf _ hnf => hA.held f hf (by simp) hnf
        target_lt := by
          intro f hf
          cases hf
          exact hA.frame_lt _ _ hown }

/-- Installing the page `p` in the frame chosen for reuse accounts for every frame again. -/
theorem Accounted_install {m s' : BufferPoolManager Data} {target : frame_id_t}
    {p : page_id_t} (hR : Ready m target) (hA : Accounted m (some target))
    (hp : m.page_table_ p = none) (hp0 : p ≠ INVALID_PAGE_ID)
    (hpool : s'.pool_size_ = m.pool_size_) (hfree : s'.free_list_ = m.free_list_)
    (htab : s'.page_table_ = Function.update
      (Function.update m.page_table_ (m.pages_ target).page_id_ none) p (some target))
    (hother : ∀ f, f ≠ target → (s'.pages_ f).pin_count_ = (m.pages_ f).pin_count_ ∧
      (s'.pages_ f).page_id_ = (m.pages_ f).page_id_ ∧
      ((s'.pages_ f).is_dirty_ = true → (m.pages_ f).is_dirty_ = true))
    (hid : (s'.pages_ target).page_id_ = p) (hpin : 0 ≤ (s'.pages_ target).pin_count_)
    (hdirty : (s'.pages_ target).is_dirty_ = false) : Accounted s' none where
  pin_nonneg := by
    intro f
    by_cases hf : f = target
    · subst hf; exact hpin
    · rw [(hother f hf).1]; exact hA.pin_nonneg f
  frame_lt := by
    intro q f hq
    rw [htab] at hq
    rw [hpool]
    by_cases hqp : q = p
    · subst hqp
      simp only [Function.update_same, Option.some.injEq] at hq
      subst hq; exact hA.target_lt _ rfl
    · rw [Function.update_noteq hqp] at hq
      by_cases hqo : q = (m.pages_ target).page_id_
      · subst hqo; simp at hq
      · rw [Function.update_noteq hqo] at hq
        exact hA.frame_lt q f hq
  free_lt := by intro f hf; rw [hfree] at hf; rw [hpool]; exact hA.free_lt f hf
  resident := by
    intro f hf
    by_cases hft : f = target
    · subst hft; rw [hid, htab, Function.update_same]
    · rw [(hother f hft).2.1] at hf ⊢
      have hv := hA.resident f hf
      have h1 : (m.pages_ f).page_id_ ≠ p := by
        intro h; rw [h, hp] at hv; cases hv
      have h2 : (m.pages_ f).page_id_ ≠ (m.pages_ target).page_id_ := by
        intro h; rw [h] at hv; exact hft (hR.own f hv)
      rw [htab, Function.update_noteq h1, Function.update_noteq h2]; exact hv
  dirty_valid := by
    intro f hf
    by_cases hft : f = target
    · subst hft; rw [hdirty] at hf; cases hf
    · rw [(hother f hft).2.1]; exact hA.dirty_valid f ((hother f hft).2.2 hf)
  pinned_valid := by
    intro f hf
    by_cases hft : f = target
    · subst hft; rw [hid]; exact hp0
    · rw [(hother f hft).1] at hf
      rw [(hother f hft).2.1]; exact hA.pinned_valid f hf
  held := by
    intro f hf _ hnf
    rw [hpool] at hf; rw [hfree] at hnf
    by_cases hft : f = target
    · subst hft; rw [hid]; exact hp0
    · rw [(hother f hft).2.1]
      exact hA.held f hf (by simpa using hft) hnf
  target_lt := by intro f h; cases h

theorem Accounted_DeletePageImpl [Zero Data] {s : BufferPoolManager Data} (hI : Inv s)
    (hA : Accounted s none) (page_id : page_id_t) :
    Accounted (s.DeletePageImpl page_id).1 none := by
  unfold DeletePageImpl
  split
  · exact hA
  · rename_i target htab
    split
    · exact hA
    · rename_i hpin
      have hpin0 : (s.pages_ target).pin_count_ = 0 := by
        by_contra h; exact hpin h
      obtain ⟨hidt, _⟩ := valid_of_table hI htab
      simp only [setPage, Function.update_same, Function.update_idem]
      exact {
        pin_nonneg := by
          intro f
          by_cases hft : f = target
          · subst hft; simp only [Function.update_same]; omega
          · simp only [Function.update_noteq hft]; exact hA.pin_nonneg f
        frame_lt := by
          intro q f hq
          by_cases hqp : q = page_id
          · subst hqp; simp at hq
          · simp only [Function.update_noteq hqp] at hq
            exact hA.frame_lt q f hq
        free_lt := by
          intro f hf
          rcases List.mem_append.mp hf with h | h
          · exact hA.free_lt f h
          · rw [List.mem_singleton.mp h]; exact hA.frame_lt _ _ htab
        resident := by
          intro f hf
          by_cases hft : f = target
          · subst hft; simp only [Function.update_same] at hf; exact absurd rfl hf
          · simp only [Function.update_noteq hft] at hf
            have hv := hA.resident f hf
            have hq : (s.pages_ f).page_id_ ≠ page_id := by
              intro h
              rw [h, htab] at hv
              exact hft (Option.some.inj hv).symm
            show Function.update s.page_table_ page_id none
              (Function.update s.pages_ target _ f).page_id_ = some f
            rw [Function.update_noteq hft, Function.update_noteq hq]; exact hv
        dirty_valid := by
          intro f hf
          by_cases hft : f = target
          · subst hft; simp only [Function.update_same] at hf; cases hf
          · simp only [Function.update_noteq hft] at hf ⊢
            exact hA.dirty_valid f hf
        pinned_valid := by
          intro f hf
          by_cases hft : f = target
          · subst hft; simp only [Function.update_same] at hf; exact absurd hpin0 hf
          · simp only [Function.update_noteq hft] at hf ⊢
            exact hA.pinned_valid f hf
        held := by
          intro f hf _ hnf
          have hft : f ≠ target := by
            intro h; apply hnf
            rw [h]; exact List.mem_append_right _ (List.mem_singleton_self _)
          simp only [Function.update_noteq hft]
          exact hA.held f hf (by simp) (fun h => hnf (List.mem_append_left _ h))
        target_lt := by intro f h; cases h }

end BufferPoolManager
namespace BufferPoolManager
variable {Data : Type}

/-- `FlushPageImpl` of a resident dirty page: the bytes go to disk and the flag is cleared. -/
theorem FlushPageImpl_dirty {s : BufferPoolManager Data} {q : page_id_t} {t : frame_id_t}
    (hq : q ≠ INVALID_PAGE_ID) (htab : s.page_table_ q = some t)
    (hd : (s.pages_ t).is_dirty_ = true) :
    s.FlushPageImpl q =
      (({ s with disk_manager_ := s.disk_manager_.WritePage q (s.pages_ t).data_ } :
          BufferPoolManager Data).setPage t { (s.pages_ t) with is_dirty_ := false }, true) := by
  unfold FlushPageImpl
  rw [if_neg hq, htab]
  simp [hd]

/-- The write-back of the frame chosen for reuse: it succeeds; a dirty frame has its bytes
written to the disk under the page id it holds; only the dirty flag of the frame changes in
the pool. -/
theorem writeback_spec {m : BufferPoolManager Data} {target : frame_id_t}
    (hR : Ready m target) :
    ∃ s2, (if (m.pages_ target).is_dirty_ = true then m.FlushPageImpl (m.pages_ target).page_id_
        else (m, true)) = (s2, true) ∧
      Ready s2 target ∧ s2.pool_size_ = m.pool_size_ ∧ s2.replacer_ = m.replacer_ ∧
      s2.free_list_ = m.free_list_ ∧ s2.page_table_ = m.page_table_ ∧
      (∀ f, f ≠ target → s2.pages_ f = m.pages_ f) ∧
      (s2.pages_ target).page_id_ = (m.pages_ target).page_id_ ∧
      (s2.pages_ target).pin_count_ = (m.pages_ target).pin_count_ ∧
      (s2.pages_ target).data_ = (m.pages_ target).data_ ∧
      (s2.pages_ target).is_dirty_ = false ∧
      s2.disk_manager_.next_page_id_ = m.disk_manager_.next_page_id_ ∧
      s2.disk_manager_.pages =
        if (m.pages_ target).is_dirty_ = true then
          Function.update m.disk_manager_.pages (m.pages_ target).page_id_
            (m.pages_ target).data_
        else m.disk_manager_.pages := by
  obtain ⟨hok, hR2⟩ := Ready_flush hR
  by_cases hd : (m.pages_ target).is_dirty_ = true
  · have htab := hR.dirty_resident hd
    have hne : (m.pages_ target).page_id_ ≠ INVALID_PAGE_ID := by
      intro h
      rw [h, table_invalid hR.table_range] at htab
      cases htab
    rw [if_pos hd] at hR2 ⊢
    rw [if_pos hd]
    rw [FlushPageImpl_dirty hne htab hd] at hR2 ⊢
    refine ⟨_, rfl, hR2, rfl, rfl, rfl, rfl, ?_, ?_, ?_, ?_, ?_, rfl, rfl⟩
    · intro f hf
      simp only [setPage, Function.update_noteq hf]
    all_goals simp only [setPage, Function.update_same]
  · rw [if_neg hd] at hR2 ⊢
    rw [if_neg hd]
    refine ⟨m, rfl, hR2, rfl, rfl, rfl, rfl, fun _ _ => rfl, rfl, rfl, rfl, ?_, rfl, rfl⟩
    cases h : (m.pages_ target).is_dirty_ with
    | false => rfl
    | true => exact absurd h hd

end BufferPoolManager
namespace BufferPoolManager
variable {Data : Type}

/-- `FetchPageImpl` of a page that is not resident, in full: either no frame is to be had and
nothing changes, or the frame `R` that `pickFrame` chose is written back if dirty, pinned and
given the page. -/
theorem FetchPageImpl_miss {s s' : BufferPoolManager Data} {fuel : Nat} {p : page_id_t}
    {r : Option frame_id_t} (hI : Inv s) (hnon : s.page_table_ p = none)
    (h : FetchPageImpl fuel s p = some (s', r)) :
    (r = none ∧ s' = s ∧ s.free_list_ = [] ∧ s.replacer_.Size = 0) ∨
    ∃ R m, r = some R ∧ pickFrame fuel s = some (m, some R) ∧
      s'.pool_size_ = s.pool_size_ ∧ s'.replacer_ = m.replacer_.Pin R ∧
      s'.free_list_ = m.free_list_ ∧
      s'.page_table_ = Function.update
        (Function.update s.page_table_ (s.pages_ R).page_id_ none) p (some R) ∧
      (∀ f, f ≠ R → s'.pages_ f = s.pages_ f) ∧
      (s'.pages_ R).data_ = s.disk_manager_.ReadPage p ∧ (s'.pages_ R).page_id_ = p ∧
      (s'.pages_ R).pin_count_ = 1 ∧ (s'.pages_ R).is_dirty_ = false ∧
      s'.disk_manager_.next_page_id_ = s.disk_manager_.next_page_id_ ∧
      s'.disk_manager_.pages =
        if (s.pages_ R).is_dirty_ = true then
          Function.update s.disk_manager_.pages (s.pages_ R).page_id_ (s.pages_ R).data_
        else s.disk_manager_.pages := by
  unfold FetchPageImpl at h
  rw [hnon] at h
  simp only at h
  split at h
  · cases h
  · rename_i s1 hpick
    simp only [Option.some.injEq, Prod.mk.injEq] at h
    obtain ⟨h1, h2⟩ := h
    subst h1 h2
    obtain ⟨e, hfl, hz⟩ := pickFrame_none_inv hpick
    exact Or.inl ⟨rfl, e, hfl, hz⟩
  · rename_i s1 target hpick
    right
    obtain ⟨hR, hpages, htable, hdisk, hpool⟩ := Ready_pickFrame hI hpick
    obtain ⟨s2, hw, hR2, w1, w2, w3, w4, w5, w6, w7, w8, w9, w10, w11⟩ := writeback_spec hR
    rw [hw] at h
    simp only [Bool.not_true, Bool.false_eq_true, if_false, Option.some.injEq,
      Prod.mk.injEq] at h
    obtain ⟨h1, h2⟩ := h
    subst h1 h2
    have hp2 : s2.page_table_ p = none := by rw [w4, htable]; exact hnon
    have hins : (Function.update s2.page_table_ (s1.pages_ target).page_id_ none p).isSome
        = false := by
      by_cases hq : p = (s1.pages_ target).page_id_
      · rw [hq]; simp
      · rw [Function.update_noteq hq, hp2]; rfl
    have hread : s2.disk_manager_.ReadPage p = s.disk_manager_.ReadPage p := by
      unfold DiskManager.ReadPage
      rw [w11, hdisk]
      split
      · rename_i hd
        have hne : p ≠ (s1.pages_ target).page_id_ := by
          intro hq
          have := hR.dirty_resident hd
          rw [← hq, htable, hnon] at this
          cases this
        rw [Function.update_noteq hne]
      · rfl
    refine ⟨target, s1, rfl, hpick, ?_, ?_, ?_, ?_, ?_, ?_, ?_, ?_, ?_, ?_, ?_⟩
    · simp only [setPage]; rw [w1, hpool]
    · simp only [setPage]; rw [w2]
    · simp only [setPage]; rw [w3]
    · simp only [setPage, hins, Bool.false_eq_true, if_false]
      rw [w4, htable, hpages]
    · intro f hf
      simp only [setPage, Function.update_noteq hf]
      rw [w5 f hf, hpages]
    · simp only [setPage, Function.update_same]; exact hread
    · simp only [setPage, Function.update_same]
    · simp only [setPage, Function.update_same]
      rw [w7, hR.unpinned]; rfl
    · simp only [setPage, Function.update_same]
    · simp only [setPage]; rw [w10, hdisk]
    · simp only [setPage]; rw [w11, hdisk, hpages]

end BufferPoolManager
namespace BufferPoolManager
variable {Data : Type}

/-- `NewPageImpl` in full: either no frame is to be had and nothing changes, or the frame `R`
that `pickFrame` chose is written back if dirty, pinned, zeroed and given the next page id of
the disk manager. -/
theorem NewPageImpl_spec [Zero Data] {s s' : BufferPoolManager Data} {fuel : Nat}
    {r : Option (frame_id_t × page_id_t)} (hI : Inv s)
    (h : NewPageImpl fuel s = some (s', r)) :
    (r = none ∧ s' = s ∧ s.free_list_ = [] ∧ s.replacer_.Size = 0) ∨
    ∃ R m, r = some (R, s.disk_manager_.next_page_id_) ∧
      pickFrame fuel s = some (m, some R) ∧
      s'.pool_size_ = s.pool_size_ ∧ s'.replacer_ = m.replacer_.Pin R ∧
      s'.free_list_ = m.free_list_ ∧
      s'.page_table_ = Function.update
        (Function.update s.page_table_ (s.pages_ R).page_id_ none)
        s.disk_manager_.next_page_id_ (some R) ∧
      (∀ f, f ≠ R → s'.pages_ f = s.pages_ f) ∧
      (s'.pages_ R).data_ = 0 ∧ (s'.pages_ R).page_id_ = s.disk_manager_.next_page_id_ ∧
      (s'.pages_ R).pin_count_ = 1 ∧ (s'.pages_ R).is_dirty_ = false ∧
      s'.disk_manager_.next_page_id_ = s.disk_manager_.next_page_id_ + 1 ∧
      s'.disk_manager_.pages =
        if (s.pages_ R).is_dirty_ = true then
          Function.update s.disk_manager_.pages (s.pages_ R).page_id_ (s.pages_ R).data_
        else s.disk_manager_.pages := by
  unfold NewPageImpl at h
  split at h
  · rename_i free_frame rest hfl
    right
    simp only [Option.some.injEq, Prod.mk.injEq] at h
    obtain ⟨h1, h2⟩ := h
    subst h1 h2
    have hpick : pickFrame fuel s = some ({ s with free_list_ := rest }, some free_frame) := by
      simp [pickFrame, hfl]
    have hfree := hI.free_frame free_frame (by rw [hfl]; exact List.mem_cons_self _ _)
    have htab : Function.update s.page_table_ (s.pages_ free_frame).page_id_ none
        = s.page_table_ := by
      rw [hfree.2.1]
      have := table_invalid hI.table_range
      rw [← this]
      exact Function.update_eq_self _ _
    refine ⟨free_frame, _, rfl, hpick, rfl, rfl, rfl, ?_, ?_, ?_, ?_, ?_, ?_, rfl, ?_⟩
    · rw [htab]; rfl
    · intro f hf
      simp only [installNewPage, DiskManager.AllocatePage, setPage, Function.update_noteq hf]
    · simp only [installNewPage, DiskManager.AllocatePage, setPage, Function.update_same]
    · simp only [installNewPage, DiskManager.AllocatePage, setPage, Function.update_same]
    · simp only [installNewPage, DiskManager.AllocatePage, setPage, Function.update_same]
    · simp only [installNewPage, DiskManager.AllocatePage, setPage, Function.update_same]
    · rw [hfree.2.2]
      simp [installNewPage, DiskManager.AllocatePage, setPage]
  · rename_i hfl
    split at h
    · cases h
    · rename_i r0 hv
      simp only [Option.some.injEq, Prod.mk.injEq] at h
      obtain ⟨h1, h2⟩ := h
      subst h1 h2
      obtain ⟨e, hz⟩ := ClockReplacer.Victim_none_inv _ _ _ hv
      left
      refine ⟨rfl, ?_, hfl, hz⟩
      rw [e]
    · rename_i r0 victim hv
      right
      have hpick : pickFrame fuel s = some ({ s with replacer_ := r0 }, some victim) := by
        simp [pickFrame, hfl, hv]
      obtain ⟨hR, hpages, htable, hdisk, hpool⟩ := Ready_pickFrame hI hpick
      obtain ⟨s2, hw, hR2, w1, w2, w3, w4, w5, w6, w7, w8, w9, w10, w11⟩ := writeback_spec hR
      simp only at h
      rw [hw] at h
      simp only [Bool.not_true, Bool.false_eq_true, if_false, Option.some.injEq,
        Prod.mk.injEq] at h
      obtain ⟨h1, h2⟩ := h
      subst h1 h2
      refine ⟨victim, _, ?_, hpick, ?_, ?_, ?_, ?_, ?_, ?_, ?_, ?_, ?_, ?_, ?_⟩
      · simp only [installNewPage, DiskManager.AllocatePage, setPage]
        rw [w10]
      · simp only [installNewPage, DiskManager.AllocatePage, setPage]; exact w1
      · simp only [installNewPage, DiskManager.AllocatePage, setPage]; rw [w2]
      · simp only [installNewPage, DiskManager.AllocatePage, setPage]; exact w3
      · simp only [installNewPage, DiskManager.AllocatePage, setPage]
        rw [w4, w6, w10]
      · intro f hf
        simp only [installNewPage, DiskManager.AllocatePage, setPage, Function.update_noteq hf]
        exact w5 f hf
      · simp only [installNewPage, DiskManager.AllocatePage, setPage, Function.update_same]
      · simp only [installNewPage, DiskManager.AllocatePage, setPage, Function.update_same]
        rw [w10]
      · simp only [installNewPage, DiskManager.AllocatePage, setPage, Function.update_same]
      · simp only [installNewPage, DiskManager.AllocatePage, setPage, Function.update_same]
      · simp only [installNewPage, DiskManager.AllocatePage, setPage]
        rw [w10]
      · simp only [installNewPage, DiskManager.AllocatePage, setPage]
        exact w11

end BufferPoolManager
namespace BufferPoolManager
variable {Data : Type}

/-- `FetchPageImpl` of a resident page: the frame is pinned once more, nothing else
changes. -/
theorem FetchPageImpl_hit {s : BufferPoolManager Data} (fuel : Nat) {p : page_id_t}
    {target : frame_id_t} (htab : s.page_table_ p = some target) :
    FetchPageImpl fuel s p =
      some (({ s with replacer_ := s.replacer_.Pin target } : BufferPoolManager Data).setPage
        target { (s.pages_ target) with pin_count_ := (s.pages_ target).pin_count_ + 1 },
        some target) := by
  unfold FetchPageImpl
  rw [htab]

theorem Accounted_FetchPageImpl {s s' : BufferPoolManager Data} (hI : Inv s)
    (hA : Accounted s none) {fuel : Nat} {page_id : page_id_t} {r : Option frame_id_t}
    (hp0 : 0 ≤ page_id) (h : FetchPageImpl fuel s page_id = some (s', r)) :
    Accounted s' none := by
  cases htab : s.page_table_ page_id with
  | some target =>
    rw [FetchPageImpl_hit fuel htab] at h
    simp only [Option.some.injEq, Prod.mk.injEq] at h
    obtain ⟨h1, _⟩ := h
    subst h1
    obtain ⟨hid, hv⟩ := valid_of_table hI htab
    refine Accounted_of_similar hA rfl rfl rfl ?_ ?_
    · intro f
      simp only [setPage]
      by_cases hf : f = target
      · subst hf
        simp only [Function.update_same, true_and]
        have := hA.pin_nonneg f
        exact ⟨by omega, Or.inl⟩
      · simp only [Function.update_noteq hf, true_and]
        exact ⟨hA.pin_nonneg f, Or.inl⟩
    · intro f
      simp only [setPage]
      by_cases hf : f = target
      · subst hf
        intro _
        right
        rw [hid]; exact hv
      · simp only [Function.update_noteq hf]
        exact Or.inl
  | none =>
    rcases FetchPageImpl_miss hI htab h with ⟨_, e, _, _⟩ | ⟨R, m, _, hpick, a1, _, a3, a4, a5, _, a7, a8, a9, _, _⟩
    · rw [e]; exact hA
    · obtain ⟨hR, hpages, htable, _, hpool⟩ := Ready_pickFrame hI hpick
      have hAm := Accounted_pickFrame hI hA hpick
      refine Accounted_install hR hAm (by rw [htable]; exact htab) ?_ (by rw [a1, hpool]) a3
        (by rw [a4, htable, hpages]) ?_ a7 (by rw [a8]; decide) a9
      · intro hq; rw [hq] at hp0; exact absurd hp0 (by decide)
      · intro f hf
        rw [a5 f hf, hpages]
        exact ⟨rfl, rfl, id⟩

theorem Accounted_NewPageImpl [Zero Data] {s s' : BufferPoolManager Data} (hI : Inv s)
    (hA : Accounted s none) {fuel : Nat} {r : Option (frame_id_t × page_id_t)}
    (h : NewPageImpl fuel s = some (s', r)) : Accounted s' none := by
  rcases NewPageImpl_spec hI h with ⟨_, e, _, _⟩ | ⟨R, m, _, hpick, a1, _, a3, a4, a5, _, a7, a8, a9, _, _⟩
  · rw [e]; exact hA
  · obtain ⟨hR, hpages, htable, _, hpool⟩ := Ready_pickFrame hI hpick
    have hAm := Accounted_pickFrame hI hA hpick
    refine Accounted_install hR hAm (by rw [htable]; exact table_next_none hI.table_range) ?_
      (by rw [a1, hpool]) a3 (by rw [a4, htable, hpages]) ?_ a7 (by rw [a8]; decide) a9
    · intro hq
      have := hI.next_nonneg
      rw [hq] at this
      exact absurd this (by decide)
    · intro f hf
      rw [a5 f hf, hpages]
      exact ⟨rfl, rfl, id⟩

/-- Every reachable pool state accounts for its frames. -/
theorem Reachable.accounted [Zero Data] {s : BufferPoolManager Data} (h : Reachable s) :
    Accounted s none := by
  induction h with
  | init pool_size disk_manager _ => exact Accounted_new pool_size disk_manager
  | fetch hr hp0 _ hf ih => exact Accounted_FetchPageImpl hr.inv ih hp0 hf
  | newPage hr hn ih => exact Accounted_NewPageImpl hr.inv ih hn
  | unpin page_id is_dirty hr ih => exact Accounted_UnpinPageImpl hr.inv ih page_id is_dirty
  | flush page_id _ ih => exact Accounted_FlushPageImpl ih page_id
  | delete page_id hr ih => exact Accounted_DeletePageImpl hr.inv ih page_id
  | flushAll _ ih => exact Accounted_flushFrames _ _ ih
  | write frame_id data _ _ ih => exact Accounted_writeData ih frame_id data

end BufferPoolManager
namespace BufferPoolManager
variable {Data : Type}

/-- A dirty frame of a reachable state is the page table entry of the page it holds. -/
theorem dirty_resident {s : BufferPoolManager Data} (hA : Accounted s none) {f : frame_id_t}
    (hd : (s.pages_ f).is_dirty_ = true) :
    (s.pages_ f).page_id_ ≠ INVALID_PAGE_ID ∧ s.page_table_ (s.pages_ f).page_id_ = some f :=
  ⟨hA.dirty_valid f hd, hA.resident f (hA.dirty_valid f hd)⟩

/-- Two frames that hold pages hold different pages. -/
theorem page_id_inj {s : BufferPoolManager Data} (hA : Accounted s none) {f g : frame_id_t}
    (hf : (s.pages_ f).page_id_ ≠ INVALID_PAGE_ID)
    (he : (s.pages_ f).page_id_ = (s.pages_ g).page_id_) : f = g := by
  have h1 := hA.resident f hf
  have h2 := hA.resident g (by rw [← he]; exact hf)
  rw [he, h2] at h1
  exact (Option.some.inj h1).symm

/-- One iteration of the loop of `FlushAllPagesImpl`, on the frame `i`. -/
theorem flushFrame_spec {s : BufferPoolManager Data} (hA : Accounted s none) (i : frame_id_t) :
    ∃ s1, (if (s.pages_ i).is_dirty_ = true then (s.FlushPageImpl (s.pages_ i).page_id_).1
        else s) = s1 ∧
      s1.pool_size_ = s.pool_size_ ∧ s1.replacer_ = s.replacer_ ∧
      s1.free_list_ = s.free_list_ ∧ s1.page_table_ = s.page_table_ ∧
      s1.disk_manager_.next_page_id_ = s.disk_manager_.next_page_id_ ∧
      (∀ f, (s1.pages_ f).pin_count_ = (s.pages_ f).pin_count_ ∧
        (s1.pages_ f).page_id_ = (s.pages_ f).page_id_ ∧
        (s1.pages_ f).data_ = (s.pages_ f).data_) ∧
      (s1.pages_ i).is_dirty_ = false ∧
      (∀ f, f ≠ i → (s1.pages_ f).is_dirty_ = (s.pages_ f).is_dirty_) ∧
      ((s.pages_ i).is_dirty_ = true →
        s1.disk_manager_.pages (s.pages_ i).page_id_ = (s.pages_ i).data_) ∧
      (∀ q, ((s.pages_ i).is_dirty_ = true → (s.pages_ i).page_id_ ≠ q) →
        s1.disk_manager_.pages q = s.disk_manager_.pages q) := by
  by_cases hd : (s.pages_ i).is_dirty_ = true
  · obtain ⟨hv, htab⟩ := dirty_resident hA hd
    rw [if_pos hd, FlushPageImpl_dirty hv htab hd]
    refine ⟨_, rfl, rfl, rfl, rfl, rfl, rfl, ?_, ?_, ?_, ?_, ?_⟩
    · intro f
      simp only [setPage]
      by_cases hf : f = i
      · subst hf; simp only [Function.update_same, and_self]
      · simp only [Function.update_noteq hf, and_self]
    · simp only [setPage, Function.update_same]
    · intro f hf
      simp only [setPage, Function.update_noteq hf]
    · intro _
      simp only [setPage, DiskManager.WritePage, Function.update_same]
    · intro q hq
      simp only [setPage, DiskManager.WritePage]
      rw [Function.update_noteq (Ne.symm (hq hd))]
  · rw [if_neg hd]
    refine ⟨s, rfl, rfl, rfl, rfl, rfl, rfl, fun _ => ⟨rfl, rfl, rfl⟩, ?_, fun _ _ => rfl,
      fun h => absurd h hd, fun _ _ => rfl⟩
    cases h : (s.pages_ i).is_dirty_ with
    | false => rfl
    | true => exact absurd h hd

/-- The loop of `FlushAllPagesImpl` over the frames `i, ..., i + n - 1`: they end up clean, the
bytes of those that were dirty are on disk under their page ids, no flag is set, and nothing
else changes but the disk pages of the frames that were dirty. -/
theorem flushFrames_spec : ∀ (n i : Nat) (s : BufferPoolManager Data), Inv s →
    Accounted s none →
    (flushFrames n i s).pool_size_ = s.pool_size_ ∧
    (flushFrames n i s).replacer_ = s.replacer_ ∧
    (flushFrames n i s).free_list_ = s.free_list_ ∧
    (flushFrames n i s).page_table_ = s.page_table_ ∧
    (flushFrames n i s).disk_manager_.next_page_id_ = s.disk_manager_.next_page_id_ ∧
    (∀ f, ((flushFrames n i s).pages_ f).pin_count_ = (s.pages_ f).pin_count_ ∧
      ((flushFrames n i s).pages_ f).page_id_ = (s.pages_ f).page_id_ ∧
      ((flushFrames n i s).pages_ f).data_ = (s.pages_ f).data_) ∧
    (∀ f, i ≤ f → f < i + n → ((flushFrames n i s).pages_ f).is_dirty_ = false) ∧
    (∀ f, ((flushFrames n i s).pages_ f).is_dirty_ = true → (s.pages_ f).is_dirty_ = true) ∧
    (∀ f, i ≤ f → f < i + n → (s.pages_ f).is_dirty_ = true →
      (flushFrames n i s).disk_manager_.pages (s.pages_ f).page_id_ = (s.pages_ f).data_) ∧
    (∀ q, (∀ f, i ≤ f → f < i + n → (s.pages_ f).is_dirty_ = true →
        (s.pages_ f).page_id_ ≠ q) →
      (flushFrames n i s).disk_manager_.pages q = s.disk_manager_.pages q) := by
  intro n
  induction n with
  | zero =>
    intro i s _ _
    refine ⟨rfl, rfl, rfl, rfl, rfl, fun _ => ⟨rfl, rfl, rfl⟩, ?_, fun _ h => h, ?_,
      fun _ _ => rfl⟩
    · intro f h1 h2; omega
    · intro f h1 h2; omega
  | succ n ih =>
    intro i s hI hA
    rw [flushFrames]
    obtain ⟨s1, e, a1, a2, a3, a4, a5, a6, a7, a8, a9, a10⟩ := flushFrame_spec hA i
    have e' : (if (s.pages_ i).is_dirty_ = true then
        (s.FlushPageImpl (s.pages_ i).page_id_).1 else s) = s1 := e
    rw [e']
    have hI1 : Inv s1 := by
      rw [← e']
      split
      · exact Inv_FlushPageImpl hI _
      · exact hI
    have hA1 : Accounted s1 none := by
      rw [← e']
      split
      · exact Accounted_FlushPageImpl hA _
      · exact hA
    have hle : ∀ f, (s1.pages_ f).is_dirty_ = true → (s.pages_ f).is_dirty_ = true := by
      intro f hf
      by_cases hfi : f = i
      · subst hfi; rw [a7] at hf; cases hf
      · rw [a8 f hfi] at hf; exact hf
    obtain ⟨b1, b2, b3, b4, b5, b6, b7, b8, b9, b10⟩ := ih (i + 1) s1 hI1 hA1
    refine ⟨by rw [b1, a1], by rw [b2, a2], by rw [b3, a3], by rw [b4, a4], by rw [b5, a5],
      ?_, ?_, ?_, ?_, ?_⟩
    · intro f
      rw [(b6 f).1, (b6 f).2.1, (b6 f).2.2, (a6 f).1, (a6 f).2.1, (a6 f).2.2]
      exact ⟨rfl, rfl, rfl⟩
    · intro f h1 h2
      by_cases hfi : f = i
      · subst hfi
        cases h : ((flushFrames n (f + 1) s1).pages_ f).is_dirty_ with
        | false => rfl
        | true => have := b8 f h; rw [a7] at this; cases this
      · exact b7 f (by omega) (by omega)
    · intro f hf
      exact hle f (b8 f hf)
    · intro f h1 h2 hd
      by_cases hfi : f = i
      · subst hfi
        rw [b10, a9 hd]
        intro g hg1 hg2 hgd he
        have hgd' := hle g hgd
        rw [(a6 g).2.1] at he
        have hgf : (g : Nat) = f := page_id_inj hA (hA.dirty_valid g hgd') he
        omega
      · have := b9 f (by omega) (by omega) (by rw [a8 f hfi]; exact hd)
        rw [(a6 f).2.1, (a6 f).2.2] at this
        exact this
    · intro q hq
      rw [b10, a10]
      · intro hd
        exact hq i (le_refl _) (by omega) hd
      · intro g hg1 hg2 hgd
        rw [(a6 g).2.1]
        exact hq g (by omega) (by omega) (hle g hgd)

end BufferPoolManager

/-! ## The pools of the concrete scenarios are reachable -/

namespace Example
open BufferPoolManager

theorem reachable_onePagePool : Reachable onePagePool :=
  Reachable.newPage (Reachable.init 1 writebackDisk (by decide))
    (rfl : NewPageImpl 2 (BufferPoolManager.new 1 writebackDisk)
      = some (onePagePool, some (0, 10)))

theorem reachable_dirtyPool : Reachable dirtyPool :=
  Reachable.unpin 10 true (Reachable.write 0 77 reachable_onePagePool (by decide))

theorem reachable_freedPool : Reachable freedPool :=
  Reachable.delete 10 (Reachable.unpin 10 false reachable_onePagePool)

end Example
namespace BufferPoolManager
variable {Data : Type}

/-- `UnpinPageImpl` of a resident page with a positive pin count. -/
theorem UnpinPageImpl_pinned (s : BufferPoolManager Data) {page_id : page_id_t}
    (is_dirty : Bool) {target : frame_id_t} (h : s.page_table_ page_id = some target)
    (hpin : 0 < (s.pages_ target).pin_count_) :
    s.UnpinPageImpl page_id is_dirty =
      ({ pool_size_ := s.pool_size_
         pages_ := Function.update s.pages_ target
           { data_ := (s.pages_ target).data_, page_id_ := (s.pages_ target).page_id_,
             pin_count_ := (s.pages_ target).pin_count_ - 1,
             is_dirty_ := (s.pages_ target).is_dirty_ || is_dirty }
         replacer_ :=
           if (s.pages_ target).pin_count_ - 1 = 0 then s.replacer_.Unpin target
           else s.replacer_
         free_list_ := s.free_list_
         page_table_ := s.page_table_
         disk_manager_ := s.disk_manager_ }, true) := by
  have hnle : ¬ (s.pages_ target).pin_count_ ≤ 0 := by omega
  unfold UnpinPageImpl
  rw [h]
  simp only [hnle, if_false, setPage, Function.update_same, Function.update_idem]
  split <;> rfl

end BufferPoolManager
namespace BufferPoolManager
variable {Data : Type}

/-- `DeletePageImpl` of a resident page with pin count 0. -/
theorem DeletePageImpl_unpinned [Zero Data] (s : BufferPoolManager Data)
    {page_id : page_id_t} {target : frame_id_t} (h : s.page_table_ page_id = some target)
    (hpin : (s.pages_ target).pin_count_ = 0) :
    s.DeletePageImpl page_id =
      ({ pool_size_ := s.pool_size_
         pages_ := Function.update s.pages_ target
           { data_ := 0, page_id_ := INVALID_PAGE_ID,
             pin_count_ := (s.pages_ target).pin_count_, is_dirty_ := false }
         replacer_ := s.replacer_
         free_list_ := s.free_list_ ++ [target]
         page_table_ := Function.update s.page_table_ page_id none
         disk_manager_ := s.disk_manager_ }, true) := by
  unfold DeletePageImpl
  rw [h]
  simp only [hpin, ne_eq, not_true_eq_false, if_false, setPage, Function.update_same,
    Function.update_idem]

end BufferPoolManager
namespace BufferPoolManager
variable {Data : Type}

/-- A pinned frame survives the installation of a page in the frame `R` chosen for reuse:
it is not `R`, and its page stays in the page table. -/
theorem pinned_survives {s s' m : BufferPoolManager Data} {fuel : Nat} {R : frame_id_t}
    {p : page_id_t} (hI : Inv s) (hA : Accounted s none)
    (hpick : pickFrame fuel s = some (m, some R)) (hp : s.page_table_ p = none)
    (htab : s'.page_table_ = Function.update
      (Function.update s.page_table_ (s.pages_ R).page_id_ none) p (some R))
    (hother : ∀ f, f ≠ R → s'.pages_ f = s.pages_ f)
    {f : frame_id_t} (hpin : 0 < (s.pages_ f).pin_count_) :
    f ≠ R ∧ s'.pages_ f = s.pages_ f ∧ s'.page_table_ (s.pages_ f).page_id_ = some f := by
  obtain ⟨hR, hpages, _, _, _⟩ := Ready_pickFrame hI hpick
  have hfR : f ≠ R := by
    intro h
    have := hR.unpinned
    rw [hpages, ← h] at this
    omega
  have hv : (s.pages_ f).page_id_ ≠ INVALID_PAGE_ID := hA.pinned_valid f (by omega)
  have hres := hA.resident f hv
  refine ⟨hfR, hother f hfR, ?_⟩
  have h1 : (s.pages_ f).page_id_ ≠ p := by
    intro h; rw [h, hp] at hres; cases hres
  have h2 : (s.pages_ f).page_id_ ≠ (s.pages_ R).page_id_ :=
    fun h => hfR (page_id_inj hA hv h)
  rw [htab, Function.update_noteq h1, Function.update_noteq h2]
  exact hres

end BufferPoolManager

namespace Example
open BufferPoolManager

theorem reachable_twoFramePool : Reachable twoFramePool :=
  Reachable.newPage (Reachable.init 2 writebackDisk (by decide))
    (rfl : NewPageImpl 2 (BufferPoolManager.new 2 writebackDisk)
      = some (twoFramePool, some (0, 10)))

end Example

/-! ## Block pages in use: readable slots are occupied -/


namespace HashTableBlockPage

/-- `Insert` and `Remove` keep every readable slot occupied. -/
theorem Reachable.readable_occupied {K V : Type} [Inhabited K] [Inhabited V] {B : Nat}
    {p : HashTableBlockPage K V} (hreach : HashTableBlockPage.Reachable B p) :
    ∀ i, p.IsReadable i = true → p.IsOccupied i = true := by
  induction hreach with
  | zero =>
    intro i h
    have : (HashTableBlockPage.zero : HashTableBlockPage K V).IsReadable i = false := by
      simp [HashTableBlockPage.IsReadable, HashTableBlockPage.zero]
    rw [this] at h; cases h
  | @insert q u k v _ _ ih =>
    intro i h
    cases hr : q.IsReadable u with
    | true =>
      rw [HashTableBlockPage.Insert_fst_of_readable q u k v hr] at h ⊢
      exact ih i h
    | false =>
      rw [HashTableBlockPage.IsReadable_Insert q u i k v hr] at h
      rw [HashTableBlockPage.IsOccupied_Insert q u i k v hr]
      cases hd : decide (u = i) with
      | true => simp
      | false =>
        rw [hd, Bool.or_false] at h
        rw [ih i h]; rfl
  | @remove q u _ _ ih =>
    intro i h
    rw [HashTableBlockPage.IsOccupied_Remove]
    apply ih
    cases ho : q.IsOccupied u with
    | true =>
      rw [HashTableBlockPage.IsReadable_Remove q u i ho] at h
      cases hq : q.IsReadable i with
      | true => rfl
      | false => rw [hq] at h; simp at h
    | false =>
      have : q.Remove u = q := by
        unfold HashTableBlockPage.Remove
        simp [ho]
      rw [this] at h; exact h

end HashTableBlockPage


/-! ## Clock replacer: how far the hand goes -/

namespace ClockReplacer

/-- One iteration of the counting loop. -/
theorem VictimAdvances_succ (fuel : Nat) (r : ClockReplacer) (h : 0 < r.Size) :
    VictimAdvances (fuel + 1) r =
      if r.in_ (r.clock_hand % r.buffer_size) = true ∧
          r.ref_ (r.clock_hand % r.buffer_size) = false then some 1
      else (VictimAdvances fuel r.pass).map (· + 1) := by
  rw [VictimAdvances, if_pos h]
  simp only
  split
  · rfl
  · split
    · rfl
    · rename_i hr
      have hr' : r.ref_ (r.clock_hand % r.buffer_size) = false := by
        cases h' : r.ref_ (r.clock_hand % r.buffer_size) with
        | false => rfl
        | true => exact absurd h' hr
      unfold pass
      rw [← hr', Function.update_eq_self]

/-- While the slot under the hand is passed, each iteration counts one advance. -/
theorem VictimAdvances_passes (r : ClockReplacer) (hsize : 0 < r.Size) :
    ∀ (m : Nat),
      (∀ j, j < m → ¬(r.in_ ((r.clock_hand + j) % r.buffer_size) = true ∧
        (pass^[j] r).ref_ ((r.clock_hand + j) % r.buffer_size) = false)) →
      ∀ fuel, VictimAdvances (fuel + m) r
        = (VictimAdvances fuel (pass^[m] r)).map (· + m) := by
  intro m
  induction m with
  | zero => intro _ fuel; simp
  | succ m ih =>
    intro h fuel
    have h1 := ih (fun j hj => h j (Nat.lt_succ_of_lt hj)) (fuel + 1)
    rw [show fuel + (m + 1) = fuel + 1 + m by omega, h1,
      VictimAdvances_succ fuel _ (by rw [iterate_pass_Size]; exact hsize),
      Function.iterate_succ_apply']
    have hm := h m (Nat.lt_succ_self m)
    rw [(iterate_pass_in m r).1, (iterate_pass_in m r).2, iterate_pass_hand]
    rw [if_neg hm, Option.map_map]
    congr 1
    funext x
    simp only [Function.comp]
    omega

/-- The count when the loop returns at its iteration `K + 1`. -/
theorem VictimAdvances_found (r : ClockReplacer) (K : Nat) (hn : 0 < r.buffer_size)
    (hpass : ∀ j, j < K → ¬(r.in_ ((r.clock_hand + j) % r.buffer_size) = true ∧
        (pass^[j] r).ref_ ((r.clock_hand + j) % r.buffer_size) = false))
    (hin : r.in_ ((r.clock_hand + K) % r.buffer_size) = true)
    (href : (pass^[K] r).ref_ ((r.clock_hand + K) % r.buffer_size) = false)
    (fuel : Nat) (hfuel : K + 1 ≤ fuel) : VictimAdvances fuel r = some (K + 1) := by
  have hsize : 0 < r.Size := Size_pos_of_in r _ (Nat.mod_lt _ hn) hin
  obtain ⟨d, rfl⟩ : ∃ d, fuel = d + 1 + K := ⟨fuel - K - 1, by omega⟩
  rw [VictimAdvances_passes r hsize K hpass (d + 1),
    VictimAdvances_succ d _ (by rw [iterate_pass_Size]; exact hsize)]
  rw [(iterate_pass_in K r).1, (iterate_pass_in K r).2, iterate_pass_hand, if_pos ⟨hin, href⟩]
  simp
  omega

/-- On a replacer with a candidate the loop returns at an iteration `K + 1 ≤ 2 *
buffer_size`: it passes `K` slots and takes the next one. -/
theorem exists_pass_count (r : ClockReplacer) (hsize : 0 < r.Size) :
    ∃ K, K + 1 ≤ 2 * r.buffer_size ∧
      (∀ j, j < K → ¬(r.in_ ((r.clock_hand + j) % r.buffer_size) = true ∧
        (pass^[j] r).ref_ ((r.clock_hand + j) % r.buffer_size) = false)) ∧
      r.in_ ((r.clock_hand + K) % r.buffer_size) = true ∧
      (pass^[K] r).ref_ ((r.clock_hand + K) % r.buffer_size) = false := by
  have hn := buffer_size_pos r hsize
  have hfirst : ∀ j, j < r.buffer_size →
      (pass^[j] r).ref_ ((r.clock_hand + j) % r.buffer_size)
        = r.ref_ ((r.clock_hand + j) % r.buffer_size) := by
    intro j hj
    apply iterate_pass_ref_other
    intro j' hj' he
    have := offset_inj _ _ _ _ hj (by omega) he
    omega
  by_cases hA : ∃ k, k < r.buffer_size ∧
      (r.in_ ((r.clock_hand + k) % r.buffer_size) = true ∧
        r.ref_ ((r.clock_hand + k) % r.buffer_size) = false)
  · have hk := Nat.find_spec hA
    have hmin := fun j (hj : j < Nat.find hA) => Nat.find_min hA hj
    generalize Nat.find hA = k at hk hmin
    refine ⟨k, by omega, ?_, hk.2.1, by rw [hfirst k hk.1]; exact hk.2.2⟩
    intro j hj
    rw [hfirst j (by omega)]
    intro hc
    exact hmin j hj ⟨by omega, hc⟩
  · have hB : ∀ k, k < r.buffer_size →
        ¬(r.in_ ((r.clock_hand + k) % r.buffer_size) = true ∧
          r.ref_ ((r.clock_hand + k) % r.buffer_size) = false) :=
      fun k hk hc => hA ⟨k, hk, hc⟩
    have hex : ∃ k, k < r.buffer_size ∧ r.in_ ((r.clock_hand + k) % r.buffer_size) = true := by
      have hnz : r.Size ≠ 0 := by omega
      rw [Ne, Size_eq_zero_iff] at hnz
      push_neg at hnz
      obtain ⟨i, hi, hin⟩ := hnz
      obtain ⟨k, hk, he⟩ := exists_offset r.clock_hand r.buffer_size i hi
      refine ⟨k, hk, ?_⟩
      rw [he]
      cases h : r.in_ i with
      | true => rfl
      | false => exact absurd h hin
    have hk := Nat.find_spec hex
    have hmin := fun j (hj : j < Nat.find hex) => Nat.find_min hex hj
    generalize Nat.find hex = k at hk hmin
    have hwrap : ∀ j, (r.clock_hand + (r.buffer_size + j)) % r.buffer_size
        = (r.clock_hand + j) % r.buffer_size := by
      intro j
      rw [show r.clock_hand + (r.buffer_size + j) = r.clock_hand + j + r.buffer_size by omega,
        Nat.add_mod_right]
    refine ⟨r.buffer_size + k, by omega, ?_, by rw [hwrap]; exact hk.2, ?_⟩
    · intro j hj
      by_cases hjn : j < r.buffer_size
      · rw [hfirst j hjn]; exact hB j hjn
      · obtain ⟨d, rfl⟩ : ∃ d, j = r.buffer_size + d := ⟨j - r.buffer_size, by omega⟩
        rw [hwrap]
        intro hc
        exact hmin d (by omega) ⟨by omega, hc.1⟩
    · rw [hwrap]
      exact iterate_pass_ref_cleared (r.buffer_size + k) r k (by omega)

end ClockReplacer

namespace BufferPoolManager
variable {Data : Type}

end BufferPoolManager


/-! ## Hash table and hash join: helper lemmas for the pins, the join and the probe runs -/

/-! ## The buffer pool calls of `GetValue` -/

namespace PoolCall

theorem fetches_append (a b : List PoolCall) : fetches (a ++ b) = fetches a + fetches b := by
  induction a with
  | nil => simp [fetches]
  | cons c a ih =>
    cases c <;> simp [fetches, ih]
    omega

theorem unpins_append (a b : List PoolCall) : unpins (a ++ b) = unpins a + unpins b := by
  induction a with
  | nil => simp [unpins]
  | cons c a ih =>
    cases c <;> simp [unpins, ih]
    omega

theorem pinsLeft_append (p : page_id_t) (a b : List PoolCall) :
    pinsLeft p (a ++ b) = pinsLeft p a + pinsLeft p b := by
  induction a with
  | nil => simp [pinsLeft]
  | cons c a ih => cases c <;> simp [pinsLeft, ih] <;> omega

end PoolCall

namespace LinearProbeHashTable

variable {K V : Type}

/-- The loop of `GetValue` and its copy that records the buffer pool calls return together;
the recorded calls add as many `UnpinPage` as `FetchPage` calls, and they move the pin of the
current block page to the block page at which the loop stops. -/
theorem GetValueLoopCalls_spec [DecidableEq K] (B : Nat) (t : LinearProbeHashTable K V)
    (key : K) (index : Nat) :
    ∀ fuel block_ind bucket_ind block_page_id result calls,
      ((GetValueLoop B t key index fuel block_ind bucket_ind block_page_id result).isSome
        = (GetValueLoopCalls B t index fuel block_ind bucket_ind block_page_id calls).isSome) ∧
      ∀ calls', GetValueLoopCalls B t index fuel block_ind bucket_ind block_page_id calls
          = some calls' →
        PoolCall.fetches calls' + PoolCall.unpins calls
            = PoolCall.fetches calls + PoolCall.unpins calls' ∧
          ∃ last, ∀ p, PoolCall.pinsLeft p calls' + (if block_page_id = p then 1 else 0)
            = PoolCall.pinsLeft p calls + (if last = p then 1 else 0) := by
  intro fuel
  induction fuel with
  | zero =>
    intro block_ind bucket_ind block_page_id result calls
    refine ⟨rfl, fun calls' h => ?_⟩
    simp [GetValueLoopCalls] at h
  | succ fuel ih =>
    intro block_ind bucket_ind block_page_id result calls
    rw [GetValueLoop, GetValueLoopCalls]
    by_cases ho : (t.block_pages block_page_id).IsOccupied bucket_ind = true
    · simp only [ho, if_true]
      by_cases hw : block_ind * B + (bucket_ind + 1) = index
      · simp only [hw, if_true]
        refine ⟨rfl, fun calls' h => ?_⟩
        cases h
        exact ⟨rfl, block_page_id, fun p => rfl⟩
      · simp only [hw, if_false]
        by_cases hb : bucket_ind + 1 = B
        · simp only [nextBlock, hb, if_true]
          refine ⟨(ih _ _ _ _ _).1, fun calls' h => ?_⟩
          obtain ⟨h1, last, h2⟩ := (ih _ _ _ result _).2 calls' h
          simp only [PoolCall.fetches_append, PoolCall.unpins_append, PoolCall.fetches,
            PoolCall.unpins] at h1
          refine ⟨by omega, last, fun p => ?_⟩
          have := h2 p
          simp only [PoolCall.pinsLeft_append, PoolCall.pinsLeft] at this
          split_ifs at this ⊢ <;> omega
        · simp only [nextBlock, hb, if_false]
          exact ih _ _ _ _ _
    · simp only [ho]
      refine ⟨rfl, fun calls' h => ?_⟩
      simp only [Bool.false_eq_true, if_false, Option.some.injEq] at h
      subst h
      exact ⟨rfl, block_page_id, fun p => rfl⟩

end LinearProbeHashTable


/-! ## Hash join: one output tuple per right tuple at most -/

namespace HashJoinExecutor

variable {T O : Type}

/-- A call of the loop of `Next` that produces a tuple has consumed a right tuple, and the
tuple produced joins that right tuple with a left tuple that `GetValue` returned for the hash
of its join key and that satisfies the predicate. -/
theorem NextLoop_some (B : Nat) (hash : Nat → Nat) (fuel : Nat) (rightKey : T → Nat)
    (pred : T → T → Bool) (project : T → T → O) (jht : LinearProbeHashTable Nat T) :
    ∀ (right rest : List T) (o : O),
      NextLoop B hash fuel rightKey pred project jht right = some (rest, some o) →
      rest.length < right.length ∧
        ∃ r ∈ right, ∃ tuples b tup,
          jht.GetValue B hash fuel (rightKey r) [] = some (tuples, b) ∧
            tup ∈ tuples ∧ pred tup r = true ∧ o = project tup r := by
  intro right
  induction right with
  | nil => intro rest o h; simp [NextLoop] at h
  | cons tuple_ right ih =>
    intro rest o h
    rw [NextLoop] at h
    cases hg : jht.GetValue B hash fuel (rightKey tuple_) [] with
    | none => rw [hg] at h; cases h
    | some x =>
      obtain ⟨tuples, b⟩ := x
      rw [hg] at h
      simp only at h
      cases hf : tuples.find? (fun tup => pred tup tuple_) with
      | none =>
        rw [hf] at h
        obtain ⟨h1, r, hr, h2⟩ := ih rest o h
        exact ⟨by simp only [List.length_cons]; omega, r, List.mem_cons_of_mem _ hr, h2⟩
      | some tup =>
        rw [hf] at h
        simp only [Option.some.injEq, Prod.mk.injEq] at h
        obtain ⟨h1, h2⟩ := h
        subst h1
        refine ⟨by simp, tuple_, List.mem_cons_self _ _, tuples, b, tup, hg,
          List.mem_of_find?_eq_some hf, ?_, h2.symm⟩
        exact @List.find?_some T (fun tup => pred tup tuple_) tup tuples hf

/-- The tuples produced by repeated `Next` are at most as many as the right tuples left. -/
theorem drain_length (B : Nat) (hash : Nat → Nat) (fuel : Nat) (rightKey : T → Nat)
    (pred : T → T → Bool) (project : T → T → O) :
    ∀ (n : Nat) (e : HashJoinExecutor T) (out : List O),
      drain B hash fuel rightKey pred project n e = some out →
      out.length ≤ e.right_.length := by
  intro n
  induction n with
  | zero => intro e out h; simp [drain] at h
  | succ n ih =>
    intro e out h
    rw [drain] at h
    cases hn : Next B hash fuel rightKey pred project e with
    | none => rw [hn] at h; cases h
    | some x =>
      obtain ⟨e', o⟩ := x
      rw [hn] at h
      cases o with
      | none =>
        simp only [Option.some.injEq] at h
        subst h
        simp
      | some o =>
        simp only [Option.map_eq_some'] at h
        obtain ⟨out', h1, h2⟩ := h
        subst h2
        have hlen := ih e' out' h1
        unfold Next at hn
        simp only [Option.map_eq_some', Prod.mk.injEq] at hn
        obtain ⟨y, hy, he, ho⟩ := hn
        obtain ⟨rest, x⟩ := y
        simp only at he ho
        subst ho
        have := (NextLoop_some B hash fuel rightKey pred project e.jht_ e.right_ rest o hy).1
        subst he
        simp only [List.length_cons] at hlen ⊢
        omega

end HashJoinExecutor


/-! ## Tables that keep a slot that was never occupied -/

namespace LinearProbeHashTable

variable {K V : Type}

theorem mem_takeWhile_mono {α : Type} {p p' : α → Bool} :
    ∀ (l : List α), (∀ x ∈ l, p x = true → p' x = true) →
      ∀ x, x ∈ l.takeWhile p → x ∈ l.takeWhile p' := by
  intro l
  induction l with
  | nil => intro _ x hx; simp at hx
  | cons a l ih =>
    intro h x hx
    rw [List.takeWhile_cons] at hx
    by_cases ha : p a = true
    · rw [if_pos ha] at hx
      rw [List.takeWhile_cons, if_pos (h a (List.mem_cons_self _ _) ha)]
      rcases List.mem_cons.mp hx with hxa | hxl
      · exact List.mem_cons.mpr (Or.inl hxa)
      · exact List.mem_cons.mpr
          (Or.inr (ih (fun y hy => h y (List.mem_cons_of_mem _ hy)) x hxl))
    · rw [if_neg ha] at hx
      cases hx

theorem filter_takeWhile_eq {α : Type} (P occ : α → Bool) :
    ∀ (l : List α), l.Nodup → (∀ x ∈ l, P x = true → x ∈ l.takeWhile occ) →
      l.filter P = (l.takeWhile occ).filter P := by
  intro l
  induction l with
  | nil => intro _ _; rfl
  | cons a l ih =>
    intro hnd h
    rw [List.nodup_cons] at hnd
    by_cases ha : occ a = true
    · have hl : ∀ x ∈ l, P x = true → x ∈ l.takeWhile occ := by
        intro x hx hP
        have := h x (List.mem_cons_of_mem _ hx) hP
        rw [List.takeWhile_cons, if_pos ha] at this
        rcases List.mem_cons.mp this with hxa | hxl
        · exact absurd (hxa ▸ hx) hnd.1
        · exact hxl
      rw [List.takeWhile_cons, if_pos ha, List.filter_cons, List.filter_cons, ih hnd.2 hl]
    · have hnone : ∀ x ∈ a :: l, ¬(P x = true) := by
        intro x hx hP
        have := h x hx hP
        rw [List.takeWhile_cons, if_neg ha] at this
        cases this
      rw [List.takeWhile_cons, if_neg ha, List.filter_nil, List.filter_eq_nil_iff]
      exact hnone

theorem turn_nodup {N index : Nat} (hi : index < N) : (turn N index).Nodup := by
  apply List.Nodup.map_on _ (List.nodup_range N)
  intro x hx y hy hxy
  rw [List.mem_range] at hx hy
  rw [mod_lt_two (by omega), mod_lt_two (by omega)] at hxy
  split at hxy <;> split at hxy <;> omega

theorem mem_turn {N index p : Nat} (h : p ∈ turn N index) : p < N := by
  simp only [turn, List.mem_map, List.mem_range] at h
  obtain ⟨j, hj, rfl⟩ := h
  exact Nat.mod_lt _ (by omega)

theorem probeRun_eq_turn (N index : Nat) (occ : Nat → Bool) :
    probeRun N index occ = (turn N index).takeWhile occ := rfl

/-- A slot lies in the part of the run from offset `j` on when every slot from offset `j` up
to it is occupied. -/
theorem mem_runFrom {N index : Nat} {occ : Nat → Bool} :
    ∀ (k j : Nat), j + k < N → (∀ i, j ≤ i → i ≤ j + k → occ ((index + i) % N) = true) →
      (index + (j + k)) % N ∈ runFrom N index occ j := by
  intro k
  induction k with
  | zero =>
    intro j hj h
    rw [runFrom_cons (by omega) (h j (Nat.le_refl _) (by omega))]
    exact List.mem_cons_self _ _
  | succ k ih =>
    intro j hj h
    rw [runFrom_cons (by omega) (h j (Nat.le_refl _) (by omega))]
    apply List.mem_cons_of_mem
    have := ih (j + 1) (by omega) (fun i h1 h2 => h i (by omega) (by omega))
    have e : j + 1 + k = j + (k + 1) := by omega
    rw [e] at this
    exact this

/-- A slot lies in the probe run when every slot from the home slot up to it is occupied. -/
theorem mem_probeRun_of_occupied {N index off : Nat} {occ : Nat → Bool} (hoff : off < N)
    (h : ∀ i, i ≤ off → occ ((index + i) % N) = true) :
    (index + off) % N ∈ probeRun N index occ := by
  rw [← runFrom_zero]
  have := @mem_runFrom N index occ off 0 (by omega) (fun i _ h2 => h i (by omega))
  rw [Nat.zero_add] at this
  exact this

/-- The probe run grows with the set of occupied slots. -/
theorem probeRun_mono {N index : Nat} {occ occ' : Nat → Bool}
    (h : ∀ p, p < N → occ p = true → occ' p = true) {p : Nat}
    (hp : p ∈ probeRun N index occ) : p ∈ probeRun N index occ' := by
  rw [probeRun_eq_turn] at hp ⊢
  exact mem_takeWhile_mono _ (fun x hx => h x (mem_turn hx)) p hp

/-! ### The slots after `HashTableBlockPage::Insert` on a flat position -/

theorem header_insertAt (B : Nat) (t : LinearProbeHashTable K V) (q : Nat) (key : K)
    (value : V) : (insertAt B t q key value).header = t.header := rfl

theorem numSlots_insertAt (B : Nat) (t : LinearProbeHashTable K V) (q : Nat) (key : K)
    (value : V) : numSlots B (insertAt B t q key value) = numSlots B t := rfl

theorem home_insertAt (B : Nat) (hash : K → Nat) (t : LinearProbeHashTable K V) (q : Nat)
    (key : K) (value : V) (k : K) :
    home B hash (insertAt B t q key value) k = home B hash t k := rfl

theorem WF_insertAt {B : Nat} {t : LinearProbeHashTable K V} (hWF : WF B t) (q : Nat)
    (key : K) (value : V) : WF B (insertAt B t q key value) :=
  ⟨hWF.block_size_pos, hWF.num_blocks_pos, hWF.nodup⟩

theorem occupiedAt_insertAt {B : Nat} {t : LinearProbeHashTable K V} (hWF : WF B t)
    {q : Nat} (hq : q < numSlots B t) (hr : readableAt B t q = false) (key : K) (value : V)
    {p : Nat} (hp : p < numSlots B t) :
    occupiedAt B (insertAt B t q key value) p = (occupiedAt B t p || decide (p = q)) := by
  have hr' : (t.block_pages (pageOf B t q)).IsReadable (q % B) = false := hr
  by_cases hpq : p = q
  · subst hpq
    simp only [insertAt, occupiedAt, pageOf_setBlock, block_pages_setBlock, if_true,
      HashTableBlockPage.IsOccupied_Insert _ _ _ _ _ hr']
  · rw [show insertAt B t q key value = t.setBlock (pageOf B t q)
        ((t.block_pages (pageOf B t q)).Insert (q % B) key value).1 from rfl,
      occupiedAt_after_Insert hWF hq hr key value hp hpq]
    simp [hpq]

theorem readableAt_insertAt {B : Nat} {t : LinearProbeHashTable K V} (hWF : WF B t)
    {q : Nat} (hq : q < numSlots B t) (hr : readableAt B t q = false) (key : K) (value : V)
    {p : Nat} (hp : p < numSlots B t) :
    readableAt B (insertAt B t q key value) p = (readableAt B t p || decide (p = q)) := by
  have hr' : (t.block_pages (pageOf B t q)).IsReadable (q % B) = false := hr
  simp only [insertAt, readableAt, pageOf_setBlock, block_pages_setBlock]
  by_cases hpg : pageOf B t p = pageOf B t q
  · simp only [if_pos hpg, HashTableBlockPage.IsReadable_Insert _ _ _ _ _ hr']
    by_cases hpq : p = q
    · subst hpq; simp
    · have hmod : q % B ≠ p % B := fun hm => hpq (slot_inj hWF hp hq hpg hm.symm)
      simp [hmod, hpq, hpg]
  · have hpq : p ≠ q := fun e => hpg (by rw [e])
    simp [if_neg hpg, hpq]

theorem keyAt_insertAt {B : Nat} {t : LinearProbeHashTable K V} (hWF : WF B t)
    {q : Nat} (hq : q < numSlots B t) (hr : readableAt B t q = false) (key : K) (value : V)
    {p : Nat} (hp : p < numSlots B t) :
    keyAt B (insertAt B t q key value) p = if p = q then key else keyAt B t p := by
  have hr' : (t.block_pages (pageOf B t q)).IsReadable (q % B) = false := hr
  simp only [insertAt, keyAt, pageOf_setBlock, block_pages_setBlock, HashTableBlockPage.KeyAt]
  by_cases hpg : pageOf B t p = pageOf B t q
  · simp only [if_pos hpg, HashTableBlockPage.array_Insert _ _ _ _ _ hr']
    by_cases hpq : p = q
    · subst hpq; simp
    · have hmod : p % B ≠ q % B := fun hm => hpq (slot_inj hWF hp hq hpg hm)
      simp [hmod, hpq, hpg]
  · have hpq : p ≠ q := fun e => hpg (by rw [e])
    simp [if_neg hpg, hpq]

theorem valueAt_insertAt {B : Nat} {t : LinearProbeHashTable K V} (hWF : WF B t)
    {q : Nat} (hq : q < numSlots B t) (hr : readableAt B t q = false) (key : K) (value : V)
    {p : Nat} (hp : p < numSlots B t) :
    valueAt B (insertAt B t q key value) p = if p = q then value else valueAt B t p := by
  have hr' : (t.block_pages (pageOf B t q)).IsReadable (q % B) = false := hr
  simp only [insertAt, valueAt, pageOf_setBlock, block_pages_setBlock,
    HashTableBlockPage.ValueAt]
  by_cases hpg : pageOf B t p = pageOf B t q
  · simp only [if_pos hpg, HashTableBlockPage.array_Insert _ _ _ _ _ hr']
    by_cases hpq : p = q
    · subst hpq; simp
    · have hmod : p % B ≠ q % B := fun hm => hpq (slot_inj hWF hp hq hpg hm)
      simp [hmod, hpq, hpg]
  · have hpq : p ≠ q := fun e => hpg (by rw [e])
    simp [if_neg hpg, hpq]

end LinearProbeHashTable


namespace LinearProbeHashTable

variable {K V : Type}

/-- In a table with a slot that is not readable further on in the turn, the loop of `Insert`
either meets the pair and changes nothing, or writes the pair to the first slot that is not
readable; it does not resize. -/
theorem InsertLoop_walk [DecidableEq K] [DecidableEq V] [Inhabited K] [Inhabited V]
    {B : Nat} (hash : K → Nat) (t : LinearProbeHashTable K V) (key : K) (value : V)
    (hB : 0 < B) {index : Nat} (hi : index < numSlots B t) :
    ∀ (fuel j : Nat) (t' : LinearProbeHashTable K V) (b : Bool), j < numSlots B t →
      (∃ i, j ≤ i ∧ i < numSlots B t ∧
        readableAt B t ((index + i) % numSlots B t) = false) →
      InsertLoop B hash key value fuel t index (((index + j) % numSlots B t) / B)
          (((index + j) % numSlots B t) % B) (pageOf B t ((index + j) % numSlots B t))
        = some (t', b) →
      (t' = t ∧ b = false) ∨
        ∃ off, j ≤ off ∧ off < numSlots B t ∧
          readableAt B t ((index + off) % numSlots B t) = false ∧
          (∀ i, j ≤ i → i < off → readableAt B t ((index + i) % numSlots B t) = true) ∧
          t' = insertAt B t ((index + off) % numSlots B t) key value ∧ b = true := by
  intro fuel
  induction fuel with
  | zero => intro j t' b _ _ h; simp [InsertLoop] at h
  | succ fuel ih =>
    intro j t' b hj hex h
    have hN : 0 < numSlots B t := by omega
    have hp : (index + j) % numSlots B t < numSlots B t := Nat.mod_lt _ hN
    rw [InsertLoop] at h
    by_cases hr : readableAt B t ((index + j) % numSlots B t) = true
    · have hr' : (t.block_pages (pageOf B t ((index + j) % numSlots B t))).IsReadable
          ((index + j) % numSlots B t % B) = true := hr
      by_cases hk : key = (t.block_pages (pageOf B t ((index + j) % numSlots B t))).KeyAt
            ((index + j) % numSlots B t % B) ∧
          value = (t.block_pages (pageOf B t ((index + j) % numSlots B t))).ValueAt
            ((index + j) % numSlots B t % B)
      · simp only [HashTableBlockPage.Insert, hr', if_true, Bool.false_eq_true, if_false, hk,
          and_self, Option.some.injEq, Prod.mk.injEq] at h
        exact Or.inl ⟨h.1.symm, h.2.symm⟩
      · obtain ⟨i, hji, hiN, hri⟩ := hex
        have hij : i ≠ j := by
          intro e
          rw [e, hr] at hri
          cases hri
        have hw : ¬((index + j) % numSlots B t + 1 = index) := by
          intro hwrap
          have := last_of_wrap hi hj hwrap
          omega
        simp only [HashTableBlockPage.Insert, hr', if_true, Bool.false_eq_true, if_false, hk,
          flat_pos, hw, nextBlock_flat t hB hp, succ_pos_mod] at h
        rcases ih (j + 1) t' b (by omega) ⟨i, by omega, hiN, hri⟩ h with hsame | hins
        · exact Or.inl hsame
        · obtain ⟨off, h1, h2, h3, h4, h5, h6⟩ := hins
          refine Or.inr ⟨off, by omega, h2, h3, ?_, h5, h6⟩
          intro i' hj' hi'
          by_cases e : i' = j
          · rw [e]; exact hr
          · exact h4 i' (by omega) hi'
    · have hr' : (t.block_pages (pageOf B t ((index + j) % numSlots B t))).IsReadable
          ((index + j) % numSlots B t % B) = false := by
        simpa [readableAt] using hr
      have hrf : readableAt B t ((index + j) % numSlots B t) = false := hr'
      simp only [HashTableBlockPage.Insert, hr', Bool.false_eq_true, if_false, if_true,
        Option.some.injEq, Prod.mk.injEq] at h
      refine Or.inr ⟨j, Nat.le_refl _, hj, hrf, fun i h1 h2 => by omega, ?_, h.2.symm⟩
      rw [← h.1]
      simp only [insertAt, HashTableBlockPage.Insert, hr', Bool.false_eq_true, if_false]

/-- What `Insert` does on a table that has a slot that is not readable. -/
theorem Insert_sparse [DecidableEq K] [DecidableEq V] [Inhabited K] [Inhabited V]
    {B : Nat} (hash : K → Nat) {t t' : LinearProbeHashTable K V} (hWF : WF B t) {key : K}
    {value : V} {fuel : Nat} {b : Bool}
    (hfree : ∃ p, p < numSlots B t ∧ readableAt B t p = false)
    (h : Insert B hash fuel t key value = some (t', b)) :
    (t' = t ∧ b = false) ∨
      ∃ off, off < numSlots B t ∧
        readableAt B t ((home B hash t key + off) % numSlots B t) = false ∧
        (∀ i, i < off → readableAt B t ((home B hash t key + i) % numSlots B t) = true) ∧
        t' = insertAt B t ((home B hash t key + off) % numSlots B t) key value ∧
        b = true := by
  have hN : 0 < numSlots B t := Nat.mul_pos hWF.num_blocks_pos hWF.block_size_pos
  have hh : home B hash t key < numSlots B t := home_lt hash hWF key
  have hex : ∃ i, 0 ≤ i ∧ i < numSlots B t ∧
      readableAt B t ((home B hash t key + i) % numSlots B t) = false := by
    obtain ⟨p, hp, hr⟩ := hfree
    by_cases hge : home B hash t key ≤ p
    · refine ⟨p - home B hash t key, Nat.zero_le _, by omega, ?_⟩
      have e : home B hash t key + (p - home B hash t key) = p := by omega
      rw [e, Nat.mod_eq_of_lt hp]
      exact hr
    · refine ⟨p + numSlots B t - home B hash t key, Nat.zero_le _, by omega, ?_⟩
      have e : home B hash t key + (p + numSlots B t - home B hash t key)
          = p + numSlots B t := by omega
      rw [e, Nat.add_mod_right, Nat.mod_eq_of_lt hp]
      exact hr
  have hwalk := InsertLoop_walk hash t key value hWF.block_size_pos hh fuel 0 t' b hN hex
  rw [Nat.add_zero, Nat.mod_eq_of_lt hh] at hwalk
  rcases hwalk h with hsame | ⟨off, _, h2, h3, h4, h5, h6⟩
  · exact Or.inl hsame
  · exact Or.inr ⟨off, h2, h3, fun i hi' => h4 i (Nat.zero_le _) hi', h5, h6⟩

end LinearProbeHashTable


namespace LinearProbeHashTable

variable {K V : Type}

/-- A completed `Insert` on a table with a slot that is not readable keeps the two slot
invariants: readable slots are occupied, and every readable slot lies in the probe run of its
key. -/
theorem Insert_keeps_runs [DecidableEq K] [DecidableEq V] [Inhabited K] [Inhabited V]
    {B : Nat} (hash : K → Nat) {t t' : LinearProbeHashTable K V} (hWF : WF B t)
    (hro : ReadableOccupied B t) (hrun : InRun B hash t) {key : K} {value : V} {fuel : Nat}
    {b : Bool} (hfree : ∃ p, p < numSlots B t ∧ readableAt B t p = false)
    (h : Insert B hash fuel t key value = some (t', b)) :
    ReadableOccupied B t' ∧ InRun B hash t' := by
  have hN : 0 < numSlots B t := Nat.mul_pos hWF.num_blocks_pos hWF.block_size_pos
  rcases Insert_sparse hash hWF hfree h with ⟨rfl, _⟩ | ⟨off, hoff, hr, hbefore, rfl, _⟩
  · exact ⟨hro, hrun⟩
  · have hq : (home B hash t key + off) % numSlots B t < numSlots B t := Nat.mod_lt _ hN
    constructor
    · intro p hp hrp
      rw [numSlots_insertAt] at hp
      rw [readableAt_insertAt hWF hq hr key value hp] at hrp
      rw [occupiedAt_insertAt hWF hq hr key value hp]
      rcases Bool.or_eq_true _ _ ▸ hrp with h1 | h1
      · rw [hro p hp h1]; rfl
      · rw [h1]; simp
    · intro p hp hrp
      rw [numSlots_insertAt] at hp
      rw [readableAt_insertAt hWF hq hr key value hp] at hrp
      rw [keyAt_insertAt hWF hq hr key value hp]
      have hocc : ∀ x, x < numSlots B t → occupiedAt B t x = true →
          occupiedAt B (insertAt B t ((home B hash t key + off) % numSlots B t) key value) x
            = true := by
        intro x hx hox
        rw [occupiedAt_insertAt hWF hq hr key value hx, hox]
        rfl
      by_cases hpq : p = (home B hash t key + off) % numSlots B t
      · rw [if_pos hpq, hpq]
        show _ ∈ probeRun (numSlots B t) (home B hash t key) _
        apply mem_probeRun_of_occupied hoff
        intro i hi
        have hx : (home B hash t key + i) % numSlots B t < numSlots B t := Nat.mod_lt _ hN
        rw [occupiedAt_insertAt hWF hq hr key value hx]
        by_cases e : i = off
        · rw [e]; simp
        · rw [hro _ hx (hbefore i (by omega))]; rfl
      · rw [if_neg hpq]
        have hrp' : readableAt B t p = true := by
          rcases Bool.or_eq_true _ _ ▸ hrp with h1 | h1
          · exact h1
          · exact absurd (of_decide_eq_true h1) hpq
        exact probeRun_mono hocc (hrun p hp hrp')

/-- A completed `Remove` keeps the two slot invariants. -/
theorem Remove_keeps_runs [DecidableEq K] [DecidableEq V] {B : Nat} (hash : K → Nat)
    {t t' : LinearProbeHashTable K V} (hWF : WF B t) (hro : ReadableOccupied B t)
    (hrun : InRun B hash t) {key : K} {value : V} {fuel : Nat} {b : Bool}
    (h : Remove B hash fuel t key value = some (t', b)) :
    ReadableOccupied B t' ∧ InRun B hash t' ∧ occupiedAt B t' = occupiedAt B t ∧
      numSlots B t' = numSlots B t := by
  have hN : 0 < numSlots B t := Nat.mul_pos hWF.num_blocks_pos hWF.block_size_pos
  cases b with
  | false =>
    rw [Remove_false_inv hash hWF h]
    exact ⟨hro, hrun, rfl, rfl⟩
  | true =>
    obtain ⟨q, hfind, rfl⟩ := Remove_true_inv hash hWF h
    have hqrun : q ∈ keyRun B hash t key := List.mem_of_find?_eq_some hfind
    obtain ⟨hq, hoq⟩ := mem_probeRun hN hqrun
    refine ⟨?_, ?_, occupiedAt_removeAt B t q, rfl⟩
    · intro p hp hrp
      rw [numSlots_removeAt] at hp
      rw [readableAt_removeAt hWF hq hoq hp] at hrp
      rw [occupiedAt_removeAt]
      have := (Bool.and_eq_true _ _ ▸ hrp).1
      exact hro p hp this
    · intro p hp hrp
      rw [numSlots_removeAt] at hp
      rw [readableAt_removeAt hWF hq hoq hp] at hrp
      have hrp' : readableAt B t p = true := (Bool.and_eq_true _ _ ▸ hrp).1
      have := hrun p hp hrp'
      unfold keyRun at this ⊢
      rw [numSlots_removeAt, home_removeAt, occupiedAt_removeAt, keyAt_removeAt]
      exact this

/-- Every table reached by completed `Insert` and `Remove` calls that leave a slot that was
never occupied is one the probe arithmetic makes sense on and keeps the two slot invariants,
when the table the calls started from does. -/
theorem Sparse.keeps_runs [DecidableEq K] [DecidableEq V] [Inhabited K] [Inhabited V] {B : Nat}
    {hash : K → Nat} {t0 t : LinearProbeHashTable K V} (hs : Sparse B hash t0 t)
    (hWF : WF B t0) (hro : ReadableOccupied B t0) (hrun : InRun B hash t0) :
    WF B t ∧ ReadableOccupied B t ∧ InRun B hash t ∧
      ∃ p, p < numSlots B t ∧ occupiedAt B t p = false := by
  induction hs with
  | start hfree => exact ⟨hWF, hro, hrun, hfree⟩
  | @insert t1 t2 fuel key value b _ hins hfree ih =>
    obtain ⟨h1, h2, h3, p, hp, hop⟩ := ih
    have hfree' : ∃ p, p < numSlots B t1 ∧ readableAt B t1 p = false := by
      refine ⟨p, hp, ?_⟩
      cases hrp : readableAt B t1 p with
      | false => rfl
      | true => rw [h2 p hp hrp] at hop; cases hop
    obtain ⟨h4, h5⟩ := Insert_keeps_runs hash h1 h2 h3 hfree' hins
    exact ⟨Insert_WF hash h1 hins, h4, h5, hfree⟩
  | remove _ hrem hfree ih =>
    obtain ⟨h1, h2, h3, _⟩ := ih
    obtain ⟨h4, h5, _, _⟩ := Remove_keeps_runs hash h1 h2 h3 hrem
    exact ⟨Remove_WF hash h1 hrem, h4, h5, hfree⟩

/-- In a table that keeps the slot invariants and has a slot that was never occupied,
`GetValue` with an empty output vector returns within as many iterations as the table has
slots, and what it returns are the values of the readable slots holding the key, in probe
order over the whole table. -/
theorem GetValue_of_runs [DecidableEq K] {B : Nat} (hash : K → Nat)
    {t : LinearProbeHashTable K V} (hWF : WF B t) (hrun : InRun B hash t)
    (hfree : ∃ p, p < numSlots B t ∧ occupiedAt B t p = false) (key : K) {fuel : Nat}
    (hfuel : numSlots B t ≤ fuel) :
    GetValue B hash fuel t key []
      = some (((turn (numSlots B t) (home B hash t key)).filter (hasKeyAt B t key)).map
            (valueAt B t),
          !(((turn (numSlots B t) (home B hash t key)).filter (hasKeyAt B t key)).map
            (valueAt B t)).isEmpty) := by
  have hN : 0 < numSlots B t := Nat.mul_pos hWF.num_blocks_pos hWF.block_size_pos
  have hh : home B hash t key < numSlots B t := home_lt hash hWF key
  obtain ⟨p0, hp0, hop0⟩ := hfree
  have hterm := @probe_terminates (numSlots B t) (home B hash t key) (occupiedAt B t)
    (fun _ => false) hh (Or.inr ⟨p0, hp0, Or.inl hop0⟩) fuel hfuel
  have hfilter : (turn (numSlots B t) (home B hash t key)).filter (hasKeyAt B t key)
      = (keyRun B hash t key).filter (hasKeyAt B t key) := by
    unfold keyRun
    rw [probeRun_eq_turn]
    apply filter_takeWhile_eq _ _ _ (turn_nodup hh)
    intro x hx hkx
    have hxN := mem_turn hx
    simp only [hasKeyAt, Bool.and_eq_true, decide_eq_true_eq] at hkx
    have := hrun x hxN hkx.2
    rw [← hkx.1] at this
    exact this
  cases hg : GetValue B hash fuel t key [] with
  | none =>
    rw [GetValue_eq_probe hash t key hWF.block_size_pos hWF.num_blocks_pos] at hg
    cases hp : probe (numSlots B t) (home B hash t key) (occupiedAt B t) (fun _ => false)
        fuel (home B hash t key) with
    | none => rw [hp] at hterm; cases hterm
    | some x => rw [hp] at hg; cases hg
  | some x =>
    obtain ⟨l, b⟩ := x
    obtain ⟨_, hl, hb⟩ := GetValue_some_inv hash hWF hg
    rw [List.nil_append] at hl
    rw [hfilter, hb, hl]

end LinearProbeHashTable


namespace LinearProbeHashTable

variable {K V : Type}

/-- The table the constructor builds has `num_buckets * BLOCK_ARRAY_SIZE` slots, each in a
zero-filled block page. -/
theorem construct_slots [Inhabited K] [Inhabited V] {B : Nat}
    (pool : LinearProbeHashTable K V) (m : Nat) (hB : 0 < B) :
    numSlots B (construct B pool m) = m * B ∧
    ∀ p, p < m * B →
      (construct B pool m).block_pages (pageOf B (construct B pool m) p)
        = HashTableBlockPage.zero := by
  rw [construct_eq]
  obtain ⟨_, hhdr, _, hblocks⟩ := withNewHeader_spec B pool m
  constructor
  · unfold numSlots; rw [hhdr]; simp [HashTableHeaderPage.NumBlocks]
  · intro p hp
    have hd : p / B < m := by rw [Nat.div_lt_iff_lt_mul hB]; exact hp
    unfold pageOf HashTableHeaderPage.GetBlockPageId
    rw [hhdr]
    simp only
    rw [getD_ids _ m _ hd, hblocks]
    have hin : ∀ i : Nat, i < m →
        (pool.next_page_id_ : Int) ≤ pool.next_page_id_ + 1 + (i : Int) ∧
          (pool.next_page_id_ : Int) + 1 + (i : Int) < pool.next_page_id_ + 1 + (m : Int) := by
      intro i hi
      simp only [page_id_t]; omega
    rw [if_pos (hin _ hd)]

/-- No slot of the table the constructor builds is occupied or readable. -/
theorem construct_unoccupied [Inhabited K] [Inhabited V] {B : Nat}
    (pool : LinearProbeHashTable K V) (m : Nat) (hB : 0 < B) {p : Nat}
    (hp : p < numSlots B (construct B pool m)) :
    occupiedAt B (construct B pool m) p = false ∧
      readableAt B (construct B pool m) p = false := by
  obtain ⟨h1, h2⟩ := construct_slots pool m hB
  rw [h1] at hp
  unfold occupiedAt readableAt
  rw [h2 p hp]
  exact ⟨HashTableBlockPage.IsOccupied_zero _, HashTableBlockPage.IsReadable_zero _⟩

/-- The calls that leave a slot that was never occupied do not resize: the header page is the
one the calls started from. -/
theorem Sparse.header_eq [DecidableEq K] [DecidableEq V] [Inhabited K] [Inhabited V]
    {B : Nat} {hash : K → Nat} {t0 t : LinearProbeHashTable K V} (hs : Sparse B hash t0 t)
    (hWF : WF B t0) (hro : ReadableOccupied B t0) (hrun : InRun B hash t0) :
    t.header = t0.header := by
  induction hs with
  | start _ => rfl
  | @insert t1 t2 fuel key value b hs1 hins _ ih =>
    obtain ⟨h1, h2, _, p, hp, hop⟩ := Sparse.keeps_runs hs1 hWF hro hrun
    have hfree : ∃ p, p < numSlots B t1 ∧ readableAt B t1 p = false := by
      refine ⟨p, hp, ?_⟩
      cases hrp : readableAt B t1 p with
      | false => rfl
      | true => rw [h2 p hp hrp] at hop; cases hop
    rcases Insert_sparse hash h1 hfree hins with ⟨rfl, _⟩ | ⟨off, _, _, _, rfl, _⟩
    · exact ih
    · rw [header_insertAt]; exact ih
  | @remove t1 t2 fuel key value b hs1 hrem _ ih =>
    obtain ⟨h1, _, _, _⟩ := Sparse.keeps_runs hs1 hWF hro hrun
    cases b with
    | false => rw [Remove_false_inv hash h1 hrem]; exact ih
    | true =>
      obtain ⟨q, _, rfl⟩ := Remove_true_inv hash h1 hrem
      rw [header_removeAt]; exact ih

end LinearProbeHashTable


/-! ## Buffer pool: states reached by calls with any page id -/

namespace BufferPoolManager

variable {Data : Type}

/-- A state reached by calls that fetch only page ids the disk manager has handed out is a
state reached by calls. -/
theorem Reachable.reachedByCalls [Zero Data] {s : BufferPoolManager Data}
    (h : Reachable s) : ReachedByCalls s := by
  induction h with
  | init pool_size disk_manager h => exact ReachedByCalls.init pool_size disk_manager h
  | fetch _ _ _ hf ih => exact ReachedByCalls.fetch ih hf
  | newPage _ hn ih => exact ReachedByCalls.newPage ih hn
  | unpin page_id is_dirty _ ih => exact ReachedByCalls.unpin page_id is_dirty ih
  | flush page_id _ ih => exact ReachedByCalls.flush page_id ih
  | delete page_id _ ih => exact ReachedByCalls.delete page_id ih
  | flushAll _ ih => exact ReachedByCalls.flushAll ih
  | write frame_id data _ hp ih => exact ReachedByCalls.write frame_id data ih hp

end BufferPoolManager

namespace Example
open BufferPoolManager

theorem reachedByCalls_earlyFetchPool : ReachedByCalls earlyFetchPool :=
  ReachedByCalls.fetch (ReachedByCalls.init 2 emptyDisk (by decide))
    (rfl : FetchPageImpl 0 (BufferPoolManager.new 2 emptyDisk) 0
      = some (earlyFetchPool, some 0))

theorem reachedByCalls_shadowedPool : ReachedByCalls shadowedPool :=
  ReachedByCalls.newPage
    (ReachedByCalls.unpin 0 true
      (ReachedByCalls.write 0 77 reachedByCalls_earlyFetchPool (by decide)))
    (rfl : NewPageImpl 2 ((earlyFetchPool.writeData 0 77).UnpinPageImpl 0 true).1
      = some (shadowedPool, some (1, 0)))

theorem reachedByCalls_orphanPool : ReachedByCalls orphanPool :=
  ReachedByCalls.unpin 0 false reachedByCalls_shadowedPool

theorem reachedByCalls_sentinelPool : ReachedByCalls sentinelPool :=
  ReachedByCalls.unpin (-1) true
    (ReachedByCalls.write 0 77
      (ReachedByCalls.fetch (ReachedByCalls.init 1 emptyDisk (by decide))
        (rfl : FetchPageImpl 0 (BufferPoolManager.new 1 emptyDisk) (-1)
          = some (poolAfterFetch (BufferPoolManager.new 1 emptyDisk) (-1), some 0)))
      (by decide))

end Example

/-! ## Claims about the hash index -/

/-- C4 (the source misses the case): in a table whose slots are all readable, `Insert` of a
pair that is not in the table and whose key has home slot 0 never returns, whatever the
fuel: the test `block_ind * BLOCK_ARRAY_SIZE + bucket_ind == index` is made after the
increment and before the wrap to block 0, so it never sees the value 0 and `Resize` is never
called. -/
theorem Insert_full_table_home_zero_never_returns {K V : Type} [DecidableEq K] [DecidableEq V]
    [Inhabited K] [Inhabited V] {B : Nat} (hash : K → Nat) (t : LinearProbeHashTable K V)
    (key : K) (value : V) (hWF : LinearProbeHashTable.WF B t)
    (hfull : ∀ p, p < LinearProbeHashTable.numSlots B t →
      LinearProbeHashTable.readableAt B t p = true)
    (hnew : ∀ p, p < LinearProbeHashTable.numSlots B t →
      ¬(key = LinearProbeHashTable.keyAt B t p ∧ value = LinearProbeHashTable.valueAt B t p))
    (hhome : LinearProbeHashTable.home B hash t key = 0) :
    ∀ fuel, LinearProbeHashTable.Insert B hash fuel t key value = none := by
  intro fuel
  have hN : 0 < LinearProbeHashTable.numSlots B t :=
    Nat.mul_pos hWF.num_blocks_pos hWF.block_size_pos
  have := LinearProbeHashTable.InsertLoop_diverges hash t key value hWF.block_size_pos hfull
    hnew fuel 0 hN
  unfold LinearProbeHashTable.Insert LinearProbeHashTable.GetIndex
  unfold LinearProbeHashTable.home LinearProbeHashTable.numSlots at hhome
  simp only [hhome]
  exact this

/-- C5 (the source misses the case): in a table whose slots are all occupied, `GetValue` of
a key with home slot 0 never returns, whatever the fuel and the output vector: the scan wraps
from the last slot to slot 0 and goes round again, because the test for the home slot is made
on `bucket_ind` after the increment and before the wrap. -/
theorem GetValue_full_table_home_zero_never_returns {K V : Type} [DecidableEq K] {B : Nat}
    (hash : K → Nat) (t : LinearProbeHashTable K V) (key : K)
    (hWF : LinearProbeHashTable.WF B t)
    (hfull : ∀ p, p < LinearProbeHashTable.numSlots B t →
      LinearProbeHashTable.occupiedAt B t p = true)
    (hhome : LinearProbeHashTable.home B hash t key = 0) :
    ∀ fuel result, LinearProbeHashTable.GetValue B hash fuel t key result = none := by
  intro fuel result
  have hN : 0 < LinearProbeHashTable.numSlots B t :=
    Nat.mul_pos hWF.num_blocks_pos hWF.block_size_pos
  rw [LinearProbeHashTable.GetValue_eq_probe hash t key hWF.block_size_pos hWF.num_blocks_pos,
    hhome, LinearProbeHashTable.probe_diverges hN hfull (fun _ _ => rfl) fuel 0 hN]
  rfl

section

open LinearProbeHashTable Example

/-- C4, at the table of the scenarios: the four slots are readable, key 4 has home slot 0,
and `Insert(4, 14)` does not return. -/
theorem Insert_full_table_home_zero_witness :
    WF 2 fullTable ∧ (∀ p, p < numSlots 2 fullTable → readableAt 2 fullTable p = true) ∧
    (∀ p, p < numSlots 2 fullTable →
      ¬((4 : Nat) = keyAt 2 fullTable p ∧ (14 : Nat) = valueAt 2 fullTable p)) ∧
    home 2 idHash fullTable 4 = 0 ∧ ∀ fuel, Insert 2 idHash fuel fullTable 4 14 = none :=
  have h1 : WF 2 fullTable := ⟨by decide, by decide, by decide⟩
  have h2 : ∀ p, p < numSlots 2 fullTable → readableAt 2 fullTable p = true := by decide
  have h3 : ∀ p, p < numSlots 2 fullTable →
      ¬((4 : Nat) = keyAt 2 fullTable p ∧ (14 : Nat) = valueAt 2 fullTable p) := by decide
  have h4 : home 2 idHash fullTable 4 = 0 := by decide
  ⟨h1, h2, h3, h4, Insert_full_table_home_zero_never_returns idHash fullTable 4 14 h1 h2 h3 h4⟩

/-- C5, at the table of the scenarios: the four slots are occupied, key 4 has home slot 0,
and `GetValue(4)` does not return. -/
theorem GetValue_full_table_home_zero_witness :
    WF 2 fullTable ∧ (∀ p, p < numSlots 2 fullTable → occupiedAt 2 fullTable p = true) ∧
    home 2 idHash fullTable 4 = 0 ∧
    ∀ fuel result, GetValue 2 idHash fuel fullTable 4 result = none :=
  have h1 : WF 2 fullTable := ⟨by decide, by decide, by decide⟩
  have h2 : ∀ p, p < numSlots 2 fullTable → occupiedAt 2 fullTable p = true := by decide
  have h4 : home 2 idHash fullTable 4 = 0 := by decide
  ⟨h1, h2, h4, GetValue_full_table_home_zero_never_returns idHash fullTable 4 h1 h2 h4⟩

end

namespace LinearProbeHashTable
variable {K V : Type}

/-- The loop of `GetValue` only appends to the output vector. -/
theorem GetValueLoop_appends [DecidableEq K] (B : Nat) (t : LinearProbeHashTable K V)
    (key : K) (index : Nat) :
    ∀ fuel block_ind bucket_ind block_page_id (r r' : List V),
      GetValueLoop B t key index fuel block_ind bucket_ind block_page_id r = some r' →
      ∃ appended, r' = r ++ appended := by
  intro fuel
  induction fuel with
  | zero => intro _ _ _ r r' h; simp [GetValueLoop] at h
  | succ fuel ih =>
    intro block_ind bucket_ind block_page_id r r' h
    rw [GetValueLoop] at h
    simp only at h
    split at h
    · split at h
      · simp only [Option.some.injEq] at h
        subst h
        split
        · exact ⟨_, rfl⟩
        · exact ⟨[], by simp⟩
      · obtain ⟨app, happ⟩ := ih _ _ _ _ _ h
        rw [happ]
        split
        · exact ⟨(t.block_pages block_page_id).ValueAt bucket_ind :: app, by simp⟩
        · exact ⟨app, rfl⟩
    · simp only [Option.some.injEq] at h
      subst h
      exact ⟨[], by simp⟩

end LinearProbeHashTable

section

open LinearProbeHashTable Example

/-- C8 as stated fails: on the empty table, `GetValue(1)` called with the output vector `[7]`
appends nothing and returns true. -/
theorem GetValue_flag_counterexample :
    ¬ (∀ appended flag, GetValue 2 idHash 1 emptyTable 1 [7] = some ([7] ++ appended, flag) →
        (flag = true ↔ appended ≠ [])) := by
  intro h
  have := (h [] true (by decide)).mp rfl
  exact this rfl

end

/-- C8 (amended): when `GetValue` returns, the output vector is the one passed in followed by
the values appended, and the flag is true iff that vector is not empty, that is iff a value
was appended or the vector already held one; with an empty vector passed in, iff a value was
appended. -/
theorem GetValue_flag_iff_output_nonempty {K V : Type} [DecidableEq K] (B : Nat)
    (hash : K → Nat) (fuel : Nat) (t : LinearProbeHashTable K V) (key : K)
    (result result' : List V) (flag : Bool)
    (h : LinearProbeHashTable.GetValue B hash fuel t key result = some (result', flag)) :
    ∃ appended, result' = result ++ appended ∧
      (flag = true ↔ (result ≠ [] ∨ appended ≠ [])) ∧
      (result = [] → (flag = true ↔ appended ≠ [])) := by
  unfold LinearProbeHashTable.GetValue at h
  simp only at h
  split at h
  · cases h
  · rename_i r' hloop
    simp only [Option.some.injEq, Prod.mk.injEq] at h
    obtain ⟨app, happ⟩ := LinearProbeHashTable.GetValueLoop_appends B t key _ fuel _ _ _ _ _ hloop
    obtain ⟨h1, h2⟩ := h
    subst h1
    refine ⟨app, happ, ?_, ?_⟩
    · rw [← h2, happ]
      cases result <;> cases app <;> simp
    · intro hr
      rw [← h2, happ, hr]
      cases app <;> simp

section

open LinearProbeHashTable Example

/-- C8 (amended), at the table of the scenarios after the four Inserts: `GetValue(1)` with
the output vector `[7]` returns `[7, 11]` and true. -/
theorem GetValue_flag_witness :
    GetValue 2 idHash 8 fullTable 1 [7] = some ([7, 11], true) ∧
    ∃ appended, [7, 11] = [7] ++ appended ∧
      (true = true ↔ (([7] : List Nat) ≠ [] ∨ appended ≠ [])) ∧
      (([7] : List Nat) = [] → (true = true ↔ appended ≠ [])) :=
  ⟨by decide,
   GetValue_flag_iff_output_nonempty 2 idHash 8 fullTable 1 [7] [7, 11] true (by decide)⟩

end


/-- What `Remove` does when it returns.  On a table with at least one block,
`Remove(key, value)` returns true (for some number of loop iterations) iff the probe run of
the key (from the home slot over consecutive occupied slots, wrapping, at most one full turn)
meets a readable slot holding the pair.  When it returns true, the first such slot `q` has its
readable bit cleared and its occupied bit still set, every other slot of every block page
keeps its two bits, no key or value changes, and the header is untouched; when it returns
false the table is unchanged. -/
theorem Remove_true_iff_run_meets_pair {K V : Type} [DecidableEq K] [DecidableEq V] {B : Nat}
    (hash : K → Nat) (t : LinearProbeHashTable K V) (key : K) (value : V)
    (hWF : LinearProbeHashTable.WF B t) :
    ((∃ fuel t', LinearProbeHashTable.Remove B hash fuel t key value = some (t', true)) ↔
      ∃ p ∈ LinearProbeHashTable.keyRun B hash t key,
        LinearProbeHashTable.holdsAt B t key value p = true) ∧
    (∀ fuel t', LinearProbeHashTable.Remove B hash fuel t key value = some (t', true) →
      ∃ q, (LinearProbeHashTable.keyRun B hash t key).find?
            (LinearProbeHashTable.holdsAt B t key value) = some q ∧
        (t'.block_pages (LinearProbeHashTable.pageOf B t q)).IsReadable (q % B) = false ∧
        (t.block_pages (LinearProbeHashTable.pageOf B t q)).IsOccupied (q % B) = true ∧
        (t'.block_pages (LinearProbeHashTable.pageOf B t q)).IsOccupied (q % B) = true ∧
        (∀ page_id bucket_ind,
          ¬(page_id = LinearProbeHashTable.pageOf B t q ∧ bucket_ind = q % B) →
          (t'.block_pages page_id).IsReadable bucket_ind
              = (t.block_pages page_id).IsReadable bucket_ind ∧
            (t'.block_pages page_id).IsOccupied bucket_ind
              = (t.block_pages page_id).IsOccupied bucket_ind) ∧
        (∀ page_id, (t'.block_pages page_id).array_ = (t.block_pages page_id).array_) ∧
        t'.header_pages = t.header_pages ∧ t'.header_page_id_ = t.header_page_id_) ∧
    (∀ fuel t', LinearProbeHashTable.Remove B hash fuel t key value = some (t', false) →
      t' = t) := by
  have hN : 0 < LinearProbeHashTable.numSlots B t :=
    Nat.mul_pos hWF.num_blocks_pos hWF.block_size_pos
  refine ⟨⟨?_, ?_⟩, ?_, ?_⟩
  · rintro ⟨fuel, t', h⟩
    obtain ⟨q, hq, _⟩ := LinearProbeHashTable.Remove_true_inv hash hWF h
    exact ⟨q, List.mem_of_find?_eq_some hq, List.find?_some hq⟩
  · rintro ⟨p, hp, hh⟩
    obtain ⟨t', ht'⟩ := LinearProbeHashTable.Remove_of_mem_run hash hWF hp hh
    exact ⟨_, t', ht'⟩
  · intro fuel t' h
    obtain ⟨q, hq, ht'⟩ := LinearProbeHashTable.Remove_true_inv hash hWF h
    have hmem := LinearProbeHashTable.mem_probeRun hN (List.mem_of_find?_eq_some hq)
    have hocc : (t.block_pages (LinearProbeHashTable.pageOf B t q)).IsOccupied (q % B) = true :=
      hmem.2
    subst ht'
    refine ⟨q, hq, ?_, hocc, ?_, ?_, ?_, rfl, rfl⟩
    · rw [LinearProbeHashTable.block_pages_removeAt, if_pos rfl,
        HashTableBlockPage.IsReadable_Remove _ _ _ hocc]
      simp
    · rw [LinearProbeHashTable.block_pages_removeAt, if_pos rfl,
        HashTableBlockPage.IsOccupied_Remove]
      exact hocc
    · intro page_id bucket_ind hne
      rw [LinearProbeHashTable.block_pages_removeAt]
      split
      · rename_i hpg
        subst hpg
        have hb : q % B ≠ bucket_ind := fun h => hne ⟨rfl, h.symm⟩
        rw [HashTableBlockPage.IsReadable_Remove _ _ _ hocc,
          HashTableBlockPage.IsOccupied_Remove]
        simp [hb]
      · exact ⟨rfl, rfl⟩
    · intro page_id
      rw [LinearProbeHashTable.block_pages_removeAt]
      split
      · rename_i hpg
        subst hpg
        rw [HashTableBlockPage.array_Remove]
      · rfl
  · intro fuel t' h
    exact LinearProbeHashTable.Remove_false_inv hash hWF h

/-- C6: on a table with at least one block and no block page listed twice, let `GetValue(k1)`
return `l1` and `GetValue(k2)` return `l2` with `v2` in it (both called with an empty output
vector), the pairs `(k1, v1)` and `(k2, v2)` being different, and let `Remove(k1, v1)` return
true.  Then `v1` was in `l1`; after the `Remove`, `GetValue(k2)` returns within the same
number of iterations, returns true and still has `v2` in its output, and `GetValue(k1)`
returns `l1` with the first occurrence of `v1` erased. -/
theorem GetValue_after_Remove {K V : Type} [DecidableEq K] [DecidableEq V] {B : Nat}
    (hash : K → Nat) (t t' : LinearProbeHashTable K V) (k1 k2 : K) (v1 v2 : V)
    (fuel fuel1 fuel2 : Nat) (l1 l2 : List V) (b1 b2 : Bool)
    (hWF : LinearProbeHashTable.WF B t)
    (h1 : LinearProbeHashTable.GetValue B hash fuel1 t k1 [] = some (l1, b1))
    (h2 : LinearProbeHashTable.GetValue B hash fuel2 t k2 [] = some (l2, b2))
    (hv2 : v2 ∈ l2)
    (hne : (k1, v1) ≠ (k2, v2))
    (hrem : LinearProbeHashTable.Remove B hash fuel t k1 v1 = some (t', true)) :
    v1 ∈ l1 ∧
    (∃ l2', LinearProbeHashTable.GetValue B hash fuel2 t' k2 [] = some (l2', true) ∧
      v2 ∈ l2') ∧
    LinearProbeHashTable.GetValue B hash fuel1 t' k1 []
      = some (l1.erase v1, !(l1.erase v1).isEmpty) := by
  have hN : 0 < LinearProbeHashTable.numSlots B t :=
    Nat.mul_pos hWF.num_blocks_pos hWF.block_size_pos
  obtain ⟨q, hq, ht'⟩ := LinearProbeHashTable.Remove_true_inv hash hWF hrem
  have hqmem := LinearProbeHashTable.mem_probeRun hN (List.mem_of_find?_eq_some hq)
  have hqholds := List.find?_some hq
  simp only [LinearProbeHashTable.holdsAt, Bool.and_eq_true, decide_eq_true_eq] at hqholds
  obtain ⟨hp1, hl1, _⟩ := LinearProbeHashTable.GetValue_some_inv hash hWF h1
  obtain ⟨hp2, hl2, _⟩ := LinearProbeHashTable.GetValue_some_inv hash hWF h2
  subst ht'
  refine ⟨?_, ?_, ?_⟩
  · rw [hl1]
    simp only [List.nil_append, List.mem_map, List.mem_filter]
    refine ⟨q, ⟨List.mem_of_find?_eq_some hq, ?_⟩, hqholds.2.symm⟩
    simp [LinearProbeHashTable.hasKeyAt, hqholds.1.1, hqholds.1.2]
  · rw [LinearProbeHashTable.GetValue_removeAt hash hWF hqmem.1 hqmem.2 [] hp2]
    rw [hl2] at hv2
    simp only [List.nil_append, List.mem_map, List.mem_filter] at hv2
    obtain ⟨p, ⟨hpm, hpk⟩, hpv⟩ := hv2
    have hpq : p ≠ q := by
      intro hpq
      subst hpq
      simp only [LinearProbeHashTable.hasKeyAt, Bool.and_eq_true, decide_eq_true_eq] at hpk
      apply hne
      rw [hqholds.1.2, hqholds.2, hpk.1, ← hpv]
    have hmem : v2 ∈ ((LinearProbeHashTable.keyRun B hash t k2).filter fun p =>
          LinearProbeHashTable.hasKeyAt B t k2 p && !decide (p = q)).map
          (LinearProbeHashTable.valueAt B t) := by
      simp only [List.mem_map, List.mem_filter]
      exact ⟨p, ⟨hpm, by simp [hpk, hpq]⟩, hpv⟩
    generalize ((LinearProbeHashTable.keyRun B hash t k2).filter fun p =>
          LinearProbeHashTable.hasKeyAt B t k2 p && !decide (p = q)).map
          (LinearProbeHashTable.valueAt B t) = l2' at hmem ⊢
    refine ⟨l2', ?_, hmem⟩
    simp only [List.nil_append, Option.some.injEq, Prod.mk.injEq, true_and]
    cases l2' with
    | nil => cases hmem
    | cons a l => rfl
  · rw [LinearProbeHashTable.GetValue_removeAt hash hWF hqmem.1 hqmem.2 [] hp1]
    have hfind : (LinearProbeHashTable.keyRun B hash t k1).find?
        (fun p => LinearProbeHashTable.hasKeyAt B t k1 p &&
          decide (v1 = LinearProbeHashTable.valueAt B t p)) = some q := by
      rw [← hq]
      congr 1
      funext p
      simp only [LinearProbeHashTable.holdsAt, LinearProbeHashTable.hasKeyAt]
      cases LinearProbeHashTable.readableAt B t p <;>
        cases decide (k1 = LinearProbeHashTable.keyAt B t p) <;> rfl
    have herase := LinearProbeHashTable.map_filter_erase_first
      (LinearProbeHashTable.valueAt B t) (LinearProbeHashTable.hasKeyAt B t k1) v1
      (LinearProbeHashTable.keyRun B hash t k1) q
      (LinearProbeHashTable.probeRun_nodup _ (LinearProbeHashTable.home_lt hash hWF k1)) hfind
    simp only [List.nil_append] at hl1 ⊢
    rw [herase, ← hl1]

section

open LinearProbeHashTable Example

/-- At the table holding `(1, 100)` and `(1, 200)`: `Remove(1, 100)` returns true iff the
probe run of key 1 meets the pair. -/
theorem Remove_true_iff_run_meets_pair_witness :
    WF 2 twoPairs ∧
    ((∃ fuel t', Remove 2 idHash fuel twoPairs 1 100 = some (t', true)) ↔
      ∃ p ∈ keyRun 2 idHash twoPairs 1, holdsAt 2 twoPairs 1 100 p = true) :=
  have h : WF 2 twoPairs := ⟨by decide, by decide, by decide⟩
  ⟨h, (Remove_true_iff_run_meets_pair idHash twoPairs 1 100 h).1⟩

/-- C6, at the table holding `(1, 100)` in slot 1 and `(1, 200)` in slot 2: after
`Remove(1, 100)` the tombstone in slot 1 does not hide `200`, and `100` is gone. -/
theorem GetValue_after_Remove_witness :
    WF 2 twoPairs ∧
    GetValue 2 idHash 8 twoPairs 1 [] = some ([100, 200], true) ∧
    ((1 : Nat), (100 : Nat)) ≠ (1, 200) ∧
    Remove 2 idHash 8 twoPairs 1 100 = some (removeAt 2 twoPairs 1, true) ∧
    (100 ∈ [100, 200] ∧
      (∃ l2', GetValue 2 idHash 8 (removeAt 2 twoPairs 1) 1 [] = some (l2', true) ∧
        200 ∈ l2') ∧
      GetValue 2 idHash 8 (removeAt 2 twoPairs 1) 1 []
        = some ([100, 200].erase 100, !([100, 200].erase 100).isEmpty)) :=
  have h : WF 2 twoPairs := ⟨by decide, by decide, by decide⟩
  have hg : GetValue 2 idHash 8 twoPairs 1 [] = some ([100, 200], true) := by decide
  have hne : ((1 : Nat), (100 : Nat)) ≠ (1, 200) := by decide
  have hr : Remove 2 idHash 8 twoPairs 1 100 = some (removeAt 2 twoPairs 1, true) := rfl
  ⟨h, hg, hne, hr,
    GetValue_after_Remove idHash twoPairs (removeAt 2 twoPairs 1) 1 1 100 200 8 8 8
      [100, 200] [100, 200] true true h hg hg (by decide) hne hr⟩

end

/-- C2 (the source reads a new page as the old header): for every table with at least one
block, in a pool where page 0 exists and, read as a block page, has no readable bucket,
`Resize(NumBlocks * BLOCK_ARRAY_SIZE)` returns with a header of twice as many block pages
and the size to match, and afterwards `GetValue` of every key finds nothing: no pair of the
old table is carried over. -/
theorem Resize_carries_no_pair_over {K V : Type} [DecidableEq K] [DecidableEq V] [Inhabited K]
    [Inhabited V] {B : Nat} (hash : K → Nat) (t : LinearProbeHashTable K V) (fuel : Nat)
    (hB : 0 < B) (hn : 0 < t.header.NumBlocks) (hnext : (0 : Int) < t.next_page_id_)
    (hpage0 : ∀ u, (t.block_pages 0).IsReadable u = false) :
    ∃ t', LinearProbeHashTable.Resize B hash fuel t (t.header.NumBlocks * B) = some t' ∧
      t'.header.NumBlocks = 2 * t.header.NumBlocks ∧
      t'.GetSize = 2 * t.header.NumBlocks * B ∧
      ∀ key fuel', LinearProbeHashTable.GetValue B hash (fuel' + 1) t' key [] = some ([], false) := by
  have hm : 2 * (t.header.NumBlocks * B) / B = 2 * t.header.NumBlocks := by
    rw [← Nat.mul_assoc, Nat.mul_div_cancel _ hB]
  obtain ⟨hz, hhdr, hblocks, hp0⟩ :=
    LinearProbeHashTable.resizeStart_spec B t (2 * t.header.NumBlocks)
  refine ⟨(LinearProbeHashTable.withNewHeader B t (2 * t.header.NumBlocks)).NewPage.1,
    ?_, ?_, ?_, ?_⟩
  · unfold LinearProbeHashTable.Resize
    rw [LinearProbeHashTable.ResizeWith_eq, hm]
    apply LinearProbeHashTable.resizeBlocks_zero_header _ _ _ _ hz
    rw [hp0 hnext]
    exact hpage0
  · rw [hhdr]; simp [HashTableHeaderPage.NumBlocks]
  · unfold LinearProbeHashTable.GetSize
    rw [hhdr]; rfl
  · intro key fuel'
    have := LinearProbeHashTable.GetValue_of_zero_blocks hash
      (LinearProbeHashTable.withNewHeader B t (2 * t.header.NumBlocks)).NewPage.1
      ((t.next_page_id_ : Int) + 1) (2 * t.header.NumBlocks) hB (by omega)
      (by rw [hhdr]) hblocks key fuel' []
    simpa using this

section

open LinearProbeHashTable Example

/-- C2, at the full two-block table of the scenarios: slot 1 holds `(1, 11)`, readable; after
`Resize(2 * 2)` the header lists 4 block pages, the size is 8 and `GetValue` finds nothing. -/
theorem Resize_carries_no_pair_over_witness :
    0 < 2 ∧ 0 < fullTable.header.NumBlocks ∧ (0 : Int) < fullTable.next_page_id_ ∧
    (∀ u, (fullTable.block_pages 0).IsReadable u = false) ∧
    (readableAt 2 fullTable 1 = true ∧ keyAt 2 fullTable 1 = 1 ∧ valueAt 2 fullTable 1 = 11) ∧
    ∃ t', Resize 2 idHash 8 fullTable (fullTable.header.NumBlocks * 2) = some t' ∧
      t'.header.NumBlocks = 2 * fullTable.header.NumBlocks ∧
      t'.GetSize = 2 * fullTable.header.NumBlocks * 2 ∧
      ∀ key fuel', GetValue 2 idHash (fuel' + 1) t' key [] = some ([], false) :=
  have h1 : 0 < 2 := by decide
  have h2 : 0 < fullTable.header.NumBlocks := by decide
  have h3 : (0 : Int) < fullTable.next_page_id_ := by decide
  have h4 : ∀ u, (fullTable.block_pages 0).IsReadable u = false :=
    fun u => HashTableBlockPage.IsReadable_zero u
  ⟨h1, h2, h3, h4, by decide, Resize_carries_no_pair_over idHash fullTable 8 h1 h2 h3 h4⟩

end

/-- C3 (the source misses the case): on a table with at least one block and no block page
listed twice, let `GetValue(key)` return `value` while the home slot of the key is not
readable (a tombstone).  Then `Insert(key, value)` returns true at once, and afterwards two
different slots are readable and hold the pair: the home slot, and the slot `q` that held it
before. -/
theorem Insert_into_tombstone_duplicates_pair {K V : Type} [DecidableEq K] [DecidableEq V]
    [Inhabited K] [Inhabited V] {B : Nat} (hash : K → Nat) (t : LinearProbeHashTable K V)
    (key : K) (value : V) (fuel0 : Nat) (l : List V) (b : Bool)
    (hWF : LinearProbeHashTable.WF B t)
    (hhome : LinearProbeHashTable.readableAt B t (LinearProbeHashTable.home B hash t key) = false)
    (hget : LinearProbeHashTable.GetValue B hash fuel0 t key [] = some (l, b))
    (hv : value ∈ l) :
    ∀ fuel, ∃ t', LinearProbeHashTable.Insert B hash (fuel + 1) t key value = some (t', true) ∧
      ∃ q, q < LinearProbeHashTable.numSlots B t ∧
        q ≠ LinearProbeHashTable.home B hash t key ∧
        LinearProbeHashTable.holdsAt B t key value q = true ∧
        LinearProbeHashTable.holdsAt B t' key value q = true ∧
        LinearProbeHashTable.holdsAt B t' key value
          (LinearProbeHashTable.home B hash t key) = true := by
  intro fuel
  have hN : 0 < LinearProbeHashTable.numSlots B t :=
    Nat.mul_pos hWF.num_blocks_pos hWF.block_size_pos
  have hh := LinearProbeHashTable.home_lt hash hWF key
  obtain ⟨_, hl, _⟩ := LinearProbeHashTable.GetValue_some_inv hash hWF hget
  rw [hl] at hv
  simp only [List.nil_append, List.mem_map, List.mem_filter] at hv
  obtain ⟨q, ⟨hqm, hqk⟩, hqv⟩ := hv
  have hqN := (LinearProbeHashTable.mem_probeRun hN hqm).1
  simp only [LinearProbeHashTable.hasKeyAt, Bool.and_eq_true, decide_eq_true_eq] at hqk
  have hqh : q ≠ LinearProbeHashTable.home B hash t key := by
    intro h; rw [h, hhome] at hqk; exact absurd hqk.2 (by decide)
  have hold : LinearProbeHashTable.holdsAt B t key value q = true := by
    simp [LinearProbeHashTable.holdsAt, hqk.1, hqk.2, hqv]
  obtain ⟨h1, h2⟩ := LinearProbeHashTable.holdsAt_after_Insert hWF hh hhome key value
  refine ⟨_, LinearProbeHashTable.Insert_home_not_readable hash t key value hhome fuel,
    q, hqN, hqh, hold, ?_, h1⟩
  rw [h2 q hqN hqh key value]
  exact hold

section

open LinearProbeHashTable Example

/-- C3, at the table after `Insert(1,100)`, `Insert(1,200)`, `Remove(1,100)`: the three calls
return true, slot 1 (the home slot of key 1) is a tombstone, `GetValue(1)` returns `200`;
`Insert(1,200)` returns true and leaves `(1, 200)` readable in slots 1 and 2. -/
theorem Insert_into_tombstone_witness :
    WF 2 tombstoneTable ∧
    readableAt 2 tombstoneTable (home 2 idHash tombstoneTable 1) = false ∧
    GetValue 2 idHash 8 tombstoneTable 1 [] = some ([200], true) ∧
    (200 : Nat) ∈ [200] ∧
    (applyOps 2 idHash 8 [.insert 1 100, .insert 1 200, .remove 1 100] emptyTable).map
        (fun r => (r.2, slots 2 r.1))
      = some ([true, true, true],
          [(false, false, 0, 0), (true, false, 1, 100), (true, true, 1, 200),
            (false, false, 0, 0)]) ∧
    (Insert 2 idHash 8 tombstoneTable 1 200).map (fun r => (r.2, slots 2 r.1))
      = some (true, [(false, false, 0, 0), (true, true, 1, 200), (true, true, 1, 200),
            (false, false, 0, 0)]) ∧
    ∀ fuel, ∃ t', Insert 2 idHash (fuel + 1) tombstoneTable 1 200 = some (t', true) ∧
      ∃ q, q < numSlots 2 tombstoneTable ∧ q ≠ home 2 idHash tombstoneTable 1 ∧
        holdsAt 2 tombstoneTable 1 200 q = true ∧ holdsAt 2 t' 1 200 q = true ∧
        holdsAt 2 t' 1 200 (home 2 idHash tombstoneTable 1) = true :=
  have h1 : WF 2 tombstoneTable := ⟨by decide, by decide, by decide⟩
  have h2 : readableAt 2 tombstoneTable (home 2 idHash tombstoneTable 1) = false := by decide
  have h3 : GetValue 2 idHash 8 tombstoneTable 1 [] = some ([200], true) := by decide
  have h4 : (200 : Nat) ∈ [200] := by decide
  ⟨h1, h2, h3, h4, by rfl, by rfl,
    Insert_into_tombstone_duplicates_pair idHash tombstoneTable 1 200 8 [200] true h1 h2 h3 h4⟩

end

/-- C1 (the source loses the pairs): take a table with no block page listed twice whose slots
are all readable, in a pool where page 0 exists and, read as a block page, has no readable
bucket.  `Insert` of a pair that is not in the table, for a key whose home slot is not slot 0,
returns true (it goes round once and resizes); after it `GetValue` of every other key, called
with an empty vector, appends nothing and returns false, although every slot of the table held
a pair that was never removed. -/
theorem Insert_on_full_table_loses_pairs {K V : Type} [DecidableEq K] [DecidableEq V]
    [Inhabited K] [Inhabited V] {B : Nat} (hash : K → Nat) (t : LinearProbeHashTable K V)
    (key : K) (value : V) (hWF : LinearProbeHashTable.WF B t)
    (hfull : ∀ p, p < LinearProbeHashTable.numSlots B t →
      LinearProbeHashTable.readableAt B t p = true)
    (hnew : ∀ p, p < LinearProbeHashTable.numSlots B t →
      ¬(key = LinearProbeHashTable.keyAt B t p ∧ value = LinearProbeHashTable.valueAt B t p))
    (hhome : LinearProbeHashTable.home B hash t key ≠ 0)
    (hnext : (0 : Int) < t.next_page_id_)
    (hpage0 : ∀ u, (t.block_pages 0).IsReadable u = false) :
    ∃ t', (∀ fuel, LinearProbeHashTable.Insert B hash
        (fuel + 1 + LinearProbeHashTable.numSlots B t) t key value = some (t', true)) ∧
      ∀ k0, k0 ≠ key → ∀ fuel, 2 * LinearProbeHashTable.numSlots B t ≤ fuel →
        LinearProbeHashTable.GetValue B hash fuel t' k0 [] = some ([], false) := by
  have hB := hWF.block_size_pos
  have hn := hWF.num_blocks_pos
  have hm : 0 < 2 * t.header.NumBlocks := by omega
  have hWFs := LinearProbeHashTable.WF_resizeStart t hB hm
  obtain ⟨hslots, hzero⟩ := LinearProbeHashTable.resizeStart_slots t (2 * t.header.NumBlocks) hB
  have hN' : LinearProbeHashTable.numSlots B
      (LinearProbeHashTable.withNewHeader B t (2 * t.header.NumBlocks)).NewPage.1
      = 2 * LinearProbeHashTable.numSlots B t := by
    rw [hslots]; unfold LinearProbeHashTable.numSlots; rw [Nat.mul_assoc]
  have hNpos : 0 < LinearProbeHashTable.numSlots B t := Nat.mul_pos hn hB
  have hh' := LinearProbeHashTable.home_lt hash hWFs key
  have hempty : ∀ q, q < LinearProbeHashTable.numSlots B
      (LinearProbeHashTable.withNewHeader B t (2 * t.header.NumBlocks)).NewPage.1 →
      LinearProbeHashTable.readableAt B
        (LinearProbeHashTable.withNewHeader B t (2 * t.header.NumBlocks)).NewPage.1 q = false ∧
      LinearProbeHashTable.occupiedAt B
        (LinearProbeHashTable.withNewHeader B t (2 * t.header.NumBlocks)).NewPage.1 q
          = false := by
    intro q hq
    rw [hslots] at hq
    unfold LinearProbeHashTable.readableAt LinearProbeHashTable.occupiedAt
    rw [hzero q hq]
    exact ⟨HashTableBlockPage.IsReadable_zero _, HashTableBlockPage.IsOccupied_zero _⟩
  refine ⟨_, fun fuel => LinearProbeHashTable.Insert_full_table hash t key value hWF hfull hnew
    hhome hnext hpage0 fuel, ?_⟩
  intro k0 hk0 fuel hfuel
  have := LinearProbeHashTable.GetValue_single_pair hash hWFs hh' (hempty _ hh').1 key value
    hempty (by omega) k0 hk0
    (show LinearProbeHashTable.numSlots B
      (LinearProbeHashTable.withNewHeader B t (2 * t.header.NumBlocks)).NewPage.1 ≤ fuel by
        omega)
  rw [hzero _ (by rw [← hslots]; exact hh')] at this
  exact this

section

open LinearProbeHashTable Example

/-- C1, at the two-block table of the scenarios: the four Inserts of `fillOps` and then
`Insert(5, 15)` all return true, and `GetValue(1)` then finds nothing although `(1, 11)` was
inserted and never removed. -/
theorem Insert_on_full_table_witness :
    WF 2 fullTable ∧ (∀ p, p < numSlots 2 fullTable → readableAt 2 fullTable p = true) ∧
    (∀ p, p < numSlots 2 fullTable →
      ¬((5 : Nat) = keyAt 2 fullTable p ∧ (15 : Nat) = valueAt 2 fullTable p)) ∧
    home 2 idHash fullTable 5 ≠ 0 ∧ (0 : Int) < fullTable.next_page_id_ ∧
    (∀ u, (fullTable.block_pages 0).IsReadable u = false) ∧
    (applyOps 2 idHash 8 (fillOps ++ [.insert 5 15]) emptyTable).map
        (fun r => (r.2, GetValue 2 idHash 8 r.1 1 []))
      = some ([true, true, true, true, true], some ([], false)) ∧
    ∃ t', (∀ fuel, Insert 2 idHash (fuel + 1 + numSlots 2 fullTable) fullTable 5 15
        = some (t', true)) ∧
      ∀ k0, k0 ≠ 5 → ∀ fuel, 2 * numSlots 2 fullTable ≤ fuel →
        GetValue 2 idHash fuel t' k0 [] = some ([], false) :=
  have h1 : WF 2 fullTable := ⟨by decide, by decide, by decide⟩
  have h2 : ∀ p, p < numSlots 2 fullTable → readableAt 2 fullTable p = true := by decide
  have h3 : ∀ p, p < numSlots 2 fullTable →
      ¬((5 : Nat) = keyAt 2 fullTable p ∧ (15 : Nat) = valueAt 2 fullTable p) := by decide
  have h4 : home 2 idHash fullTable 5 ≠ 0 := by decide
  have h5 : (0 : Int) < fullTable.next_page_id_ := by decide
  have h6 : ∀ u, (fullTable.block_pages 0).IsReadable u = false :=
    fun u => HashTableBlockPage.IsReadable_zero u
  ⟨h1, h2, h3, h4, h5, h6, by decide,
    Insert_on_full_table_loses_pairs idHash fullTable 5 15 h1 h2 h3 h4 h5 h6⟩

end

/-! ## Claims about the buffer pool -/

/-- C10: in a reachable pool state with an empty free list and every frame pinned,
`FetchPage` of a page that is not resident and `NewPage` both return no frame and leave the
whole state (frames, page table, free list, replacer, disk) as it was. -/
theorem Fetch_and_NewPage_fail_unchanged_when_all_pinned {Data : Type} [Zero Data]
    (s : BufferPoolManager Data) (fuel : Nat) (page_id : page_id_t)
    (hreach : BufferPoolManager.Reachable s) (hfree : s.free_list_ = [])
    (hpinned : ∀ f, f < s.pool_size_ → 0 < (s.pages_ f).pin_count_)
    (hnon : s.page_table_ page_id = none) :
    BufferPoolManager.FetchPageImpl fuel s page_id = some (s, none) ∧
    BufferPoolManager.NewPageImpl fuel s = some (s, none) := by
  have hI := hreach.inv
  have hsize : s.replacer_.Size = 0 := by
    rw [ClockReplacer.Size_eq_zero_iff]
    intro f hf
    rw [hI.size] at hf
    cases hin : s.replacer_.in_ f with
    | false => rfl
    | true =>
      have := hI.in_pin f hin
      have := hpinned f hf
      omega
  have hv := ClockReplacer.Victim_of_Size_zero fuel s.replacer_ hsize
  constructor
  · have hpick : BufferPoolManager.pickFrame fuel s = some (s, none) := by
      unfold BufferPoolManager.pickFrame
      split
      · rename_i heq; rw [hfree] at heq; cases heq
      · rw [hv]
    unfold BufferPoolManager.FetchPageImpl
    rw [hnon, hpick]
  · unfold BufferPoolManager.NewPageImpl
    split
    · rename_i heq; rw [hfree] at heq; cases heq
    · rw [hv]

section

open BufferPoolManager Example

/-- C10, at the pool of two frames holding the pinned pages 1 and 2: `FetchPage(3)` and
`NewPage` fail and change nothing. -/
theorem Fetch_and_NewPage_fail_witness :
    Reachable pinnedPool ∧ pinnedPool.free_list_ = [] ∧
    (∀ f, f < pinnedPool.pool_size_ → 0 < (pinnedPool.pages_ f).pin_count_) ∧
    pinnedPool.page_table_ 3 = none ∧
    (FetchPageImpl 5 pinnedPool 3 = some (pinnedPool, none) ∧
      NewPageImpl 5 pinnedPool = some (pinnedPool, none)) :=
  have h0 : Reachable freshPool := Reachable.init 2 exampleDisk (by decide)
  have h1 : Reachable (poolAfterFetch freshPool 1) :=
    Reachable.fetch h0 (by decide) (by decide)
      (rfl : FetchPageImpl 0 freshPool 1 = some (poolAfterFetch freshPool 1, some 0))
  have h2 : Reachable pinnedPool :=
    Reachable.fetch h1 (by decide) (by decide)
      (rfl : FetchPageImpl 0 (poolAfterFetch freshPool 1) 2 = some (pinnedPool, some 1))
  have h3 : pinnedPool.free_list_ = [] := rfl
  have h4 : ∀ f, f < pinnedPool.pool_size_ → 0 < (pinnedPool.pages_ f).pin_count_ := by
    decide
  have h5 : pinnedPool.page_table_ 3 = none := rfl
  ⟨h2, h3, h4, h5, Fetch_and_NewPage_fail_unchanged_when_all_pinned pinnedPool 5 3 h2 h3 h4 h5⟩

end


/-! ## Claims about the clock replacer -/

/-- C19: `Victim` returns false iff no slot is in the pool when it is called.  On a replacer
without a slot in the pool it returns false at once, whatever the fuel; on a replacer with a
slot in the pool it returns true within two turns of the hand; and a call that returns false
leaves the `in_` bits, the `ref_` bits and the hand as they were. -/
theorem Victim_false_iff_no_candidate (r : ClockReplacer) :
    ((∀ i, i < r.buffer_size → r.in_ i = false) →
      ∀ fuel, ClockReplacer.Victim fuel r = some (r, none)) ∧
    ((∃ i, i < r.buffer_size ∧ r.in_ i = true) →
      ∀ fuel, 2 * r.buffer_size ≤ fuel →
        ∃ r' v, ClockReplacer.Victim fuel r = some (r', some v)) ∧
    (∀ fuel r', ClockReplacer.Victim fuel r = some (r', none) →
      (∀ i, i < r.buffer_size → r.in_ i = false) ∧
        r'.in_ = r.in_ ∧ r'.ref_ = r.ref_ ∧ r'.clock_hand = r.clock_hand) := by
  refine ⟨?_, ?_, ?_⟩
  · intro hnone fuel
    exact ClockReplacer.Victim_of_Size_zero fuel r ((ClockReplacer.Size_eq_zero_iff r).mpr hnone)
  · rintro ⟨i, hi, hin⟩ fuel hfuel
    obtain ⟨v, _, _, _, hV⟩ :=
      ClockReplacer.Victim_second_chance r (ClockReplacer.Size_pos_of_in r i hi hin)
    obtain ⟨r', hr', _⟩ := hV fuel hfuel
    exact ⟨r', v, hr'⟩
  · intro fuel r' h
    obtain ⟨e, hz⟩ := ClockReplacer.Victim_none_inv fuel r r' h
    subst e
    exact ⟨(ClockReplacer.Size_eq_zero_iff _).mp hz, rfl, rfl, rfl⟩

/-- C20: on a replacer with a slot in the pool, `Victim` returns the slot that `secondChance`
names (the first slot in cyclic order from the hand that is in the pool with a clear reference
bit, else the first one that is in the pool); afterwards that slot is out of the pool, the `in_`
bit of every other slot is as before, `Size` is one less and the hand is one past the slot.
And on a replacer of at least three slots, after `Unpin(0)`, `Unpin(1)`, `Unpin(2)` with the
hand at 0, four calls of `Victim` return 0, 1, 2 and false. -/
theorem Victim_returns_second_chance_slot :
    (∀ r : ClockReplacer, 0 < r.Size →
      ∃ v, r.secondChance = some v ∧
        ∀ fuel, 2 * r.buffer_size ≤ fuel →
          ∃ r', ClockReplacer.Victim fuel r = some (r', some v) ∧
            r'.in_ v = false ∧ (∀ i, i ≠ v → r'.in_ i = r.in_ i) ∧
            r'.Size + 1 = r.Size ∧ r'.clock_hand = v + 1 ∧
            r'.buffer_size = r.buffer_size) ∧
    (∀ n fuel, 3 ≤ n → 2 * n ≤ fuel →
      ∃ r1 r2 r3, ClockReplacer.Victim fuel (Example.threeUnpinned n) = some (r1, some 0) ∧
        ClockReplacer.Victim fuel r1 = some (r2, some 1) ∧
        ClockReplacer.Victim fuel r2 = some (r3, some 2) ∧
        ClockReplacer.Victim fuel r3 = some (r3, none)) := by
  constructor
  · intro r hsize
    obtain ⟨v, hsc, _, _, hV⟩ := ClockReplacer.Victim_second_chance r hsize
    refine ⟨v, hsc, ?_⟩
    intro fuel hfuel
    obtain ⟨r', hr', hin', hhand, hbuf, hsz, _⟩ := hV fuel hfuel
    refine ⟨r', hr', ?_, ?_, hsz, hhand, hbuf⟩
    · rw [hin', Function.update_same]
    · intro i hi
      rw [hin', Function.update_noteq hi]
  · intro n fuel hn hfuel
    exact ClockReplacer.Victim_three_unpinned n fuel hn hfuel

section

open ClockReplacer Example

/-- C19, at a replacer of three slots: right after the constructor `Victim` returns false and
changes nothing; after the three `Unpin` it returns true. -/
theorem Victim_false_iff_no_candidate_witness :
    (∀ i, i < (ClockReplacer.new 3).buffer_size → (ClockReplacer.new 3).in_ i = false) ∧
    (∀ fuel, Victim fuel (ClockReplacer.new 3) = some (ClockReplacer.new 3, none)) ∧
    (∃ i, i < (threeUnpinned 3).buffer_size ∧ (threeUnpinned 3).in_ i = true) ∧
    (∃ r' v, Victim 6 (threeUnpinned 3) = some (r', some v)) :=
  have h1 : ∀ i, i < (ClockReplacer.new 3).buffer_size → (ClockReplacer.new 3).in_ i = false :=
    fun _ _ => rfl
  have h2 : ∃ i, i < (threeUnpinned 3).buffer_size ∧ (threeUnpinned 3).in_ i = true :=
    ⟨0, by decide, by decide⟩
  ⟨h1, (Victim_false_iff_no_candidate (ClockReplacer.new 3)).1 h1, h2,
    (Victim_false_iff_no_candidate (threeUnpinned 3)).2.1 h2 6 (by decide)⟩

/-- C20, at a replacer of three slots after `Unpin(0)`, `Unpin(1)`, `Unpin(2)`: the slot named
is 0, and `Victim` returns it. -/
theorem Victim_returns_second_chance_slot_witness :
    0 < (threeUnpinned 3).Size ∧ (threeUnpinned 3).secondChance = some 0 ∧
    (Victim 6 (threeUnpinned 3)).map (fun x => (x.2, x.1.clock_hand, x.1.Size))
      = some (some 0, 1, 2) ∧
    ∃ v, (threeUnpinned 3).secondChance = some v ∧
      ∀ fuel, 2 * (threeUnpinned 3).buffer_size ≤ fuel →
        ∃ r', Victim fuel (threeUnpinned 3) = some (r', some v) ∧
          r'.in_ v = false ∧ (∀ i, i ≠ v → r'.in_ i = (threeUnpinned 3).in_ i) ∧
          r'.Size + 1 = (threeUnpinned 3).Size ∧ r'.clock_hand = v + 1 ∧
          r'.buffer_size = (threeUnpinned 3).buffer_size :=
  have h : 0 < (threeUnpinned 3).Size := by decide
  ⟨h, by decide, by decide, Victim_returns_second_chance_slot.1 (threeUnpinned 3) h⟩

end



/-! ## Claims about the buffer pool, continued -/

section

open BufferPoolManager Example

/-- C11 as stated fails: `FetchPage(0)` before the disk manager has handed out page id 0, the
bytes `77` written, `UnpinPage(0, true)`, `NewPage` (which gets page id 0 and frame 1, and
takes over the page table entry of page 0), `UnpinPage(0, false)`.  The next `NewPage` reuses
frame 0, which is dirty and holds page 0 with the bytes `77`; its `FlushPageImpl(0)` looks at
frame 1, which is clean, and writes nothing: the disk still stores `0` for page 0. -/
theorem dirty_victim_lost_counterexample :
    ¬ (∀ (s s' : BufferPoolManager Nat) (fuel : Nat) (R : frame_id_t) (p : page_id_t),
        ReachedByCalls s → (s.pages_ R).is_dirty_ = true →
        NewPageImpl fuel s = some (s', some (R, p)) →
        s'.disk_manager_.pages (s.pages_ R).page_id_ = (s.pages_ R).data_) := by
  intro h
  have := h orphanPool orphanPoolAfterNewPage 4 0 1 reachedByCalls_orphanPool (by decide) rfl
  revert this
  decide

end

/-- C11 (amended): in a pool state reached from the constructor by calls of the public
operations in which `FetchPage` was only called on page ids the disk manager had handed out
(`0 ≤ page_id < next page id`), when `FetchPage` of a page that is not resident, or `NewPage`,
returns a frame `R` whose dirty flag was set, the disk afterwards stores, under the page id
`R` held, the bytes `R` held before the call; `R` then holds the page asked for. -/
theorem dirty_victim_written_back_before_reuse {Data : Type} [Zero Data]
    (s s' : BufferPoolManager Data) (fuel : Nat) (R : frame_id_t)
    (hreach : BufferPoolManager.Reachable s) (hdirty : (s.pages_ R).is_dirty_ = true) :
    (∀ p, s.page_table_ p = none →
      BufferPoolManager.FetchPageImpl fuel s p = some (s', some R) →
      s'.disk_manager_.pages (s.pages_ R).page_id_ = (s.pages_ R).data_ ∧
        (s'.pages_ R).page_id_ = p) ∧
    (∀ p, BufferPoolManager.NewPageImpl fuel s = some (s', some (R, p)) →
      s'.disk_manager_.pages (s.pages_ R).page_id_ = (s.pages_ R).data_ ∧
        (s'.pages_ R).page_id_ = p) := by
  have hI := hreach.inv
  constructor
  · intro p hnon h
    rcases BufferPoolManager.FetchPageImpl_miss hI hnon h with
      ⟨hr, _⟩ | ⟨R', m, hr, _, _, _, _, _, _, _, a7, _, _, _, a11⟩
    · cases hr
    · cases hr
      rw [a11, if_pos hdirty, Function.update_same]
      exact ⟨rfl, a7⟩
  · intro p h
    rcases BufferPoolManager.NewPageImpl_spec hI h with
      ⟨hr, _⟩ | ⟨R', m, hr, _, _, _, _, _, _, _, a7, _, _, _, a11⟩
    · cases hr
    · cases hr
      rw [a11, if_pos hdirty, Function.update_same]
      exact ⟨rfl, a7⟩

section

open BufferPoolManager Example

/-- C11 (amended), at the pool of one frame whose page 10 holds the bytes `77` and is dirty and
unpinned: `NewPage` returns frame 0 with page 11, and the disk stores `77` for page 10. -/
theorem dirty_victim_written_back_witness :
    Reachable dirtyPool ∧ (dirtyPool.pages_ 0).is_dirty_ = true ∧
    (dirtyPool.pages_ 0).page_id_ = 10 ∧ (dirtyPool.pages_ 0).data_ = 77 ∧
    NewPageImpl 2 dirtyPool = some (poolAfterNewPage dirtyPool, some (0, 11)) ∧
    ((poolAfterNewPage dirtyPool).disk_manager_.pages (dirtyPool.pages_ 0).page_id_
        = (dirtyPool.pages_ 0).data_ ∧
      ((poolAfterNewPage dirtyPool).pages_ 0).page_id_ = 11) :=
  have h1 : (dirtyPool.pages_ 0).is_dirty_ = true := by decide
  have h2 : NewPageImpl 2 dirtyPool = some (poolAfterNewPage dirtyPool, some (0, 11)) := rfl
  ⟨reachable_dirtyPool, h1, by decide, by decide, h2,
    (dirty_victim_written_back_before_reuse dirtyPool (poolAfterNewPage dirtyPool) 2 0
      reachable_dirtyPool h1).2 11 h2⟩

end


/-- C12: `UnpinPage(page_id, is_dirty)`.  A page that is not resident: true, nothing changes.
A resident page whose pin count is `≤ 0`: false, nothing changes.  Otherwise true; the pin
count of the frame goes down by one, its dirty flag becomes `old || is_dirty`, its page id and
bytes stay, no other frame changes, nor do the page table, the free list and the disk; the
frame's replacer bits `in_` and `ref_` are both set when the new pin count is 0, and otherwise
the replacer is left alone, so that in a reachable state the frame is a replacer candidate
afterwards iff the new pin count is 0. -/
theorem UnpinPageImpl_cases {Data : Type} [Zero Data] (s : BufferPoolManager Data)
    (page_id : page_id_t) (is_dirty : Bool) :
    (s.page_table_ page_id = none → s.UnpinPageImpl page_id is_dirty = (s, true)) ∧
    (∀ target, s.page_table_ page_id = some target → (s.pages_ target).pin_count_ ≤ 0 →
      s.UnpinPageImpl page_id is_dirty = (s, false)) ∧
    (∀ target, s.page_table_ page_id = some target → 0 < (s.pages_ target).pin_count_ →
      ∃ s', s.UnpinPageImpl page_id is_dirty = (s', true) ∧
        (s'.pages_ target).pin_count_ = (s.pages_ target).pin_count_ - 1 ∧
        (s'.pages_ target).is_dirty_ = ((s.pages_ target).is_dirty_ || is_dirty) ∧
        (s'.pages_ target).page_id_ = (s.pages_ target).page_id_ ∧
        (s'.pages_ target).data_ = (s.pages_ target).data_ ∧
        (∀ f, f ≠ target → s'.pages_ f = s.pages_ f) ∧
        s'.page_table_ = s.page_table_ ∧ s'.free_list_ = s.free_list_ ∧
        s'.disk_manager_ = s.disk_manager_ ∧ s'.pool_size_ = s.pool_size_ ∧
        ((s'.pages_ target).pin_count_ = 0 →
          s'.replacer_ = s.replacer_.Unpin target ∧
            s'.replacer_.in_ target = true ∧ s'.replacer_.ref_ target = true) ∧
        ((s'.pages_ target).pin_count_ ≠ 0 → s'.replacer_ = s.replacer_) ∧
        (BufferPoolManager.Reachable s →
          (s'.replacer_.in_ target = true ↔ (s'.pages_ target).pin_count_ = 0))) := by
  refine ⟨?_, ?_, ?_⟩
  · intro h
    unfold BufferPoolManager.UnpinPageImpl
    rw [h]
  · intro target h hpin
    unfold BufferPoolManager.UnpinPageImpl
    rw [h]
    simp only [hpin, if_true]
  · intro target h hpin
    refine ⟨_, BufferPoolManager.UnpinPageImpl_pinned s is_dirty h hpin, ?_⟩
    refine ⟨?_, ?_, ?_, ?_, ?_, rfl, rfl, rfl, rfl, ?_, ?_, ?_⟩
    · simp only [Function.update_same]
    · simp only [Function.update_same]
    · simp only [Function.update_same]
    · simp only [Function.update_same]
    · intro f hf
      simp only [Function.update_noteq hf]
    · intro h0
      simp only [Function.update_same] at h0
      simp only [h0, if_true]
      simp [ClockReplacer.Unpin]
    · intro h0
      simp only [Function.update_same] at h0
      simp only [h0, if_false]
    · intro hreach
      simp only [Function.update_same]
      by_cases hz : (s.pages_ target).pin_count_ - 1 = 0
      · simp [hz, ClockReplacer.Unpin]
      · simp only [hz, if_false, iff_false]
        intro hin
        have := hreach.inv.in_pin target hin
        omega


section

open BufferPoolManager Example

/-- C12, at the pool of one frame holding page 10 pinned once: `UnpinPage(10, true)` returns
true, the pin count is 0, the frame is dirty and a replacer candidate. -/
theorem UnpinPageImpl_cases_witness :
    onePagePool.page_table_ 10 = some 0 ∧ 0 < (onePagePool.pages_ 0).pin_count_ ∧
    ((onePagePool.UnpinPageImpl 10 true).1.pages_ 0).pin_count_ = 0 ∧
    ((onePagePool.UnpinPageImpl 10 true).1.pages_ 0).is_dirty_ = true ∧
    (onePagePool.UnpinPageImpl 10 true).1.replacer_.in_ 0 = true ∧
    ∃ s', onePagePool.UnpinPageImpl 10 true = (s', true) ∧
      (s'.pages_ 0).pin_count_ = (onePagePool.pages_ 0).pin_count_ - 1 ∧
      (s'.pages_ 0).is_dirty_ = ((onePagePool.pages_ 0).is_dirty_ || true) ∧
      (s'.pages_ 0).page_id_ = (onePagePool.pages_ 0).page_id_ ∧
      (s'.pages_ 0).data_ = (onePagePool.pages_ 0).data_ ∧
      (∀ f, f ≠ 0 → s'.pages_ f = onePagePool.pages_ f) ∧
      s'.page_table_ = onePagePool.page_table_ ∧ s'.free_list_ = onePagePool.free_list_ ∧
      s'.disk_manager_ = onePagePool.disk_manager_ ∧ s'.pool_size_ = onePagePool.pool_size_ ∧
      ((s'.pages_ 0).pin_count_ = 0 →
        s'.replacer_ = onePagePool.replacer_.Unpin 0 ∧
          s'.replacer_.in_ 0 = true ∧ s'.replacer_.ref_ 0 = true) ∧
      ((s'.pages_ 0).pin_count_ ≠ 0 → s'.replacer_ = onePagePool.replacer_) ∧
      (Reachable onePagePool →
        (s'.replacer_.in_ 0 = true ↔ (s'.pages_ 0).pin_count_ = 0)) :=
  ⟨rfl, by decide, by decide, by decide, by decide,
    (UnpinPageImpl_cases onePagePool 10 true).2.2 0 rfl (by decide)⟩

end

/-- C13 as stated fails: on a fresh pool `FlushPage(5)` returns false although 5 is not the
sentinel id: the page is not resident. -/
theorem FlushPageImpl_nonresident_counterexample :
    ¬ (∀ (s : BufferPoolManager Nat) (page_id : page_id_t),
        (s.FlushPageImpl page_id).2 = false ↔ page_id = INVALID_PAGE_ID) := by
  intro h
  have := (h (BufferPoolManager.new 1 Example.writebackDisk) 5).mp rfl
  revert this
  decide

/-- C13 (amended): `FlushPage(page_id)` returns false iff `page_id` is the sentinel id or the
page is not resident, and then changes nothing.  For a resident page that is not dirty it
returns true and changes nothing.  For a resident dirty page it returns true; the disk then
stores the frame's bytes for the page and nothing else changes on it; the frame's dirty flag is
clear; its bytes, pin count and page id, the other frames, the page table, the free list and
the replacer are as before. -/
theorem FlushPageImpl_cases {Data : Type} (s : BufferPoolManager Data) (page_id : page_id_t) :
    ((s.FlushPageImpl page_id).2 = false ↔
      (page_id = INVALID_PAGE_ID ∨ s.page_table_ page_id = none)) ∧
    ((s.FlushPageImpl page_id).2 = false → (s.FlushPageImpl page_id).1 = s) ∧
    (∀ target, page_id ≠ INVALID_PAGE_ID → s.page_table_ page_id = some target →
      (s.pages_ target).is_dirty_ = false → s.FlushPageImpl page_id = (s, true)) ∧
    (∀ target, page_id ≠ INVALID_PAGE_ID → s.page_table_ page_id = some target →
      (s.pages_ target).is_dirty_ = true →
      ∃ s', s.FlushPageImpl page_id = (s', true) ∧
        s'.disk_manager_.pages page_id = (s.pages_ target).data_ ∧
        (∀ q, q ≠ page_id → s'.disk_manager_.pages q = s.disk_manager_.pages q) ∧
        s'.disk_manager_.next_page_id_ = s.disk_manager_.next_page_id_ ∧
        (s'.pages_ target).is_dirty_ = false ∧
        (s'.pages_ target).data_ = (s.pages_ target).data_ ∧
        (s'.pages_ target).pin_count_ = (s.pages_ target).pin_count_ ∧
        (s'.pages_ target).page_id_ = (s.pages_ target).page_id_ ∧
        (∀ f, f ≠ target → s'.pages_ f = s.pages_ f) ∧
        s'.page_table_ = s.page_table_ ∧ s'.free_list_ = s.free_list_ ∧
        s'.replacer_ = s.replacer_ ∧ s'.pool_size_ = s.pool_size_) := by
  refine ⟨?_, ?_, ?_, ?_⟩
  · unfold BufferPoolManager.FlushPageImpl
    by_cases hv : page_id = INVALID_PAGE_ID
    · simp [hv]
    · cases htab : s.page_table_ page_id with
      | none => simp [hv]
      | some target =>
        simp only [hv, if_false, false_or]
        by_cases hd : (s.pages_ target).is_dirty_ = true
        · simp [hd]
        · simp [hd]
  · unfold BufferPoolManager.FlushPageImpl
    by_cases hv : page_id = INVALID_PAGE_ID
    · simp [hv]
    · cases htab : s.page_table_ page_id with
      | none => simp [hv]
      | some target =>
        simp only [hv, if_false]
        by_cases hd : (s.pages_ target).is_dirty_ = true
        · simp [hd]
        · simp [hd]
  · intro target hv htab hd
    unfold BufferPoolManager.FlushPageImpl
    rw [if_neg hv, htab]
    simp [hd]
  · intro target hv htab hd
    refine ⟨_, BufferPoolManager.FlushPageImpl_dirty hv htab hd, ?_, ?_, rfl, ?_, ?_, ?_, ?_,
      ?_, rfl, rfl, rfl, rfl⟩
    · simp only [BufferPoolManager.setPage, DiskManager.WritePage, Function.update_same]
    · intro q hq
      simp only [BufferPoolManager.setPage, DiskManager.WritePage, Function.update_noteq hq]
    · simp only [BufferPoolManager.setPage, Function.update_same]
    · simp only [BufferPoolManager.setPage, Function.update_same]
    · simp only [BufferPoolManager.setPage, Function.update_same]
    · simp only [BufferPoolManager.setPage, Function.update_same]
    · intro f hf
      simp only [BufferPoolManager.setPage, Function.update_noteq hf]

section

open BufferPoolManager Example

/-- C13 (amended), at the pool of one frame whose page 10 is dirty with bytes `77`:
`FlushPage(10)` returns true and the disk stores `77` for page 10. -/
theorem FlushPageImpl_cases_witness :
    (10 : page_id_t) ≠ INVALID_PAGE_ID ∧ dirtyPool.page_table_ 10 = some 0 ∧
    (dirtyPool.pages_ 0).is_dirty_ = true ∧
    (dirtyPool.FlushPageImpl 10).2 = true ∧
    (dirtyPool.FlushPageImpl 10).1.disk_manager_.pages 10 = 77 ∧
    ∃ s', dirtyPool.FlushPageImpl 10 = (s', true) ∧
      s'.disk_manager_.pages 10 = (dirtyPool.pages_ 0).data_ ∧
      (∀ q, q ≠ 10 → s'.disk_manager_.pages q = dirtyPool.disk_manager_.pages q) ∧
      s'.disk_manager_.next_page_id_ = dirtyPool.disk_manager_.next_page_id_ ∧
      (s'.pages_ 0).is_dirty_ = false ∧
      (s'.pages_ 0).data_ = (dirtyPool.pages_ 0).data_ ∧
      (s'.pages_ 0).pin_count_ = (dirtyPool.pages_ 0).pin_count_ ∧
      (s'.pages_ 0).page_id_ = (dirtyPool.pages_ 0).page_id_ ∧
      (∀ f, f ≠ 0 → s'.pages_ f = dirtyPool.pages_ f) ∧
      s'.page_table_ = dirtyPool.page_table_ ∧ s'.free_list_ = dirtyPool.free_list_ ∧
      s'.replacer_ = dirtyPool.replacer_ ∧ s'.pool_size_ = dirtyPool.pool_size_ :=
  have h1 : (10 : page_id_t) ≠ INVALID_PAGE_ID := by decide
  have h2 : dirtyPool.page_table_ 10 = some 0 := rfl
  have h3 : (dirtyPool.pages_ 0).is_dirty_ = true := by decide
  ⟨h1, h2, h3, by decide, by decide, (FlushPageImpl_cases dirtyPool 10).2.2.2 0 h1 h2 h3⟩

end

/-- C14: `DeletePage(page_id)`.  A page that is not resident: true, nothing changes.  A
resident page with a positive pin count: false, nothing changes.  Otherwise (the pin count,
never negative in a reachable state, is 0): true; the page leaves the page table, whose other
entries stay; the frame's bytes are zeroed, its page id is the sentinel, its dirty flag is
clear; the frame is appended to the back of the free list; the other frames, the replacer and
the disk are as before. -/
theorem DeletePageImpl_cases {Data : Type} [Zero Data] (s : BufferPoolManager Data)
    (page_id : page_id_t) :
    (s.page_table_ page_id = none → s.DeletePageImpl page_id = (s, true)) ∧
    (∀ target, s.page_table_ page_id = some target → 0 < (s.pages_ target).pin_count_ →
      s.DeletePageImpl page_id = (s, false)) ∧
    (∀ target, s.page_table_ page_id = some target → 0 ≤ (s.pages_ target).pin_count_ →
      ¬ 0 < (s.pages_ target).pin_count_ →
      ∃ s', s.DeletePageImpl page_id = (s', true) ∧
        s'.page_table_ page_id = none ∧
        (∀ q, q ≠ page_id → s'.page_table_ q = s.page_table_ q) ∧
        (s'.pages_ target).data_ = 0 ∧
        (s'.pages_ target).page_id_ = INVALID_PAGE_ID ∧
        (s'.pages_ target).is_dirty_ = false ∧
        (s'.pages_ target).pin_count_ = 0 ∧
        s'.free_list_ = s.free_list_ ++ [target] ∧
        (∀ f, f ≠ target → s'.pages_ f = s.pages_ f) ∧
        s'.replacer_ = s.replacer_ ∧ s'.disk_manager_ = s.disk_manager_ ∧
        s'.pool_size_ = s.pool_size_) ∧
    (BufferPoolManager.Reachable s → ∀ f, 0 ≤ (s.pages_ f).pin_count_) := by
  refine ⟨?_, ?_, ?_, ?_⟩
  · intro h
    unfold BufferPoolManager.DeletePageImpl
    rw [h]
  · intro target h hpin
    have hne : (s.pages_ target).pin_count_ ≠ 0 := by omega
    unfold BufferPoolManager.DeletePageImpl
    rw [h]
    simp only [hne, ne_eq, not_false_eq_true, if_true]
  · intro target h h0 hpin
    have hz : (s.pages_ target).pin_count_ = 0 := by omega
    refine ⟨_, BufferPoolManager.DeletePageImpl_unpinned s h hz, ?_, ?_, ?_, ?_, ?_, ?_, rfl,
      ?_, rfl, rfl, rfl⟩
    · simp only [Function.update_same]
    · intro q hq
      simp only [Function.update_noteq hq]
    · simp only [Function.update_same]
    · simp only [Function.update_same]
    · simp only [Function.update_same]
    · simp only [Function.update_same]; exact hz
    · intro f hf
      simp only [Function.update_noteq hf]
  · intro hreach f
    exact hreach.accounted.pin_nonneg f

section

open BufferPoolManager Example

/-- C14, at the pool of one frame holding page 10 unpinned: `DeletePage(10)` returns true and
puts frame 0 on the free list. -/
theorem DeletePageImpl_cases_witness :
    (onePagePool.UnpinPageImpl 10 false).1.page_table_ 10 = some 0 ∧
    ((onePagePool.UnpinPageImpl 10 false).1.DeletePageImpl 10).2 = true ∧
    freedPool.free_list_ = [0] ∧
    ∃ s', (onePagePool.UnpinPageImpl 10 false).1.DeletePageImpl 10 = (s', true) ∧
      s'.page_table_ 10 = none ∧
      (∀ q, q ≠ 10 → s'.page_table_ q = (onePagePool.UnpinPageImpl 10 false).1.page_table_ q) ∧
      (s'.pages_ 0).data_ = 0 ∧
      (s'.pages_ 0).page_id_ = INVALID_PAGE_ID ∧
      (s'.pages_ 0).is_dirty_ = false ∧
      (s'.pages_ 0).pin_count_ = 0 ∧
      s'.free_list_ = (onePagePool.UnpinPageImpl 10 false).1.free_list_ ++ [0] ∧
      (∀ f, f ≠ 0 → s'.pages_ f = (onePagePool.UnpinPageImpl 10 false).1.pages_ f) ∧
      s'.replacer_ = (onePagePool.UnpinPageImpl 10 false).1.replacer_ ∧
      s'.disk_manager_ = (onePagePool.UnpinPageImpl 10 false).1.disk_manager_ ∧
      s'.pool_size_ = (onePagePool.UnpinPageImpl 10 false).1.pool_size_ :=
  ⟨rfl, by decide, by decide,
    (DeletePageImpl_cases (onePagePool.UnpinPageImpl 10 false).1 10).2.2.1 0 rfl (by decide)
      (by decide)⟩

end


section

open BufferPoolManager Example

/-- C15 as stated fails: after `FetchPage(0)` before the disk manager has handed out page id
0, the bytes `77` written, `UnpinPage(0, true)` and `NewPage`, frame 0 is dirty and holds page
0, whose page table entry names frame 1; `FlushAllPages` leaves frame 0 dirty and the disk
without its bytes.  Likewise after `FetchPage(-1)` and `UnpinPage(-1, true)`: `FlushPageImpl`
refuses the sentinel id and the frame stays dirty. -/
theorem FlushAllPagesImpl_dirty_left_counterexample :
    (¬ (∀ s : BufferPoolManager Nat, ReachedByCalls s →
        ∀ f, (s.FlushAllPagesImpl.pages_ f).is_dirty_ = false)) ∧
    (¬ (∀ s : BufferPoolManager Nat, ReachedByCalls s →
        ∀ f, (s.pages_ f).is_dirty_ = true →
          s.FlushAllPagesImpl.disk_manager_.pages (s.pages_ f).page_id_
            = (s.pages_ f).data_)) ∧
    ReachedByCalls sentinelPool ∧ (sentinelPool.pages_ 0).is_dirty_ = true ∧
    (sentinelPool.FlushAllPagesImpl.pages_ 0).is_dirty_ = true := by
  refine ⟨?_, ?_, reachedByCalls_sentinelPool, by decide, by decide⟩
  · intro h
    have := h shadowedPool reachedByCalls_shadowedPool 0
    revert this
    decide
  · intro h
    have := h shadowedPool reachedByCalls_shadowedPool 0 (by decide)
    revert this
    decide

end

/-- C15 (amended): in a pool state reached from the constructor by calls of the public
operations in which `FetchPage` was only called on page ids the disk manager had handed out
(`0 ≤ page_id < next page id`), after `FlushAllPages` no frame has its dirty flag set, and for
every frame that was dirty the disk stores, under the page id of the frame, the bytes of the
frame; the frames keep their bytes, page ids and pin counts, and the page table, the free list
and the replacer are as before. -/
theorem FlushAllPagesImpl_leaves_no_dirty_frame {Data : Type} [Zero Data]
    (s : BufferPoolManager Data) (hreach : BufferPoolManager.Reachable s) :
    (∀ f, (s.FlushAllPagesImpl.pages_ f).is_dirty_ = false) ∧
    (∀ f, (s.pages_ f).is_dirty_ = true →
      s.FlushAllPagesImpl.disk_manager_.pages (s.pages_ f).page_id_ = (s.pages_ f).data_) ∧
    (∀ f, (s.FlushAllPagesImpl.pages_ f).data_ = (s.pages_ f).data_ ∧
      (s.FlushAllPagesImpl.pages_ f).page_id_ = (s.pages_ f).page_id_ ∧
      (s.FlushAllPagesImpl.pages_ f).pin_count_ = (s.pages_ f).pin_count_) ∧
    s.FlushAllPagesImpl.page_table_ = s.page_table_ ∧
    s.FlushAllPagesImpl.free_list_ = s.free_list_ ∧
    s.FlushAllPagesImpl.replacer_ = s.replacer_ := by
  have hI := hreach.inv
  have hA := hreach.accounted
  obtain ⟨_, b2, b3, b4, _, b6, b7, b8, b9, _⟩ :=
    BufferPoolManager.flushFrames_spec s.pool_size_ 0 s hI hA
  have hlt : ∀ f, (s.pages_ f).is_dirty_ = true → f < s.pool_size_ := by
    intro f hd
    exact hA.frame_lt _ _ (BufferPoolManager.dirty_resident hA hd).2
  unfold BufferPoolManager.FlushAllPagesImpl
  refine ⟨?_, ?_, ?_, b4, b3, b2⟩
  · intro f
    cases h : ((BufferPoolManager.flushFrames s.pool_size_ 0 s).pages_ f).is_dirty_ with
    | false => rfl
    | true =>
      have hd := b8 f h
      have := b7 f (Nat.zero_le f) (by rw [Nat.zero_add]; exact hlt f hd)
      rw [this] at h
      cases h
  · intro f hd
    exact b9 f (Nat.zero_le f) (by rw [Nat.zero_add]; exact hlt f hd) hd
  · intro f
    exact ⟨(b6 f).2.2, (b6 f).2.1, (b6 f).1⟩

section

open BufferPoolManager Example

/-- C15 (amended), at the pool of one frame whose page 10 is dirty with bytes `77`: after
`FlushAllPages` the frame is clean and the disk stores `77` for page 10. -/
theorem FlushAllPagesImpl_witness :
    Reachable dirtyPool ∧ (dirtyPool.pages_ 0).is_dirty_ = true ∧
    (dirtyPool.FlushAllPagesImpl.pages_ 0).is_dirty_ = false ∧
    dirtyPool.FlushAllPagesImpl.disk_manager_.pages 10 = 77 ∧
    (∀ f, (dirtyPool.FlushAllPagesImpl.pages_ f).is_dirty_ = false) :=
  ⟨reachable_dirtyPool, by decide, by decide, by decide,
    (FlushAllPagesImpl_leaves_no_dirty_frame dirtyPool reachable_dirtyPool).1⟩

/-- C16 as stated fails: after `NewPage`, `UnpinPage(10, false)` and `DeletePage(10)` on a pool
of one frame, frame 0 is on the free list and its `in_` bit is still set. -/
theorem free_frame_candidate_counterexample :
    ¬ (∀ s : BufferPoolManager Nat, Reachable s →
        ∀ f, f ∈ s.free_list_ → s.replacer_.in_ f = false) := by
  intro h
  have := h freedPool reachable_freedPool 0 (by decide)
  revert this
  decide

end

/-- C16 (amended): in a reachable pool state every frame index is in exactly one of the free
list and the image of the page table; no frame is on the free list twice; a frame on the free
list has pin count 0 (so no pinned frame is on it); and a replacer candidate has pin count 0
and is on the free list or is the page table entry of the page it holds. -/
theorem frames_partitioned {Data : Type} [Zero Data] (s : BufferPoolManager Data)
    (hreach : BufferPoolManager.Reachable s) :
    (∀ f, f < s.pool_size_ →
      (f ∈ s.free_list_ ∧ ¬ ∃ q, s.page_table_ q = some f) ∨
      (f ∉ s.free_list_ ∧ ∃ q, s.page_table_ q = some f)) ∧
    (∀ f, (f ∈ s.free_list_ ∨ ∃ q, s.page_table_ q = some f) → f < s.pool_size_) ∧
    s.free_list_.Nodup ∧
    (∀ f, f ∈ s.free_list_ → (s.pages_ f).pin_count_ = 0) ∧
    (∀ f, 0 < (s.pages_ f).pin_count_ → f ∉ s.free_list_) ∧
    (∀ f, s.replacer_.in_ f = true → (s.pages_ f).pin_count_ = 0 ∧
      (f ∈ s.free_list_ ∨ s.page_table_ (s.pages_ f).page_id_ = some f)) := by
  have hI := hreach.inv
  have hA := hreach.accounted
  refine ⟨?_, ?_, hI.free_nodup, fun f hf => (hI.free_frame f hf).1, ?_, ?_⟩
  · intro f hf
    by_cases hfree : f ∈ s.free_list_
    · left
      refine ⟨hfree, ?_⟩
      rintro ⟨q, hq⟩
      exact BufferPoolManager.not_mem_free_of_table hI hq hfree
    · right
      exact ⟨hfree, _, hA.resident f (hA.held f hf (by simp) hfree)⟩
  · rintro f (hf | ⟨q, hq⟩)
    · exact hA.free_lt f hf
    · exact hA.frame_lt q f hq
  · intro f hpin hf
    have := (hI.free_frame f hf).1
    omega
  · intro f hin
    refine ⟨hI.in_pin f hin, ?_⟩
    by_cases hfree : f ∈ s.free_list_
    · exact Or.inl hfree
    · exact Or.inr (hI.victim_table f hin hfree)

section

open BufferPoolManager Example

/-- C16 (amended), at the pool of one frame after `NewPage`, `UnpinPage`, `DeletePage`: frame 0
is on the free list and in no page table entry. -/
theorem frames_partitioned_witness :
    Reachable freedPool ∧ freedPool.free_list_ = [0] ∧
    (∀ f, f < freedPool.pool_size_ →
      (f ∈ freedPool.free_list_ ∧ ¬ ∃ q, freedPool.page_table_ q = some f) ∨
      (f ∉ freedPool.free_list_ ∧ ∃ q, freedPool.page_table_ q = some f)) :=
  ⟨reachable_freedPool, by decide, (frames_partitioned freedPool reachable_freedPool).1⟩

end

/-- C17: in a reachable pool state (the disk manager hands out fresh page ids, and callers
fetch only pages it has handed out), a page table entry `pid → f` has the frame `f` hold `pid`
and be off the free list; no two page ids have the same frame; and a frame that holds a page id
other than the sentinel is the page table entry of that id. -/
theorem page_table_matches_frames {Data : Type} [Zero Data] (s : BufferPoolManager Data)
    (hreach : BufferPoolManager.Reachable s) :
    (∀ pid f, s.page_table_ pid = some f →
      (s.pages_ f).page_id_ = pid ∧ f ∉ s.free_list_) ∧
    (∀ p q f, s.page_table_ p = some f → s.page_table_ q = some f → p = q) ∧
    (∀ f, (s.pages_ f).page_id_ ≠ INVALID_PAGE_ID →
      s.page_table_ (s.pages_ f).page_id_ = some f) := by
  have hI := hreach.inv
  have hA := hreach.accounted
  refine ⟨?_, ?_, hA.resident⟩
  · intro pid f h
    exact ⟨hI.table_id pid f h, BufferPoolManager.not_mem_free_of_table hI h⟩
  · intro p q f hp hq
    rw [← hI.table_id p f hp, ← hI.table_id q f hq]

section

open BufferPoolManager Example

/-- C17, at the pool of one frame holding page 10: the page table maps 10 to frame 0, which
holds page 10. -/
theorem page_table_matches_frames_witness :
    Reachable onePagePool ∧ onePagePool.page_table_ 10 = some 0 ∧
    ((onePagePool.pages_ 0).page_id_ = 10 ∧ 0 ∉ onePagePool.free_list_) :=
  ⟨reachable_onePagePool, rfl,
    (page_table_matches_frames onePagePool reachable_onePagePool).1 10 0 rfl⟩

end


/-- C18: in a reachable pool state a frame with a positive pin count is not a replacer
candidate, and no `FetchPage` or `NewPage` reassigns it: after the call the frame holds the
same page and the same bytes, its pin count is not lower, its page is still in the page table,
and the frame is returned only by a `FetchPage` of the page it holds. -/
theorem pinned_frame_never_evicted {Data : Type} [Zero Data] (s : BufferPoolManager Data)
    (hreach : BufferPoolManager.Reachable s) :
    (∀ f, 0 < (s.pages_ f).pin_count_ → s.replacer_.in_ f = false) ∧
    (∀ fuel page_id s' r, BufferPoolManager.FetchPageImpl fuel s page_id = some (s', r) →
      ∀ f, 0 < (s.pages_ f).pin_count_ →
        (r = some f → s.page_table_ page_id = some f) ∧
        (s'.pages_ f).page_id_ = (s.pages_ f).page_id_ ∧
        (s'.pages_ f).data_ = (s.pages_ f).data_ ∧
        (s.pages_ f).pin_count_ ≤ (s'.pages_ f).pin_count_ ∧
        s'.page_table_ (s.pages_ f).page_id_ = some f) ∧
    (∀ fuel s' r, BufferPoolManager.NewPageImpl fuel s = some (s', r) →
      ∀ f, 0 < (s.pages_ f).pin_count_ →
        (∀ q, r ≠ some (f, q)) ∧
        (s'.pages_ f).page_id_ = (s.pages_ f).page_id_ ∧
        (s'.pages_ f).data_ = (s.pages_ f).data_ ∧
        (s.pages_ f).pin_count_ ≤ (s'.pages_ f).pin_count_ ∧
        s'.page_table_ (s.pages_ f).page_id_ = some f) := by
  have hI := hreach.inv
  have hA := hreach.accounted
  have hres : ∀ f, 0 < (s.pages_ f).pin_count_ →
      s.page_table_ (s.pages_ f).page_id_ = some f :=
    fun f hf => hA.resident f (hA.pinned_valid f (by omega))
  refine ⟨?_, ?_, ?_⟩
  · intro f hpin
    cases hin : s.replacer_.in_ f with
    | false => rfl
    | true =>
      have := hI.in_pin f hin
      omega
  · intro fuel page_id s' r h f hpin
    cases htab : s.page_table_ page_id with
    | some target =>
      rw [BufferPoolManager.FetchPageImpl_hit fuel htab] at h
      simp only [Option.some.injEq, Prod.mk.injEq] at h
      obtain ⟨h1, h2⟩ := h
      subst h1 h2
      refine ⟨fun e => by rw [Option.some.inj e], ?_, ?_, ?_, hres f hpin⟩
      · by_cases hf : f = target
        · subst hf; simp only [BufferPoolManager.setPage, Function.update_same]
        · simp only [BufferPoolManager.setPage, Function.update_noteq hf]
      · by_cases hf : f = target
        · subst hf; simp only [BufferPoolManager.setPage, Function.update_same]
        · simp only [BufferPoolManager.setPage, Function.update_noteq hf]
      · by_cases hf : f = target
        · subst hf
          simp only [BufferPoolManager.setPage, Function.update_same]
          omega
        · simp only [BufferPoolManager.setPage, Function.update_noteq hf]
          exact le_refl _
    | none =>
      rcases BufferPoolManager.FetchPageImpl_miss hI htab h with
        ⟨hr, e, _, _⟩ | ⟨R, m, hr, hpick, _, _, _, a4, a5, _⟩
      · subst hr e
        exact ⟨fun e => Option.noConfusion e, rfl, rfl, le_refl _, hres f hpin⟩
      · obtain ⟨hfR, hsame, htab'⟩ :=
          BufferPoolManager.pinned_survives hI hA hpick htab a4 a5 hpin
        subst hr
        refine ⟨fun e => absurd (Option.some.inj e).symm hfR, ?_, ?_, ?_, htab'⟩
        · rw [hsame]
        · rw [hsame]
        · rw [hsame]
  · intro fuel s' r h f hpin
    rcases BufferPoolManager.NewPageImpl_spec hI h with
      ⟨hr, e, _, _⟩ | ⟨R, m, hr, hpick, _, _, _, a4, a5, _⟩
    · subst hr e
      exact ⟨fun q e => Option.noConfusion e, rfl, rfl, le_refl _, hres f hpin⟩
    · obtain ⟨hfR, hsame, htab'⟩ :=
        BufferPoolManager.pinned_survives hI hA hpick
          (BufferPoolManager.table_next_none hI.table_range) a4 a5 hpin
      subst hr
      refine ⟨?_, ?_, ?_, ?_, htab'⟩
      · intro q e
        simp only [Option.some.injEq, Prod.mk.injEq] at e
        exact hfR e.1.symm
      · rw [hsame]
      · rw [hsame]
      · rw [hsame]

section

open BufferPoolManager Example

/-- C18, at the pool of two frames whose frame 0 holds page 10 pinned: `NewPage` returns
frame 1 with page 11, and frame 0 still holds page 10. -/
theorem pinned_frame_never_evicted_witness :
    Reachable twoFramePool ∧ 0 < (twoFramePool.pages_ 0).pin_count_ ∧
    NewPageImpl 2 twoFramePool = some (poolAfterNewPage twoFramePool, some (1, 11)) ∧
    twoFramePool.replacer_.in_ 0 = false ∧
    ((∀ q, some ((1 : frame_id_t), (11 : page_id_t)) ≠ some (0, q)) ∧
      ((poolAfterNewPage twoFramePool).pages_ 0).page_id_ = (twoFramePool.pages_ 0).page_id_ ∧
      ((poolAfterNewPage twoFramePool).pages_ 0).data_ = (twoFramePool.pages_ 0).data_ ∧
      (twoFramePool.pages_ 0).pin_count_
        ≤ ((poolAfterNewPage twoFramePool).pages_ 0).pin_count_ ∧
      (poolAfterNewPage twoFramePool).page_table_ (twoFramePool.pages_ 0).page_id_ = some 0) :=
  have h1 : 0 < (twoFramePool.pages_ 0).pin_count_ := by decide
  have h2 : NewPageImpl 2 twoFramePool
      = some (poolAfterNewPage twoFramePool, some (1, 11)) := rfl
  ⟨reachable_twoFramePool, h1, h2,
    (pinned_frame_never_evicted twoFramePool reachable_twoFramePool).1 0 h1,
    (pinned_frame_never_evicted twoFramePool reachable_twoFramePool).2.2 2
      (poolAfterNewPage twoFramePool) (some (1, 11)) h2 0 h1⟩

end


/-! ## Claims about the block page -/


/-- C21: `HashTableBlockPage::Insert(u, k, v)` returns false iff the slot `u` is readable, and
then changes nothing.  On a slot that is not readable it returns true; afterwards the slot is
occupied and readable and holds `(k, v)`; in each bitmap every byte other than byte `u / 8` is
as before and, in byte `u / 8`, every bit other than bit `u % 8`; the occupied bit, the
readable bit and the pair of every other slot are as before. -/
theorem block_Insert_cases {K V : Type} (p : HashTableBlockPage K V) (u : Nat) (k : K)
    (v : V) :
    ((p.Insert u k v).2 = false ↔ p.IsReadable u = true) ∧
    (p.IsReadable u = true → (p.Insert u k v).1 = p) ∧
    (p.IsReadable u = false →
      (p.Insert u k v).2 = true ∧
      (p.Insert u k v).1.IsOccupied u = true ∧ (p.Insert u k v).1.IsReadable u = true ∧
      (p.Insert u k v).1.KeyAt u = k ∧ (p.Insert u k v).1.ValueAt u = v ∧
      (∀ j, j ≠ u / 8 →
        (p.Insert u k v).1.occupied_ j = p.occupied_ j ∧
        (p.Insert u k v).1.readable_ j = p.readable_ j) ∧
      (∀ i, i ≠ u % 8 →
        ((p.Insert u k v).1.occupied_ (u / 8)).testBit i = (p.occupied_ (u / 8)).testBit i ∧
        ((p.Insert u k v).1.readable_ (u / 8)).testBit i
          = (p.readable_ (u / 8)).testBit i) ∧
      (∀ u', u' ≠ u →
        (p.Insert u k v).1.IsOccupied u' = p.IsOccupied u' ∧
        (p.Insert u k v).1.IsReadable u' = p.IsReadable u' ∧
        (p.Insert u k v).1.KeyAt u' = p.KeyAt u' ∧
        (p.Insert u k v).1.ValueAt u' = p.ValueAt u')) := by
  refine ⟨?_, ?_, ?_⟩
  · rw [HashTableBlockPage.Insert_snd]
    cases p.IsReadable u <;> simp
  · exact HashTableBlockPage.Insert_fst_of_readable p u k v
  · intro h
    refine ⟨?_, ?_, ?_, ?_, ?_, ?_, ?_, ?_⟩
    · rw [HashTableBlockPage.Insert_snd, h]; rfl
    · rw [HashTableBlockPage.IsOccupied_Insert p u u k v h]; simp
    · rw [HashTableBlockPage.IsReadable_Insert p u u k v h]; simp
    · unfold HashTableBlockPage.KeyAt
      rw [HashTableBlockPage.array_Insert p u u k v h, if_pos rfl]
    · unfold HashTableBlockPage.ValueAt
      rw [HashTableBlockPage.array_Insert p u u k v h, if_pos rfl]
    · intro j hj
      unfold HashTableBlockPage.Insert
      simp only [h, Bool.false_eq_true, if_false, Function.update_noteq hj, and_self]
    · intro i hi
      unfold HashTableBlockPage.Insert
      simp only [h, Bool.false_eq_true, if_false, Function.update_same,
        HashTableBlockPage.testBit_set]
      have : decide (u % 8 = i) = false := by simp [Ne.symm hi]
      simp [this]
    · intro u' hu'
      have hd : decide (u = u') = false := by simp [Ne.symm hu']
      refine ⟨?_, ?_, ?_, ?_⟩
      · rw [HashTableBlockPage.IsOccupied_Insert p u u' k v h, hd, Bool.or_false]
      · rw [HashTableBlockPage.IsReadable_Insert p u u' k v h, hd, Bool.or_false]
      · unfold HashTableBlockPage.KeyAt
        rw [HashTableBlockPage.array_Insert p u u' k v h, if_neg hu']
      · unfold HashTableBlockPage.ValueAt
        rw [HashTableBlockPage.array_Insert p u u' k v h, if_neg hu']

/-- C22: in a block page reached from a zero-filled page by `Insert` and `Remove`, after
`Remove(u)` the slot `u` is not readable, its occupied bit is as before, and the occupied bit,
the readable bit, the key and the value of every other slot are as before (the pair stored in
slot `u` stays as well). -/
theorem block_Remove_frame {K V : Type} [Inhabited K] [Inhabited V] (B : Nat)
    (p : HashTableBlockPage K V) (hreach : HashTableBlockPage.Reachable B p) (u : Nat)
    (_hu : u < B) :
    (p.Remove u).IsReadable u = false ∧
    (p.Remove u).IsOccupied u = p.IsOccupied u ∧
    (∀ u', u' ≠ u →
      (p.Remove u).IsOccupied u' = p.IsOccupied u' ∧
      (p.Remove u).IsReadable u' = p.IsReadable u' ∧
      (p.Remove u).KeyAt u' = p.KeyAt u' ∧ (p.Remove u).ValueAt u' = p.ValueAt u') ∧
    (p.Remove u).KeyAt u = p.KeyAt u ∧ (p.Remove u).ValueAt u = p.ValueAt u := by
  have harr := HashTableBlockPage.array_Remove p u
  have hkey : ∀ u', (p.Remove u).KeyAt u' = p.KeyAt u' := by
    intro u'; unfold HashTableBlockPage.KeyAt; rw [harr]
  have hval : ∀ u', (p.Remove u).ValueAt u' = p.ValueAt u' := by
    intro u'; unfold HashTableBlockPage.ValueAt; rw [harr]
  refine ⟨?_, HashTableBlockPage.IsOccupied_Remove p u u, ?_, hkey u, hval u⟩
  · cases ho : p.IsOccupied u with
    | true =>
      rw [HashTableBlockPage.IsReadable_Remove p u u ho]
      simp
    | false =>
      have hsame : p.Remove u = p := by
        unfold HashTableBlockPage.Remove
        simp [ho]
      rw [hsame]
      cases hr : p.IsReadable u with
      | false => rfl
      | true =>
        have := hreach.readable_occupied u hr
        rw [ho] at this; cases this
  · intro u' hu'
    refine ⟨HashTableBlockPage.IsOccupied_Remove p u u', ?_, hkey u', hval u'⟩
    cases ho : p.IsOccupied u with
    | true =>
      rw [HashTableBlockPage.IsReadable_Remove p u u' ho]
      have : decide (u = u') = false := by simp [Ne.symm hu']
      rw [this]; simp
    | false =>
      have hsame : p.Remove u = p := by
        unfold HashTableBlockPage.Remove
        simp [ho]
      rw [hsame]

/-- C23: in a block page reached from a zero-filled page by `Insert` and `Remove` on slots
below `BLOCK_ARRAY_SIZE`, a readable slot is occupied; in terms of the bitmaps, a bit set in
a byte of `readable_` is set in the same byte of `occupied_`. -/
theorem block_readable_implies_occupied {K V : Type} [Inhabited K] [Inhabited V] (B : Nat)
    (p : HashTableBlockPage K V) (hreach : HashTableBlockPage.Reachable B p) :
    (∀ i, p.IsReadable i = true → p.IsOccupied i = true) ∧
    (∀ j b, b < 8 → (p.readable_ j).testBit b = true → (p.occupied_ j).testBit b = true) := by
  refine ⟨fun i h => hreach.readable_occupied i h, ?_⟩
  intro j b hb h
  have hdiv : (8 * j + b) / 8 = j := by omega
  have hmod : (8 * j + b) % 8 = b := by omega
  have := hreach.readable_occupied (8 * j + b)
  rw [HashTableBlockPage.IsReadable_eq_testBit, HashTableBlockPage.IsOccupied_eq_testBit,
    hdiv, hmod] at this
  exact this h

section

open HashTableBlockPage Example

/-- C21, on a zero-filled page of integers: `Insert(9, 8, 80)` returns true and sets bit 1 of
byte 1 of both bitmaps. -/
theorem block_Insert_cases_witness :
    (HashTableBlockPage.zero : HashTableBlockPage Nat Nat).IsReadable 9 = false ∧
    ((HashTableBlockPage.zero : HashTableBlockPage Nat Nat).Insert 9 8 80).1.readable_ 1 = 2 ∧
    ((HashTableBlockPage.zero : HashTableBlockPage Nat Nat).Insert 9 8 80).1.occupied_ 1 = 2 ∧
    (((HashTableBlockPage.zero : HashTableBlockPage Nat Nat).Insert 9 8 80).2 = true ∧
      ((HashTableBlockPage.zero : HashTableBlockPage Nat Nat).Insert 9 8 80).1.IsOccupied 9
        = true ∧
      ((HashTableBlockPage.zero : HashTableBlockPage Nat Nat).Insert 9 8 80).1.IsReadable 9
        = true) :=
  have h : (HashTableBlockPage.zero : HashTableBlockPage Nat Nat).IsReadable 9 = false := by
    decide
  have h2 := (block_Insert_cases (HashTableBlockPage.zero : HashTableBlockPage Nat Nat)
    9 8 80).2.2 h
  ⟨h, by decide, by decide, h2.1, h2.2.1, h2.2.2.1⟩

/-- C22, on the page holding `(7, 70)` in slot 1 and `(8, 80)` in slot 9: `Remove(1)` leaves
slot 1 occupied and not readable, and slot 9 as it was. -/
theorem block_Remove_frame_witness :
    Reachable 16 (((HashTableBlockPage.zero : HashTableBlockPage Nat Nat).Insert 1 7 70).1.Insert
      9 8 80).1 ∧
    blockPage.IsReadable 1 = false ∧ blockPage.IsOccupied 1 = true ∧
    blockPage.IsReadable 9 = true ∧ blockPage.KeyAt 9 = 8 ∧ blockPage.ValueAt 9 = 80 :=
  have hr : Reachable 16 (((HashTableBlockPage.zero : HashTableBlockPage Nat Nat).Insert
      1 7 70).1.Insert 9 8 80).1 :=
    Reachable.insert 9 8 80 (by decide) (Reachable.insert 1 7 70 (by decide) Reachable.zero)
  have h := block_Remove_frame 16 _ hr 1 (by decide)
  ⟨hr, h.1, by decide, by decide, by decide, by decide⟩

/-- C23, on the page after `Insert(1, 7, 70)`, `Insert(9, 8, 80)`, `Remove(1)`: the readable
slot 9 is occupied. -/
theorem block_readable_implies_occupied_witness :
    Reachable 16 blockPage ∧ blockPage.IsReadable 9 = true ∧ blockPage.IsOccupied 9 = true :=
  have hr : Reachable 16 blockPage :=
    Reachable.remove 1 (by decide)
      (Reachable.insert 9 8 80 (by decide) (Reachable.insert 1 7 70 (by decide) Reachable.zero))
  have h : blockPage.IsReadable 9 = true := by decide
  ⟨hr, h, (block_readable_implies_occupied 16 blockPage hr).1 9 h⟩

end


/-! ## Claims about the replacer and the free list -/


/-- C26: whatever the `in_` bits, the `ref_` bits and the hand of a replacer of `N` slots,
`Victim` returns when it is given `2 * N` iterations or more, and its loop has then run
`clock_hand++` at most `2 * N` times (not at all on a replacer without a candidate). -/
theorem Victim_advances_at_most_twice_around (r : ClockReplacer) (fuel : Nat)
    (hfuel : 2 * r.buffer_size ≤ fuel) :
    ∃ r' v n, ClockReplacer.Victim fuel r = some (r', v) ∧
      ClockReplacer.VictimAdvances fuel r = some n ∧ n ≤ 2 * r.buffer_size ∧
      (v = none ↔ n = 0) := by
  rcases Nat.eq_zero_or_pos r.Size with hz | hpos
  · refine ⟨r, none, 0, ClockReplacer.Victim_of_Size_zero fuel r hz, ?_, Nat.zero_le _, by simp⟩
    cases fuel <;> simp [ClockReplacer.VictimAdvances, hz]
  · obtain ⟨K, hK, hpass, hin, href⟩ := ClockReplacer.exists_pass_count r hpos
    have hn := ClockReplacer.buffer_size_pos r hpos
    obtain ⟨r', hv, _⟩ := ClockReplacer.Victim_found r K hn hpass hin href fuel (by omega)
    exact ⟨r', _, K + 1, hv,
      ClockReplacer.VictimAdvances_found r K hn hpass hin href fuel (by omega), hK, by simp⟩

section

open ClockReplacer Example

/-- C26, on a replacer of three slots after `Unpin(0)`, `Unpin(1)`, `Unpin(2)`: `Victim` goes
once round clearing the reference bits and takes slot 0, four advances of the hand. -/
theorem Victim_advances_witness :
    2 * (threeUnpinned 3).buffer_size ≤ 6 ∧ VictimAdvances 6 (threeUnpinned 3) = some 4 ∧
    ∃ r' v n, Victim 6 (threeUnpinned 3) = some (r', v) ∧
      VictimAdvances 6 (threeUnpinned 3) = some n ∧ n ≤ 2 * (threeUnpinned 3).buffer_size ∧
      (v = none ↔ n = 0) :=
  ⟨by decide, by decide, Victim_advances_at_most_twice_around (threeUnpinned 3) 6 (by decide)⟩

end


section

open BufferPoolManager Example

end


/-! ## Claims about the index arithmetic, the pins and the probe runs of the hash table -/


/-- C29: for a positive `BLOCK_ARRAY_SIZE` and `numBlocks ≥ 1`, `GetIndex` gives `index =
hash(key) % (numBlocks * BLOCK_ARRAY_SIZE)`, `block_ind = index / BLOCK_ARRAY_SIZE` and
`bucket_ind = index % BLOCK_ARRAY_SIZE`; then `index` is below the slot count, `block_ind <
numBlocks`, `bucket_ind < BLOCK_ARRAY_SIZE` and `block_ind * BLOCK_ARRAY_SIZE + bucket_ind =
index`; and the block page a probe fetches first, `GetBlockPageId(block_ind)`, is one of the
block pages the header lists. -/
theorem GetIndex_in_range {K : Type} (B : Nat) (hash : K → Nat) (key : K) (numBlocks : Nat)
    (hB : 0 < B) (hn : 1 ≤ numBlocks) :
    (LinearProbeHashTable.GetIndex B hash key numBlocks).1 = hash key % (numBlocks * B) ∧
    (LinearProbeHashTable.GetIndex B hash key numBlocks).2.1
      = (LinearProbeHashTable.GetIndex B hash key numBlocks).1 / B ∧
    (LinearProbeHashTable.GetIndex B hash key numBlocks).2.2
      = (LinearProbeHashTable.GetIndex B hash key numBlocks).1 % B ∧
    (LinearProbeHashTable.GetIndex B hash key numBlocks).1 < numBlocks * B ∧
    (LinearProbeHashTable.GetIndex B hash key numBlocks).2.1 < numBlocks ∧
    (LinearProbeHashTable.GetIndex B hash key numBlocks).2.2 < B ∧
    (LinearProbeHashTable.GetIndex B hash key numBlocks).2.1 * B
        + (LinearProbeHashTable.GetIndex B hash key numBlocks).2.2
      = (LinearProbeHashTable.GetIndex B hash key numBlocks).1 ∧
    (∀ hdr : HashTableHeaderPage, hdr.NumBlocks = numBlocks →
      hdr.GetBlockPageId (LinearProbeHashTable.GetIndex B hash key numBlocks).2.1
        ∈ hdr.block_page_ids_) := by
  have hN : 0 < numBlocks * B := Nat.mul_pos hn hB
  have hlt : hash key % (numBlocks * B) < numBlocks * B := Nat.mod_lt _ hN
  have hblock : hash key % (numBlocks * B) / B < numBlocks := by
    rw [Nat.div_lt_iff_lt_mul hB]; exact hlt
  refine ⟨rfl, rfl, rfl, hlt, hblock, Nat.mod_lt _ hB, ?_, ?_⟩
  · show hash key % (numBlocks * B) / B * B + hash key % (numBlocks * B) % B
      = hash key % (numBlocks * B)
    rw [Nat.mul_comm]
    exact Nat.div_add_mod _ _
  · intro hdr hnum
    show hdr.block_page_ids_.getD (hash key % (numBlocks * B) / B) 0 ∈ hdr.block_page_ids_
    have hlen : hash key % (numBlocks * B) / B < hdr.block_page_ids_.length := by
      show _ < hdr.NumBlocks
      rw [hnum]; exact hblock
    rw [List.getD_eq_getElem _ _ hlen]
    exact List.getElem_mem _

/-- C29, for two blocks of two slots and a key hashed to 7: index 3, block 1, bucket 1. -/
theorem GetIndex_in_range_witness :
    LinearProbeHashTable.GetIndex 2 (fun k : Nat => k) 7 2 = (3, 1, 1) ∧
    (LinearProbeHashTable.GetIndex 2 (fun k : Nat => k) 7 2).2.1 < 2 ∧
    (LinearProbeHashTable.GetIndex 2 (fun k : Nat => k) 7 2).2.2 < 2 :=
  have h := GetIndex_in_range 2 (fun k : Nat => k) 7 2 (by decide) (by decide)
  ⟨rfl, h.2.2.2.2.1, h.2.2.2.2.2.1⟩

section

open LinearProbeHashTable Example

/-- C25: `GetValue` leaves pins behind.  For every table, key and output vector, whenever
`GetValue` returns, the calls it has made on the buffer pool from its first line to its
`return` hold two more `FetchPage` than `UnpinPage` calls; counted per page, the header page
is left with one pin more than before the call, and so is the block page at which the loop
stopped (two more when that page is the header page), every other page with as many as
before. -/
theorem GetValue_leaves_two_pins {K V : Type} [DecidableEq K] (B : Nat) (hash : K → Nat)
    (fuel : Nat) (t : LinearProbeHashTable K V) (key : K) (result : List V)
    (out : List V × Bool) (h : GetValue B hash fuel t key result = some out) :
    ∃ calls last, GetValueCalls B hash fuel t key = some calls ∧
      PoolCall.fetches calls = PoolCall.unpins calls + 2 ∧
      (∀ p, PoolCall.pinsLeft p calls
        = (if t.header_page_id_ = p then 1 else 0) + (if last = p then 1 else 0)) ∧
      1 ≤ PoolCall.pinsLeft t.header_page_id_ calls := by
  unfold GetValue at h
  simp only [GetIndex] at h
  have hspec := GetValueLoopCalls_spec B t key (hash key % (t.header.NumBlocks * B)) fuel
    (hash key % (t.header.NumBlocks * B) / B) (hash key % (t.header.NumBlocks * B) % B)
    (t.header.GetBlockPageId (hash key % (t.header.NumBlocks * B) / B)) result
    [PoolCall.fetch t.header_page_id_,
      PoolCall.fetch (t.header.GetBlockPageId (hash key % (t.header.NumBlocks * B) / B))]
  obtain ⟨hsome, hcalls⟩ := hspec
  cases hl : GetValueLoop B t key (hash key % (t.header.NumBlocks * B)) fuel
      (hash key % (t.header.NumBlocks * B) / B) (hash key % (t.header.NumBlocks * B) % B)
      (t.header.GetBlockPageId (hash key % (t.header.NumBlocks * B) / B)) result with
  | none => rw [hl] at h; cases h
  | some r =>
    rw [hl] at hsome
    cases hc : GetValueLoopCalls B t (hash key % (t.header.NumBlocks * B)) fuel
        (hash key % (t.header.NumBlocks * B) / B) (hash key % (t.header.NumBlocks * B) % B)
        (t.header.GetBlockPageId (hash key % (t.header.NumBlocks * B) / B))
        [PoolCall.fetch t.header_page_id_,
          PoolCall.fetch (t.header.GetBlockPageId (hash key % (t.header.NumBlocks * B) / B))]
      with
    | none => rw [hc] at hsome; cases hsome
    | some calls =>
      obtain ⟨h1, last, h2⟩ := hcalls calls hc
      have hp : ∀ p, PoolCall.pinsLeft p calls
          = (if t.header_page_id_ = p then 1 else 0) + (if last = p then 1 else 0) := by
        intro p
        have := h2 p
        simp only [PoolCall.pinsLeft] at this
        split_ifs at this ⊢ <;> omega
      refine ⟨calls, last, ?_, ?_, hp, ?_⟩
      · simp only [GetValueCalls, GetIndex]
        exact hc
      · simp only [PoolCall.fetches, PoolCall.unpins] at h1
        omega
      · rw [hp]
        simp only [if_true]
        split_ifs <;> omega

/-- Witness for C25: a lookup of key 1 in the full table of two blocks of two slots fetches
the header page 1 and the block pages 2, 3 and 2 again and unpins the block pages 2 and 3
once each; on a pool in which the three pages are resident and unpinned, the header page and
the block page 2 are left pinned. -/
theorem GetValue_leaves_two_pins_witness :
    GetValue 2 idHash 8 fullTable 1 [] = some ([11], true) ∧
    (∃ calls last, GetValueCalls 2 idHash 8 fullTable 1 = some calls ∧
      PoolCall.fetches calls = PoolCall.unpins calls + 2 ∧
      (∀ p, PoolCall.pinsLeft p calls
        = (if fullTable.header_page_id_ = p then 1 else 0) + (if last = p then 1 else 0)) ∧
      1 ≤ PoolCall.pinsLeft fullTable.header_page_id_ calls) ∧
    GetValueCalls 2 idHash 8 fullTable 1
      = some [.fetch 1, .fetch 2, .unpin 2 false, .fetch 3, .unpin 3 false, .fetch 2] ∧
    ((tablePool.pages_ 0).page_id_, (tablePool.pages_ 0).pin_count_) = (1, 0) ∧
    ((tablePool.pages_ 1).page_id_, (tablePool.pages_ 1).pin_count_) = (2, 0) ∧
    ((tablePool.pages_ 2).page_id_, (tablePool.pages_ 2).pin_count_) = (3, 0) ∧
    (PoolCall.applyCalls 0
        [.fetch 1, .fetch 2, .unpin 2 false, .fetch 3, .unpin 3 false, .fetch 2] tablePool).map
      (fun s => ((s.pages_ 0).pin_count_, (s.pages_ 1).pin_count_, (s.pages_ 2).pin_count_))
      = some (1, 1, 0) :=
  ⟨by decide, GetValue_leaves_two_pins 2 idHash 8 fullTable 1 [] ([11], true) (by decide),
    by decide, by decide, by decide, by decide, by decide⟩

end

section

open HashJoinExecutor Example

/-- C24: the hash join produces at most one tuple per right tuple.  Whenever `Init` followed
by `Next` until it returns false completes, the tuples produced are at most as many as the
right child's tuples, whatever the left child holds: `Next` returns from inside the loop over
the matching left tuples at the first one that satisfies the predicate, and its next call
starts with the next right tuple.  When several left tuples match one right tuple, all pairs
but the first are missing from the output. -/
theorem HashJoin_one_tuple_per_right_tuple {T O : Type} [DecidableEq T] [Inhabited T]
    (B : Nat) (hash : Nat → Nat) (fuel : Nat) (leftKey rightKey : T → Nat)
    (pred : T → T → Bool) (project : T → T → O) (jht : LinearProbeHashTable Nat T)
    (left right : List T) (out : List O)
    (h : run B hash fuel leftKey rightKey pred project jht left right = some out) :
    out.length ≤ right.length := by
  unfold run Init at h
  cases hb : build B hash fuel leftKey left jht with
  | none => rw [hb] at h; cases h
  | some jht' =>
    rw [hb] at h
    exact drain_length B hash fuel rightKey pred project _ _ out h

/-- Witness for C24: the left tuples `(1, 10)` and `(1, 20)` and the right tuple `(1, 30)`
have the same join key and satisfy the predicate, so two pairs match; the join produces the
one tuple `(10, 30)`. -/
theorem HashJoin_one_tuple_per_right_tuple_witness :
    joinOutput = some [(10, 30)] ∧
    [(10, 30)].length ≤ [((1 : Nat), (30 : Nat))].length ∧
    matching (fun l : Nat × Nat => l.1) (fun r => r.1) (fun l r => l.1 == r.1)
      (fun l r => (l.2, r.2)) [(1, 10), (1, 20)] [(1, 30)] = [(10, 30), (20, 30)] :=
  ⟨by decide,
    HashJoin_one_tuple_per_right_tuple 2 idHash 8 (fun l : Nat × Nat => l.1) (fun r => r.1)
      (fun l r => l.1 == r.1) (fun l r => (l.2, r.2)) joinTable [(1, 10), (1, 20)] [(1, 30)]
      [(10, 30)] (by decide),
    by decide⟩

end


section

open LinearProbeHashTable Example

/-- C28: take the table the constructor builds, with at least one block of at least one slot,
and any sequence of completed `Insert` and `Remove` calls each of which leaves a slot that
was never occupied.  Then no call has resized the table (it has its `num_buckets *
BLOCK_ARRAY_SIZE` slots); every readable slot lies in the run of consecutive occupied slots
that starts at the home slot of the key it holds, wrapping around the table; and for every
key, `GetValue` with an empty output vector returns within as many loop iterations as the
table has slots, its output being the values of the readable slots that hold the key, in
probe order from the home slot over the whole table, and its flag telling whether there is
one. -/
theorem sparse_table_runs_and_lookup {K V : Type} [DecidableEq K] [DecidableEq V]
    [Inhabited K] [Inhabited V] (B : Nat) (hash : K → Nat) (pool : LinearProbeHashTable K V)
    (num_buckets : Nat) (t : LinearProbeHashTable K V) (hB : 0 < B) (hn : 0 < num_buckets)
    (hs : Sparse B hash (construct B pool num_buckets) t) :
    numSlots B t = num_buckets * B ∧
    (∀ p, p < numSlots B t → readableAt B t p = true →
      occupiedAt B t p = true ∧ p ∈ keyRun B hash t (keyAt B t p)) ∧
    ∀ key fuel, numSlots B t ≤ fuel →
      GetValue B hash fuel t key []
        = some (((turn (numSlots B t) (home B hash t key)).filter (hasKeyAt B t key)).map
              (valueAt B t),
            !(((turn (numSlots B t) (home B hash t key)).filter (hasKeyAt B t key)).map
              (valueAt B t)).isEmpty) := by
  have hWF0 : WF B (construct B pool num_buckets) := WF_construct pool hB hn
  have hro0 : ReadableOccupied B (construct B pool num_buckets) := by
    intro p hp hr
    rw [(construct_unoccupied pool num_buckets hB hp).2] at hr
    cases hr
  have hrun0 : InRun B hash (construct B pool num_buckets) := by
    intro p hp hr
    rw [(construct_unoccupied pool num_buckets hB hp).2] at hr
    cases hr
  obtain ⟨hWF, hro, hrun, hfree⟩ := Sparse.keeps_runs hs hWF0 hro0 hrun0
  have hhdr := Sparse.header_eq hs hWF0 hro0 hrun0
  refine ⟨?_, fun p hp hr => ⟨hro p hp hr, hrun p hp hr⟩,
    fun key fuel hfuel => GetValue_of_runs hash hWF hrun hfree key hfuel⟩
  unfold numSlots
  rw [hhdr]
  exact (construct_slots pool num_buckets hB).1

/-- Witness for C28: the table of two blocks of two slots after `Insert(1, 100)`,
`Insert(1, 200)` and `Remove(1, 100)`.  Slot 0 was never occupied; slot 1, the home slot of
key 1, is a tombstone; the readable slot 2 holds key 1 and lies in the run `[1, 2]`;
`GetValue(1)` returns `[200]`. -/
theorem sparse_table_runs_and_lookup_witness :
    Sparse 2 idHash (construct 2 (emptyPool 1) 2) tombstoneTable ∧
    slots 2 tombstoneTable
      = [(false, false, 0, 0), (true, false, 1, 100), (true, true, 1, 200),
          (false, false, 0, 0)] ∧
    keyRun 2 idHash tombstoneTable 1 = [1, 2] ∧
    GetValue 2 idHash 4 tombstoneTable 1 [] = some ([200], true) ∧
    (numSlots 2 tombstoneTable = 2 * 2 ∧
      (∀ p, p < numSlots 2 tombstoneTable → readableAt 2 tombstoneTable p = true →
        occupiedAt 2 tombstoneTable p = true ∧
          p ∈ keyRun 2 idHash tombstoneTable (keyAt 2 tombstoneTable p)) ∧
      ∀ key fuel, numSlots 2 tombstoneTable ≤ fuel →
        GetValue 2 idHash fuel tombstoneTable key []
          = some (((turn (numSlots 2 tombstoneTable) (home 2 idHash tombstoneTable key)).filter
                (hasKeyAt 2 tombstoneTable key)).map (valueAt 2 tombstoneTable),
              !(((turn (numSlots 2 tombstoneTable) (home 2 idHash tombstoneTable key)).filter
                (hasKeyAt 2 tombstoneTable key)).map (valueAt 2 tombstoneTable)).isEmpty)) :=
  have hs : Sparse 2 idHash (construct 2 (emptyPool 1) 2) tombstoneTable :=
    Sparse.remove
      (Sparse.insert
        (Sparse.insert (Sparse.start ⟨0, by decide, by decide⟩)
          (show Insert 2 idHash 8 emptyTable 1 100 = some (tableAfter 8 [.insert 1 100], true)
            from rfl)
          ⟨0, by decide, by decide⟩)
        (show Insert 2 idHash 8 (tableAfter 8 [.insert 1 100]) 1 200
            = some (twoPairs, true) from rfl)
        ⟨0, by decide, by decide⟩)
      (show Remove 2 idHash 8 twoPairs 1 100 = some (tombstoneTable, true) from rfl)
      ⟨0, by decide, by decide⟩
  ⟨hs, by decide, by decide, by decide,
    sparse_table_runs_and_lookup 2 idHash (emptyPool 1) 2 tombstoneTable (by decide)
      (by decide) hs⟩

end


/-- Unless the home slot is slot 0, every slot is occupied and no slot holds the pair
readable, `Remove` returns within as many loop iterations as the table has slots. -/
theorem Remove_returns_within_one_turn {K V : Type} [DecidableEq K] [DecidableEq V] {B : Nat}
    (hash : K → Nat) (t : LinearProbeHashTable K V) (key : K) (value : V)
    (hWF : LinearProbeHashTable.WF B t)
    (hexit : LinearProbeHashTable.home B hash t key ≠ 0 ∨
      ∃ p, p < LinearProbeHashTable.numSlots B t ∧
        (LinearProbeHashTable.occupiedAt B t p = false ∨
          LinearProbeHashTable.holdsAt B t key value p = true))
    {fuel : Nat} (hfuel : LinearProbeHashTable.numSlots B t ≤ fuel) :
    ∃ t' b, LinearProbeHashTable.Remove B hash fuel t key value = some (t', b) := by
  have hterm := @LinearProbeHashTable.probe_terminates (LinearProbeHashTable.numSlots B t)
    (LinearProbeHashTable.home B hash t key) (LinearProbeHashTable.occupiedAt B t)
    (LinearProbeHashTable.holdsAt B t key value) (LinearProbeHashTable.home_lt hash hWF key)
    hexit fuel hfuel
  rw [LinearProbeHashTable.Remove_eq_probe hash t key value hWF.block_size_pos
    hWF.num_blocks_pos]
  cases hp : LinearProbeHashTable.probe (LinearProbeHashTable.numSlots B t)
      (LinearProbeHashTable.home B hash t key) (LinearProbeHashTable.occupiedAt B t)
      (LinearProbeHashTable.holdsAt B t key value) fuel
      (LinearProbeHashTable.home B hash t key) with
  | none => rw [hp] at hterm; cases hterm
  | some x => exact ⟨_, _, rfl⟩

/-- C7 (the source misses the case): in a table whose slots are all occupied and none of
which holds the pair readable, the probe run of a key with home slot 0 is the whole table and
meets no readable slot holding the pair, so `Remove(key, value)` is to return false with the
table unchanged; but it never returns, whatever the fuel: the scan wraps from the last slot to
slot 0 and goes round again, because the test for the home slot is made on `bucket_ind` after
the increment and before the wrap. -/
theorem Remove_full_table_home_zero_never_returns {K V : Type} [DecidableEq K]
    [DecidableEq V] {B : Nat} (hash : K → Nat) (t : LinearProbeHashTable K V) (key : K)
    (value : V) (hWF : LinearProbeHashTable.WF B t)
    (hfull : ∀ p, p < LinearProbeHashTable.numSlots B t →
      LinearProbeHashTable.occupiedAt B t p = true)
    (hnew : ∀ p, p < LinearProbeHashTable.numSlots B t →
      LinearProbeHashTable.holdsAt B t key value p = false)
    (hhome : LinearProbeHashTable.home B hash t key = 0) :
    (LinearProbeHashTable.keyRun B hash t key).length = LinearProbeHashTable.numSlots B t ∧
    (¬ ∃ p ∈ LinearProbeHashTable.keyRun B hash t key,
      LinearProbeHashTable.holdsAt B t key value p = true) ∧
    ∀ fuel, LinearProbeHashTable.Remove B hash fuel t key value = none := by
  have hN : 0 < LinearProbeHashTable.numSlots B t :=
    Nat.mul_pos hWF.num_blocks_pos hWF.block_size_pos
  refine ⟨?_, ?_, ?_⟩
  · unfold LinearProbeHashTable.keyRun LinearProbeHashTable.probeRun
    rw [List.takeWhile_eq_self_iff.mpr, List.length_map, List.length_range]
    intro x hx
    simp only [List.mem_map, List.mem_range] at hx
    obtain ⟨j, _, rfl⟩ := hx
    exact hfull _ (Nat.mod_lt _ hN)
  · rintro ⟨p, hp, hh⟩
    rw [hnew p (LinearProbeHashTable.mem_probeRun hN hp).1] at hh
    cases hh
  · intro fuel
    rw [LinearProbeHashTable.Remove_eq_probe hash t key value hWF.block_size_pos
      hWF.num_blocks_pos, hhome,
      LinearProbeHashTable.probe_diverges hN hfull hnew fuel 0 hN]
    rfl

section

open LinearProbeHashTable Example

/-- C7, at the table of the scenarios: the four slots are occupied, none holds `(4, 14)`, key
4 has home slot 0, and `Remove(4, 14)` does not return. -/
theorem Remove_full_table_home_zero_witness :
    WF 2 fullTable ∧ (∀ p, p < numSlots 2 fullTable → occupiedAt 2 fullTable p = true) ∧
    (∀ p, p < numSlots 2 fullTable → holdsAt 2 fullTable 4 14 p = false) ∧
    home 2 idHash fullTable 4 = 0 ∧
    keyRun 2 idHash fullTable 4 = [0, 1, 2, 3] ∧
    ((keyRun 2 idHash fullTable 4).length = numSlots 2 fullTable ∧
      (¬ ∃ p ∈ keyRun 2 idHash fullTable 4, holdsAt 2 fullTable 4 14 p = true) ∧
      ∀ fuel, Remove 2 idHash fuel fullTable 4 14 = none) :=
  have h1 : WF 2 fullTable := ⟨by decide, by decide, by decide⟩
  have h2 : ∀ p, p < numSlots 2 fullTable → occupiedAt 2 fullTable p = true := by decide
  have h3 : ∀ p, p < numSlots 2 fullTable → holdsAt 2 fullTable 4 14 p = false := by decide
  have h4 : home 2 idHash fullTable 4 = 0 := by decide
  ⟨h1, h2, h3, h4, by decide,
    Remove_full_table_home_zero_never_returns idHash fullTable 4 14 h1 h2 h3 h4⟩

end

end bustub
